import Mathlib

/-! cpp_utils: the command-line argument parser

A shallow embedding of `utils::argument_parser` (`argument_parser.h`,
`argument_parser.cpp`) and theorems about its parsing algorithm, followed by
the INI parser of `config_parser.cpp` and `replace_all` of `string_utils.cpp`.

Conventions of the embedding

* `std::string` is a `List Char` (`Str`); `s[i]` with `i = s.size()` is the
  terminating NUL, as in C++.
* `std::unordered_set<std::string>` is a `List Str`; membership is list
  membership and the (implementation-defined) iteration order is the list
  order.
* `unsigned int` and `size_t` values are natural numbers; where the source
  subtracts or adds in `size_t` the result is reduced modulo `2 ^ 64`.
* A C++ exception is an `Outcome.throws`, which also records the mutable state
  as the exception leaves it (the parser mutates its storage in place, so a
  failed `parse` can leave values behind).  Reading past the end of a vector is
  `Outcome.undefined`.
-/

namespace utils

/-- Text: a `std::string`, as its sequence of characters. -/
abbrev Str := List Char

/-- Literal text. -/
def lit (s : String) : Str := s.toList

/-- The two exception classes of `argument_parser.h`, with their messages. -/
inductive Exception where
  | UsageException (msg : Str)
  | ParsingException (msg : Str)
  deriving DecidableEq, Repr

/-- Result of a call that mutates a state of type `σ`: normal return with a
value, an exception together with the state it leaves behind, or undefined
behaviour (an out-of-range read). -/
inductive Outcome (α : Type) (σ : Type) where
  | ok (a : α)
  | throws (e : Exception) (s : σ)
  | undefined
  deriving DecidableEq, Repr

/-- Is the exception a `ParsingException`? -/
def Exception.isParsing : Exception → Bool
  | .ParsingException _ => true
  | .UsageException _ => false

/-- Is the exception a `UsageException`? -/
def Exception.isUsage : Exception → Bool
  | .UsageException _ => true
  | .ParsingException _ => false

/-- The call ended in a `ParsingException`. -/
def Outcome.isParsingError {α σ : Type} : Outcome α σ → Bool
  | .throws e _ => e.isParsing
  | _ => false

/-- The mutable state after the call, when the call has a defined behaviour. -/
def Outcome.finalState {σ : Type} : Outcome σ σ → Option σ
  | .ok s => some s
  | .throws _ s => some s
  | .undefined => none

/-- Width of `size_t` arithmetic: values wrap modulo `2 ^ 64`. -/
def SIZE_MOD : Nat := 2 ^ 64

/-- One more than the largest `unsigned int` (`ArgumentCountType`). -/
def UINT_MOD : Nat := 2 ^ 32

/-- The constant `unlimited_positionals`: the largest `ArgumentCountType`. -/
def unlimited_positionals : Nat := UINT_MOD - 1

/-- The NUL character `s[s.size()]` evaluates to. -/
def NUL : Char := Char.ofNat 0

/-- Indexing `s[i]` of a `std::string`, for `i ≤ s.size()`. -/
def at_ (s : Str) (i : Nat) : Char := s.getD i NUL

/-- The function `std::isalpha` in the "C" locale. -/
def isalpha (c : Char) : Bool :=
  (65 ≤ c.toNat && c.toNat ≤ 90) || (97 ≤ c.toNat && c.toNat ≤ 122)

/-- The function `std::isalnum` in the "C" locale. -/
def isalnum (c : Char) : Bool :=
  isalpha c || (48 ≤ c.toNat && c.toNat ≤ 57)

/-- The test `std::isalnum(c) || c == '-' || c == '_'` the source repeats. -/
def is_name_char (c : Char) : Bool :=
  isalnum c || c == '-' || c == '_'

/-- The function `std::to_string` on an unsigned value. -/
def to_string (n : Nat) : Str := Nat.toDigits 10 n

/-- The class `argument_parser::Option`: one registered option. -/
structure OptionEntry where
  m_names : List Str
  m_help : Str
  m_meta_vars : List Str
  m_number_of_arguments : Nat
  m_storage : List Str
  m_default_storage : List Str
  m_choices : List (List Str)
  m_is_appending : Bool
  m_is_hidden : Bool
  m_is_required : Bool
  deriving DecidableEq, Repr

/-- The class `argument_parser`: the registry and the storage of one parser. -/
structure ArgumentParser where
  m_program_name : Str
  m_program_version : Str
  m_help_preamble : Str
  m_help_epilog : Str
  m_number_of_minimum_positionals : Nat
  m_number_of_maximum_positionals : Nat
  m_positional_help : Str
  m_positional_meta_var : Str
  m_positionals : List Str
  m_xor_lists : List (List Str)
  m_options : List OptionEntry
  deriving DecidableEq, Repr

namespace OptionEntry

/-- Method `Option::has_name`. -/
def has_name (o : OptionEntry) (name : Str) : Bool := o.m_names.contains name

/-- Method `Option::get_name`: the first name in iteration order. -/
def get_name (o : OptionEntry) : Str := o.m_names.headD []

/-- Method `Option::is_parsed`. -/
def is_parsed (o : OptionEntry) : Bool := !o.m_storage.isEmpty

/-- Method `Option::has_default`. -/
def has_default (o : OptionEntry) : Bool := !o.m_default_storage.isEmpty

/-- Method `Option::reset_storage`. -/
def reset_storage (o : OptionEntry) : OptionEntry := { o with m_storage := [] }

/-- The choice loop of `Option::parse` (lines 460-467) from index `i`, with
`k` iterations left: each value found in its choice set is stored at once, the
first value that is not raises the exception. -/
def parse_choices (values : List Str) : Nat → Nat → OptionEntry → Outcome OptionEntry OptionEntry
  | 0, _, o => .ok o
  | k + 1, i, o =>
    match o.m_choices[i]?, values[i]? with
    | some cs, some v =>
      if cs.contains v then
        parse_choices values k (i + 1) { o with m_storage := o.m_storage ++ [v] }
      else
        .throws (.ParsingException
          (lit "'" ++ v ++ lit "' does not match possible choices for " ++ o.get_name)) o
    | _, _ => .undefined

/-- Method `Option::parse`: check and store the values of one occurrence. -/
def parse (o : OptionEntry) (values : List Str) : Outcome OptionEntry OptionEntry :=
  if values.length ≠ o.m_number_of_arguments then
    .throws (.ParsingException
      (lit "Option '" ++ o.get_name ++ lit "' expects " ++ to_string o.m_number_of_arguments
        ++ lit " argument, but " ++ to_string values.length ++ lit " were given.")) o
  else if !o.m_storage.isEmpty && !o.m_is_appending then
    .throws (.ParsingException (lit "Option '" ++ o.get_name ++ lit "' already parsed")) o
  else if o.m_number_of_arguments = 0 then
    .ok { o with m_storage := o.m_storage ++ [lit "true"] }
  else if !o.m_choices.isEmpty then
    parse_choices values o.m_number_of_arguments 0 o
  else
    .ok { o with m_storage := o.m_storage ++ values }

end OptionEntry

/-- Method `is_short_option_name`. -/
def is_short_option_name (arg : Str) : Bool :=
  decide (arg.length > 1) && at_ arg 0 == '-' && isalpha (at_ arg 1)

/-- Method `is_short_option_group_name`. -/
def is_short_option_group_name (arg : Str) : Bool :=
  decide (arg.length > 2) && at_ arg 0 == '-' && isalpha (at_ arg 1) && isalpha (at_ arg 2)

/-- Method `is_long_option`. -/
def is_long_option (arg : Str) : Bool :=
  decide (arg.length > 3) && at_ arg 0 == '-' && at_ arg 1 == '-' && isalpha (at_ arg 2) &&
    is_name_char (at_ arg 3)

/-- Method `strictly_normalize_option_name`: a dashed name without its dashes,
or the usage error for a name of neither form. -/
def strictly_normalize_option_name (name : Str) : Except Exception Str :=
  if name.length = 2 ∧ at_ name 0 = '-' then
    if !isalpha (at_ name 1) then
      .error (.UsageException
        (lit "Illegal name, letter of  '" ++ name ++ lit "' is a non alpha-character"))
    else .ok (name.drop 1)
  else if name.length ≥ 4 ∧ at_ name 0 = '-' ∧ at_ name 1 = '-' then
    if !isalpha (at_ name 2) then
      .error (.UsageException
        (lit "Illegal name, first letter of '" ++ name ++ lit "' is a non alpha-character"))
    else if name.all is_name_char then .ok (name.drop 2)
    else
      .error (.UsageException
        (lit "'" ++ name ++ lit "' contains other characters than a-zA-Z0-9_-"))
  else
    .error (.UsageException
      (lit "Given option name has to be '-[a-zA-Z0-9]' or '--[a-zA-Z0-9][a-zA-Z0-9_-]*'"))

/-- Method `normalize_option_name`: bare names get their dashes first. -/
def normalize_option_name (name : Str) : Except Exception Str :=
  if name.length = 1 ∧ at_ name 0 ≠ '-' then strictly_normalize_option_name (lit "-" ++ name)
  else if name.length ≥ 2 ∧ at_ name 0 ≠ '-' then
    strictly_normalize_option_name (lit "--" ++ name)
  else strictly_normalize_option_name name

/-- Method `split_argument_text`, called on a token of short or long option
form: the option name and the rest of the token.  The `while` loop stops at the
first character that is no name character, at the latest at the final NUL. -/
def split_argument_text (text : Str) : Str × Str :=
  if is_short_option_name text then ([at_ text 1], text.drop 2)
  else
    let cur := 2 + ((text.drop 2).takeWhile is_name_char).length
    ((text.drop 2).take (cur - 2), text.drop cur)

/-- Method `find_option_iter` (a `std::find_if`): the index of the first option
that has the name. -/
def find_option_iter : List OptionEntry → Str → Option Nat
  | [], _ => none
  | o :: os, name =>
    if o.has_name name then some 0 else (find_option_iter os name).map (· + 1)

namespace ArgumentParser

/-- Writing through the reference `find_option_to_parse` returns. -/
def put_option (p : ArgumentParser) (idx : Nat) (o : OptionEntry) : ArgumentParser :=
  { p with m_options := p.m_options.set idx o }

/-- Method `reset_storage`. -/
def reset_storage (p : ArgumentParser) : ArgumentParser :=
  { p with m_options := p.m_options.map OptionEntry.reset_storage, m_positionals := [] }

/-- Method `set_program_name_from_argv` (the branch for systems other than
Windows). -/
def set_program_name_from_argv (p : ArgumentParser) (argv0 : Str) : ArgumentParser :=
  if p.m_program_name.isEmpty then
    let k := argv0.reverse.findIdx (· == '/')
    if k ≠ argv0.length ∧ k ≠ 0 then { p with m_program_name := argv0.drop (argv0.length - k) }
    else { p with m_program_name := argv0 }
  else p

/-- Method `find_option_to_parse`: the index of the option, a usage error from
the normalisation or the parsing error for an unknown name. -/
def find_option_to_parse (p : ArgumentParser) (name : Str) : Except Exception Nat :=
  match normalize_option_name name with
  | .error e => .error e
  | .ok n =>
    match find_option_iter p.m_options n with
    | none => .error (.ParsingException (lit "Option '" ++ name ++ lit "' does not exist."))
    | some idx => .ok idx

/-- The call `option.parse(values)` on the option at `idx`, written back into
the parser. -/
def parse_option (p : ArgumentParser) (idx : Nat) (values : List Str) :
    Outcome ArgumentParser ArgumentParser :=
  match p.m_options[idx]? with
  | none => .undefined
  | some o =>
    match o.parse values with
    | .ok o' => .ok (p.put_option idx o')
    | .throws e o' => .throws e (p.put_option idx o')
    | .undefined => .undefined

/-- The loop over a group of short flags (lines 98-104), on the letters
`arg[1..]` still to do. -/
def parse_group (arg : Str) : List Char → ArgumentParser → Outcome ArgumentParser ArgumentParser
  | [], p => .ok p
  | c :: cs, p =>
    if !isalpha c then
      .throws (.ParsingException
        (lit "only alpha chars are allowed for option sequences, not: " ++ arg)) p
    else
      match find_option_to_parse p [c] with
      | .error e => .throws e p
      | .ok idx =>
        match parse_option p idx [] with
        | .ok p' => parse_group arg cs p'
        | .throws e p' => .throws e p'
        | .undefined => .undefined

/-- The local variables of the loop in `parse`, with the parser. -/
structure LoopState where
  current : Nat
  positional_indicator_set : Bool
  parser : ArgumentParser
  deriving DecidableEq, Repr

/-- Values an option token carries inline (lines 107-113). -/
def inline_values (value : Str) : List Str :=
  if !value.isEmpty then [if at_ value 0 = '=' then value.drop 1 else value] else []

/-- The value `missing_arguments` (line 115), a `size_t` difference. -/
def missing_arguments (number_of_arguments : Nat) (values : List Str) : Nat :=
  (number_of_arguments + SIZE_MOD - values.length) % SIZE_MOD

/-- The largest value of `std::ptrdiff_t`, the difference type of the iterators
of `argv`. -/
def PTRDIFF_MAX : Nat := 2 ^ 63 - 1

/-- The branch of the loop body for one option token that is no group (lines
106-120): split the token, find the option, pull the missing values from the
tokens that follow and hand them to `Option::parse`.

The call `std::copy_n(first, missing_arguments, out)` is
`std::copy(first, first + missing_arguments, out)` in the library
(`bits/stl_algo.h`): the count is converted to the difference type of the
iterator, and `std::copy` runs `last - first` times when that is positive.  A
count above `PTRDIFF_MAX` - the wrapped `0 - 1` of a flag token with an inline
value - is a negative difference, so nothing is copied; `current` is still
advanced by the count, modulo `2 ^ 64`, and `Option::parse` gets the inline
value alone.  A positive count that reaches past the end of `argv` is an
out-of-range read. -/
def parse_single_option (argv : List Str) (current : Nat) (positional_indicator_set : Bool)
    (p : ArgumentParser) (arg : Str) : Outcome LoopState ArgumentParser :=
  let name_value_pair := split_argument_text arg
  let values := inline_values name_value_pair.2
  match find_option_to_parse p name_value_pair.1 with
  | .error e => .throws e p
  | .ok idx =>
    match p.m_options[idx]? with
    | none => .undefined
    | some option =>
      let missing := missing_arguments option.m_number_of_arguments values
      if 0 < missing ∧ (current + missing) % SIZE_MOD < argv.length then
        if missing ≤ PTRDIFF_MAX then
          if current + 1 + missing ≤ argv.length then
            match parse_option p idx (values ++ (argv.drop (current + 1)).take missing) with
            | .ok p' => .ok ⟨current + missing + 1, positional_indicator_set, p'⟩
            | .throws e p' => .throws e p'
            | .undefined => .undefined
          else .undefined
        else
          match parse_option p idx values with
          | .ok p' =>
            .ok ⟨(current + missing) % SIZE_MOD + 1, positional_indicator_set, p'⟩
          | .throws e p' => .throws e p'
          | .undefined => .undefined
      else
        match parse_option p idx values with
        | .ok p' => .ok ⟨current + 1, positional_indicator_set, p'⟩
        | .throws e p' => .throws e p'
        | .undefined => .undefined

/-- One iteration of the loop in `parse` (lines 83-124) at `argv[current]`;
the state returned has `current` already incremented. -/
def parse_step (argv : List Str) (current : Nat) (positional_indicator_set : Bool)
    (p : ArgumentParser) : Outcome LoopState ArgumentParser :=
  let arg := argv.getD current []
  if !positional_indicator_set && arg == lit "--" then
    .ok ⟨current + 1, true, p⟩
  else if positional_indicator_set || (!arg.isEmpty && at_ arg 0 != '-') then
    if p.m_positionals.length ≥ p.m_number_of_maximum_positionals then
      .throws (.ParsingException (lit "Found an additional positional argument '" ++ arg ++
        lit "', although maximum number of positional arguments is already reached.")) p
    else
      .ok ⟨current + 1, positional_indicator_set, { p with m_positionals := p.m_positionals ++ [arg] }⟩
  else if is_short_option_name arg || is_long_option arg then
    if !p.m_positionals.isEmpty then
      .throws (.ParsingException
        (lit "Found an option after a positional was given '" ++ arg ++ lit "'")) p
    else if is_short_option_group_name arg then
      match parse_group arg (arg.drop 1) p with
      | .ok p' => .ok ⟨current + 1, positional_indicator_set, p'⟩
      | .throws e p' => .throws e p'
      | .undefined => .undefined
    else parse_single_option argv current positional_indicator_set p arg
  else
    .throws (.ParsingException (lit "Unrecognized argument found: " ++ arg)) p

/-- Move the cursor of a loop state; used to compare runs over two argument
lists that share a tail. -/
def reindex (f : Nat → Nat) : Outcome LoopState ArgumentParser → Outcome LoopState ArgumentParser
  | .ok s => .ok { s with current := f s.current }
  | .throws e q => .throws e q
  | .undefined => .undefined

/-- The loop of `parse` (lines 82-125) from `current`; `fuel` bounds the number
of iterations, and `argv.length - current` iterations always suffice. -/
def parse_loop (argv : List Str) :
    Nat → Nat → Bool → ArgumentParser → Outcome ArgumentParser ArgumentParser
  | 0, _, _, p => .ok p
  | fuel + 1, current, positional_indicator_set, p =>
    if current < argv.length then
      match parse_step argv current positional_indicator_set p with
      | .ok s => parse_loop argv fuel s.current s.positional_indicator_set s.parser
      | .throws e p' => .throws e p'
      | .undefined => .undefined
    else .ok p

/-- The text `missing_requireds` built by `check_required_arguments`. -/
def missing_requireds : List OptionEntry → Str
  | [] => []
  | o :: os =>
    if o.m_is_required && !o.is_parsed then o.get_name ++ lit ", " ++ missing_requireds os
    else missing_requireds os

/-- Method `check_required_arguments`: the exception it throws, if any. -/
def check_required_arguments (p : ArgumentParser) : Option Exception :=
  if !(missing_requireds p.m_options).isEmpty then
    some (.ParsingException (lit "The following arguments are required, but were not set: " ++
      missing_requireds p.m_options))
  else if p.m_positionals.length < p.m_number_of_minimum_positionals then
    some (.ParsingException (lit "There are " ++ to_string p.m_number_of_minimum_positionals ++
      lit " positional arguments required, but only " ++ to_string p.m_positionals.length ++
      lit " were given."))
  else none

/-- Method `has_option`. -/
def has_option (p : ArgumentParser) (name : Str) : Except Exception Bool :=
  match normalize_option_name name with
  | .error e => .error e
  | .ok n => .ok (find_option_iter p.m_options n).isSome

/-- Method `is_parsed`. -/
def is_parsed (p : ArgumentParser) (name : Str) : Except Exception Bool :=
  match normalize_option_name name with
  | .error e => .error e
  | .ok n =>
    match find_option_iter p.m_options n with
    | none => .ok false
    | some idx =>
      match p.m_options[idx]? with
      | none => .ok false
      | some o => .ok o.is_parsed

/-- The inner loop of `check_xor_arguments` over the names of one group. -/
def check_xor_list (p : ArgumentParser) : List Str → Str → Option Exception
  | [], _ => none
  | option :: rest, xor_option =>
    match p.is_parsed option with
    | .error e => some e
    | .ok false => check_xor_list p rest xor_option
    | .ok true =>
      if xor_option.isEmpty then check_xor_list p rest option
      else
        some (.ParsingException (lit "Option '" ++ xor_option ++ lit "' and '" ++ option ++
          lit "' must not be used together."))

/-- The outer loop of `check_xor_arguments` over the groups. -/
def check_xor_lists (p : ArgumentParser) : List (List Str) → Option Exception
  | [] => none
  | xor_list :: rest =>
    match check_xor_list p xor_list [] with
    | some e => some e
    | none => check_xor_lists p rest

/-- Method `check_xor_arguments`: the exception it throws, if any. -/
def check_xor_arguments (p : ArgumentParser) : Option Exception :=
  check_xor_lists p p.m_xor_lists

/-- The two checks that end `parse` (lines 127-128). -/
def check_after_loop (p : ArgumentParser) : Outcome ArgumentParser ArgumentParser :=
  match check_required_arguments p with
  | some e => .throws e p
  | none =>
    match check_xor_arguments p with
    | some e => .throws e p
    | none => .ok p

/-- Method `parse(const ArgumentListType&)`. -/
def parse (p : ArgumentParser) (argv : List Str) : Outcome ArgumentParser ArgumentParser :=
  match argv with
  | [] => .throws (.UsageException (lit "argument parser was called with zero arguments.")) p
  | argv0 :: _ =>
    match parse_loop argv argv.length 1 false (p.set_program_name_from_argv argv0) with
    | .ok p' => check_after_loop p'
    | .throws e p' => .throws e p'
    | .undefined => .undefined

/-- Method `find_option` of a `const` parser, as the accessors call it. -/
def find_option (p : ArgumentParser) (name : Str) : Except Exception OptionEntry :=
  match normalize_option_name name with
  | .error e => .error e
  | .ok n =>
    match find_option_iter p.m_options n with
    | none => .error (.ParsingException (lit "Option '" ++ name ++ lit "' does not exist."))
    | some idx =>
      match p.m_options[idx]? with
      | none => .error (.ParsingException (lit "Option '" ++ name ++ lit "' does not exist."))
      | some o => .ok o

end ArgumentParser

/-- Method `Option::get<std::string>`: the stored values when parsed, else the
defaults when there are any; `parse_value` is the identity on strings. -/
def OptionEntry.get (o : OptionEntry) : Except Exception (List Str) :=
  if o.is_parsed then .ok o.m_storage
  else if o.has_default then .ok o.m_default_storage
  else .error (.ParsingException (lit "Failed to get unparsed error"))

namespace ArgumentParser

/-- Method `get_n<std::string>`. -/
def get_n (p : ArgumentParser) (name : Str) : Except Exception (List Str) :=
  match p.find_option name with
  | .error e => .error e
  | .ok o => o.get

/-- Method `get<std::string>`: element 0 of the values; indexing an empty
vector is undefined. -/
def get (p : ArgumentParser) (name : Str) : Outcome Str Unit :=
  match p.find_option name with
  | .error e => .throws e ()
  | .ok o =>
    if o.m_number_of_arguments ≠ 0 ∧ o.m_number_of_arguments ≠ 1 then
      .throws (.UsageException (lit "Invalid number of arguments used for getting the option")) ()
    else
      match o.get with
      | .error e => .throws e ()
      | .ok [] => .undefined
      | .ok (v :: _) => .ok v

/-- A parser as its constructor leaves it. -/
def empty : ArgumentParser :=
  { m_program_name := [], m_program_version := [], m_help_preamble := [], m_help_epilog := [],
    m_number_of_minimum_positionals := 0, m_number_of_maximum_positionals := 0,
    m_positional_help := [], m_positional_meta_var := [], m_positionals := [],
    m_xor_lists := [], m_options := [] }

end ArgumentParser

/-- An option as `add_flag` registers it under the given normalised names. -/
def flag_entry (names : List Str) : OptionEntry :=
  { m_names := names, m_help := [], m_meta_vars := [], m_number_of_arguments := 0,
    m_storage := [], m_default_storage := [lit "false"], m_choices := [],
    m_is_appending := false, m_is_hidden := false, m_is_required := false }

/-- An option as the general `add_option` registers it under the given
normalised names, with no help text, meta variables, defaults or choices. -/
def value_entry (names : List Str) (number_of_arguments : Nat) : OptionEntry :=
  { m_names := names, m_help := [], m_meta_vars := [], m_number_of_arguments := number_of_arguments,
    m_storage := [], m_default_storage := [], m_choices := [],
    m_is_appending := false, m_is_hidden := false, m_is_required := false }

end utils

namespace utils

/-- Every arity fits the type `ArgumentCountType` (`unsigned int`). -/
def arities_ok (p : ArgumentParser) : Prop :=
  ∀ o ∈ p.m_options, o.m_number_of_arguments < UINT_MOD

instance (p : ArgumentParser) : Decidable (arities_ok p) := by
  unfold arities_ok; infer_instance

/-- A bound on `argv.size()`: a vector of strings has fewer than `2 ^ 59`
elements (`max_size`), so `current + arity` never wraps in `size_t`. -/
def ARGV_MAX : Nat := 2 ^ 59

end utils

namespace utils

/-- What the loop does with the tokens `rest` once they are all positionals:
they are appended in order while the maximum count allows, and the first one
beyond it raises the parsing error that quotes it. -/
def collect_positionals (p : ArgumentParser) (rest : List Str) :
    Outcome ArgumentParser ArgumentParser :=
  if rest.length ≤ p.m_number_of_maximum_positionals - p.m_positionals.length then
    .ok { p with m_positionals := p.m_positionals ++ rest }
  else
    .throws (.ParsingException (lit "Found an additional positional argument '" ++
      rest.getD (p.m_number_of_maximum_positionals - p.m_positionals.length) [] ++
      lit "', although maximum number of positional arguments is already reached."))
      { p with m_positionals := p.m_positionals ++
          rest.take (p.m_number_of_maximum_positionals - p.m_positionals.length) }

end utils

/-! ## Parsers of the tests, used as concrete inputs -/

namespace utils

/-- The parser of the test `ParsePositionalIndicator`: the flag `-s` and an
unlimited number of positionals. -/
def parser_indicator : ArgumentParser :=
  { ArgumentParser.empty with
    m_number_of_maximum_positionals := unlimited_positionals,
    m_options := [flag_entry [lit "s"]] }

/-- The parser of the test `AddMultiOption`, reduced to the flag `-s`, the
option `--long` of arity 1 and the option `--multi` of arity 3; two
positionals are allowed. -/
def parser_multi : ArgumentParser :=
  { ArgumentParser.empty with
    m_number_of_maximum_positionals := 2,
    m_options := [flag_entry [lit "s"], value_entry [lit "long"] 1, value_entry [lit "multi"] 3] }

end utils

namespace utils

/-- The names `strictly_normalize_option_name` accepts after `--`: a letter
followed by at least one more character, all of them letters, digits, `-` or
`_`. -/
def is_long_name (name : Str) : Bool :=
  decide (2 ≤ name.length) && isalpha (at_ name 0) && name.all is_name_char

/-- The option `-d`, `--def` of the test `Parse`, with the default `-1`. -/
def option_def : OptionEntry :=
  { value_entry [lit "d", lit "def"] 1 with
    m_help := lit "def", m_meta_vars := [lit "DEF"], m_default_storage := [lit "-1"] }

/-- The option `-n`, `--nodef` of the test `Parse`, with the default `ad`. -/
def option_nodef : OptionEntry :=
  { value_entry [lit "n", lit "nodef"] 1 with
    m_help := lit "nodef", m_meta_vars := [lit "NODEF"], m_default_storage := [lit "ad"] }

/-- The parser of the test `Parse`: three flags and three options of arity 1,
two of them with a default value. -/
def parser_parse_test : ArgumentParser :=
  { ArgumentParser.empty with
    m_options :=
      [ flag_entry [lit "s"],
        flag_entry [lit "b", lit "both"],
        flag_entry [lit "long"],
        option_def,
        option_nodef,
        { value_entry [lit "no_default"] 1 with
            m_help := lit "def", m_meta_vars := [lit "DEF"] } ] }

end utils

namespace utils

/-- The separate tokens `-x1`, ..., `-xn` for the letters of a group. -/
def single_flags (letters : List Char) : List Str := letters.map (fun c => ['-', c])

/-- The letter names a registered flag: an option of arity 0. -/
def is_flag_letter (p : ArgumentParser) (c : Char) : Prop :=
  isalpha c = true ∧ ∃ idx o, find_option_iter p.m_options [c] = some idx ∧
    p.m_options[idx]? = some o ∧ o.m_number_of_arguments = 0

/-- One round of the group loop (lines 99-103) for the letter `c`. -/
def flag_step (arg : Str) (p : ArgumentParser) (c : Char) :
    Outcome ArgumentParser ArgumentParser :=
  if !isalpha c then
    .throws (.ParsingException
      (lit "only alpha chars are allowed for option sequences, not: " ++ arg)) p
  else
    match p.find_option_to_parse [c] with
    | .error e => .throws e p
    | .ok idx => p.parse_option idx []

/-- The parser of the test `ParseMultiFlags`: the flags `--true`, `--false`,
`-a`, `-b` and `-c`. -/
def parser_multi_flags : ArgumentParser :=
  { ArgumentParser.empty with
    m_options := [flag_entry [lit "true"], flag_entry [lit "false"], flag_entry [lit "a"],
      flag_entry [lit "b"], flag_entry [lit "c"]] }

end utils

namespace utils

/-- A flag after one more occurrence: `Option::parse` appends the text `true`. -/
def mark_parsed (o : OptionEntry) : OptionEntry :=
  { o with m_storage := o.m_storage ++ [lit "true"] }

end utils

namespace utils

/-- The stored values of all options, in registration order. -/
def stored_values (p : ArgumentParser) : List (List Str) :=
  p.m_options.map OptionEntry.m_storage

end utils

namespace utils

/-- The loop of `parse` on `argv` gets from the loop state `s` to the loop state
`t` by zero or more iterations that return normally. -/
inductive Reaches (argv : List Str) : ArgumentParser.LoopState → ArgumentParser.LoopState → Prop where
  | refl (s : ArgumentParser.LoopState) : Reaches argv s s
  | step (s s' t : ArgumentParser.LoopState) :
      s.current < argv.length →
      ArgumentParser.parse_step argv s.current s.positional_indicator_set s.parser = .ok s' →
      Reaches argv s' t → Reaches argv s t

/-- The state in which `parse` enters its loop. -/
def initial_state (p : ArgumentParser) (argv : List Str) : ArgumentParser.LoopState :=
  ⟨1, false, p.set_program_name_from_argv (argv.headD [])⟩

end utils

namespace utils

/-- Every name in an XOR group normalises, as `add_xor` has checked through
`has_option`. -/
def xor_names_valid (p : ArgumentParser) : Prop :=
  ∀ l ∈ p.m_xor_lists, ∀ n ∈ l, ∃ n', normalize_option_name n = .ok n'

/-- Method `get_positionals`. -/
def ArgumentParser.get_positionals (p : ArgumentParser) : List Str := p.m_positionals

/-- Method `has_positionals`. -/
def ArgumentParser.has_positionals (p : ArgumentParser) : Bool := !p.m_positionals.isEmpty

end utils

namespace utils

/-! ### Registration -/

namespace OptionEntry

/-- The constructor `Option::Option`: the choices, when given, must be one set
per argument; a flag gets the default `false`. -/
def create (number_of_arguments : Nat) (choices : List (List Str)) :
    Except Exception OptionEntry :=
  if !choices.isEmpty ∧ number_of_arguments ≠ choices.length then
    .error (.UsageException (lit "Number of arguments does not match number of choices"))
  else
    .ok { m_names := [], m_help := [], m_meta_vars := [],
          m_number_of_arguments := number_of_arguments, m_storage := [],
          m_default_storage := if number_of_arguments = 0 then [lit "false"] else [],
          m_choices := choices, m_is_appending := false, m_is_hidden := false,
          m_is_required := false }

/-- Method `Option::set_names`. -/
def set_names (o : OptionEntry) (names : List Str) : Except Exception OptionEntry :=
  if names.isEmpty then .error (.UsageException (lit "No name given for option."))
  else .ok { o with m_names := names }

/-- Method `Option::set_help`. -/
def set_help (o : OptionEntry) (help : Str) : OptionEntry := { o with m_help := help }

/-- Method `Option::set_meta_vars`. -/
def set_meta_vars (o : OptionEntry) (meta_vars : List Str) : Except Exception OptionEntry :=
  if !meta_vars.isEmpty ∧ meta_vars.length ≠ o.m_number_of_arguments then
    .error (.UsageException (lit "number of meta vars does not match number of arguments"))
  else .ok { o with m_meta_vars := meta_vars }

/-- The choice loop of `Option::set_default` (lines 495-502) from index `i`,
with `k` iterations left. -/
def set_default_choices (values : List Str) : Nat → Nat → OptionEntry → Except Exception OptionEntry
  | 0, _, o => .ok o
  | k + 1, i, o =>
    if (o.m_choices.getD i []).contains (values.getD i []) then
      set_default_choices values k (i + 1)
        { o with m_default_storage := o.m_default_storage ++ [values.getD i []] }
    else .error (.UsageException (lit "Value does not match any possible choice"))

/-- Method `Option::set_default`; the defaults of a flag are left alone. -/
def set_default (o : OptionEntry) (values : List Str) : Except Exception OptionEntry :=
  if !values.isEmpty ∧ values.length ≠ o.m_number_of_arguments then
    .error (.UsageException (lit "number of default arguments does not match number of arguments"))
  else if o.m_number_of_arguments ≠ 0 then
    if !values.isEmpty ∧ !o.m_choices.isEmpty then
      set_default_choices values o.m_number_of_arguments 0 { o with m_default_storage := [] }
    else .ok { o with m_default_storage := values }
  else .ok o

/-- Method `Option::set_appending`: the flag is written before the check. -/
def set_appending (o : OptionEntry) (is_appending : Bool) : Outcome OptionEntry OptionEntry :=
  if !is_appending ∧ !o.m_storage.isEmpty ∧ o.m_storage.length ≠ o.m_number_of_arguments then
    .throws (.UsageException (lit "'" ++ o.get_name ++ lit "' expects " ++
      to_string o.m_number_of_arguments ++ lit " argument, but got " ++
      to_string o.m_storage.length)) { o with m_is_appending := is_appending }
  else .ok { o with m_is_appending := is_appending }

/-- Method `Option::set_required`. -/
def set_required (o : OptionEntry) (is_required : Bool) : OptionEntry :=
  { o with m_is_required := is_required }

/-- Method `Option::set_hidden`. -/
def set_hidden (o : OptionEntry) (is_hidden : Bool) : OptionEntry :=
  { o with m_is_hidden := is_hidden }

end OptionEntry

namespace ArgumentParser

/-- The loop of `add_option` over the given names (lines 165-171): each name is
normalised strictly and must not exist yet; the normalised names are collected
in a set. -/
def collect_names (p : ArgumentParser) : List Str → List Str → Except Exception (List Str)
  | [], option_names => .ok option_names
  | name :: rest, option_names =>
    match strictly_normalize_option_name name with
    | .error e => .error e
    | .ok option_name =>
      match p.has_option option_name with
      | .error e => .error e
      | .ok true =>
        .error (.UsageException (lit "Option '" ++ option_name ++ lit "' already exists"))
      | .ok false =>
        collect_names p rest
          (if option_names.contains option_name then option_names
           else option_names ++ [option_name])

/-- The option `add_option` builds (lines 173-177). -/
def build_option (option_names : List Str) (number_of_arguments : Nat) (help : Str)
    (meta_vars : List Str) (default_values : List Str) (choices : List (List Str)) :
    Except Exception OptionEntry :=
  match OptionEntry.create number_of_arguments choices with
  | .error e => .error e
  | .ok o =>
    match o.set_names option_names with
    | .error e => .error e
    | .ok o =>
      match (o.set_help help).set_meta_vars meta_vars with
      | .error e => .error e
      | .ok o => o.set_default default_values

/-- The general method `add_option` (lines 154-179). -/
def add_option (p : ArgumentParser) (names : List Str) (number_of_arguments : Nat) (help : Str)
    (meta_vars : List Str) (default_values : List Str) (choices : List (List Str)) :
    Outcome ArgumentParser ArgumentParser :=
  if names.isEmpty then .throws (.UsageException (lit "No option name was given")) p
  else
    match collect_names p names [] with
    | .error e => .throws e p
    | .ok option_names =>
      match build_option option_names number_of_arguments help meta_vars default_values
          choices with
      | .error e => .throws e p
      | .ok option => .ok { p with m_options := p.m_options ++ [option] }

/-- Method `add_flag`. -/
def add_flag (p : ArgumentParser) (names : List Str) (help : Str) :
    Outcome ArgumentParser ArgumentParser :=
  p.add_option names 0 help [] [] []

/-- Method `find_option` of a parser that is not `const`: the index of the
option, or a usage error. -/
def find_option_mut (p : ArgumentParser) (name : Str) : Except Exception Nat :=
  match normalize_option_name name with
  | .error e => .error e
  | .ok n =>
    match find_option_iter p.m_options n with
    | none => .error (.UsageException (lit "Option '" ++ name ++ lit "' does not exist."))
    | some idx => .ok idx

/-- The second loop of the bulk setters (lines 254-257): `setter` is applied to
the option of each name. -/
def set_named (setter : OptionEntry → OptionEntry) :
    List Str → ArgumentParser → Outcome ArgumentParser ArgumentParser
  | [], p => .ok p
  | name :: rest, p =>
    match p.find_option_mut name with
    | .error e => .throws e p
    | .ok idx =>
      match p.m_options[idx]? with
      | none => .undefined
      | some o => set_named setter rest (p.put_option idx (setter o))

/-- Method `set_required`. -/
def set_required (p : ArgumentParser) (names : List Str) :
    Outcome ArgumentParser ArgumentParser :=
  set_named (fun o => o.set_required true) names
    { p with m_options := p.m_options.map (fun o => o.set_required false) }

/-- Method `set_hidden`. -/
def set_hidden (p : ArgumentParser) (names : List Str) :
    Outcome ArgumentParser ArgumentParser :=
  set_named (fun o => o.set_hidden true) names
    { p with m_options := p.m_options.map (fun o => o.set_hidden false) }

/-- The first loop of `set_appending_arguments` (lines 271-273) over the
options: the options before the one that throws, and that one, have lost the
flag. -/
def clear_appending : List OptionEntry → Outcome (List OptionEntry) (List OptionEntry)
  | [] => .ok []
  | o :: os =>
    match o.set_appending false with
    | .ok o' =>
      match clear_appending os with
      | .ok os' => .ok (o' :: os')
      | .throws e os' => .throws e (o' :: os')
      | .undefined => .undefined
    | .throws e o' => .throws e (o' :: os)
    | .undefined => .undefined

/-- Method `set_appending_arguments`; `set_appending(true)` never throws. -/
def set_appending_arguments (p : ArgumentParser) (names : List Str) :
    Outcome ArgumentParser ArgumentParser :=
  match clear_appending p.m_options with
  | .ok os => set_named (fun o => { o with m_is_appending := true }) names { p with m_options := os }
  | .throws e os => .throws e { p with m_options := os }
  | .undefined => .undefined

end ArgumentParser

/-- The names `strictly_normalize_option_name` returns for `-X`: one letter. -/
def is_short_name (name : Str) : Bool :=
  name.length == 1 && isalpha (at_ name 0)

/-- Every name in the registry is a normalised short or long name, as
`add_option` stores them. -/
def names_valid (p : ArgumentParser) : Prop :=
  ∀ o ∈ p.m_options, ∀ n ∈ o.m_names, is_short_name n = true ∨ is_long_name n = true

/-- No name belongs to two options, as `add_option` ensures. -/
def names_unique (p : ArgumentParser) : Prop :=
  p.m_options.Pairwise (fun a b => ∀ n ∈ a.m_names, n ∉ b.m_names)

instance (p : ArgumentParser) : Decidable (names_valid p) := by
  unfold names_valid; infer_instance

instance (p : ArgumentParser) : Decidable (names_unique p) := by
  unfold names_unique; infer_instance

end utils

namespace utils

/-- The option `-c`, `--choice` of the test `AddChoiceOption`: one value out of
`a`, `b`. -/
def option_choice : OptionEntry :=
  { value_entry [lit "c", lit "choice"] 1 with m_choices := [[lit "a", lit "b"]] }

/-- The option `--twos` of the test `AddChoiceOption`: two values, each out of
`a`, `b`. -/
def option_twos : OptionEntry :=
  { value_entry [lit "twos"] 2 with m_choices := [[lit "a", lit "b"], [lit "a", lit "b"]] }

/-- The parser of the test `AddChoiceOption`. -/
def parser_choice : ArgumentParser :=
  { ArgumentParser.empty with m_options := [option_choice, option_twos] }

/-- The `i`-th value is a member of the `i`-th choice set. -/
def choice_ok (o : OptionEntry) (values : List Str) (i : Nat) : Bool :=
  (o.m_choices.getD i []).contains (values.getD i [])

end utils

namespace utils

/-- The required options that are not parsed, in registration order. -/
def required_unparsed (p : ArgumentParser) : List OptionEntry :=
  p.m_options.filter (fun o => o.m_is_required && !o.is_parsed)

/-- The names of an XOR group that `is_parsed` reports as parsed. -/
def parsed_members (p : ArgumentParser) (l : List Str) : List Str :=
  l.filter (fun n => match p.is_parsed n with
    | .ok true => true
    | _ => false)

/-- A parser with the flags `-a` and `-b`, both required, and the flag `-c`. -/
def parser_required : ArgumentParser :=
  { ArgumentParser.empty with
    m_options := [{ flag_entry [lit "a"] with m_is_required := true },
      { flag_entry [lit "b"] with m_is_required := true }, flag_entry [lit "c"]] }

/-- The parser of the test `addXOR`: the flags `-a` and `-b` in one XOR group,
named as in the test. -/
def parser_xor : ArgumentParser :=
  { ArgumentParser.empty with
    m_options := [flag_entry [lit "a"], flag_entry [lit "b"]],
    m_xor_lists := [[lit "a", lit "-b"]] }

end utils

namespace utils

/-- Some registered option has the name. -/
def is_registered (p : ArgumentParser) (name : Str) : Bool :=
  p.m_options.any (fun o => o.has_name name)

/-- The conditions under which `add_option` is specified to fail: no name; a
name of neither form; a name some option already has; choices, meta variables
or defaults that are given but not one per argument; a default outside the
choice set of its position. -/
def add_option_rejects (p : ArgumentParser) (names : List Str) (number_of_arguments : Nat)
    (meta_vars default_values : List Str) (choices : List (List Str)) : Prop :=
  names = [] ∨
  (∃ name ∈ names, ∀ n, strictly_normalize_option_name name ≠ .ok n) ∨
  (∃ name ∈ names, ∃ n, strictly_normalize_option_name name = .ok n ∧ is_registered p n = true) ∨
  (choices ≠ [] ∧ choices.length ≠ number_of_arguments) ∨
  (meta_vars ≠ [] ∧ meta_vars.length ≠ number_of_arguments) ∨
  (default_values ≠ [] ∧ default_values.length ≠ number_of_arguments) ∨
  (choices ≠ [] ∧ ∃ i, i < default_values.length ∧
    (choices.getD i []).contains (default_values.getD i []) = false)

end utils

namespace utils

/-- Some given name, bare or dashed, is a name of the option. -/
def is_named_in (names : List Str) (o : OptionEntry) : Bool :=
  names.any (fun name =>
    match normalize_option_name name with
    | .ok n => o.has_name n
    | .error _ => false)

/-- The name, bare or dashed, is a name of some registered option. -/
def name_registered (p : ArgumentParser) (name : Str) : Bool :=
  match normalize_option_name name with
  | .ok n => is_registered p n
  | .error _ => false

end utils

namespace utils

/-- The parser in which exactly the options named in `names` are required. -/
def with_required (names : List Str) (p : ArgumentParser) : ArgumentParser :=
  { p with m_options := p.m_options.map (fun o => { o with m_is_required := is_named_in names o }) }

/-- The parser in which exactly the options named in `names` are hidden. -/
def with_hidden (names : List Str) (p : ArgumentParser) : ArgumentParser :=
  { p with m_options := p.m_options.map (fun o => { o with m_is_hidden := is_named_in names o }) }

/-- The parser in which exactly the options named in `names` are appending. -/
def with_appending (names : List Str) (p : ArgumentParser) : ArgumentParser :=
  { p with m_options := p.m_options.map (fun o => { o with m_is_appending := is_named_in names o }) }

/-- The parser of the test `SetAppendingAfterParsing` before parsing: the
option `-a` with one value, appending. -/
def parser_a_appending : ArgumentParser :=
  { ArgumentParser.empty with
    m_options := [{ value_entry [lit "a"] 1 with m_is_appending := true }] }

/-- The parser of the test `SetAppendingAfterParsing` after parsing
`app -a=1 -a=2`. -/
def parser_a_appended : ArgumentParser :=
  { ArgumentParser.empty with
    m_program_name := lit "app",
    m_options := [{ value_entry [lit "a"] 1 with
      m_is_appending := true, m_storage := [lit "1", lit "2"] }] }

/-- A parser with the flag `-v` after parsing `app -v`. -/
def parser_v_parsed : ArgumentParser :=
  { ArgumentParser.empty with
    m_program_name := lit "app",
    m_options := [{ flag_entry [lit "v"] with m_storage := [lit "true"] }] }

end utils

namespace utils

/-- The value list of the occurrence at `argv[current]` for the option at
`idx`: when the token is dispatched as a single option token whose name
resolves to that option, its inline value followed by the tokens taken after
it as values; nothing for any other token. -/
def occurrence_values (argv : List Str) (current : Nat) (positional_indicator_set : Bool)
    (p : ArgumentParser) (idx : Nat) : List Str :=
  if positional_indicator_set = false ∧
      (is_short_option_name (argv.getD current []) || is_long_option (argv.getD current [])) = true ∧
      is_short_option_group_name (argv.getD current []) = false then
    match p.find_option_to_parse (split_argument_text (argv.getD current [])).1,
        p.m_options[idx]? with
    | .ok j, some o =>
      if j = idx then
        if (ArgumentParser.inline_values (split_argument_text (argv.getD current [])).2).length <
              o.m_number_of_arguments ∧
            current + (o.m_number_of_arguments -
              (ArgumentParser.inline_values (split_argument_text (argv.getD current [])).2).length)
              < argv.length then
          ArgumentParser.inline_values (split_argument_text (argv.getD current [])).2 ++
            (argv.drop (current + 1)).take (o.m_number_of_arguments -
              (ArgumentParser.inline_values (split_argument_text (argv.getD current [])).2).length)
        else ArgumentParser.inline_values (split_argument_text (argv.getD current [])).2
      else []
    | _, _ => []
  else []

/-- The value lists of all occurrences of the option at `idx`, concatenated in
encounter order, over the iterations the loop of `parse` makes from `current`. -/
def loop_values (argv : List Str) (idx : Nat) :
    Nat → Nat → Bool → ArgumentParser → List Str
  | 0, _, _, _ => []
  | fuel + 1, current, positional_indicator_set, p =>
    if current < argv.length then
      match ArgumentParser.parse_step argv current positional_indicator_set p with
      | .ok s =>
        occurrence_values argv current positional_indicator_set p idx ++
          loop_values argv idx fuel s.current s.positional_indicator_set s.parser
      | _ => []
    else []

/-- An option as `add_option(names, "help")` registers it, made appending, with
the given stored values. -/
def option_appending (name : Str) (storage : List Str) : OptionEntry :=
  { value_entry [name] 1 with m_help := lit "help", m_is_appending := true, m_storage := storage }

/-- The parser of the test `AddAppendingOption`: the appending options `--int`,
`--float` and `--string`. -/
def parser_appending : ArgumentParser :=
  { ArgumentParser.empty with
    m_options := [option_appending (lit "int") [], option_appending (lit "float") [],
      option_appending (lit "string") []] }

/-- The parser of the test `AddAppendingOption` after parsing. -/
def parser_appending_parsed : ArgumentParser :=
  { ArgumentParser.empty with
    m_program_name := lit "app",
    m_options := [option_appending (lit "int") [lit "1", lit "2"],
      option_appending (lit "float") [lit "8", lit "2.9"],
      option_appending (lit "string") [lit "abc", lit "def"]] }

/-- The command line of the test `AddAppendingOption`. -/
def argv_appending : List Str :=
  [lit "app", lit "--int", lit "1", lit "--int=2", lit "--float", lit "8", lit "--float=2.9",
    lit "--string=abc", lit "--string=def"]

/-- A parser with the appending flag `-v`. -/
def parser_v_appending : ArgumentParser :=
  { ArgumentParser.empty with
    m_options := [{ flag_entry [lit "v"] with m_is_appending := true }] }

/-- The parser with the appending flag `-v` after parsing `app -v -v`. -/
def parser_v_appended : ArgumentParser :=
  { ArgumentParser.empty with
    m_program_name := lit "app",
    m_options := [{ flag_entry [lit "v"] with
      m_is_appending := true, m_storage := [lit "true", lit "true"] }] }

end utils

namespace utils

/-! ### The remaining methods of the public interface -/

namespace ArgumentParser

/-- Method `set_help_info`. -/
def set_help_info (p : ArgumentParser) (preamble epilog : Str) : ArgumentParser :=
  { p with m_help_epilog := epilog, m_help_preamble := preamble }

/-- Method `set_program_info`. -/
def set_program_info (p : ArgumentParser) (program_name version : Str) : ArgumentParser :=
  { p with m_program_name := program_name, m_program_version := version }

/-- Method `set_required_positionals`. -/
def set_required_positionals (p : ArgumentParser) (minimum_positionals : Nat) :
    Outcome ArgumentParser ArgumentParser :=
  if minimum_positionals > p.m_number_of_maximum_positionals then
    .throws (.UsageException (lit
      "Number of minimum positionals must not be less than the number of maximum positionals")) p
  else .ok { p with m_number_of_minimum_positionals := minimum_positionals }

/-- Method `set_allowed_positionals`. -/
def set_allowed_positionals (p : ArgumentParser) (maximum_positionals : Nat) :
    Outcome ArgumentParser ArgumentParser :=
  if p.m_number_of_minimum_positionals > maximum_positionals then
    .throws (.UsageException (lit
      "Number of minimum positionals must not be less than the number of maximum positionals")) p
  else .ok { p with m_number_of_maximum_positionals := maximum_positionals }

/-- Method `set_positional_help`. -/
def set_positional_help (p : ArgumentParser) (help meta_var : Str) : ArgumentParser :=
  { p with m_positional_help := help, m_positional_meta_var := meta_var }

/-- Method `ensure_valid_option_list`: the exception it throws, if any. -/
def ensure_valid_option_list (p : ArgumentParser) : List Str → Option Exception
  | [] => none
  | name :: rest =>
    match p.has_option name with
    | .error e => some e
    | .ok false => some (.UsageException (lit "Option '" ++ name ++ lit "' does not exist."))
    | .ok true => ensure_valid_option_list p rest

/-- Method `add_xor`; `names.size()` is the length of the list of the set's
elements. -/
def add_xor (p : ArgumentParser) (names : List Str) : Outcome ArgumentParser ArgumentParser :=
  if names.length < 2 then .throws (.UsageException (lit "too less arguments for XOR")) p
  else
    match p.ensure_valid_option_list names with
    | some e => .throws e p
    | none => .ok { p with m_xor_lists := p.m_xor_lists ++ [names] }

end ArgumentParser

/-! ### Typed access -/

/-- The function `::tolower` in the "C" locale. -/
def tolower (c : Char) : Char :=
  if 65 ≤ c.toNat ∧ c.toNat ≤ 90 then Char.ofNat (c.toNat + 32) else c

/-- The overload `Option::parse_value(text, bool&)`.  The quotation marks of
the message are written in the source as the three bytes `E2 80 98` and
`E2 80 99`. -/
def parse_value_bool (text : Str) : Except Exception Bool :=
  if text.map tolower = lit "on" ∨ text.map tolower = lit "true" ∨ text.map tolower = lit "1" ∨
      text.map tolower = lit "yes" then .ok true
  else if text.map tolower = lit "off" ∨ text.map tolower = lit "false" ∨
      text.map tolower = lit "0" ∨ text.map tolower = lit "no" then .ok false
  else
    .error (.ParsingException
      (lit "Argument \xe2\x80\x98" ++ text ++ lit "\xe2\x80\x99 failed to parse"))

/-- The overload `Option::parse_value(text, std::string&)`. -/
def parse_value_string (text : Str) : Except Exception Str := .ok text

/-- The loop of `Option::get<T>` over the chosen storage: each value is
converted in turn, and the first conversion that throws ends the loop. -/
def parse_values {α : Type} (parse_value : Str → Except Exception α) :
    List Str → Except Exception (List α)
  | [] => .ok []
  | v :: vs =>
    match parse_value v with
    | .error e => .error e
    | .ok a =>
      match parse_values parse_value vs with
      | .error e => .error e
      | .ok rest => .ok (a :: rest)

/-- Method `Option::get<T>`, with the overload of `parse_value` for `T` as a
parameter. -/
def OptionEntry.get_as {α : Type} (parse_value : Str → Except Exception α) (o : OptionEntry) :
    Except Exception (List α) :=
  if o.is_parsed then parse_values parse_value o.m_storage
  else if o.has_default then parse_values parse_value o.m_default_storage
  else .error (.ParsingException (lit "Failed to get unparsed error"))

namespace ArgumentParser

/-- Method `get_n<T>`. -/
def get_n_as {α : Type} (parse_value : Str → Except Exception α) (p : ArgumentParser)
    (name : Str) : Except Exception (List α) :=
  match p.find_option name with
  | .error e => .error e
  | .ok o => o.get_as parse_value

/-- Method `get<T>`: element 0 of the converted values; indexing an empty
vector is undefined. -/
def get_as {α : Type} (parse_value : Str → Except Exception α) (p : ArgumentParser)
    (name : Str) : Outcome α Unit :=
  match p.find_option name with
  | .error e => .throws e ()
  | .ok o =>
    if o.m_number_of_arguments ≠ 0 ∧ o.m_number_of_arguments ≠ 1 then
      .throws (.UsageException (lit "Invalid number of arguments used for getting the option")) ()
    else
      match o.get_as parse_value with
      | .error e => .throws e ()
      | .ok [] => .undefined
      | .ok (v :: _) => .ok v

end ArgumentParser

/-! ### The help text -/

/-- An upper bound of `std::string::max_size()` on 64-bit platforms. -/
def STRING_MAX_SIZE : Nat := 2 ^ 63 - 1

/-- The separator `generate_help_text` puts before a further remark. -/
def help_separator (help_text : Str) : Str :=
  if !help_text.isEmpty then help_text ++ lit ", " else help_text

/-- Method `Option::generate_help_text`: the name column and the help column
of the option's line. -/
def OptionEntry.generate_help_text (o : OptionEntry) : Str × Str :=
  let names := (o.m_names.map (fun name =>
    if name.length = 1 then lit " -" ++ name else lit " --" ++ name)).flatten
  let name_text := names ++
    (if !o.m_meta_vars.isEmpty then
      (o.m_meta_vars.map (fun meta_var => lit " <" ++ meta_var ++ lit ">")).flatten
    else (List.replicate o.m_number_of_arguments (lit " <ARG>")).flatten)
  let t1 : Str := if o.m_is_required then lit "required" else []
  let t2 : Str := if o.m_is_appending then help_separator t1 ++ lit "appending" else t1
  let t3 : Str :=
    if o.m_number_of_arguments > 0 ∧ !o.m_choices.isEmpty then
      o.m_choices.foldl (fun t argument_choices =>
        (argument_choices.foldl (fun t choice => t ++ choice ++ lit "|")
          (t ++ lit " [")).dropLast ++ lit "]") (help_separator t2 ++ lit "choices:")
    else t2
  let t4 : Str :=
    if o.m_number_of_arguments > 0 ∧ !o.m_default_storage.isEmpty then
      (o.m_default_storage.foldl (fun t default_value => t ++ default_value ++ lit " ")
        (help_separator t3 ++ lit "default: ")).dropLast
    else t3
  let t5 : Str := if !t4.isEmpty then lit " (" ++ t4 ++ lit ")" else t4
  (name_text, o.m_help ++ t5)

/-- The padding `std::string(longest + 2 - length, ' ')` of a line of the help
text: the count is a `size_t` difference, and a count above `max_size()` makes
the constructor throw `std::length_error` (no text, `none`). -/
def help_padding (longest length : Nat) : Option Str :=
  if (longest + 2 + SIZE_MOD - length) % SIZE_MOD ≤ STRING_MAX_SIZE then
    some (List.replicate ((longest + 2 + SIZE_MOD - length) % SIZE_MOD) ' ')
  else none

/-- The loop of `help` over `formatted_options` (lines 240-242). -/
def help_lines (longest : Nat) : List (Str × Str) → Option Str
  | [] => some []
  | o :: os =>
    match help_padding longest o.1.length with
    | none => none
    | some padding =>
      match help_lines longest os with
      | none => none
      | some rest => some (o.1 ++ padding ++ o.2 ++ lit "\n" ++ rest)

namespace ArgumentParser

/-- The pairs `help` collects from the options that are not hidden (lines
201-207). -/
def shown_options (p : ArgumentParser) : List (Str × Str) :=
  (p.m_options.filter (fun o => !o.m_is_hidden)).map OptionEntry.generate_help_text

/-- The value of `longest` after the first loop of `help`. -/
def longest_name (p : ArgumentParser) : Nat :=
  p.shown_options.foldl (fun longest pair => max longest pair.1.length) 0

/-- The hint for the positionals on the usage line of `help` (lines 220-234). -/
def positional_hint (p : ArgumentParser) : Str :=
  if p.m_number_of_maximum_positionals > 0 then
    if p.m_positional_meta_var.isEmpty then
      if p.m_number_of_maximum_positionals = 1 then lit " <POSITIONAL>"
      else if p.m_number_of_maximum_positionals < unlimited_positionals then
        lit " <" ++ to_string p.m_number_of_minimum_positionals ++ lit "-" ++
          to_string p.m_number_of_maximum_positionals ++ lit " POSITIONALS>"
      else lit " <POSITIONALS>"
    else lit " " ++ p.m_positional_meta_var
  else []

/-- Method `help`: the text, or `none` when building a padding throws
`std::length_error`. -/
def help (p : ArgumentParser) : Option Str :=
  match help_lines p.longest_name
      (p.shown_options ++
        (if !p.m_positional_help.isEmpty ∧ !p.m_positional_meta_var.isEmpty then
          [(lit " " ++ p.m_positional_meta_var, p.m_positional_help)]
        else [])) with
  | none => none
  | some lines =>
    some (lit "Usage of " ++ p.m_program_name ++
      (if !p.m_program_version.isEmpty then lit " " ++ p.m_program_version else []) ++
      lit ":\n" ++
      lit "  " ++ p.m_program_name ++ lit " [OPTION...]" ++ p.positional_hint ++
      lit "\n\n" ++
      (if !p.m_help_preamble.isEmpty then p.m_help_preamble ++ lit "\n\n" else []) ++
      lit "Options:\n" ++ lines ++
      (if !p.m_help_epilog.isEmpty then lit "\n" ++ p.m_help_epilog else []))

end ArgumentParser

/-! ### States reachable through the public interface -/

/-- A call of a public method that can change the parser.  `add_flag` and the
short forms of `add_option` are calls of the general `add_option`, and the
forms of `parse` with `argc` and `argv` are calls of `parse` on the list. -/
inductive Call where
  | set_help_info (preamble epilog : Str)
  | set_program_info (program_name version : Str)
  | set_required_positionals (minimum_positionals : Nat)
  | set_allowed_positionals (maximum_positionals : Nat)
  | set_positional_help (help meta_var : Str)
  | add_option (names : List Str) (number_of_arguments : Nat) (help : Str)
      (meta_vars default_values : List Str) (choices : List (List Str))
  | set_required (names : List Str)
  | set_hidden (names : List Str)
  | set_appending_arguments (names : List Str)
  | add_xor (names : List Str)
  | reset_storage
  | parse (argv : List Str)

/-- The effect of a call on the parser. -/
def Call.run : Call → ArgumentParser → Outcome ArgumentParser ArgumentParser
  | .set_help_info preamble epilog, p => .ok (p.set_help_info preamble epilog)
  | .set_program_info program_name version, p => .ok (p.set_program_info program_name version)
  | .set_required_positionals n, p => p.set_required_positionals n
  | .set_allowed_positionals n, p => p.set_allowed_positionals n
  | .set_positional_help help meta_var, p => .ok (p.set_positional_help help meta_var)
  | .add_option names n help meta_vars default_values choices, p =>
    p.add_option names n help meta_vars default_values choices
  | .set_required names, p => p.set_required names
  | .set_hidden names, p => p.set_hidden names
  | .set_appending_arguments names, p => p.set_appending_arguments names
  | .add_xor names, p => p.add_xor names
  | .reset_storage, p => .ok p.reset_storage
  | .parse argv, p => p.parse argv

/-- The parser states a program can observe: the state after construction, and
the state a call leaves behind, whether it returns or throws (a caller can
catch the exception and go on).  Nothing is reachable through a call with
undefined behaviour. -/
inductive Reachable : ArgumentParser → Prop where
  | start : Reachable ArgumentParser.empty
  | step (p q : ArgumentParser) (c : Call) :
      Reachable p → (c.run p).finalState = some q → Reachable q

end utils

namespace utils

/-- The parser of the test `addXOR`: the flags `-a` and `-b`. -/
def parser_ab : ArgumentParser :=
  { ArgumentParser.empty with m_options := [flag_entry [lit "a"], flag_entry [lit "b"]] }

/-- The options `--multi`, `--int` and `--float` of the test `AddMultiOption`,
with the stored values given. -/
def parser_add_multi (multi int float : List Str) : ArgumentParser :=
  { ArgumentParser.empty with
    m_options := [{ value_entry [lit "multi"] 3 with m_storage := multi },
      { value_entry [lit "int"] 2 with
        m_help := lit "help", m_default_storage := [lit "5", lit "6"], m_storage := int },
      { value_entry [lit "float"] 2 with m_storage := float }] }

/-- The command line of the test `AddMultiOption`. -/
def argv_add_multi : List Str :=
  [lit "app", lit "--multi", lit "a", lit "b", lit "c", lit "--int", lit "1", lit "2",
    lit "--float", lit "1.1", lit "2.2"]

/-- The parser of the test `AddMultiOption` after parsing. -/
def parser_add_multi_parsed : ArgumentParser :=
  { parser_add_multi [lit "a", lit "b", lit "c"] [lit "1", lit "2"] [lit "1.1", lit "2.2"] with
    m_program_name := lit "app" }

/-- The parser of the tests `ParseBoolean...`: the option `-b` with one value,
holding the stored values given. -/
def parser_b (storage : List Str) : ArgumentParser :=
  { ArgumentParser.empty with m_options := [{ value_entry [lit "b"] 1 with m_storage := storage }] }

end utils

namespace utils

/-- The parser state one iteration of the loop of `parse` leaves behind,
returning or throwing. -/
def loop_final : Outcome ArgumentParser.LoopState ArgumentParser → Option ArgumentParser
  | .ok s => some s.parser
  | .throws _ q => some q
  | .undefined => none

/-- The bounds on the number of positionals are consistent. -/
def bounds_ok (p : ArgumentParser) : Prop :=
  p.m_number_of_minimum_positionals ≤ p.m_number_of_maximum_positionals

instance (p : ArgumentParser) : Decidable (bounds_ok p) := by
  unfold bounds_ok; infer_instance

/-- What a flag holds: the default `false`, and stored values that are all the
text `true`. -/
def flag_values_ok (o : OptionEntry) : Prop :=
  o.m_number_of_arguments = 0 →
    o.m_default_storage = [lit "false"] ∧ ∀ v ∈ o.m_storage, v = lit "true"

/-- A flag as `add_flag(names, "desc")` registers it, with the given stored
values. -/
def flag_desc (name : Str) (storage : List Str) : OptionEntry :=
  { flag_entry [name] with m_help := lit "desc", m_storage := storage }

/-- The parser of the test `ParseSimpleFlag` after the first registration. -/
def parser_simple_flag_first : ArgumentParser :=
  { ArgumentParser.empty with m_options := [flag_desc (lit "true") []] }

/-- The parser of the test `ParseSimpleFlag`: the flags `--true` and `--false`. -/
def parser_simple_flag : ArgumentParser :=
  { ArgumentParser.empty with m_options := [flag_desc (lit "true") [], flag_desc (lit "false") []] }

/-- The parser of the test `ParseSimpleFlag` after parsing `app --true`. -/
def parser_simple_flag_parsed : ArgumentParser :=
  { ArgumentParser.empty with
    m_program_name := lit "app",
    m_options := [flag_desc (lit "true") [lit "true"], flag_desc (lit "false") []] }

end utils

namespace utils

/-- The first line of a text: what precedes its first line feed. -/
def first_line (text : Str) : Str := text.takeWhile (· != '\n')

/-- The text after the first line feed. -/
def after_first_line (text : Str) : Str := (text.dropWhile (· != '\n')).drop 1

/-- The second line of a text. -/
def second_line (text : Str) : Str := first_line (after_first_line text)

/-- The name column of every option shown by `help`, with the two blanks that
follow the longest one, fits in a `std::string`. -/
def columns_fit (p : ArgumentParser) : Prop :=
  ∀ pair ∈ p.shown_options, pair.1.length + 2 ≤ STRING_MAX_SIZE

instance (p : ArgumentParser) : Decidable (columns_fit p) := by
  unfold columns_fit; infer_instance

/-- The parser of the test `GenerateHelp`; names and choices are listed in the
iteration order the expected text of the test shows. -/
def parser_generate_help : ArgumentParser :=
  { ArgumentParser.empty with
    m_program_name := lit "app", m_program_version := lit "1.0",
    m_help_preamble := lit "pretext", m_help_epilog := lit "some epilog",
    m_number_of_maximum_positionals := 2,
    m_options := [
      { flag_entry [lit "s"] with m_help := lit "short option as flag" },
      { flag_entry [lit "f", lit "other-name", lit "flag"] with
        m_help := lit "arbitrary number of names" },
      { value_entry [lit "long"] 1 with m_help := lit "long option with argument" },
      { value_entry [lit "hidden"] 1 with m_help := lit "hidden option", m_is_hidden := true },
      { value_entry [lit "default"] 1 with
        m_help := lit "option with default", m_meta_vars := [lit "META"],
        m_default_storage := [lit "DEFAULT"] },
      { value_entry [lit "appending"] 1 with
        m_help := lit "option that appends values, like -I file1 -I file2",
        m_is_appending := true },
      { value_entry [lit "required"] 1 with
        m_help := lit "required option", m_is_required := true },
      { value_entry [lit "c", lit "choice"] 1 with
        m_help := lit "choice desc", m_meta_vars := [lit "ARG"],
        m_choices := [[lit "b", lit "a"]] },
      { value_entry [lit "all"] 2 with
        m_help := lit "multiple arguments", m_meta_vars := [lit "ARG1", lit "ARG2"],
        m_default_storage := [lit "a", lit "d"],
        m_choices := [[lit "b", lit "a"], [lit "d", lit "c"]],
        m_is_appending := true, m_is_required := true }] }

end utils

namespace utils

/-- The parser with its hidden options removed from the registry. -/
def without_hidden (p : ArgumentParser) : ArgumentParser :=
  { p with m_options := p.m_options.filter (fun o => !o.m_is_hidden) }

/-- The name is of short form: one character, or a dash and one character. -/
def is_short_form (x : Str) : Prop :=
  x.length = 1 ∨ (x.length = 2 ∧ at_ x 0 = '-')

instance (x : Str) : Decidable (is_short_form x) := by
  unfold is_short_form; infer_instance

/-- The name with the dashes `generate_help_text` puts before it. -/
def help_name (y : Str) : Str :=
  if y.length = 1 then lit "-" ++ y else lit "--" ++ y

/-- The parser of the test `SetPositionalHelp`: no option, and the help `abc`
for the positionals with the meta variable `def`. -/
def parser_positional_help : ArgumentParser :=
  ArgumentParser.empty.set_positional_help (lit "abc") (lit "def")

/-- The stored-length invariant of one option: the defaults are empty or one
per argument (for a flag: the single text `false`), and the stored values of an
option that is not appending are empty or one per argument (for a flag: the
single text `true`). -/
def lengths_ok (o : OptionEntry) : Prop :=
  (if o.m_number_of_arguments = 0 then o.m_default_storage = [lit "false"]
    else o.m_default_storage = [] ∨ o.m_default_storage.length = o.m_number_of_arguments) ∧
  (o.m_is_appending = false →
    o.m_storage = [] ∨
      (if o.m_number_of_arguments = 0 then o.m_storage = [lit "true"]
        else o.m_storage.length = o.m_number_of_arguments))

instance (o : OptionEntry) : Decidable (lengths_ok o) := by
  unfold lengths_ok; infer_instance

/-- The parser states reached from the state after construction by calls of
public methods that return normally, and by registrations whether they return
or throw.  Among them are the states reached by registrations and by
`reset_storage` followed by a `parse` that succeeds. -/
inductive ReachedByReturns : ArgumentParser → Prop where
  | start : ReachedByReturns ArgumentParser.empty
  | returns (p q : ArgumentParser) (c : Call) :
      ReachedByReturns p → c.run p = .ok q → ReachedByReturns q
  | registration (p q : ArgumentParser) (names : List Str) (number_of_arguments : Nat)
      (help : Str) (meta_vars default_values : List Str) (choices : List (List Str)) :
      ReachedByReturns p →
      (p.add_option names number_of_arguments help meta_vars default_values choices).finalState =
        some q →
      ReachedByReturns q

/-- The parser of the test `AddChoiceOption` after parsing `app --twos a c`,
which is rejected at the value `c`. -/
def parser_choice_rejected : ArgumentParser :=
  { ArgumentParser.empty with
    m_program_name := lit "app",
    m_options := [option_choice, { option_twos with m_storage := [lit "a"] }] }

/-- The index of the option a name, bare or dashed, denotes. -/
def option_index (p : ArgumentParser) (name : Str) : Option Nat :=
  match normalize_option_name name with
  | .ok n => find_option_iter p.m_options n
  | .error _ => none

/-- No two names of the group denote the same option. -/
def group_distinct (p : ArgumentParser) (l : List Str) : Prop :=
  l.Pairwise (fun a b => option_index p a ≠ option_index p b)

instance (p : ArgumentParser) (l : List Str) : Decidable (group_distinct p l) := by
  unfold group_distinct; infer_instance

/-- A parser with the flag `-a` alone. -/
def parser_alias : ArgumentParser :=
  { ArgumentParser.empty with m_options := [flag_entry [lit "a"]] }

/-- The parser with the flag `-a` after `add_xor` with the given names. -/
def parser_alias_xor (names : List Str) : ArgumentParser :=
  { parser_alias with m_xor_lists := [names] }

end utils

/-! ## The function `replace_all` of `string_utils.cpp` -/

namespace utils

namespace string

/-- The search of `std::string::find` in the text that starts at index `i`:
the index of the first occurrence of `from_`. -/
def find_in (from_ : Str) : Str → Nat → Option Nat
  | [], i => if from_.isEmpty then some i else none
  | c :: rest, i =>
    if (c :: rest).take from_.length = from_ then some i else find_in from_ rest (i + 1)

/-- Member `std::string::find(from, pos)`: the lowest index from `pos` on at
which `from` occurs, `none` for `npos`. -/
def find (str from_ : Str) (pos : Nat) : Option Nat :=
  if pos ≤ str.length then find_in from_ (str.drop pos) pos else none

/-- Member `std::string::replace(pos, len, to)`; `none` stands for the
exception `std::out_of_range` it throws when `pos` is beyond the end. -/
def replace_at (ret : Str) (pos len : Nat) (to_ : Str) : Option Str :=
  if pos ≤ ret.length then some (ret.take pos ++ to_ ++ ret.drop (pos + len)) else none

/-- How a call of `replace_all` ends. -/
inductive Result where
  | returns (ret : Str)
  | out_of_range
  deriving DecidableEq, Repr

/-- The loop of `replace_all` (lines 44-47) with the values of `start_pos` and
`ret`: the search runs in `str`, the replacement is made in `ret`.  `fuel`
bounds the number of iterations, and `none` says that the loop is still running
when it is used up. -/
def replace_all_loop (str from_ to_ : Str) : Nat → Nat → Str → Option Result
  | 0, _, _ => none
  | fuel + 1, start_pos, ret =>
    match find str from_ start_pos with
    | none => some (.returns ret)
    | some pos =>
      match replace_at ret pos from_.length to_ with
      | none => some .out_of_range
      | some replaced => replace_all_loop str from_ to_ fuel ((pos + to_.length) % SIZE_MOD) replaced

/-- The function `replace_all`, with a bound on the iterations of its loop. -/
def replace_all (fuel : Nat) (str from_ to_ : Str) : Option Result :=
  if from_.isEmpty then some (.returns []) else replace_all_loop str from_ to_ fuel 0 str

/-- The text the specification describes, read from left to right: `skip`
characters of an occurrence already replaced are dropped, an occurrence of
`from_` becomes `to_`, any other character is kept. -/
def replaced_from (from_ to_ : Str) : Nat → Str → Str
  | _, [] => []
  | skip + 1, _ :: rest => replaced_from from_ to_ skip rest
  | 0, c :: rest =>
    if (c :: rest).take from_.length = from_ then
      to_ ++ replaced_from from_ to_ (from_.length - 1) rest
    else c :: replaced_from from_ to_ 0 rest

/-- The result the specification gives for `replace_all(str, from, to)`: every
occurrence of `from_` that does not overlap an earlier one is replaced. -/
def replace_all_spec (str from_ to_ : Str) : Str := replaced_from from_ to_ 0 str

end string

end utils

/-! ## The INI parser of `config_parser.h` and `config_parser.cpp`

A `std::unordered_map` with text keys is the list of its entries; the order of
the list stands for the unspecified iteration order, and only `find` and the
assignment through `operator[]` are used.  A stream is the text still to be
read from it.  The namespace `ConfigParser` holds what the source declares in
its namespace `config_parser`. -/

namespace ConfigParser

open utils (Str lit tolower to_string SIZE_MOD)

/-- The class `ConfigParserException`, with the text its message is built from. -/
inductive ConfigParserException where
  | mk (msg : Str)
  deriving DecidableEq, Repr

/-- Member `find` of an `unordered_map`: the value under the key, `none` for
`end()`. -/
def map_find {β : Type} : List (Str × β) → Str → Option β
  | [], _ => none
  | (k, v) :: rest, key => if k = key then some v else map_find rest key

/-- The assignment `m[key] = value` on an `unordered_map`. -/
def map_assign {β : Type} : List (Str × β) → Str → β → List (Str × β)
  | [], key, value => [(key, value)]
  | (k, v) :: rest, key, value =>
    if k = key then (k, value) :: rest else (k, v) :: map_assign rest key value

/-- The assignment `m[a][b] = value` on the map of sections: `m[a]` inserts an
empty section when there is none. -/
def assign (m : List (Str × List (Str × Str))) (a b value : Str) : List (Str × List (Str × Str)) :=
  map_assign m a (map_assign ((map_find m a).getD []) b value)

/-- The class `IniParser`. -/
structure IniParser where
  m_map : List (Str × List (Str × Str))
  deriving DecidableEq, Repr

/-- Method `normalize_key`. -/
def normalize_key (key : Str) : Str := key.map tolower

namespace IniParser

/-- An `IniParser` as its default constructor leaves it. -/
def empty : IniParser := ⟨[]⟩

/-- Method `has(section)`. -/
def has (p : IniParser) (section_ : Str) : Bool :=
  (map_find p.m_map (normalize_key section_)).isSome

/-- Method `has(section, option)`. -/
def has_option (p : IniParser) (section_ option : Str) : Bool :=
  match map_find p.m_map (normalize_key section_) with
  | none => false
  | some options => (map_find options (normalize_key option)).isSome

/-- Method `set(section, option, value)` with a `std::string` (or `const char*`)
value. -/
def set (p : IniParser) (section_ option value : Str) : IniParser :=
  ⟨assign p.m_map (normalize_key section_) (normalize_key option) value⟩

/-- Method `get<std::string>(section, option)`; `parse_value` is the identity
on strings.  The quotation marks of the messages are written in the source as
the three bytes `E2 80 98` and `E2 80 99`. -/
def get (p : IniParser) (section_ option : Str) : Except ConfigParserException Str :=
  match map_find p.m_map (normalize_key section_) with
  | none =>
    .error (.mk (lit "Section \xe2\x80\x98" ++ section_ ++ lit "\xe2\x80\x99 not present"))
  | some options =>
    match map_find options (normalize_key option) with
    | none =>
      .error (.mk (lit "Option \xe2\x80\x98" ++ option ++ lit "\xe2\x80\x99 not present"))
    | some value => .ok value

end IniParser

/-- The function `std::isspace` in the "C" locale, which `\s` stands for. -/
def isspace (c : Char) : Bool :=
  c.toNat = 32 || (9 ≤ c.toNat && c.toNat ≤ 13)

/-- The part of the ECMAScript grammar the regular expressions of
`IniParser::parse` are written in: a character class, a sequence, the greedy
quantifiers `*` and `?`, a marked subexpression and the assertion `$`. -/
inductive Regex where
  | cls (accepts : Char → Bool)
  | seq (a b : Regex)
  | star (r : Regex)
  | opt (r : Regex)
  | group (index : Nat) (r : Regex)
  | eol

/-- The texts of the marked subexpressions, the latest first. -/
abbrev Captures := List (Nat × Str)

/-- The iterations of `r*` on the text `s`, the longest chain of iterations
first; an iteration has to consume a character, so `s.length` iterations are
all there can be. -/
def star_iter (step : Str → Captures → List (Str × Captures)) :
    Nat → Str → Captures → List (Str × Captures)
  | 0, s, c => [(s, c)]
  | n + 1, s, c =>
    (((step s c).filter (fun r => r.1.length < s.length)).map
      (fun r => star_iter step n r.1 r.2)).flatten ++ [(s, c)]

/-- The ways the expression matches at the start of `s`, each as the text left
over and the captures, in the order a backtracking matcher tries them. -/
def Regex.run : Regex → Str → Captures → List (Str × Captures)
  | .cls accepts, s, c =>
    match s with
    | [] => []
    | ch :: rest => if accepts ch then [(rest, c)] else []
  | .seq a b, s, c => ((a.run s c).map (fun r => b.run r.1 r.2)).flatten
  | .star r, s, c => star_iter r.run s.length s c
  | .opt r, s, c => r.run s c ++ [(s, c)]
  | .group index r, s, c =>
    (r.run s c).map (fun res => (res.1, (index, s.take (s.length - res.1.length)) :: res.2))
  | .eol, s, c => if s.isEmpty then [(s, c)] else []

/-- The function `std::regex_match`: the captures of the first way the
expression matches the whole text. -/
def regex_match (r : Regex) (s : Str) : Option Captures :=
  ((r.run s []).find? (fun res => res.1.isEmpty)).map (fun res => res.2)

/-- The text `match[index].str()`. -/
def sub_match (m : Captures) (index : Nat) : Str :=
  ((m.find? (fun c => c.1 == index)).map (fun c => c.2)).getD []

/-- The class `\s`. -/
def space : Regex := .cls isspace

/-- The class `\S`. -/
def non_space : Regex := .cls (fun c => !isspace c)

/-- A literal character. -/
def chr (x : Char) : Regex := .cls (fun c => c == x)

/-- The quantifier `+`: once, then `*`. -/
def plus (r : Regex) : Regex := .seq r (.star r)

/-- The expression `\s*`. -/
def empty_regex : Regex := .star space

/-- The expression `\s*[;#]`. -/
def comment_regex : Regex := .seq (.star space) (.cls (fun c => c == ';' || c == '#'))

/-- The expression `\s*\[([^\]]+)\]`. -/
def section_regex : Regex :=
  .seq (.star space) (.seq (chr '[') (.seq (.group 1 (plus (.cls (fun c => c != ']')))) (chr ']')))

/-- The expression `\s*(\S[^ \t=]*)\s*=\s*((\s?\S+)+)\s*$`. -/
def value_regex : Regex :=
  .seq (.star space)
    (.seq (.group 1 (.seq non_space (.star (.cls (fun c => c != ' ' && c != '\t' && c != '=')))))
      (.seq (.star space) (.seq (chr '=') (.seq (.star space)
        (.seq (.group 2 (plus (.group 3 (.seq (.opt space) (plus non_space)))))
          (.seq (.star space) .eol))))))

/-- The lines `std::getline` reads from a stream with the given content until
it fails: the text up to each line feed, and what follows the last one when it
is not empty; `line` holds the characters read so far. -/
def getlines_from (line : Str) : Str → List Str
  | [] => if line.isEmpty then [] else [line]
  | c :: rest => if c = '\n' then line :: getlines_from [] rest else getlines_from (line ++ [c]) rest

/-- The body of the loop of `IniParser::parse` for one line (lines 122-137):
the parser and `current_section` afterwards, or the exception.  A match has as
many entries as the expression has marked subexpressions, and one more, so
both tests of `match.size()` hold. -/
def parse_line (p : IniParser) (current_section : Str) (line_number : Nat) (line : Str) :
    Except ConfigParserException (IniParser × Str) :=
  if line.isEmpty || (regex_match empty_regex line).isSome ||
      (regex_match comment_regex line).isSome then .ok (p, current_section)
  else
    match regex_match section_regex line with
    | some m => .ok (p, sub_match m 1)
    | none =>
      match regex_match value_regex line with
      | some m => .ok (⟨assign p.m_map current_section (sub_match m 1) (sub_match m 2)⟩,
          current_section)
      | none =>
        .error (.mk (lit "Failed to parse line " ++ to_string line_number ++ lit ": '" ++ line ++
          lit "'"))

/-- The loop of `IniParser::parse` over the lines: the parser it leaves behind,
and the exception when it throws. -/
def parse_lines : List Str → IniParser → Str → Nat → IniParser × Option ConfigParserException
  | [], p, _, _ => (p, none)
  | line :: rest, p, current_section, line_number =>
    match parse_line p current_section ((line_number + 1) % SIZE_MOD) line with
    | .ok next => parse_lines rest next.1 next.2 ((line_number + 1) % SIZE_MOD)
    | .error e => (p, some e)

/-- Method `IniParser::parse` on a stream with the given content. -/
def IniParser.parse (p : IniParser) (content : Str) : IniParser × Option ConfigParserException :=
  parse_lines (getlines_from [] content) p [] 0

end ConfigParser

namespace ConfigParser

open utils (Str lit)

/-- The parser after the calls `set(section, option, value)` for the entries of
the list, in order. -/
def set_all : IniParser → List (Str × Str × Str) → IniParser
  | p, [] => p
  | p, e :: rest => set_all (p.set e.1 e.2.1 e.2.2) rest

/-- The parser of the tests `Has`, `Set` and `Get` after
`set("foo", "bar", "value")`. -/
def parser_foo_bar : IniParser := IniParser.empty.set (lit "foo") (lit "bar") (lit "value")

end ConfigParser

/-! ## The loop of `parse` -/

namespace utils
open ArgumentParser

theorem parse_option_cases (p : ArgumentParser) (idx : Nat) (values : List Str) :
    parse_option p idx values = .undefined ∨
    (∃ p', parse_option p idx values = .ok p') ∨
    (∃ e p', parse_option p idx values = .throws e p') := by
  cases h : parse_option p idx values with
  | ok a => exact Or.inr (Or.inl ⟨a, rfl⟩)
  | throws e s => exact Or.inr (Or.inr ⟨e, s, rfl⟩)
  | undefined => exact Or.inl rfl

/-- An occurrence that `Option::parse` accepts has one value per argument. -/
theorem parse_option_ok_length (p q : ArgumentParser) (idx : Nat) (values : List Str)
    (o : OptionEntry) (hopt : p.m_options[idx]? = some o)
    (h : parse_option p idx values = .ok q) :
    values.length = o.m_number_of_arguments := by
  unfold parse_option at h
  rw [hopt] at h
  simp only at h
  by_contra hne
  unfold OptionEntry.parse at h
  rw [if_pos hne] at h
  cases h

/-- An occurrence that `Option::parse` accepts has one value per argument, so
none is missing. -/
theorem parse_option_ok_missing (p q : ArgumentParser) (idx : Nat) (values : List Str)
    (o : OptionEntry) (hopt : p.m_options[idx]? = some o)
    (h : parse_option p idx values = .ok q) :
    missing_arguments o.m_number_of_arguments values = 0 := by
  have hlen := parse_option_ok_length p q idx values o hopt h
  unfold missing_arguments
  rw [hlen]
  have : o.m_number_of_arguments + SIZE_MOD - o.m_number_of_arguments = SIZE_MOD := by omega
  rw [this, Nat.mod_self]

theorem parse_single_option_current_lt (argv : List Str) (current : Nat) (ind : Bool)
    (p : ArgumentParser) (arg : Str) (s : LoopState)
    (h : parse_single_option argv current ind p arg = .ok s) : current < s.current := by
  unfold parse_single_option at h
  simp only at h
  split at h
  · cases h
  · split at h
    · cases h
    · rename_i o hopt
      split at h
      · rename_i hguard
        split at h
        · split at h
          · split at h
            · cases h; simp; omega
            · cases h
            · cases h
          · cases h
        · split at h
          · rename_i q hq
            have := parse_option_ok_missing p q _ _ o hopt hq
            omega
          · cases h
          · cases h
      · split at h
        · cases h; simp
        · cases h
        · cases h

/-- Every iteration of the loop moves the cursor forward. -/
theorem parse_step_current_lt (argv : List Str) (current : Nat) (ind : Bool)
    (p : ArgumentParser) (s : LoopState) (h : parse_step argv current ind p = .ok s) :
    current < s.current := by
  unfold parse_step at h
  simp only at h
  split at h
  · cases h; simp
  · split at h
    · split at h
      · cases h
      · cases h; simp
    · split at h
      · split at h
        · cases h
        · split at h
          · split at h
            · cases h; simp
            · cases h
            · cases h
          · exact parse_single_option_current_lt _ _ _ _ _ _ h
      · cases h

/-- The result of the loop does not depend on the fuel once there is enough of
it: `argv.length - current` iterations suffice. -/
theorem parse_loop_fuel (argv : List Str) :
    ∀ (f1 f2 current : Nat) (ind : Bool) (p : ArgumentParser),
      argv.length ≤ f1 + current → argv.length ≤ f2 + current →
      parse_loop argv f1 current ind p = parse_loop argv f2 current ind p := by
  intro f1
  induction f1 with
  | zero =>
    intro f2 current ind p h1 _
    cases f2 with
    | zero => rfl
    | succ f2 =>
      have : ¬ current < argv.length := by omega
      simp [parse_loop, this]
  | succ f1 ih =>
    intro f2 current ind p h1 h2
    cases f2 with
    | zero =>
      have : ¬ current < argv.length := by omega
      simp [parse_loop, this]
    | succ f2 =>
      simp only [parse_loop]
      by_cases hc : current < argv.length
      · simp only [hc, if_true]
        cases hs : parse_step argv current ind p with
        | ok s =>
          have hlt := parse_step_current_lt argv current ind p s hs
          simp only
          exact ih f2 s.current s.positional_indicator_set s.parser (by omega) (by omega)
        | throws e s => rfl
        | undefined => rfl
      · simp [hc]

/-! ## What parsing leaves untouched -/

theorem set_self {α : Type} (l : List α) (i : Nat) (a : α) (h : l[i]? = some a) :
    l.set i a = l := by
  apply List.ext_getElem?
  intro n
  by_cases hn : i = n
  · subst hn
    rw [List.getElem?_set]
    simp only [if_true]
    rw [h]
    have : i < l.length := by
      by_contra hc
      rw [List.getElem?_eq_none (by omega)] at h
      cases h
    simp [this]
  · rw [List.getElem?_set_ne hn]

theorem put_option_self (p : ArgumentParser) (idx : Nat) (o : OptionEntry)
    (h : p.m_options[idx]? = some o) : p.put_option idx o = p := by
  unfold put_option
  rw [set_self _ _ _ h]

theorem parse_choices_frame (values : List Str) :
    ∀ (k i : Nat) (o : OptionEntry),
      (∀ o', OptionEntry.parse_choices values k i o = .ok o' →
        o'.reset_storage = o.reset_storage) ∧
      (∀ e o', OptionEntry.parse_choices values k i o = .throws e o' →
        o'.reset_storage = o.reset_storage) := by
  intro k
  induction k with
  | zero =>
    intro i o
    constructor
    · intro o' h
      simp only [OptionEntry.parse_choices] at h
      cases h; rfl
    · intro e o' h
      simp only [OptionEntry.parse_choices] at h
      cases h
  | succ k ih =>
    intro i o
    simp only [OptionEntry.parse_choices]
    cases hc : o.m_choices[i]? with
    | none => simp
    | some cs =>
      cases hv : values[i]? with
      | none => simp
      | some v =>
        simp only
        by_cases hin : cs.contains v = true
        · simp only [hin, if_true]
          have := ih (i + 1) { o with m_storage := o.m_storage ++ [v] }
          constructor
          · intro o' h
            rw [this.1 o' h]; rfl
          · intro e o' h
            rw [this.2 e o' h]; rfl
        · simp only [hin]
          constructor
          · intro o' h
            simp at h
          · intro e o' h
            simp at h
            rw [← h.2]

theorem option_parse_frame (o : OptionEntry) (values : List Str) :
    (∀ o', o.parse values = .ok o' → o'.reset_storage = o.reset_storage) ∧
    (∀ e o', o.parse values = .throws e o' → o'.reset_storage = o.reset_storage) := by
  unfold OptionEntry.parse
  split
  · constructor
    · intro o' h; cases h
    · intro e o' h; cases h; rfl
  · split
    · constructor
      · intro o' h; cases h
      · intro e o' h; cases h; rfl
    · split
      · constructor
        · intro o' h; cases h; rfl
        · intro e o' h; cases h
      · split
        · exact parse_choices_frame values _ 0 o
        · constructor
          · intro o' h; cases h; rfl
          · intro e o' h; cases h

theorem put_option_frame (p : ArgumentParser) (idx : Nat) (o o' : OptionEntry)
    (h : p.m_options[idx]? = some o) (hr : o'.reset_storage = o.reset_storage) :
    (p.put_option idx o').reset_storage = p.reset_storage ∧
    (p.put_option idx o').m_positionals = p.m_positionals := by
  constructor
  · unfold put_option ArgumentParser.reset_storage
    simp only [List.map_set]
    rw [hr, set_self]
    rw [List.getElem?_map, h]; rfl
  · rfl

theorem parse_option_frame (p : ArgumentParser) (idx : Nat) (values : List Str) :
    (∀ p', parse_option p idx values = .ok p' →
      p'.reset_storage = p.reset_storage ∧ p'.m_positionals = p.m_positionals) ∧
    (∀ e p', parse_option p idx values = .throws e p' →
      p'.reset_storage = p.reset_storage ∧ p'.m_positionals = p.m_positionals) := by
  unfold parse_option
  cases ho : p.m_options[idx]? with
  | none => simp
  | some o =>
    simp only
    cases hp : o.parse values with
    | ok o' =>
      simp only
      constructor
      · intro p' h
        cases h
        exact put_option_frame p idx o o' ho ((option_parse_frame o values).1 o' hp)
      · intro e p' h; cases h
    | throws e o' =>
      simp only
      constructor
      · intro p' h; cases h
      · intro e' p' h
        cases h
        exact put_option_frame p idx o o' ho ((option_parse_frame o values).2 e o' hp)
    | undefined => simp

theorem parse_group_frame (arg : Str) :
    ∀ (cs : List Char) (p : ArgumentParser),
      (∀ p', parse_group arg cs p = .ok p' →
        p'.reset_storage = p.reset_storage ∧ p'.m_positionals = p.m_positionals) ∧
      (∀ e p', parse_group arg cs p = .throws e p' →
        p'.reset_storage = p.reset_storage ∧ p'.m_positionals = p.m_positionals) := by
  intro cs
  induction cs with
  | nil =>
    intro p
    simp only [parse_group]
    constructor
    · intro p' h; cases h; exact ⟨rfl, rfl⟩
    · intro e p' h; cases h
  | cons c cs ih =>
    intro p
    simp only [parse_group]
    split
    · constructor
      · intro p' h; cases h
      · intro e p' h; cases h; exact ⟨rfl, rfl⟩
    · split
      · constructor
        · intro p' h; cases h
        · intro e p' h; cases h; exact ⟨rfl, rfl⟩
      · rename_i idx hidx
        cases hp : parse_option p idx [] with
        | ok p1 =>
          have h1 := (parse_option_frame p idx []).1 p1 hp
          simp only
          constructor
          · intro p' h
            have := (ih p1).1 p' h
            exact ⟨this.1.trans h1.1, this.2.trans h1.2⟩
          · intro e p' h
            have := (ih p1).2 e p' h
            exact ⟨this.1.trans h1.1, this.2.trans h1.2⟩
        | throws e p1 =>
          simp only
          constructor
          · intro p' h; cases h
          · intro e' p' h
            cases h
            exact (parse_option_frame p idx []).2 e p1 hp
        | undefined => simp

theorem arities_ok_of_reset (p p' : ArgumentParser)
    (h : p'.reset_storage = p.reset_storage) (hp : arities_ok p) : arities_ok p' := by
  intro o' ho'
  have hm : p'.m_options.map OptionEntry.reset_storage =
      p.m_options.map OptionEntry.reset_storage := congrArg ArgumentParser.m_options h
  have h1 : o'.reset_storage ∈ p'.m_options.map OptionEntry.reset_storage :=
    List.mem_map_of_mem _ ho'
  rw [hm] at h1
  obtain ⟨o, ho, heq⟩ := List.mem_map.mp h1
  have := congrArg OptionEntry.m_number_of_arguments heq
  simp only [OptionEntry.reset_storage] at this
  rw [← this]
  exact hp o ho

theorem arity_lt_of_ok (p : ArgumentParser) (idx : Nat) (o : OptionEntry)
    (hp : arities_ok p) (h : p.m_options[idx]? = some o) :
    o.m_number_of_arguments < UINT_MOD :=
  hp o (List.getElem?_mem h)

theorem inline_values_length (value : Str) : (inline_values value).length ≤ 1 := by
  unfold inline_values
  split <;> simp

/-! ## The size arithmetic of line 115-118 -/

theorem guard_arith (n k c L : Nat) (hn : n < UINT_MOD) (hk : k ≤ 1) (hc1 : 1 ≤ c)
    (hcL : c < L) (hL : L < ARGV_MAX) :
    (k ≤ n → (n + SIZE_MOD - k) % SIZE_MOD = n - k) ∧
    ((0 < (n + SIZE_MOD - k) % SIZE_MOD ∧
        (c + (n + SIZE_MOD - k) % SIZE_MOD) % SIZE_MOD < L) ↔
      (n < k ∨ (k < n ∧ c + (n - k) < L))) ∧
    (c + 1 + (n + SIZE_MOD - k) % SIZE_MOD ≤ L ↔ k ≤ n ∧ c + (n - k) < L) := by
  unfold SIZE_MOD UINT_MOD ARGV_MAX at *
  norm_num at *
  omega

theorem guard_arith_sign (n k c : Nat) (hn : n < UINT_MOD) (hk : k ≤ 1) (hc1 : 1 ≤ c)
    (hc : c < SIZE_MOD) :
    ((n + SIZE_MOD - k) % SIZE_MOD ≤ PTRDIFF_MAX ↔ k ≤ n) ∧
    (n < k → (c + (n + SIZE_MOD - k) % SIZE_MOD) % SIZE_MOD + 1 = c) := by
  unfold SIZE_MOD UINT_MOD PTRDIFF_MAX at *
  norm_num at *
  omega

/-- The branch for one option token, with the `size_t` arithmetic resolved:
with more inline values than the arity (a flag with an inline value) nothing is
copied and `Option::parse` gets the inline value; otherwise the missing values
are copied when enough tokens follow, and `Option::parse` gets the inline
values alone when not. -/
theorem parse_single_option_eq (argv : List Str) (c : Nat) (ind : Bool)
    (p : ArgumentParser) (arg : Str) (idx : Nat) (o : OptionEntry)
    (hc1 : 1 ≤ c) (hcL : c < argv.length) (hL : argv.length < ARGV_MAX)
    (hfind : find_option_to_parse p (split_argument_text arg).1 = .ok idx)
    (hopt : p.m_options[idx]? = some o) (hn : o.m_number_of_arguments < UINT_MOD) :
    parse_single_option argv c ind p arg =
      if o.m_number_of_arguments < (inline_values (split_argument_text arg).2).length then
        match parse_option p idx (inline_values (split_argument_text arg).2) with
        | .ok p' => .ok ⟨c, ind, p'⟩
        | .throws e p' => .throws e p'
        | .undefined => .undefined
      else if (inline_values (split_argument_text arg).2).length < o.m_number_of_arguments ∧
          c + (o.m_number_of_arguments - (inline_values (split_argument_text arg).2).length)
            < argv.length then
        match parse_option p idx (inline_values (split_argument_text arg).2 ++
            (argv.drop (c + 1)).take
              (o.m_number_of_arguments - (inline_values (split_argument_text arg).2).length)) with
        | .ok p' => .ok ⟨c + (o.m_number_of_arguments -
            (inline_values (split_argument_text arg).2).length) + 1, ind, p'⟩
        | .throws e p' => .throws e p'
        | .undefined => .undefined
      else
        match parse_option p idx (inline_values (split_argument_text arg).2) with
        | .ok p' => .ok ⟨c + 1, ind, p'⟩
        | .throws e p' => .throws e p'
        | .undefined => .undefined := by
  unfold parse_single_option
  simp only [hfind, hopt, missing_arguments]
  have hk := inline_values_length (split_argument_text arg).2
  obtain ⟨h1, h2, h3⟩ := guard_arith o.m_number_of_arguments
    (inline_values (split_argument_text arg).2).length c argv.length hn hk hc1 hcL hL
  have hcS : c < SIZE_MOD := by
    unfold ARGV_MAX at hL
    unfold SIZE_MOD
    norm_num at *
    omega
  obtain ⟨h4, h5⟩ := guard_arith_sign o.m_number_of_arguments
    (inline_values (split_argument_text arg).2).length c hn hk hc1 hcS
  by_cases hlt : o.m_number_of_arguments < (inline_values (split_argument_text arg).2).length
  · have hg := h2.mpr (Or.inl hlt)
    have hsign : ¬ ((o.m_number_of_arguments + SIZE_MOD -
        (inline_values (split_argument_text arg).2).length) % SIZE_MOD ≤ PTRDIFF_MAX) := by
      rw [h4]; omega
    rw [if_pos hg, if_neg hsign, if_pos hlt, h5 hlt]
  · have hm := h1 (by omega)
    have hsign := h4.mpr (by omega)
    by_cases hcopy : (inline_values (split_argument_text arg).2).length < o.m_number_of_arguments ∧
        c + (o.m_number_of_arguments - (inline_values (split_argument_text arg).2).length)
          < argv.length
    · have hg := h2.mpr (Or.inr hcopy)
      have hin := h3.mpr ⟨by omega, hcopy.2⟩
      rw [if_pos hg, if_pos hsign, if_pos hin, if_neg hlt, if_pos hcopy, hm]
    · have hg : ¬ (0 < (o.m_number_of_arguments + SIZE_MOD -
          (inline_values (split_argument_text arg).2).length) % SIZE_MOD ∧
          (c + (o.m_number_of_arguments + SIZE_MOD -
            (inline_values (split_argument_text arg).2).length) % SIZE_MOD) % SIZE_MOD
            < argv.length) := by
        rw [h2]; intro hh
        rcases hh with hh | hh
        · exact hlt hh
        · exact hcopy hh
      rw [if_neg hg, if_neg hlt, if_neg hcopy]

theorem lift_option_frame (p : ArgumentParser) (idx : Nat) (vs : List Str) (n : Nat)
    (ind : Bool) :
    (∀ s, (match parse_option p idx vs with
        | .ok p' => (Outcome.ok ⟨n, ind, p'⟩ : Outcome LoopState ArgumentParser)
        | .throws e p' => .throws e p'
        | .undefined => .undefined) = .ok s →
      s.parser.reset_storage = p.reset_storage ∧ s.parser.m_positionals = p.m_positionals ∧
        s.positional_indicator_set = ind) ∧
    (∀ e p', (match parse_option p idx vs with
        | .ok p' => (Outcome.ok ⟨n, ind, p'⟩ : Outcome LoopState ArgumentParser)
        | .throws e p' => .throws e p'
        | .undefined => .undefined) = .throws e p' →
      p'.reset_storage = p.reset_storage ∧ p'.m_positionals = p.m_positionals) := by
  have hf := parse_option_frame p idx vs
  cases hp : parse_option p idx vs with
  | ok p1 =>
    simp only
    constructor
    · intro s h; cases h
      exact ⟨(hf.1 p1 hp).1, (hf.1 p1 hp).2, rfl⟩
    · intro e p' h; cases h
  | throws e p1 =>
    simp only
    constructor
    · intro s h; cases h
    · intro e' p' h; cases h; exact hf.2 e p1 hp
  | undefined =>
    simp only
    constructor
    · intro s h; cases h
    · intro e p' h; cases h

theorem parse_single_option_frame (argv : List Str) (c : Nat) (ind : Bool)
    (p : ArgumentParser) (arg : Str) :
    (∀ s, parse_single_option argv c ind p arg = .ok s →
      s.parser.reset_storage = p.reset_storage ∧ s.parser.m_positionals = p.m_positionals ∧
        s.positional_indicator_set = ind) ∧
    (∀ e p', parse_single_option argv c ind p arg = .throws e p' →
      p'.reset_storage = p.reset_storage ∧ p'.m_positionals = p.m_positionals) := by
  unfold parse_single_option
  simp only
  cases hfind : find_option_to_parse p (split_argument_text arg).1 with
  | error e =>
    simp only
    constructor
    · intro s h; cases h
    · intro e p' h; cases h; exact ⟨rfl, rfl⟩
  | ok idx =>
    simp only
    cases hopt : p.m_options[idx]? with
    | none =>
      simp only
      constructor
      · intro s h; cases h
      · intro e p' h; cases h
    | some o =>
      simp only
      split
      · split
        · split
          · exact lift_option_frame p idx _ _ ind
          · constructor
            · intro s h; cases h
            · intro e p' h; cases h
        · exact lift_option_frame p idx _ _ ind
      · exact lift_option_frame p idx _ _ ind

/-- An iteration changes nothing but the stored values and the positionals. -/
theorem parse_step_frame (argv : List Str) (c : Nat) (ind : Bool) (p : ArgumentParser) :
    (∀ s, parse_step argv c ind p = .ok s → s.parser.reset_storage = p.reset_storage) ∧
    (∀ e p', parse_step argv c ind p = .throws e p' → p'.reset_storage = p.reset_storage) := by
  unfold parse_step
  simp only
  split
  · constructor
    · intro s h; cases h; rfl
    · intro e p' h; cases h
  · split
    · split
      · constructor
        · intro s h; cases h
        · intro e p' h; cases h; rfl
      · constructor
        · intro s h; cases h; rfl
        · intro e p' h; cases h
    · split
      · split
        · constructor
          · intro s h; cases h
          · intro e p' h; cases h; rfl
        · split
          · have hf := parse_group_frame (argv.getD c []) ((argv.getD c []).drop 1) p
            cases hp : parse_group (argv.getD c []) ((argv.getD c []).drop 1) p with
            | ok p1 =>
              simp only
              constructor
              · intro s h; cases h; exact (hf.1 p1 hp).1
              · intro e p' h; cases h
            | throws e p1 =>
              simp only
              constructor
              · intro s h; cases h
              · intro e' p' h; cases h; exact (hf.2 e p1 hp).1
            | undefined => simp
          · have hf := parse_single_option_frame argv c ind p (argv.getD c [])
            exact ⟨fun s h => (hf.1 s h).1, fun e p' h => (hf.2 e p' h).1⟩
      · constructor
        · intro s h; cases h
        · intro e p' h; cases h; rfl

/-! ## Runs over argument lists that share a tail -/

theorem getD_of_drop_eq (argv argv' : List Str) (c c' : Nat)
    (h : argv.drop c = argv'.drop c') : argv.getD c [] = argv'.getD c' [] := by
  have h0 := congrArg (fun l => l[0]?) h
  simp only [List.getElem?_drop, Nat.add_zero] at h0
  simp only [List.getD_eq_getElem?_getD, h0]

theorem drop_succ_of_drop_eq (argv argv' : List Str) (c c' : Nat)
    (h : argv.drop c = argv'.drop c') : argv.drop (c + 1) = argv'.drop (c' + 1) := by
  have := congrArg (List.drop 1) h
  simpa only [List.drop_drop] using this

theorem length_of_drop_eq (argv argv' : List Str) (c c' : Nat)
    (h : argv.drop c = argv'.drop c') : argv.length - c = argv'.length - c' := by
  have := congrArg List.length h
  simpa only [List.length_drop] using this

theorem reindex_lift (p : ArgumentParser) (idx : Nat) (vs : List Str) (n n' : Nat) (ind : Bool)
    (f : Nat → Nat) (h : f n = n') :
    reindex f (match parse_option p idx vs with
        | .ok p' => (Outcome.ok ⟨n, ind, p'⟩ : Outcome LoopState ArgumentParser)
        | .throws e p' => .throws e p'
        | .undefined => .undefined) =
      (match parse_option p idx vs with
        | .ok p' => (Outcome.ok ⟨n', ind, p'⟩ : Outcome LoopState ArgumentParser)
        | .throws e p' => .throws e p'
        | .undefined => .undefined) := by
  cases parse_option p idx vs <;> simp [reindex, h]

theorem parse_single_option_shift (argv argv' : List Str) (c c' : Nat) (ind : Bool)
    (p : ArgumentParser) (arg : Str)
    (hdrop : argv.drop c = argv'.drop c')
    (hc1 : 1 ≤ c) (hcL : c < argv.length) (hL : argv.length < ARGV_MAX)
    (hc1' : 1 ≤ c') (hL' : argv'.length < ARGV_MAX)
    (har : arities_ok p) :
    reindex (fun x => x - c + c') (parse_single_option argv c ind p arg) =
      parse_single_option argv' c' ind p arg := by
  have hlen := length_of_drop_eq argv argv' c c' hdrop
  have hcL' : c' < argv'.length := by omega
  have hd1 := drop_succ_of_drop_eq argv argv' c c' hdrop
  cases hfind : find_option_to_parse p (split_argument_text arg).1 with
  | error e =>
    unfold parse_single_option
    simp only [hfind, reindex]
  | ok idx =>
    cases hopt : p.m_options[idx]? with
    | none =>
      unfold parse_single_option
      simp only [hfind, hopt, reindex]
    | some o =>
      have hn := arity_lt_of_ok p idx o har hopt
      rw [parse_single_option_eq argv c ind p arg idx o hc1 hcL hL hfind hopt hn,
        parse_single_option_eq argv' c' ind p arg idx o hc1' hcL' hL' hfind hopt hn]
      by_cases h1 : o.m_number_of_arguments < (inline_values (split_argument_text arg).2).length
      · simp only [h1, if_true]
        exact reindex_lift _ _ _ _ _ _ _ (by omega)
      · simp only [h1, if_false]
        by_cases h2 : (inline_values (split_argument_text arg).2).length < o.m_number_of_arguments ∧
            c + (o.m_number_of_arguments - (inline_values (split_argument_text arg).2).length)
              < argv.length
        · have h2' : (inline_values (split_argument_text arg).2).length < o.m_number_of_arguments ∧
              c' + (o.m_number_of_arguments - (inline_values (split_argument_text arg).2).length)
                < argv'.length := ⟨h2.1, by omega⟩
          simp only [h2, h2', and_self, if_true, hd1]
          exact reindex_lift _ _ _ _ _ _ _ (by omega)
        · have h2' : ¬ ((inline_values (split_argument_text arg).2).length < o.m_number_of_arguments ∧
              c' + (o.m_number_of_arguments - (inline_values (split_argument_text arg).2).length)
                < argv'.length) := by
            intro hh; exact h2 ⟨hh.1, by omega⟩
          simp only [h2, h2', if_false]
          exact reindex_lift _ _ _ _ _ _ _ (by omega)

/-- One iteration depends on the argument list only through the token under the
cursor and the tokens after it. -/
theorem parse_step_shift (argv argv' : List Str) (c c' : Nat) (ind : Bool)
    (p : ArgumentParser)
    (hdrop : argv.drop c = argv'.drop c')
    (hc1 : 1 ≤ c) (hcL : c < argv.length) (hL : argv.length < ARGV_MAX)
    (hc1' : 1 ≤ c') (hL' : argv'.length < ARGV_MAX)
    (har : arities_ok p) :
    reindex (fun x => x - c + c') (parse_step argv c ind p) = parse_step argv' c' ind p := by
  have harg := getD_of_drop_eq argv argv' c c' hdrop
  have hso := parse_single_option_shift argv argv' c c' ind p (argv'.getD c' []) hdrop
    hc1 hcL hL hc1' hL' har
  unfold parse_step
  simp only [harg]
  split
  · simp only [reindex]
    congr 2; omega
  · split
    · split
      · simp only [reindex]
      · simp only [reindex]
        congr 2; omega
    · split
      · split
        · simp only [reindex]
        · split
          · cases parse_group (argv'.getD c' []) ((argv'.getD c' []).drop 1) p with
            | ok p1 => simp only [reindex]; congr 2; omega
            | throws e p1 => simp only [reindex]
            | undefined => simp only [reindex]
          · exact hso
      · simp only [reindex]

/-- The loop depends on the argument list only through the tokens from the
cursor on. -/
theorem parse_loop_shift (argv argv' : List Str) :
    ∀ (f f' c c' : Nat) (ind : Bool) (p : ArgumentParser),
      argv.drop c = argv'.drop c' → 1 ≤ c → 1 ≤ c' →
      argv.length < ARGV_MAX → argv'.length < ARGV_MAX → arities_ok p →
      argv.length ≤ f + c → argv'.length ≤ f' + c' →
      parse_loop argv f c ind p = parse_loop argv' f' c' ind p := by
  intro f
  induction f with
  | zero =>
    intro f' c c' ind p hdrop _ _ _ _ _ hf hf'
    have hlen := length_of_drop_eq argv argv' c c' hdrop
    have hn : ¬ c' < argv'.length := by omega
    cases f' with
    | zero => rfl
    | succ f' => simp [parse_loop, hn]
  | succ f ih =>
    intro f' c c' ind p hdrop hc1 hc1' hL hL' har hf hf'
    have hlen := length_of_drop_eq argv argv' c c' hdrop
    by_cases hc : c < argv.length
    · have hc' : c' < argv'.length := by omega
      obtain ⟨f'', rfl⟩ : ∃ f'', f' = f'' + 1 := ⟨f' - 1, by omega⟩
      simp only [parse_loop, hc, hc', if_true]
      rw [← parse_step_shift argv argv' c c' ind p hdrop hc1 hc hL hc1' hL' har]
      cases hs : parse_step argv c ind p with
      | ok s =>
        have hlt := parse_step_current_lt argv c ind p s hs
        have hfr := (parse_step_frame argv c ind p).1 s hs
        simp only [reindex]
        apply ih
        · have e1 : s.current = c + (s.current - c) := by omega
          have e2 : s.current - c + c' = c' + (s.current - c) := by omega
          rw [e2, e1, ← List.drop_drop, ← List.drop_drop, hdrop]
          simp
        · omega
        · omega
        · exact hL
        · exact hL'
        · exact arities_ok_of_reset p s.parser hfr har
        · omega
        · omega
      | throws e q => simp only [reindex]
      | undefined => simp only [reindex]
    · have hc' : ¬ c' < argv'.length := by omega
      cases f' with
      | zero => simp [parse_loop, hc]
      | succ f' => simp [parse_loop, hc, hc']

/-! ## Positional mode -/

theorem collect_positionals_nil (p : ArgumentParser) : collect_positionals p [] = .ok p := by
  simp [collect_positionals]

theorem collect_positionals_cons (p : ArgumentParser) (arg : Str) (rest : List Str) :
    collect_positionals p (arg :: rest) =
      if p.m_positionals.length ≥ p.m_number_of_maximum_positionals then
        .throws (.ParsingException (lit "Found an additional positional argument '" ++ arg ++
          lit "', although maximum number of positional arguments is already reached.")) p
      else
        collect_positionals { p with m_positionals := p.m_positionals ++ [arg] } rest := by
  by_cases h : p.m_positionals.length ≥ p.m_number_of_maximum_positionals
  · have h0 : p.m_number_of_maximum_positionals - p.m_positionals.length = 0 := by omega
    simp [collect_positionals, h, h0]
  · obtain ⟨r, hr⟩ : ∃ r, p.m_number_of_maximum_positionals - p.m_positionals.length = r + 1 :=
      ⟨p.m_number_of_maximum_positionals - p.m_positionals.length - 1, by omega⟩
    have hr' : p.m_number_of_maximum_positionals - (p.m_positionals.length + 1) = r := by omega
    simp only [collect_positionals, h, if_false, hr, List.length_cons, List.length_append,
      List.length_nil, hr', Nat.add_le_add_iff_right, List.take_succ_cons, List.append_assoc,
      List.singleton_append, Nat.zero_add]
    by_cases hle : rest.length ≤ r
    · simp [hle]
    · simp [hle]

/-- Once the separator has been consumed every remaining token is collected as
a positional. -/
theorem parse_loop_positional_mode (argv : List Str) :
    ∀ (fuel c : Nat) (p : ArgumentParser), argv.length ≤ fuel + c →
      parse_loop argv fuel c true p = collect_positionals p (argv.drop c) := by
  intro fuel
  induction fuel with
  | zero =>
    intro c p h
    rw [List.drop_of_length_le (by omega), collect_positionals_nil]
    rfl
  | succ fuel ih =>
    intro c p h
    by_cases hc : c < argv.length
    · rw [List.drop_eq_getElem_cons hc, collect_positionals_cons]
      have hg : argv.getD c [] = argv[c] := by
        simp [List.getD_eq_getElem?_getD, List.getElem?_eq_getElem hc]
      simp only [parse_loop, hc, if_true, parse_step, hg]
      by_cases hmax : p.m_positionals.length ≥ p.m_number_of_maximum_positionals
      · simp [hmax]
      · simp only [Bool.not_true, Bool.false_and, Bool.true_or, if_true, hmax, if_false]
        simp only [Bool.false_eq_true, if_false]
        exact ih (c + 1) _ (by omega)
    · rw [List.drop_of_length_le (by omega), collect_positionals_nil]
      simp [parse_loop, hc]

/-- C1: when the loop reaches the first `--` token (no separator consumed so
far), that token is dropped and every later token - whatever it looks like - is
appended in order to the positionals, up to the maximum count; the first token
beyond the maximum raises the parsing error.  No later token is dispatched as an
option. -/
theorem C1_separator_forces_positionals (argv : List Str) (fuel current : Nat)
    (p : ArgumentParser) (hcur : current < argv.length)
    (hsep : argv.getD current [] = lit "--") (hfuel : argv.length ≤ fuel + current) :
    parse_step argv current false p = .ok ⟨current + 1, true, p⟩ ∧
    parse_loop argv fuel current false p = collect_positionals p (argv.drop (current + 1)) := by
  have hstep : parse_step argv current false p = .ok ⟨current + 1, true, p⟩ := by
    simp only [parse_step, hsep]
    rfl
  refine ⟨hstep, ?_⟩
  obtain ⟨f, rfl⟩ : ∃ f, fuel = f + 1 := ⟨fuel - 1, by omega⟩
  simp only [parse_loop, hcur, if_true, hstep]
  rw [parse_loop_positional_mode argv f (current + 1) p (by omega)]

/-- The example of C1 and of the test `ParsePositionalIndicator`: in
`[app, p1, --, -p]` the loop reaches `--` at index 2 with `p1` collected, and
ends with the positionals `[p1, -p]`. -/
theorem C1_separator_forces_positionals_witness :
    parse_step [lit "app", lit "p1", lit "--", lit "-p"] 2 false
        { parser_indicator with m_positionals := [lit "p1"] } =
      .ok ⟨3, true, { parser_indicator with m_positionals := [lit "p1"] }⟩ ∧
    parse_loop [lit "app", lit "p1", lit "--", lit "-p"] 2 2 false
        { parser_indicator with m_positionals := [lit "p1"] } =
      collect_positionals { parser_indicator with m_positionals := [lit "p1"] }
        (List.drop (2 + 1) [lit "app", lit "p1", lit "--", lit "-p"]) :=
  C1_separator_forces_positionals [lit "app", lit "p1", lit "--", lit "-p"] 2 2
    { parser_indicator with m_positionals := [lit "p1"] } (by decide) (by decide) (by decide)

/-! ## Tokens of option form -/

theorem option_form_facts (arg : Str)
    (h : (is_short_option_name arg || is_long_option arg) = true) :
    arg ≠ lit "--" ∧ at_ arg 0 = '-' ∧ arg ≠ [] := by
  refine ⟨?_, ?_, ?_⟩
  · intro he
    subst he
    revert h
    decide
  · simp only [is_short_option_name, is_long_option, Bool.or_eq_true, Bool.and_eq_true,
      beq_iff_eq] at h
    rcases h with h | h
    · exact h.1.2
    · exact h.1.1.1.2
  · intro he
    subst he
    revert h
    decide

/-- An iteration on a token of option form before any separator: the
interleaving check, then the group loop or the single-option branch. -/
theorem parse_step_option_form (argv : List Str) (c : Nat) (p : ArgumentParser)
    (h : (is_short_option_name (argv.getD c []) || is_long_option (argv.getD c [])) = true) :
    parse_step argv c false p =
      if !p.m_positionals.isEmpty then
        .throws (.ParsingException
          (lit "Found an option after a positional was given '" ++ argv.getD c [] ++ lit "'")) p
      else if is_short_option_group_name (argv.getD c []) then
        match parse_group (argv.getD c []) ((argv.getD c []).drop 1) p with
        | .ok p' => .ok ⟨c + 1, false, p'⟩
        | .throws e p' => .throws e p'
        | .undefined => .undefined
      else parse_single_option argv c false p (argv.getD c []) := by
  obtain ⟨h1, h2, h3⟩ := option_form_facts _ h
  unfold parse_step
  simp only
  have e1 : (!false && argv.getD c [] == lit "--") = false := by
    simp only [Bool.not_false, Bool.true_and, beq_eq_false_iff_ne, ne_eq]
    exact h1
  have e2 : (false || (!(argv.getD c []).isEmpty && at_ (argv.getD c []) 0 != '-')) = false := by
    rw [h2]
    simp
  rw [e1, e2]
  simp only [Bool.false_eq_true, if_false, h, if_true]

/-- The single-option branch when the option is known, in terms of
`Option::parse` on the option itself. -/
theorem parse_option_eq (p : ArgumentParser) (idx : Nat) (o : OptionEntry) (values : List Str)
    (hopt : p.m_options[idx]? = some o) :
    parse_option p idx values =
      match o.parse values with
      | .ok o' => .ok (p.put_option idx o')
      | .throws e o' => .throws e (p.put_option idx o')
      | .undefined => .undefined := by
  simp only [parse_option, hopt]

theorem option_parse_store (o : OptionEntry) (values : List Str)
    (hlen : values.length = o.m_number_of_arguments) (hpos : 0 < o.m_number_of_arguments)
    (hch : o.m_choices = []) (hst : o.m_storage = [] ∨ o.m_is_appending = true) :
    o.parse values = .ok { o with m_storage := o.m_storage ++ values } := by
  unfold OptionEntry.parse
  have h1 : ¬ values.length ≠ o.m_number_of_arguments := by simp [hlen]
  have h2 : (!o.m_storage.isEmpty && !o.m_is_appending) = false := by
    rcases hst with h | h <;> simp [h]
  have h3 : ¬ o.m_number_of_arguments = 0 := by omega
  simp [h1, h2, h3, hch]

/-- C2: an option of arity `n` that occurs with `k < n` inline values and is
followed by at least `n - k` tokens takes exactly the next `n - k` tokens,
verbatim and in order, as its remaining values, whatever they look like:
`Option::parse` receives the inline values followed by these tokens, and the
loop resumes at the token after them.  When the option has no choices and
holds no values (or is appending) the values are stored as they are. -/
theorem C2_following_tokens_taken_verbatim (argv : List Str) (c : Nat) (p : ArgumentParser)
    (arg : Str) (idx : Nat) (o : OptionEntry)
    (harg : argv.getD c [] = arg)
    (hc1 : 1 ≤ c) (hL : argv.length < ARGV_MAX)
    (hform : (is_short_option_name arg || is_long_option arg) = true)
    (hng : is_short_option_group_name arg = false)
    (hpos : p.m_positionals = [])
    (hfind : find_option_to_parse p (split_argument_text arg).1 = .ok idx)
    (hopt : p.m_options[idx]? = some o)
    (hn : o.m_number_of_arguments < UINT_MOD)
    (hk : (inline_values (split_argument_text arg).2).length < o.m_number_of_arguments)
    (hfollow : c + (o.m_number_of_arguments - (inline_values (split_argument_text arg).2).length)
      < argv.length) :
    parse_step argv c false p =
      (match o.parse (inline_values (split_argument_text arg).2 ++
          (argv.drop (c + 1)).take
            (o.m_number_of_arguments - (inline_values (split_argument_text arg).2).length)) with
      | .ok o' => .ok ⟨c + (o.m_number_of_arguments -
          (inline_values (split_argument_text arg).2).length) + 1, false, p.put_option idx o'⟩
      | .throws e o' => .throws e (p.put_option idx o')
      | .undefined => .undefined) ∧
    (o.m_choices = [] → (o.m_storage = [] ∨ o.m_is_appending = true) →
      ∀ fuel, parse_loop argv (fuel + 1) c false p =
        parse_loop argv fuel
          (c + (o.m_number_of_arguments - (inline_values (split_argument_text arg).2).length) + 1)
          false
          (p.put_option idx { o with m_storage := o.m_storage ++
            (inline_values (split_argument_text arg).2 ++ (argv.drop (c + 1)).take
              (o.m_number_of_arguments -
                (inline_values (split_argument_text arg).2).length)) })) := by
  subst harg
  have hcL : c < argv.length := by omega
  have hstep : parse_step argv c false p =
      (match o.parse (inline_values (split_argument_text (argv.getD c [])).2 ++
          (argv.drop (c + 1)).take (o.m_number_of_arguments -
            (inline_values (split_argument_text (argv.getD c [])).2).length)) with
      | .ok o' => .ok ⟨c + (o.m_number_of_arguments -
          (inline_values (split_argument_text (argv.getD c [])).2).length) + 1, false,
            p.put_option idx o'⟩
      | .throws e o' => .throws e (p.put_option idx o')
      | .undefined => .undefined) := by
    rw [parse_step_option_form argv c p hform]
    simp only [hpos, List.isEmpty_nil, Bool.not_true, Bool.false_eq_true, if_false, hng]
    rw [parse_single_option_eq argv c false p _ idx o hc1 hcL hL hfind hopt hn]
    have h1 : ¬ o.m_number_of_arguments <
        (inline_values (split_argument_text (argv.getD c [])).2).length := by omega
    simp only [h1, if_false, hk, hfollow, and_self, if_true]
    rw [parse_option_eq p idx o _ hopt]
    cases o.parse (inline_values (split_argument_text (argv.getD c [])).2 ++
          (argv.drop (c + 1)).take (o.m_number_of_arguments -
            (inline_values (split_argument_text (argv.getD c [])).2).length)) <;> rfl
  refine ⟨hstep, ?_⟩
  intro hch hst fuel
  have hlen : (inline_values (split_argument_text (argv.getD c [])).2 ++
      (argv.drop (c + 1)).take (o.m_number_of_arguments -
        (inline_values (split_argument_text (argv.getD c [])).2).length)).length =
      o.m_number_of_arguments := by
    simp only [List.length_append, List.length_take, List.length_drop]
    omega
  simp only [parse_loop, hcL, if_true, hstep]
  rw [option_parse_store o _ hlen (by omega) hch hst]

/-- The example of C2 with tokens that look like options: in
`[app, --multi, -s, --, c, p]` the option `--multi` of arity 3 takes `-s`, `--`
and `c`, and the loop resumes at `p`. -/
theorem C2_following_tokens_taken_verbatim_witness :
    parse_step [lit "app", lit "--multi", lit "-s", lit "--", lit "c", lit "p"] 1 false
        parser_multi =
      .ok ⟨5, false, parser_multi.put_option 2
        { value_entry [lit "multi"] 3 with m_storage := [lit "-s", lit "--", lit "c"] }⟩ ∧
    parse_loop [lit "app", lit "--multi", lit "-s", lit "--", lit "c", lit "p"] 6 1 false
        parser_multi =
      parse_loop [lit "app", lit "--multi", lit "-s", lit "--", lit "c", lit "p"] 5 5 false
        (parser_multi.put_option 2
          { value_entry [lit "multi"] 3 with m_storage := [lit "-s", lit "--", lit "c"] }) :=
  have h := C2_following_tokens_taken_verbatim
    [lit "app", lit "--multi", lit "-s", lit "--", lit "c", lit "p"] 1 parser_multi
    (lit "--multi") 2 (value_entry [lit "multi"] 3)
    (by decide) (by decide) (by decide) (by decide) (by decide) (by decide) rfl
    (by decide) (by decide) (by decide) (by decide)
  ⟨h.1.trans (by decide), (h.2 rfl (Or.inl rfl) 5).trans (by rfl)⟩

/-! ## Names and tokens -/

theorem isalpha_ne_dash (c : Char) (h : isalpha c = true) : c ≠ '-' := by
  intro he
  subst he
  revert h
  decide

theorem isalpha_is_name_char (c : Char) (h : isalpha c = true) : is_name_char c = true := by
  simp [is_name_char, isalnum, h]

theorem is_long_name_facts (name : Str) (h : is_long_name name = true) :
    ∃ a b t, name = a :: b :: t ∧ isalpha a = true ∧ is_name_char b = true ∧
      (∀ x ∈ name, is_name_char x = true) := by
  simp only [is_long_name, Bool.and_eq_true, decide_eq_true_eq, List.all_eq_true] at h
  obtain ⟨⟨hlen, ha⟩, hall⟩ := h
  match name, hlen, ha, hall with
  | a :: b :: t, _, ha, hall =>
    refine ⟨a, b, t, rfl, ?_, ?_, hall⟩
    · simpa [at_] using ha
    · exact hall b (by simp)

/-- Lenient normalisation leaves a long name as it is. -/
theorem normalize_long_name (name : Str) (h : is_long_name name = true) :
    normalize_option_name name = .ok name := by
  obtain ⟨a, b, t, rfl, ha, hb, hall⟩ := is_long_name_facts name h
  have hne := isalpha_ne_dash a ha
  have hall' : ∀ x ∈ t, is_name_char x = true := fun x hx => hall x (by simp [hx])
  simp only [normalize_option_name, strictly_normalize_option_name, at_, lit]
  have hd : is_name_char '-' = true := by decide
  simp [hne, ha, hb, isalpha_is_name_char a ha, hd]
  exact hall'

theorem lit_dashes : lit "--" = ['-', '-'] := rfl

theorem lit_equals : lit "=" = ['='] := rfl

/-- How the loop reads a token `--name` followed by text that does not continue
the name: a long option, no short option and no group, split at the end of the
name. -/
theorem long_token_facts (name w : Str) (h : is_long_name name = true)
    (hw : ∀ c t, w = c :: t → is_name_char c = false) :
    is_short_option_name (lit "--" ++ name ++ w) = false ∧
    is_long_option (lit "--" ++ name ++ w) = true ∧
    is_short_option_group_name (lit "--" ++ name ++ w) = false ∧
    split_argument_text (lit "--" ++ name ++ w) = (name, w) := by
  obtain ⟨a, b, t, rfl, ha, hb, hall⟩ := is_long_name_facts name h
  have hdash : isalpha '-' = false := by decide
  have hs : is_short_option_name (lit "--" ++ (a :: b :: t) ++ w) = false := by
    simp [is_short_option_name, lit_dashes, at_, hdash]
  have htw : List.takeWhile is_name_char ((a :: b :: t) ++ w) = a :: b :: t := by
    rw [List.takeWhile_append_of_pos hall]
    cases w with
    | nil => simp
    | cons c t' =>
      have := hw c t' rfl
      simp [List.takeWhile_cons, this]
  refine ⟨hs, ?_, ?_, ?_⟩
  · simp [is_long_option, lit_dashes, at_, ha, hb]
  · simp [is_short_option_group_name, lit_dashes, at_, hdash]
  · unfold split_argument_text
    rw [hs]
    simp only [Bool.false_eq_true, if_false]
    have hd : List.drop 2 (lit "--" ++ (a :: b :: t) ++ w) = (a :: b :: t) ++ w := by
      simp [lit_dashes]
    rw [hd, htw]
    have hcur : 2 + (a :: b :: t).length - 2 = (a :: b :: t).length := by omega
    rw [hcur, List.take_left]
    congr 1
    apply List.drop_left'
    simp [lit_dashes]
    omega

theorem inline_values_equals (v : Str) : inline_values (lit "=" ++ v) = [v] := by
  simp [inline_values, lit_equals, at_]

/-! ## Looking options up -/

theorem find_option_iter_names (os os' : List OptionEntry) (name : Str)
    (h : os.map OptionEntry.m_names = os'.map OptionEntry.m_names) :
    find_option_iter os name = find_option_iter os' name := by
  induction os generalizing os' with
  | nil =>
    cases os' with
    | nil => rfl
    | cons o' os' => simp at h
  | cons o os ih =>
    cases os' with
    | nil => simp at h
    | cons o' os' =>
      simp only [List.map_cons, List.cons.injEq] at h
      simp only [find_option_iter, OptionEntry.has_name, h.1, ih os' h.2]

theorem find_option_iter_reset (os : List OptionEntry) (name : Str) :
    find_option_iter (os.map OptionEntry.reset_storage) name = find_option_iter os name := by
  apply find_option_iter_names
  simp [OptionEntry.reset_storage, Function.comp_def]

theorem find_option_iter_set (os : List OptionEntry) (name : Str) (idx : Nat)
    (o o' : OptionEntry) (hopt : os[idx]? = some o) (hn : o'.m_names = o.m_names) :
    find_option_iter (os.set idx o') name = find_option_iter os name := by
  apply find_option_iter_names
  rw [List.map_set, hn]
  apply set_self
  rw [List.getElem?_map, hopt]
  rfl

theorem find_option_iter_lt (os : List OptionEntry) (name : Str) (idx : Nat)
    (h : find_option_iter os name = some idx) :
    ∃ o, os[idx]? = some o ∧ o.has_name name = true := by
  induction os generalizing idx with
  | nil => simp [find_option_iter] at h
  | cons o os ih =>
    simp only [find_option_iter] at h
    by_cases hn : o.has_name name = true
    · simp only [hn, if_true, Option.some.injEq] at h
      subst h
      exact ⟨o, by simp, hn⟩
    · simp only [hn] at h
      cases hf : find_option_iter os name with
      | none => simp [hf] at h
      | some j =>
        simp only [hf, Option.map_some', Option.some.injEq, Bool.false_eq_true, if_false] at h
        subst h
        obtain ⟨o', ho', hn'⟩ := ih j hf
        exact ⟨o', by simpa using ho', hn'⟩

/-- The method `set_program_name_from_argv` writes the program name only. -/
theorem set_program_name_eq (p : ArgumentParser) (argv0 : Str) :
    ∃ name, p.set_program_name_from_argv argv0 = { p with m_program_name := name } := by
  unfold set_program_name_from_argv
  by_cases h1 : p.m_program_name.isEmpty = true
  · rw [if_pos h1]
    dsimp only
    split
    · exact ⟨_, rfl⟩
    · exact ⟨_, rfl⟩
  · rw [if_neg h1]
    exact ⟨p.m_program_name, rfl⟩

theorem set_program_name_options (p : ArgumentParser) (argv0 : Str) :
    (p.set_program_name_from_argv argv0).m_options = p.m_options ∧
    (p.set_program_name_from_argv argv0).m_positionals = p.m_positionals ∧
    (p.set_program_name_from_argv argv0).m_number_of_maximum_positionals =
      p.m_number_of_maximum_positionals ∧
    (p.set_program_name_from_argv argv0).m_number_of_minimum_positionals =
      p.m_number_of_minimum_positionals ∧
    (p.set_program_name_from_argv argv0).m_xor_lists = p.m_xor_lists := by
  obtain ⟨name, h⟩ := set_program_name_eq p argv0
  rw [h]
  exact ⟨rfl, rfl, rfl, rfl, rfl⟩

/-! ## Round trip of a long option -/

theorem find_option_to_parse_long (p : ArgumentParser) (name : Str) (idx : Nat)
    (hname : is_long_name name = true) (hfind : find_option_iter p.m_options name = some idx) :
    find_option_to_parse p name = .ok idx := by
  simp only [find_option_to_parse, normalize_long_name name hname, hfind]

theorem put_option_getElem (p : ArgumentParser) (idx : Nat) (o o' : OptionEntry)
    (hopt : p.m_options[idx]? = some o) : (p.put_option idx o').m_options[idx]? = some o' := by
  have hlt : idx < p.m_options.length := by
    by_contra hc
    rw [List.getElem?_eq_none (by omega)] at hopt
    cases hopt
  simp only [put_option, List.getElem?_set, if_true]
  simp [hlt]

theorem missing_arguments_full (values : List Str) (h : values.length = 1) :
    missing_arguments 1 values = 0 := by
  simp [missing_arguments, h, SIZE_MOD]

/-- The step on an option token whose inline value fills an arity-1 option
without choices: the value is stored and only this token is consumed. -/
theorem parse_step_inline_value (argv : List Str) (c : Nat) (p : ArgumentParser)
    (name w v : Str) (idx : Nat) (o : OptionEntry)
    (hform : (is_short_option_name (argv.getD c []) || is_long_option (argv.getD c [])) = true)
    (hng : is_short_option_group_name (argv.getD c []) = false)
    (hsplit : split_argument_text (argv.getD c []) = (name, w))
    (hval : inline_values w = [v])
    (hpos : p.m_positionals = [])
    (hfind : find_option_to_parse p name = .ok idx)
    (hopt : p.m_options[idx]? = some o)
    (har : o.m_number_of_arguments = 1) (hch : o.m_choices = [])
    (hst : o.m_storage = [] ∨ o.m_is_appending = true) :
    parse_step argv c false p =
      .ok ⟨c + 1, false, p.put_option idx { o with m_storage := o.m_storage ++ [v] }⟩ := by
  rw [parse_step_option_form argv c p hform]
  simp only [hpos, List.isEmpty_nil, Bool.not_true, Bool.false_eq_true, if_false, hng]
  unfold parse_single_option
  have hm : missing_arguments o.m_number_of_arguments [v] = 0 := by
    rw [har]; exact missing_arguments_full [v] rfl
  simp only [hsplit, hval, hfind, hopt, hm]
  simp only [Nat.lt_irrefl, false_and, if_false]
  rw [parse_option_eq p idx o _ hopt,
    option_parse_store o [v] (by simp [har]) (by omega) hch hst]

/-- C3: for a registered long option `name` of arity 1 without choices and
every text `v`, the token `--name=v` parsed from reset storage stores exactly
`v` and consumes no other token, so `get<string>(name)` returns `v`; with `v`
empty this is the token `--name=`, which stores the empty string. -/
theorem C3_long_option_round_trip (q : ArgumentParser) (prog name v : Str) (rest : List Str)
    (idx : Nat) (o : OptionEntry)
    (hname : is_long_name name = true)
    (hfind : find_option_iter q.m_options name = some idx)
    (hopt : q.m_options[idx]? = some o)
    (har : o.m_number_of_arguments = 1) (hch : o.m_choices = []) :
    parse_step (prog :: (lit "--" ++ name ++ (lit "=" ++ v)) :: rest) 1 false
        (q.reset_storage.set_program_name_from_argv prog) =
      .ok ⟨2, false, (q.reset_storage.set_program_name_from_argv prog).put_option idx
        { o with m_storage := [v] }⟩ ∧
    (parse q.reset_storage [prog, lit "--" ++ name ++ (lit "=" ++ v)]).finalState =
      some ((q.reset_storage.set_program_name_from_argv prog).put_option idx
        { o with m_storage := [v] }) ∧
    ((q.reset_storage.set_program_name_from_argv prog).put_option idx
        { o with m_storage := [v] }).get name = .ok v := by
  obtain ⟨hs, hl, hg, hsp⟩ := long_token_facts name (lit "=" ++ v) hname
    (by intro c t h; rw [lit_equals] at h; cases h; decide)
  obtain ⟨hopts, hposs, -, -, -⟩ := set_program_name_options q.reset_storage prog
  have hopts' : (q.reset_storage.set_program_name_from_argv prog).m_options =
      q.m_options.map OptionEntry.reset_storage := hopts
  have hfind0 : find_option_iter (q.reset_storage.set_program_name_from_argv prog).m_options name =
      some idx := by
    rw [hopts', find_option_iter_reset, hfind]
  have hopt0 : (q.reset_storage.set_program_name_from_argv prog).m_options[idx]? =
      some o.reset_storage := by
    rw [hopts', List.getElem?_map, hopt]; rfl
  have hstep : ∀ rest', parse_step (prog :: (lit "--" ++ name ++ (lit "=" ++ v)) :: rest') 1 false
        (q.reset_storage.set_program_name_from_argv prog) =
      .ok ⟨2, false, (q.reset_storage.set_program_name_from_argv prog).put_option idx
        { o with m_storage := [v] }⟩ := by
    intro rest'
    have hget : (prog :: (lit "--" ++ name ++ (lit "=" ++ v)) :: rest').getD 1 [] =
        lit "--" ++ name ++ (lit "=" ++ v) := rfl
    have := parse_step_inline_value (prog :: (lit "--" ++ name ++ (lit "=" ++ v)) :: rest') 1
      (q.reset_storage.set_program_name_from_argv prog) name (lit "=" ++ v) v idx o.reset_storage
      (by rw [hget, hl]; simp) (by rw [hget]; exact hg) (by rw [hget]; exact hsp)
      (inline_values_equals v) hposs
      (find_option_to_parse_long _ name idx hname hfind0) hopt0 har hch (Or.inl rfl)
    rw [this]
    rfl
  refine ⟨hstep rest, ?_, ?_⟩
  · simp only [parse, List.length_cons, List.length_nil, parse_loop, Nat.lt_irrefl, if_false,
      hstep [], Nat.zero_add, Nat.reduceAdd, Nat.one_lt_ofNat, if_true]
    unfold check_after_loop
    split
    · rfl
    · split <;> rfl
  · have hfind1 : find_option_iter ((q.reset_storage.set_program_name_from_argv prog).put_option idx
        { o with m_storage := [v] }).m_options name = some idx := by
      unfold put_option
      rw [find_option_iter_set _ name idx o.reset_storage { o with m_storage := [v] } hopt0 rfl,
        hfind0]
    have hopt1 := put_option_getElem (q.reset_storage.set_program_name_from_argv prog) idx
      o.reset_storage { o with m_storage := [v] } hopt0
    simp only [ArgumentParser.get, find_option, normalize_long_name name hname, hfind1, hopt1]
    simp [har, OptionEntry.get, OptionEntry.is_parsed]

/-- The example of C3 from the test `Parse`: `--nodef=` stores the empty
string for the option `-n`, `--nodef`, whose default is `ad`. -/
theorem C3_long_option_round_trip_witness :
    parse_step [lit "app", lit "--nodef=", lit "next"] 1 false
        (parser_parse_test.reset_storage.set_program_name_from_argv (lit "app")) =
      .ok ⟨2, false, (parser_parse_test.reset_storage.set_program_name_from_argv (lit "app")).put_option 4
        { option_nodef with m_storage := [[]] }⟩ ∧
    (parse parser_parse_test.reset_storage [lit "app", lit "--nodef="]).finalState =
      some ((parser_parse_test.reset_storage.set_program_name_from_argv (lit "app")).put_option 4
        { option_nodef with m_storage := [[]] }) ∧
    ((parser_parse_test.reset_storage.set_program_name_from_argv (lit "app")).put_option 4
        { option_nodef with m_storage := [[]] }).get (lit "nodef") = .ok [] :=
  C3_long_option_round_trip parser_parse_test (lit "app") (lit "nodef") [] [lit "next"] 4
    (option_nodef) (by decide) (by decide) (by decide) (by decide) (by decide)

/-! ## Short options and their values -/

theorem normalize_short_name (X : Char) (hX : isalpha X = true) :
    normalize_option_name [X] = .ok [X] := by
  have hne := isalpha_ne_dash X hX
  simp [normalize_option_name, strictly_normalize_option_name, at_, lit, hne, hX]

theorem find_option_to_parse_short (p : ArgumentParser) (X : Char) (idx : Nat)
    (hX : isalpha X = true) (hfind : find_option_iter p.m_options [X] = some idx) :
    find_option_to_parse p [X] = .ok idx := by
  simp only [find_option_to_parse, normalize_short_name X hX, hfind]

/-- How the loop reads a token `-X` followed by text that does not start with
a letter: a short option, no group, split after the letter. -/
theorem short_token_facts (X : Char) (w : Str) (hX : isalpha X = true)
    (hw : ∀ c t, w = c :: t → isalpha c = false) :
    is_short_option_name ('-' :: X :: w) = true ∧
    is_short_option_group_name ('-' :: X :: w) = false ∧
    split_argument_text ('-' :: X :: w) = ([X], w) := by
  have hs : is_short_option_name ('-' :: X :: w) = true := by
    simp [is_short_option_name, at_, hX]
  refine ⟨hs, ?_, ?_⟩
  · cases w with
    | nil => simp [is_short_option_group_name]
    | cons c t => simp [is_short_option_group_name, at_, hw c t rfl]
  · simp [split_argument_text, hs, at_]

theorem inline_values_plain (v : Str) (hv : v ≠ []) (he : at_ v 0 ≠ '=') :
    inline_values v = [v] := by
  cases v with
  | nil => exact absurd rfl hv
  | cons c t => simp [inline_values, he]

/-- The step on a bare option token of an arity-1 option without choices that
is followed by a token: that token is taken as the value. -/
theorem parse_step_next_value (argv : List Str) (c : Nat) (p : ArgumentParser)
    (name : Str) (idx : Nat) (o : OptionEntry)
    (hc1 : 1 ≤ c) (hnext : c + 1 < argv.length) (hL : argv.length < ARGV_MAX)
    (hform : (is_short_option_name (argv.getD c []) || is_long_option (argv.getD c [])) = true)
    (hng : is_short_option_group_name (argv.getD c []) = false)
    (hsplit : split_argument_text (argv.getD c []) = (name, []))
    (hpos : p.m_positionals = [])
    (hfind : find_option_to_parse p name = .ok idx)
    (hopt : p.m_options[idx]? = some o)
    (har : o.m_number_of_arguments = 1) (hch : o.m_choices = [])
    (hst : o.m_storage = [] ∨ o.m_is_appending = true) :
    parse_step argv c false p =
      .ok ⟨c + 2, false,
        p.put_option idx { o with m_storage := o.m_storage ++ [argv.getD (c + 1) []] }⟩ := by
  rw [parse_step_option_form argv c p hform]
  simp only [hpos, List.isEmpty_nil, Bool.not_true, Bool.false_eq_true, if_false, hng]
  have hn : o.m_number_of_arguments < UINT_MOD := by rw [har]; decide
  rw [parse_single_option_eq argv c false p _ idx o hc1 (by omega) hL (by rw [hsplit]; exact hfind)
    hopt hn]
  have hiv : inline_values (split_argument_text (argv.getD c [])).2 = [] := by
    rw [hsplit]; rfl
  have htake : List.take 1 (List.drop (c + 1) argv) = [argv.getD (c + 1) []] := by
    have hg : argv.getD (c + 1) [] = argv[c + 1] := by
      simp [List.getD_eq_getElem?_getD, List.getElem?_eq_getElem hnext]
    rw [List.drop_eq_getElem_cons hnext, hg]
    rfl
  simp only [hiv, har, List.length_nil, Nat.not_lt_zero, if_false, Nat.sub_zero, Nat.lt_one_iff,
    List.nil_append, htake]
  simp only [Nat.zero_lt_one, hnext, and_self, if_true]
  rw [parse_option_eq p idx o _ hopt,
    option_parse_store o [argv.getD (c + 1) []] (by simp [har]) (by omega) hch hst]
  simp only [har]

/-- C4, as the code has it: for a registered short option `X` of arity 1
without choices (holding no values, or appending) reached before any
positional, the token `-X=v` and the token pair `-X` `v` store `v` for every
`v`, and the token `-Xv` stores `v` when `v` is not empty and starts neither
with `=` nor with a letter.  (A token whose first two characters after the
dash are letters is a group of flags.) -/
theorem C4_short_option_value_forms (argv : List Str) (c : Nat) (p : ArgumentParser)
    (X : Char) (v : Str) (idx : Nat) (o : OptionEntry)
    (hX : isalpha X = true)
    (hfind : find_option_iter p.m_options [X] = some idx)
    (hopt : p.m_options[idx]? = some o)
    (har : o.m_number_of_arguments = 1) (hch : o.m_choices = [])
    (hst : o.m_storage = [] ∨ o.m_is_appending = true)
    (hpos : p.m_positionals = []) :
    (argv.getD c [] = '-' :: X :: '=' :: v →
      parse_step argv c false p =
        .ok ⟨c + 1, false, p.put_option idx { o with m_storage := o.m_storage ++ [v] }⟩) ∧
    (argv.getD c [] = '-' :: X :: v → v ≠ [] → at_ v 0 ≠ '=' → isalpha (at_ v 0) = false →
      parse_step argv c false p =
        .ok ⟨c + 1, false, p.put_option idx { o with m_storage := o.m_storage ++ [v] }⟩) ∧
    (argv.getD c [] = ['-', X] → argv.getD (c + 1) [] = v → 1 ≤ c → c + 1 < argv.length →
      argv.length < ARGV_MAX →
      parse_step argv c false p =
        .ok ⟨c + 2, false, p.put_option idx { o with m_storage := o.m_storage ++ [v] }⟩) := by
  have hf := find_option_to_parse_short p X idx hX hfind
  refine ⟨?_, ?_, ?_⟩
  · intro harg
    obtain ⟨h1, h2, h3⟩ := short_token_facts X ('=' :: v) hX
      (by intro c t h; cases h; decide)
    exact parse_step_inline_value argv c p [X] ('=' :: v) v idx o
      (by rw [harg, h1]; rfl) (by rw [harg]; exact h2) (by rw [harg]; exact h3)
      (inline_values_equals v) hpos hf hopt har hch hst
  · intro harg hv he ha
    obtain ⟨h1, h2, h3⟩ := short_token_facts X v hX
      (by intro c t h; subst h; simpa [at_] using ha)
    exact parse_step_inline_value argv c p [X] v v idx o
      (by rw [harg, h1]; rfl) (by rw [harg]; exact h2) (by rw [harg]; exact h3)
      (inline_values_plain v hv he) hpos hf hopt har hch hst
  · intro harg hnext hc1 hlt hL
    obtain ⟨h1, h2, h3⟩ := short_token_facts X [] hX (by intro c t h; cases h)
    have := parse_step_next_value argv c p [X] idx o hc1 hlt hL
      (by rw [harg, h1]; rfl) (by rw [harg]; exact h2) (by rw [harg]; exact h3)
      hpos hf hopt har hch hst
    rw [this, hnext]

/-- The three forms of C4 on the option `-d` of the test `Parse`, with the
value `/ad` of that test. -/
theorem C4_short_option_value_forms_witness :
    parse_step [lit "app", lit "-d=/ad"] 1 false parser_parse_test =
      .ok ⟨2, false, parser_parse_test.put_option 3
        { option_def with m_storage := [lit "/ad"] }⟩ ∧
    parse_step [lit "app", lit "-d/ad"] 1 false parser_parse_test =
      .ok ⟨2, false, parser_parse_test.put_option 3
        { option_def with m_storage := [lit "/ad"] }⟩ ∧
    parse_step [lit "app", lit "-d", lit "/ad"] 1 false parser_parse_test =
      .ok ⟨3, false, parser_parse_test.put_option 3
        { option_def with m_storage := [lit "/ad"] }⟩ :=
  ⟨(C4_short_option_value_forms [lit "app", lit "-d=/ad"] 1 parser_parse_test 'd' (lit "/ad") 3
      option_def (by decide) (by decide) (by decide) (by decide) (by decide)
      (Or.inl (by decide)) (by decide)).1 (by decide),
   (C4_short_option_value_forms [lit "app", lit "-d/ad"] 1 parser_parse_test 'd' (lit "/ad") 3
      option_def (by decide) (by decide) (by decide) (by decide) (by decide)
      (Or.inl (by decide)) (by decide)).2.1 (by decide) (by decide) (by decide) (by decide),
   (C4_short_option_value_forms [lit "app", lit "-d", lit "/ad"] 1 parser_parse_test 'd'
      (lit "/ad") 3 option_def (by decide) (by decide) (by decide) (by decide) (by decide)
      (Or.inl (by decide)) (by decide)).2.2 (by decide) (by decide) (by decide) (by decide)
      (by decide)⟩

/-- C4 fails as stated: with the option `-d` of arity 1, the token `-dab`
(the value `ab` attached with no separator) is read as the group of flags `d`,
`a`, `b`; the parse raises a parsing error and stores nothing. -/
theorem C4_attached_letters_counterexample :
    (parse parser_parse_test [lit "app", lit "-dab"]).isParsingError = true ∧
    (parse parser_parse_test [lit "app", lit "-dab"]).finalState =
      some (parser_parse_test.set_program_name_from_argv (lit "app")) ∧
    (parser_parse_test.set_program_name_from_argv (lit "app")).is_parsed (lit "d") = .ok false ∧
    isalpha 'd' = true ∧ lit "ab" ≠ [] ∧ at_ (lit "ab") 0 ≠ '=' := by
  refine ⟨by decide, by decide, by rfl, by decide, by decide, by decide⟩

/-! ## Groups of short flags -/

theorem parse_group_cons (arg : Str) (c : Char) (cs : List Char) (p : ArgumentParser) :
    parse_group arg (c :: cs) p =
      match flag_step arg p c with
      | .ok p' => parse_group arg cs p'
      | .throws e p' => .throws e p'
      | .undefined => .undefined := by
  simp only [parse_group, flag_step]
  split
  · rfl
  · split
    · rfl
    · rfl

theorem flag_step_frame (arg : Str) (p : ArgumentParser) (c : Char) :
    (∀ p', flag_step arg p c = .ok p' →
      p'.reset_storage = p.reset_storage ∧ p'.m_positionals = p.m_positionals) ∧
    (∀ e p', flag_step arg p c = .throws e p' →
      p'.reset_storage = p.reset_storage ∧ p'.m_positionals = p.m_positionals) := by
  unfold flag_step
  split
  · constructor
    · intro p' h; cases h
    · intro e p' h; cases h; exact ⟨rfl, rfl⟩
  · split
    · constructor
      · intro p' h; cases h
      · intro e p' h; cases h; exact ⟨rfl, rfl⟩
    · exact parse_option_frame p _ []

/-- For a letter the text of the whole group does not matter. -/
theorem flag_step_alpha (arg arg' : Str) (p : ArgumentParser) (c : Char)
    (h : isalpha c = true) : flag_step arg p c = flag_step arg' p c := by
  simp [flag_step, h]

theorem parse_group_alpha (arg arg' : Str) :
    ∀ (cs : List Char) (p : ArgumentParser), (∀ c ∈ cs, isalpha c = true) →
      parse_group arg cs p = parse_group arg' cs p := by
  intro cs
  induction cs with
  | nil => intro p _; rfl
  | cons c cs ih =>
    intro p h
    rw [parse_group_cons, parse_group_cons,
      flag_step_alpha arg arg' p c (h c (List.mem_cons_self _ _))]
    cases flag_step arg' p c with
    | ok p' => exact ih p' (fun x hx => h x (List.mem_cons_of_mem _ hx))
    | throws e p' => rfl
    | undefined => rfl

theorem options_of_reset (p p' : ArgumentParser) (h : p'.reset_storage = p.reset_storage) :
    p'.m_options.map OptionEntry.reset_storage = p.m_options.map OptionEntry.reset_storage :=
  congrArg ArgumentParser.m_options h

theorem find_option_iter_of_reset (p p' : ArgumentParser) (name : Str)
    (h : p'.reset_storage = p.reset_storage) :
    find_option_iter p'.m_options name = find_option_iter p.m_options name := by
  rw [← find_option_iter_reset p'.m_options, ← find_option_iter_reset p.m_options,
    options_of_reset p p' h]

theorem getElem_of_reset (p p' : ArgumentParser) (idx : Nat) (o : OptionEntry)
    (h : p'.reset_storage = p.reset_storage) (hopt : p.m_options[idx]? = some o) :
    ∃ o', p'.m_options[idx]? = some o' ∧ o'.reset_storage = o.reset_storage := by
  have hm := congrArg (fun l => l[idx]?) (options_of_reset p p' h)
  simp only [List.getElem?_map, hopt, Option.map_some'] at hm
  cases ho : p'.m_options[idx]? with
  | none => rw [ho] at hm; cases hm
  | some o' =>
    rw [ho] at hm
    exact ⟨o', rfl, by simpa using hm⟩

theorem is_flag_letter_of_reset (p p' : ArgumentParser) (c : Char)
    (h : p'.reset_storage = p.reset_storage) (hf : is_flag_letter p c) :
    is_flag_letter p' c := by
  obtain ⟨hc, idx, o, hfind, hopt, har⟩ := hf
  obtain ⟨o', ho', hr⟩ := getElem_of_reset p p' idx o h hopt
  refine ⟨hc, idx, o', ?_, ho', ?_⟩
  · rw [find_option_iter_of_reset p p' _ h, hfind]
  · have := congrArg OptionEntry.m_number_of_arguments hr
    simp only [OptionEntry.reset_storage] at this
    rw [this, har]

/-- The step on the token `-c` of a registered flag before any positional is
one round of the group loop. -/
theorem parse_step_single_flag (argv : List Str) (cur : Nat) (p : ArgumentParser) (c : Char)
    (arg : Str) (harg : argv.getD cur [] = ['-', c]) (hf : is_flag_letter p c)
    (hpos : p.m_positionals = []) :
    parse_step argv cur false p =
      match flag_step arg p c with
      | .ok p' => .ok ⟨cur + 1, false, p'⟩
      | .throws e p' => .throws e p'
      | .undefined => .undefined := by
  obtain ⟨hc, idx, o, hfind, hopt, har⟩ := hf
  obtain ⟨h1, h2, h3⟩ := short_token_facts c [] hc (by intro x t h; cases h)
  have hfp := find_option_to_parse_short p c idx hc hfind
  rw [parse_step_option_form argv cur p (by rw [harg, h1]; rfl)]
  simp only [hpos, List.isEmpty_nil, Bool.not_true, Bool.false_eq_true, if_false, harg, h2]
  unfold parse_single_option
  have hiv : inline_values ([] : Str) = [] := rfl
  have hm : missing_arguments 0 [] = 0 := by simp [missing_arguments, SIZE_MOD]
  simp only [h3, hfp, hopt, har, hiv, hm, Nat.lt_irrefl, false_and, if_false, flag_step, hc,
    Bool.not_true, Bool.false_eq_true]

theorem single_flags_split (pre post : List Str) (done cs : List Char) (c : Char) :
    pre ++ single_flags (done ++ c :: cs) ++ post =
      (pre ++ single_flags done) ++ (['-', c] :: (single_flags cs ++ post)) := by
  simp [single_flags, List.append_assoc]

theorem getD_length_append (l : List Str) (x : Str) (r : List Str) :
    (l ++ x :: r).getD l.length [] = x := by
  rw [List.getD_eq_getElem?_getD, List.getElem?_append_right (Nat.le_refl _), Nat.sub_self]
  simp

/-- The loop over the separate tokens of a group of registered flags does what
the group loop does on the letters. -/
theorem parse_loop_single_flags (pre post : List Str) (arg : Str) (fuel : Nat) :
    ∀ (todo done : List Char) (p : ArgumentParser),
      (∀ c ∈ todo, is_flag_letter p c) → p.m_positionals = [] →
      parse_loop (pre ++ single_flags (done ++ todo) ++ post) (fuel + todo.length)
          (pre.length + done.length) false p =
        match parse_group arg todo p with
        | .ok p' => parse_loop (pre ++ single_flags (done ++ todo) ++ post) fuel
            (pre.length + done.length + todo.length) false p'
        | .throws e p' => .throws e p'
        | .undefined => .undefined := by
  intro todo
  induction todo with
  | nil =>
    intro done p _ _
    simp [parse_group]
  | cons c cs ih =>
    intro done p hflags hpos
    have hcur : (pre ++ single_flags (done ++ c :: cs) ++ post).getD
        (pre.length + done.length) [] = ['-', c] := by
      rw [single_flags_split]
      have hl : pre.length + done.length = (pre ++ single_flags done).length := by
        simp [single_flags]
      rw [hl, getD_length_append]
    have hlt : pre.length + done.length < (pre ++ single_flags (done ++ c :: cs) ++ post).length := by
      simp [single_flags]
    have hstep := parse_step_single_flag (pre ++ single_flags (done ++ c :: cs) ++ post)
      (pre.length + done.length) p c arg hcur (hflags c (List.mem_cons_self _ _)) hpos
    rw [show fuel + (c :: cs).length = (fuel + cs.length) + 1 from rfl]
    simp only [parse_loop, hlt, if_true, hstep, parse_group_cons]
    cases hfs : flag_step arg p c with
    | ok p' =>
      obtain ⟨hr, hp⟩ := (flag_step_frame arg p c).1 p' hfs
      have := ih (done ++ [c]) p'
        (fun x hx => is_flag_letter_of_reset p p' x hr (hflags x (List.mem_cons_of_mem _ hx)))
        (hp.trans hpos)
      have e1 : (done ++ [c]) ++ cs = done ++ c :: cs := by simp
      have e2 : pre.length + (done ++ [c]).length = pre.length + done.length + 1 := by
        simp only [List.length_append, List.length_cons, List.length_nil]
        omega
      rw [e1, e2] at this
      simp only [List.length_cons]
      rw [show pre.length + done.length + (cs.length + 1) =
        pre.length + done.length + 1 + cs.length from by omega]
      exact this
    | throws e p' => rfl
    | undefined => rfl

theorem group_token_facts (a b : Char) (t : List Char) (ha : isalpha a = true)
    (hb : isalpha b = true) :
    is_short_option_name ('-' :: a :: b :: t) = true ∧
    is_short_option_group_name ('-' :: a :: b :: t) = true := by
  simp [is_short_option_name, is_short_option_group_name, at_, ha, hb]

/-- The step on a group token of at least two letters before any separator. -/
theorem parse_step_group (argv : List Str) (cur : Nat) (p : ArgumentParser)
    (letters : List Char) (harg : argv.getD cur [] = '-' :: letters)
    (hlen : 2 ≤ letters.length) (halpha : ∀ c ∈ letters, isalpha c = true) :
    parse_step argv cur false p =
      if !p.m_positionals.isEmpty then
        .throws (.ParsingException
          (lit "Found an option after a positional was given '" ++ ('-' :: letters) ++ lit "'")) p
      else
        match parse_group ('-' :: letters) letters p with
        | .ok p' => .ok ⟨cur + 1, false, p'⟩
        | .throws e p' => .throws e p'
        | .undefined => .undefined := by
  match letters, hlen, halpha with
  | a :: b :: t, _, halpha =>
    obtain ⟨h1, h2⟩ := group_token_facts a b t (halpha a (by simp)) (halpha b (by simp))
    rw [parse_step_option_form argv cur p (by rw [harg, h1]; rfl)]
    simp only [harg, h2, if_true, List.drop_succ_cons, List.drop_zero]

theorem option_parse_flag_inv (o o' : OptionEntry) (h : o.parse [] = .ok o') :
    o.m_number_of_arguments = 0 ∧ (o.m_storage = [] ∨ o.m_is_appending = true) ∧
      o' = mark_parsed o := by
  unfold OptionEntry.parse at h
  by_cases har : o.m_number_of_arguments = 0
  · have h0 : ¬ ([] : List Str).length ≠ o.m_number_of_arguments := by simp [har]
    by_cases hst : (!o.m_storage.isEmpty && !o.m_is_appending) = true
    · rw [if_neg h0, if_pos hst] at h
      cases h
    · rw [if_neg h0, if_neg hst, if_pos har] at h
      cases h
      refine ⟨har, ?_, rfl⟩
      cases hs : o.m_storage with
      | nil => exact Or.inl rfl
      | cons a t =>
        right
        simpa [hs] using hst
  · have h0 : ([] : List Str).length ≠ o.m_number_of_arguments := by
      simp only [List.length_nil, ne_eq]
      exact fun h => har h.symm
    rw [if_pos h0] at h
    cases h

theorem option_parse_flag (o : OptionEntry) (har : o.m_number_of_arguments = 0)
    (hst : o.m_storage = [] ∨ o.m_is_appending = true) : o.parse [] = .ok (mark_parsed o) := by
  unfold OptionEntry.parse
  have h2 : (!o.m_storage.isEmpty && !o.m_is_appending) = false := by
    rcases hst with h | h <;> simp [h]
  simp [har, h2, mark_parsed]

theorem flag_step_ok_inv (arg : Str) (p p' : ArgumentParser) (c : Char)
    (h : flag_step arg p c = .ok p') :
    isalpha c = true ∧ ∃ idx o, find_option_iter p.m_options [c] = some idx ∧
      p.m_options[idx]? = some o ∧ o.m_number_of_arguments = 0 ∧
      (o.m_storage = [] ∨ o.m_is_appending = true) ∧ p' = p.put_option idx (mark_parsed o) := by
  unfold flag_step at h
  by_cases hc : isalpha c = true
  · refine ⟨hc, ?_⟩
    simp only [hc, Bool.not_true, Bool.false_eq_true, if_false, find_option_to_parse,
      normalize_short_name c hc] at h
    cases hf : find_option_iter p.m_options [c] with
    | none => simp [hf] at h
    | some idx =>
      simp only [hf] at h
      cases ho : p.m_options[idx]? with
      | none => simp [parse_option, ho] at h
      | some o =>
        rw [parse_option_eq p idx o [] ho] at h
        cases hp : o.parse [] with
        | ok o' =>
          simp only [hp, Outcome.ok.injEq] at h
          obtain ⟨h1, h2, h3⟩ := option_parse_flag_inv o o' hp
          exact ⟨idx, o, rfl, ho, h1, h2, by rw [← h, h3]⟩
        | throws e o' => simp [hp] at h
        | undefined => simp [hp] at h
  · simp [hc] at h

theorem flag_step_ok (arg : Str) (p : ArgumentParser) (c : Char) (idx : Nat) (o : OptionEntry)
    (hc : isalpha c = true) (hf : find_option_iter p.m_options [c] = some idx)
    (ho : p.m_options[idx]? = some o) (har : o.m_number_of_arguments = 0)
    (hst : o.m_storage = [] ∨ o.m_is_appending = true) :
    flag_step arg p c = .ok (p.put_option idx (mark_parsed o)) := by
  unfold flag_step
  simp only [hc, Bool.not_true, Bool.false_eq_true, if_false, find_option_to_parse,
    normalize_short_name c hc, hf]
  rw [parse_option_eq p idx o [] ho, option_parse_flag o har hst]

theorem find_option_iter_put (p : ArgumentParser) (name : Str) (idx : Nat) (o : OptionEntry)
    (ho : p.m_options[idx]? = some o) :
    find_option_iter (p.put_option idx (mark_parsed o)).m_options name =
      find_option_iter p.m_options name :=
  find_option_iter_set p.m_options name idx o (mark_parsed o) ho rfl

theorem put_option_getElem_ne (p : ArgumentParser) (i j : Nat) (o : OptionEntry) (h : i ≠ j) :
    (p.put_option i o).m_options[j]? = p.m_options[j]? := by
  simp only [put_option, List.getElem?_set_ne h]

theorem put_option_comm (p : ArgumentParser) (i j : Nat) (a b : OptionEntry) (h : i ≠ j) :
    (p.put_option i a).put_option j b = (p.put_option j b).put_option i a := by
  simp only [put_option, List.set_comm a b p.m_options h]

/-- Two successive rounds of the group loop that both succeed can be swapped. -/
theorem flag_step_swap (arg : Str) (p p1 p2 : ArgumentParser) (x y : Char)
    (h1 : flag_step arg p y = .ok p1) (h2 : flag_step arg p1 x = .ok p2) :
    ∃ q, flag_step arg p x = .ok q ∧ flag_step arg q y = .ok p2 := by
  obtain ⟨hy, j, oy, hfy, hoy, hary, hsty, rfl⟩ := flag_step_ok_inv arg p p1 y h1
  obtain ⟨hx, i, ox, hfx, hox, harx, hstx, rfl⟩ := flag_step_ok_inv arg _ p2 x h2
  rw [find_option_iter_put p _ j oy hoy] at hfx
  by_cases hij : i = j
  · subst hij
    rw [put_option_getElem p i oy (mark_parsed oy) hoy] at hox
    cases hox
    have happ : oy.m_is_appending = true := by
      rcases hstx with h | h
      · simp [mark_parsed] at h
      · exact h
    refine ⟨p.put_option i (mark_parsed oy), flag_step_ok arg p x i oy hx hfx hoy hary
      (Or.inr happ), ?_⟩
    exact flag_step_ok arg _ y i (mark_parsed oy) hy
      (by rw [find_option_iter_put p _ i oy hoy]; exact hfy)
      (put_option_getElem p i oy (mark_parsed oy) hoy) hary (Or.inr happ)
  · have hji : j ≠ i := fun h => hij h.symm
    rw [put_option_getElem_ne p j i _ hji] at hox
    refine ⟨p.put_option i (mark_parsed ox), flag_step_ok arg p x i ox hx hfx hox harx hstx, ?_⟩
    rw [put_option_comm p j i (mark_parsed oy) (mark_parsed ox) hji]
    exact flag_step_ok arg _ y j oy hy
      (by rw [find_option_iter_put p _ i ox hox]; exact hfy)
      (by rw [put_option_getElem_ne p i j _ hij]; exact hoy) hary hsty

/-- A group that is parsed without error is parsed without error, and to the
same state, in every order of its letters. -/
theorem parse_group_perm (arg : Str) (l1 l2 : List Char) (h : l1.Perm l2) :
    ∀ (p p1 : ArgumentParser), parse_group arg l1 p = .ok p1 → parse_group arg l2 p = .ok p1 := by
  induction h with
  | nil => intro p p1 h; exact h
  | cons x _ ih =>
    intro p p1 h
    rw [parse_group_cons] at h ⊢
    cases hs : flag_step arg p x with
    | ok q =>
      rw [hs] at h
      exact ih q p1 h
    | throws e q => rw [hs] at h; cases h
    | undefined => rw [hs] at h; cases h
  | swap x y l =>
    intro p p1 h
    rw [parse_group_cons] at h
    cases hs1 : flag_step arg p y with
    | ok q1 =>
      rw [hs1] at h
      simp only at h
      rw [parse_group_cons] at h
      cases hs2 : flag_step arg q1 x with
      | ok q2 =>
        rw [hs2] at h
        simp only at h
        obtain ⟨q, hq1, hq2⟩ := flag_step_swap arg p q1 q2 x y hs1 hs2
        rw [parse_group_cons, hq1]
        simp only
        rw [parse_group_cons, hq2]
        exact h
      | throws e q => rw [hs2] at h; cases h
      | undefined => rw [hs2] at h; cases h
    | throws e q => rw [hs1] at h; cases h
    | undefined => rw [hs1] at h; cases h
  | trans _ _ ih1 ih2 =>
    intro p p1 h
    exact ih2 p p1 (ih1 p p1 h)

theorem parse_group_ok_alpha (arg : Str) :
    ∀ (cs : List Char) (p p1 : ArgumentParser), parse_group arg cs p = .ok p1 →
      ∀ c ∈ cs, isalpha c = true := by
  intro cs
  induction cs with
  | nil => intro p p1 _ c hc; cases hc
  | cons x cs ih =>
    intro p p1 h c hc
    rw [parse_group_cons] at h
    cases hs : flag_step arg p x with
    | ok q =>
      rw [hs] at h
      rcases List.mem_cons.mp hc with rfl | hc'
      · exact (flag_step_ok_inv arg p q c hs).1
      · exact ih q p1 h c hc'
    | throws e q => rw [hs] at h; cases h
    | undefined => rw [hs] at h; cases h

/-- C5, as the code has it.  Let every letter of a group of at least two
letters name a registered flag, and let the loop reach the token (it is not
`argv[0]`, no separator has been consumed).
(1) With no positional collected so far, the grouped token `-x1...xn` and the
separate tokens `-x1 ... -xn` in its place give the same result of the loop:
the same final state or the same exception with the same state.
(2) With a positional collected, both raise the parsing error for an option
after a positional and leave the parser unchanged (the message quotes the
token).
(3) If the grouped token is parsed without error, every permutation of its
letters is parsed without error and leaves the same parser state. -/
theorem C5_group_equals_separate_flags (pre post : List Str) (letters : List Char)
    (p : ArgumentParser) (f1 f2 : Nat)
    (hpre : 1 ≤ pre.length) (hlen : 2 ≤ letters.length)
    (hflags : ∀ c ∈ letters, is_flag_letter p c)
    (har : arities_ok p)
    (hL : (pre ++ single_flags letters ++ post).length < ARGV_MAX)
    (hf1 : (pre ++ [('-' :: letters)] ++ post).length ≤ f1 + pre.length)
    (hf2 : (pre ++ single_flags letters ++ post).length ≤ f2 + pre.length) :
    (p.m_positionals = [] →
      parse_loop (pre ++ [('-' :: letters)] ++ post) f1 pre.length false p =
        parse_loop (pre ++ single_flags letters ++ post) f2 pre.length false p) ∧
    (p.m_positionals ≠ [] →
      ∃ m1 m2,
        parse_loop (pre ++ [('-' :: letters)] ++ post) f1 pre.length false p =
          .throws (.ParsingException m1) p ∧
        parse_loop (pre ++ single_flags letters ++ post) f2 pre.length false p =
          .throws (.ParsingException m2) p) ∧
    (∀ (letters' : List Char) (p1 : ArgumentParser), letters.Perm letters' →
      parse_step (pre ++ [('-' :: letters)] ++ post) pre.length false p =
        .ok ⟨pre.length + 1, false, p1⟩ →
      parse_step (pre ++ [('-' :: letters')] ++ post) pre.length false p =
        .ok ⟨pre.length + 1, false, p1⟩) := by
  have halpha : ∀ c ∈ letters, isalpha c = true := fun c hc => (hflags c hc).1
  have hlen1 : (pre ++ [('-' :: letters)] ++ post).length = pre.length + 1 + post.length := by
    simp only [List.length_append, List.length_cons, List.length_nil]
  have hlen2 : (pre ++ single_flags letters ++ post).length =
      pre.length + letters.length + post.length := by
    simp only [List.length_append, single_flags, List.length_map]
  have hcur1 : ∀ ls : List Char, (pre ++ [('-' :: ls)] ++ post).getD pre.length [] = '-' :: ls := by
    intro ls
    rw [List.append_assoc]
    exact getD_length_append pre _ _
  have hlt1 : pre.length < (pre ++ [('-' :: letters)] ++ post).length := by omega
  have hstep1 := parse_step_group (pre ++ [('-' :: letters)] ++ post) pre.length p letters
    (hcur1 letters) hlen halpha
  obtain ⟨g1, rfl⟩ : ∃ g, f1 = g + 1 := ⟨f1 - 1, by omega⟩
  refine ⟨?_, ?_, ?_⟩
  · intro hpos
    have hfuel2 : parse_loop (pre ++ single_flags letters ++ post) f2 pre.length false p =
        parse_loop (pre ++ single_flags letters ++ post) ((f2 - letters.length) + letters.length)
          pre.length false p :=
      parse_loop_fuel _ _ _ _ _ _ hf2 (by omega)
    have hs := parse_loop_single_flags pre post ('-' :: letters) (f2 - letters.length) letters []
      p hflags hpos
    simp only [List.nil_append, List.length_nil, Nat.add_zero] at hs
    rw [hfuel2, hs]
    simp only [parse_loop, hlt1, if_true, hstep1, hpos, List.isEmpty_nil, Bool.not_true,
      Bool.false_eq_true, if_false]
    cases hg : parse_group ('-' :: letters) letters p with
    | ok p' =>
      simp only
      apply parse_loop_shift
      · rw [List.drop_left' (by simp), List.drop_left' (by simp [single_flags])]
      · omega
      · omega
      · omega
      · exact hL
      · exact arities_ok_of_reset p p' ((parse_group_frame _ letters p).1 p' hg).1 har
      · omega
      · omega
    | throws e p' => rfl
    | undefined => rfl
  · intro hpos
    have hne : (!p.m_positionals.isEmpty) = true := by
      cases hp : p.m_positionals with
      | nil => exact absurd hp hpos
      | cons a t => rfl
    refine ⟨lit "Found an option after a positional was given '" ++ ('-' :: letters) ++ lit "'",
      lit "Found an option after a positional was given '" ++
        (pre ++ single_flags letters ++ post).getD pre.length [] ++ lit "'", ?_, ?_⟩
    · simp only [parse_loop, hlt1, if_true, hstep1, hne]
    · obtain ⟨a, b, t, rfl⟩ : ∃ a b t, letters = a :: b :: t := by
        match letters, hlen with
        | a :: b :: t, _ => exact ⟨a, b, t, rfl⟩
      have hcur2 : (pre ++ single_flags (a :: b :: t) ++ post).getD pre.length [] = ['-', a] := by
        have := single_flags_split pre post [] (b :: t) a
        simp only [List.nil_append] at this
        rw [this]
        have hl : pre.length = (pre ++ single_flags []).length := by simp [single_flags]
        conv_lhs => rw [hl]
        exact getD_length_append _ _ _
      obtain ⟨h1, -, -⟩ := short_token_facts a [] (halpha a (by simp)) (by intro x t h; cases h)
      have hstep2 := parse_step_option_form (pre ++ single_flags (a :: b :: t) ++ post)
        pre.length p (by rw [hcur2, h1]; rfl)
      have hlt2 : pre.length < (pre ++ single_flags (a :: b :: t) ++ post).length := by
        simp [single_flags]
      obtain ⟨g2, rfl⟩ : ∃ g, f2 = g + 1 := ⟨f2 - 1, by omega⟩
      simp only [parse_loop, hlt2, if_true, hstep2, hne]
  · intro letters' p1 hperm hok
    have hlen' : 2 ≤ letters'.length := by rw [← hperm.length_eq]; exact hlen
    have halpha' : ∀ c ∈ letters', isalpha c = true :=
      fun c hc => halpha c (hperm.mem_iff.mpr hc)
    rw [parse_step_group (pre ++ [('-' :: letters')] ++ post) pre.length p letters'
      (hcur1 letters') hlen' halpha']
    rw [hstep1] at hok
    by_cases hne : (!p.m_positionals.isEmpty) = true
    · rw [if_pos hne] at hok
      cases hok
    · rw [if_neg hne] at hok ⊢
      cases hg : parse_group ('-' :: letters) letters p with
      | ok q =>
        rw [hg] at hok
        simp only [Outcome.ok.injEq, LoopState.mk.injEq, true_and] at hok
        subst hok
        have := parse_group_perm ('-' :: letters) letters letters' hperm p q hg
        rw [parse_group_alpha ('-' :: letters') ('-' :: letters) letters' p halpha', this]
      | throws e q => rw [hg] at hok; cases hok
      | undefined => rw [hg] at hok; cases hok

theorem is_flag_letter_intro (p : ArgumentParser) (c : Char) (idx : Nat) (o : OptionEntry)
    (hc : isalpha c = true) (hf : find_option_iter p.m_options [c] = some idx)
    (ho : p.m_options[idx]? = some o) (har : o.m_number_of_arguments = 0) :
    is_flag_letter p c :=
  ⟨hc, idx, o, hf, ho, har⟩

theorem multi_flags_letters (positionals : List Str) (n : Nat) :
    ∀ c ∈ ['a', 'b', 'c'], is_flag_letter
      { parser_multi_flags with m_positionals := positionals,
                                m_number_of_maximum_positionals := n } c := by
  intro c hc
  simp only [List.mem_cons, List.mem_singleton, List.not_mem_nil, or_false] at hc
  rcases hc with rfl | rfl | rfl
  · exact is_flag_letter_intro _ 'a' 2 (flag_entry [lit "a"]) (by decide) rfl rfl rfl
  · exact is_flag_letter_intro _ 'b' 3 (flag_entry [lit "b"]) (by decide) rfl rfl rfl
  · exact is_flag_letter_intro _ 'c' 4 (flag_entry [lit "c"]) (by decide) rfl rfl rfl

/-- The example of C5 from the test `ParseMultiFlags`: `-abc` against
`-a -b -c` before `--true`, the same after the positional `p1`, and the
permutation `-cab`, which sets the same three flags. -/
theorem C5_group_equals_separate_flags_witness :
    parse_loop [lit "app", lit "-abc", lit "--true"] 2 1 false parser_multi_flags =
      parse_loop [lit "app", lit "-a", lit "-b", lit "-c", lit "--true"] 4 1 false
        parser_multi_flags ∧
    (∃ m1 m2,
      parse_loop [lit "app", lit "p1", lit "-abc"] 1 2 false
          { parser_multi_flags with m_positionals := [lit "p1"],
                                    m_number_of_maximum_positionals := 1 } =
        .throws (.ParsingException m1)
          { parser_multi_flags with m_positionals := [lit "p1"],
                                    m_number_of_maximum_positionals := 1 } ∧
      parse_loop [lit "app", lit "p1", lit "-a", lit "-b", lit "-c"] 3 2 false
          { parser_multi_flags with m_positionals := [lit "p1"],
                                    m_number_of_maximum_positionals := 1 } =
        .throws (.ParsingException m2)
          { parser_multi_flags with m_positionals := [lit "p1"],
                                    m_number_of_maximum_positionals := 1 }) ∧
    parse_step [lit "app", lit "-cab", lit "--true"] 1 false parser_multi_flags =
      .ok ⟨2, false, { parser_multi_flags with
        m_options := [flag_entry [lit "true"], flag_entry [lit "false"],
          mark_parsed (flag_entry [lit "a"]), mark_parsed (flag_entry [lit "b"]),
          mark_parsed (flag_entry [lit "c"])] }⟩ :=
  ⟨(C5_group_equals_separate_flags [lit "app"] [lit "--true"] ['a', 'b', 'c']
      parser_multi_flags 2 4 (by decide) (by decide) (multi_flags_letters [] 0) (by decide)
      (by decide) (by decide) (by decide)).1 rfl,
   (C5_group_equals_separate_flags [lit "app", lit "p1"] [] ['a', 'b', 'c']
      { parser_multi_flags with m_positionals := [lit "p1"],
                                m_number_of_maximum_positionals := 1 } 1 3
      (by decide) (by decide) (multi_flags_letters [lit "p1"] 1) (by decide)
      (by decide) (by decide) (by decide)).2.1 (by decide),
   (C5_group_equals_separate_flags [lit "app"] [lit "--true"] ['a', 'b', 'c']
      parser_multi_flags 2 4 (by decide) (by decide) (multi_flags_letters [] 0) (by decide)
      (by decide) (by decide) (by decide)).2.2 ['c', 'a', 'b'] _
      (by decide) (by decide)⟩

/-- C5 fails as stated for permutations: `a`, `b`, `c` are distinct letters of
registered flags, yet after `-b` the group `-abc` leaves `a` and `b` stored
and `c` not, while its permutation `-cab` leaves all three stored; both parses
end in the parsing error for the second occurrence of `b`. -/
theorem C5_permutation_counterexample :
    (parse parser_multi_flags [lit "app", lit "-b", lit "-abc"]).isParsingError = true ∧
    (parse parser_multi_flags [lit "app", lit "-b", lit "-cab"]).isParsingError = true ∧
    (parse parser_multi_flags [lit "app", lit "-b", lit "-abc"]).finalState.map stored_values =
      some [[], [], [lit "true"], [lit "true"], []] ∧
    (parse parser_multi_flags [lit "app", lit "-b", lit "-cab"]).finalState.map stored_values =
      some [[], [], [lit "true"], [lit "true"], [lit "true"]] := by
  refine ⟨by decide, by decide, by decide, by decide⟩

/-! ## Options after positionals -/

/-- The loop run from a state equals the loop run from any state it reaches. -/
theorem parse_loop_of_reaches (argv : List Str) (s t : LoopState) (h : Reaches argv s t) :
    ∀ f g, argv.length ≤ f + s.current → argv.length ≤ g + t.current →
      parse_loop argv f s.current s.positional_indicator_set s.parser =
        parse_loop argv g t.current t.positional_indicator_set t.parser := by
  induction h with
  | refl s =>
    intro f g hf hg
    exact parse_loop_fuel argv f g _ _ _ hf hg
  | step s s' t hlt hstep _ ih =>
    intro f g hf hg
    obtain ⟨f', rfl⟩ : ∃ f', f = f' + 1 := ⟨f - 1, by omega⟩
    have hcur := parse_step_current_lt argv _ _ _ s' hstep
    simp only [parse_loop, hlt, if_true, hstep]
    exact ih f' g (by omega) hg

theorem parse_eq_loop (p : ArgumentParser) (argv : List Str) (hne : argv ≠ []) :
    parse p argv =
      match parse_loop argv argv.length 1 false (initial_state p argv).parser with
      | .ok p' => check_after_loop p'
      | .throws e p' => .throws e p'
      | .undefined => .undefined := by
  cases argv with
  | nil => exact absurd rfl hne
  | cons a t => rfl

/-- C6: if the loop reaches a token of short or long option form before any
separator (so the token is dispatched, not taken as a value) while at least one
positional has been collected, the iteration raises the parsing error for an
option after a positional and so does `parse`, leaving the parser as it was at
that token; hence no parse that returns normally dispatches an option after a
positional. -/
theorem C6_no_option_after_positional (p : ArgumentParser) (argv : List Str) (s : LoopState)
    (hne : argv ≠ [])
    (hreach : Reaches argv (initial_state p argv) s)
    (hcur : s.current < argv.length)
    (hind : s.positional_indicator_set = false)
    (hform : (is_short_option_name (argv.getD s.current []) ||
      is_long_option (argv.getD s.current [])) = true)
    (hpos : s.parser.m_positionals ≠ []) :
    parse_step argv s.current s.positional_indicator_set s.parser =
      .throws (.ParsingException (lit "Found an option after a positional was given '" ++
        argv.getD s.current [] ++ lit "'")) s.parser ∧
    parse p argv =
      .throws (.ParsingException (lit "Found an option after a positional was given '" ++
        argv.getD s.current [] ++ lit "'")) s.parser ∧
    (parse p argv).isParsingError = true ∧
    ∀ p', parse p argv ≠ .ok p' := by
  have hne' : (!s.parser.m_positionals.isEmpty) = true := by
    cases hp : s.parser.m_positionals with
    | nil => exact absurd hp hpos
    | cons a t => rfl
  have hstep : parse_step argv s.current s.positional_indicator_set s.parser =
      .throws (.ParsingException (lit "Found an option after a positional was given '" ++
        argv.getD s.current [] ++ lit "'")) s.parser := by
    rw [hind, parse_step_option_form argv s.current s.parser hform, if_pos hne']
  have hloop := parse_loop_of_reaches argv _ s hreach argv.length (argv.length - s.current)
    (by simp [initial_state]) (by omega)
  obtain ⟨g, hg⟩ : ∃ g, argv.length - s.current = g + 1 :=
    ⟨argv.length - s.current - 1, by omega⟩
  have hparse : parse p argv =
      .throws (.ParsingException (lit "Found an option after a positional was given '" ++
        argv.getD s.current [] ++ lit "'")) s.parser := by
    rw [parse_eq_loop p argv hne]
    have h1 : parse_loop argv argv.length 1 false (initial_state p argv).parser =
        parse_loop argv (argv.length - s.current) s.current s.positional_indicator_set
          s.parser := hloop
    rw [h1, hg]
    simp only [parse_loop, hcur, if_true, hstep]
  refine ⟨hstep, hparse, ?_, ?_⟩
  · rw [hparse]; rfl
  · intro p' h
    rw [hparse] at h
    cases h

/-- The example of C6: in `[app, p1, -s]` with positionals allowed, the loop
reaches the flag `-s` after the positional `p1`. -/
theorem C6_no_option_after_positional_witness :
    parse_step [lit "app", lit "p1", lit "-s"] 2 false
        { parser_indicator with m_program_name := lit "app", m_positionals := [lit "p1"] } =
      .throws (.ParsingException (lit "Found an option after a positional was given '-s'"))
        { parser_indicator with m_program_name := lit "app", m_positionals := [lit "p1"] } ∧
    parse parser_indicator [lit "app", lit "p1", lit "-s"] =
      .throws (.ParsingException (lit "Found an option after a positional was given '-s'"))
        { parser_indicator with m_program_name := lit "app", m_positionals := [lit "p1"] } ∧
    (parse parser_indicator [lit "app", lit "p1", lit "-s"]).isParsingError = true ∧
    ∀ p', parse parser_indicator [lit "app", lit "p1", lit "-s"] ≠ .ok p' :=
  C6_no_option_after_positional parser_indicator [lit "app", lit "p1", lit "-s"]
    ⟨2, false, { parser_indicator with m_program_name := lit "app", m_positionals := [lit "p1"] }⟩
    (by decide)
    (Reaches.step _ _ _ (by decide) (by decide) (Reaches.refl _))
    (by decide) rfl (by decide) (by decide)

/-! ## Positional count bounds -/

theorem parse_step_plain (argv : List Str) (c : Nat) (p : ArgumentParser)
    (hne : argv.getD c [] ≠ []) (hd : at_ (argv.getD c []) 0 ≠ '-') :
    parse_step argv c false p =
      if p.m_positionals.length ≥ p.m_number_of_maximum_positionals then
        .throws (.ParsingException (lit "Found an additional positional argument '" ++
          argv.getD c [] ++
          lit "', although maximum number of positional arguments is already reached.")) p
      else
        .ok ⟨c + 1, false, { p with m_positionals := p.m_positionals ++ [argv.getD c []] }⟩ := by
  have h1 : argv.getD c [] ≠ lit "--" := by
    intro h
    rw [h] at hd
    exact hd (by decide)
  have e1 : (!false && argv.getD c [] == lit "--") = false := by
    simp only [Bool.not_false, Bool.true_and, beq_eq_false_iff_ne, ne_eq]
    exact h1
  have e2 : (false || (!(argv.getD c []).isEmpty && at_ (argv.getD c []) 0 != '-')) = true := by
    have : (argv.getD c []).isEmpty = false := by
      cases h : argv.getD c [] with
      | nil => exact absurd h hne
      | cons a t => rfl
    rw [this]
    simpa using hd
  unfold parse_step
  simp only
  rw [e1, e2]
  simp only [Bool.false_eq_true, if_false, if_true]

/-- Before any separator, a run of tokens that are not empty and do not start
with a dash is collected as positionals. -/
theorem parse_loop_plain (argv : List Str) :
    ∀ (fuel c : Nat) (p : ArgumentParser), argv.length ≤ fuel + c →
      (∀ x ∈ argv.drop c, x ≠ [] ∧ at_ x 0 ≠ '-') →
      parse_loop argv fuel c false p = collect_positionals p (argv.drop c) := by
  intro fuel
  induction fuel with
  | zero =>
    intro c p h _
    rw [List.drop_of_length_le (by omega), collect_positionals_nil]
    rfl
  | succ fuel ih =>
    intro c p h hplain
    by_cases hc : c < argv.length
    · have hg : argv.getD c [] = argv[c] := by
        simp [List.getD_eq_getElem?_getD, List.getElem?_eq_getElem hc]
      have hd := List.drop_eq_getElem_cons hc
      have hx := hplain argv[c] (by rw [hd]; exact List.mem_cons_self _ _)
      have hstep := parse_step_plain argv c p (by rw [hg]; exact hx.1) (by rw [hg]; exact hx.2)
      rw [hd, collect_positionals_cons]
      simp only [parse_loop, hc, if_true, hstep, hg]
      by_cases hmax : p.m_positionals.length ≥ p.m_number_of_maximum_positionals
      · simp only [hmax, if_true]
      · simp only [hmax, if_false]
        exact ih (c + 1) _ (by omega)
          (fun x hx' => hplain x (by rw [hd]; exact List.mem_cons_of_mem _ hx'))
    · rw [List.drop_of_length_le (by omega), collect_positionals_nil]
      simp [parse_loop, hc]

theorem missing_requireds_none (os : List OptionEntry)
    (h : ∀ o ∈ os, o.m_is_required = false) : missing_requireds os = [] := by
  induction os with
  | nil => rfl
  | cons o os ih =>
    simp only [missing_requireds, h o (List.mem_cons_self _ _), Bool.false_and,
      Bool.false_eq_true, if_false]
    exact ih (fun x hx => h x (List.mem_cons_of_mem _ hx))

theorem is_parsed_unparsed (p : ArgumentParser) (name n' : Str)
    (hn : normalize_option_name name = .ok n')
    (hst : ∀ o ∈ p.m_options, o.m_storage = []) : p.is_parsed name = .ok false := by
  simp only [is_parsed, hn]
  cases hf : find_option_iter p.m_options n' with
  | none => rfl
  | some idx =>
    simp only
    cases ho : p.m_options[idx]? with
    | none => rfl
    | some o =>
      simp only [OptionEntry.is_parsed, hst o (List.getElem?_mem ho), List.isEmpty_nil,
        Bool.not_true]

theorem check_xor_list_unparsed (p : ArgumentParser) (hst : ∀ o ∈ p.m_options, o.m_storage = []) :
    ∀ (l : List Str) (x : Str), (∀ n ∈ l, ∃ n', normalize_option_name n = .ok n') →
      check_xor_list p l x = none := by
  intro l
  induction l with
  | nil => intro x _; rfl
  | cons n l ih =>
    intro x h
    obtain ⟨n', hn'⟩ := h n (List.mem_cons_self _ _)
    simp only [check_xor_list, is_parsed_unparsed p n n' hn' hst]
    exact ih x (fun m hm => h m (List.mem_cons_of_mem _ hm))

/-- With no option parsed the XOR check passes. -/
theorem check_xor_unparsed (p : ArgumentParser) (hst : ∀ o ∈ p.m_options, o.m_storage = [])
    (hx : xor_names_valid p) : check_xor_arguments p = none := by
  unfold check_xor_arguments
  unfold xor_names_valid at hx
  generalize p.m_xor_lists = ls at hx
  induction ls with
  | nil => rfl
  | cons l ls ih =>
    simp only [check_xor_lists,
      check_xor_list_unparsed p hst l [] (hx l (List.mem_cons_self _ _))]
    exact ih (fun m hm => hx m (List.mem_cons_of_mem _ hm))

/-- C7: for a parser without required options and with freshly reset storage,
parsing `[prog, p1, ..., pk]`, every `pi` non-empty and not starting with a
dash, returns normally exactly when `min ≤ k ≤ max`, and then the positionals
are `[p1, ..., pk]`; otherwise it raises a parsing error.  In particular with
the maximum 0 of a new parser every positional is rejected. -/
theorem C7_positional_count_bounds (q : ArgumentParser) (prog : Str) (ps : List Str)
    (hreq : ∀ o ∈ q.m_options, o.m_is_required = false)
    (hxor : xor_names_valid q)
    (hps : ∀ x ∈ ps, x ≠ [] ∧ at_ x 0 ≠ '-') :
    ((q.m_number_of_minimum_positionals ≤ ps.length ∧
        ps.length ≤ q.m_number_of_maximum_positionals) →
      parse q.reset_storage (prog :: ps) =
        .ok { q.reset_storage.set_program_name_from_argv prog with m_positionals := ps } ∧
      ({ q.reset_storage.set_program_name_from_argv prog with
        m_positionals := ps } : ArgumentParser).get_positionals = ps) ∧
    (¬ (q.m_number_of_minimum_positionals ≤ ps.length ∧
        ps.length ≤ q.m_number_of_maximum_positionals) →
      (parse q.reset_storage (prog :: ps)).isParsingError = true) ∧
    (q.m_number_of_maximum_positionals = 0 → ps ≠ [] →
      (parse q.reset_storage (prog :: ps)).isParsingError = true) := by
  obtain ⟨name, hp0⟩ := set_program_name_eq q.reset_storage prog
  have hloop : parse_loop (prog :: ps) (prog :: ps).length 1 false
      (q.reset_storage.set_program_name_from_argv prog) =
      collect_positionals (q.reset_storage.set_program_name_from_argv prog) ps :=
    parse_loop_plain (prog :: ps) _ 1 _ (by omega) (by simpa using hps)
  have hparse : parse q.reset_storage (prog :: ps) =
      match collect_positionals (q.reset_storage.set_program_name_from_argv prog) ps with
      | .ok p' => check_after_loop p'
      | .throws e p' => .throws e p'
      | .undefined => .undefined := by
    rw [parse_eq_loop _ _ (by simp), ← hloop]
    rfl
  have hopts : ∀ o ∈ (q.m_options.map OptionEntry.reset_storage),
      o.m_is_required = false ∧ o.m_storage = [] := by
    intro o ho
    obtain ⟨o', ho', rfl⟩ := List.mem_map.mp ho
    exact ⟨hreq o' ho', rfl⟩
  have hmain : ∀ (hcase : Prop) [Decidable hcase],
      (hcase ↔ (q.m_number_of_minimum_positionals ≤ ps.length ∧
        ps.length ≤ q.m_number_of_maximum_positionals)) →
      (hcase → parse q.reset_storage (prog :: ps) =
        .ok { q.reset_storage.set_program_name_from_argv prog with m_positionals := ps }) ∧
      (¬ hcase → (parse q.reset_storage (prog :: ps)).isParsingError = true) := by
    intro hcase _ hiff
    rw [hparse, hp0]
    simp only [collect_positionals, ArgumentParser.reset_storage, List.length_nil, Nat.sub_zero,
      List.nil_append]
    by_cases hmax : ps.length ≤ q.m_number_of_maximum_positionals
    · simp only [hmax, if_true]
      have hx : check_xor_arguments
          { m_program_name := name, m_program_version := q.m_program_version,
            m_help_preamble := q.m_help_preamble, m_help_epilog := q.m_help_epilog,
            m_number_of_minimum_positionals := q.m_number_of_minimum_positionals,
            m_number_of_maximum_positionals := q.m_number_of_maximum_positionals,
            m_positional_help := q.m_positional_help,
            m_positional_meta_var := q.m_positional_meta_var, m_positionals := ps,
            m_xor_lists := q.m_xor_lists,
            m_options := q.m_options.map OptionEntry.reset_storage } = none :=
        check_xor_unparsed _ (fun o ho => (hopts o ho).2) hxor
      simp only [check_after_loop, check_required_arguments,
        missing_requireds_none _ (fun o ho => (hopts o ho).1), List.isEmpty_nil, Bool.not_true,
        Bool.false_eq_true, if_false, hx]
      by_cases hmin : ps.length < q.m_number_of_minimum_positionals
      · simp only [hmin, if_true]
        constructor
        · intro hc
          have := hiff.mp hc
          omega
        · intro _; rfl
      · simp only [hmin, if_false]
        constructor
        · intro _; trivial
        · intro hc
          exact absurd (hiff.mpr ⟨by omega, hmax⟩) hc
    · simp only [hmax, if_false]
      constructor
      · intro hc
        exact absurd (hiff.mp hc).2 hmax
      · intro _; rfl
  obtain ⟨h1, h2⟩ := hmain _ Iff.rfl
  refine ⟨fun h => ⟨h1 h, rfl⟩, h2, ?_⟩
  intro h0 hne
  apply h2
  intro h
  have : ps.length = 0 := by omega
  exact hne (List.length_eq_zero.mp this)

theorem xor_names_valid_nil (p : ArgumentParser) (h : p.m_xor_lists = []) :
    xor_names_valid p := by
  intro l hl
  rw [h] at hl
  cases hl

/-- The examples of C7: with two positionals allowed `p1 p2` is accepted and
`p1 p2 p3` is rejected, and a new parser (bounds 0, 0) rejects `p1`. -/
theorem C7_positional_count_bounds_witness :
    (parse parser_multi.reset_storage [lit "app", lit "p1", lit "p2"] =
        .ok { parser_multi.reset_storage.set_program_name_from_argv (lit "app") with
          m_positionals := [lit "p1", lit "p2"] } ∧
      ({ parser_multi.reset_storage.set_program_name_from_argv (lit "app") with
        m_positionals := [lit "p1", lit "p2"] } : ArgumentParser).get_positionals =
          [lit "p1", lit "p2"]) ∧
    (parse parser_multi.reset_storage
      [lit "app", lit "p1", lit "p2", lit "p3"]).isParsingError = true ∧
    (parse ArgumentParser.empty.reset_storage [lit "app", lit "p1"]).isParsingError = true :=
  ⟨(C7_positional_count_bounds parser_multi (lit "app") [lit "p1", lit "p2"] (by decide)
      (xor_names_valid_nil _ rfl) (by decide)).1 (by decide),
   (C7_positional_count_bounds parser_multi (lit "app") [lit "p1", lit "p2", lit "p3"]
      (by decide) (xor_names_valid_nil _ rfl) (by decide)).2.1 (by decide),
   (C7_positional_count_bounds ArgumentParser.empty (lit "app") [lit "p1"]
      (by decide) (xor_names_valid_nil _ rfl) (by decide)).2.2 rfl (by decide)⟩

/-! ## Too few values -/

/-- C8: an option of arity `n ≥ 1` that occurs with `k < n` inline values when
fewer than `n - k` tokens follow raises the parsing error of `Option::parse`
for the wrong number of values; no token is consumed for it and the parser is
left unchanged, so nothing is stored. -/
theorem C8_too_few_values (argv : List Str) (c : Nat) (p : ArgumentParser)
    (arg : Str) (idx : Nat) (o : OptionEntry)
    (harg : argv.getD c [] = arg)
    (hc1 : 1 ≤ c) (hcL : c < argv.length) (hL : argv.length < ARGV_MAX)
    (hform : (is_short_option_name arg || is_long_option arg) = true)
    (hng : is_short_option_group_name arg = false)
    (hpos : p.m_positionals = [])
    (hfind : find_option_to_parse p (split_argument_text arg).1 = .ok idx)
    (hopt : p.m_options[idx]? = some o)
    (hn : o.m_number_of_arguments < UINT_MOD)
    (hk : (inline_values (split_argument_text arg).2).length < o.m_number_of_arguments)
    (hfew : argv.length - (c + 1) <
      o.m_number_of_arguments - (inline_values (split_argument_text arg).2).length) :
    parse_step argv c false p =
      .throws (.ParsingException (lit "Option '" ++ o.get_name ++ lit "' expects " ++
        to_string o.m_number_of_arguments ++ lit " argument, but " ++
        to_string (inline_values (split_argument_text arg).2).length ++ lit " were given.")) p ∧
    ∀ fuel, parse_loop argv (fuel + 1) c false p =
      .throws (.ParsingException (lit "Option '" ++ o.get_name ++ lit "' expects " ++
        to_string o.m_number_of_arguments ++ lit " argument, but " ++
        to_string (inline_values (split_argument_text arg).2).length ++ lit " were given.")) p := by
  subst harg
  have hstep : parse_step argv c false p =
      .throws (.ParsingException (lit "Option '" ++ o.get_name ++ lit "' expects " ++
        to_string o.m_number_of_arguments ++ lit " argument, but " ++
        to_string (inline_values (split_argument_text (argv.getD c [])).2).length ++
        lit " were given.")) p := by
    rw [parse_step_option_form argv c p hform]
    simp only [hpos, List.isEmpty_nil, Bool.not_true, Bool.false_eq_true, if_false, hng]
    rw [parse_single_option_eq argv c false p _ idx o hc1 hcL hL hfind hopt hn]
    have h1 : ¬ o.m_number_of_arguments <
        (inline_values (split_argument_text (argv.getD c [])).2).length := by omega
    have h2 : ¬ ((inline_values (split_argument_text (argv.getD c [])).2).length <
        o.m_number_of_arguments ∧
        c + (o.m_number_of_arguments -
          (inline_values (split_argument_text (argv.getD c [])).2).length) < argv.length) := by
      intro h; omega
    simp only [h1, h2, if_false]
    rw [parse_option_eq p idx o _ hopt]
    have h3 : (inline_values (split_argument_text (argv.getD c [])).2).length ≠
        o.m_number_of_arguments := by omega
    simp only [OptionEntry.parse, h3, ne_eq, not_false_eq_true, if_true, put_option_self p idx o hopt]
  refine ⟨hstep, ?_⟩
  intro fuel
  simp only [parse_loop, hcL, if_true, hstep]

/-- The example of C8: `--long` as the last token for the arity-1 option
`--long`. -/
theorem C8_too_few_values_witness :
    parse_step [lit "app", lit "--long"] 1 false parser_multi =
      .throws (.ParsingException (lit "Option 'long' expects 1 argument, but 0 were given."))
        parser_multi ∧
    ∀ fuel, parse_loop [lit "app", lit "--long"] (fuel + 1) 1 false parser_multi =
      .throws (.ParsingException (lit "Option 'long' expects 1 argument, but 0 were given."))
        parser_multi :=
  C8_too_few_values [lit "app", lit "--long"] 1 parser_multi (lit "--long") 1
    (value_entry [lit "long"] 1) (by decide) (by decide) (by decide) (by decide) (by decide)
    (by decide) (by decide) rfl (by decide) (by decide) (by decide) (by decide)

/-! ## A flag with an inline value -/

/-- Method `Option::parse` of a flag on one value: the parsing error for the
wrong number of values, with the flag as it was. -/
theorem option_parse_flag_value (o : OptionEntry) (v : Str)
    (har : o.m_number_of_arguments = 0) :
    o.parse [v] =
      .throws (.ParsingException
        (lit "Option '" ++ o.get_name ++ lit "' expects 0 argument, but 1 were given.")) o := by
  unfold OptionEntry.parse
  have h3 : [v].length ≠ o.m_number_of_arguments := by
    rw [har]
    simp
  rw [if_pos h3, har]
  have hmsg : lit "' expects " ++ (to_string 0 ++ (lit " argument, but " ++
      (to_string 1 ++ lit " were given."))) =
      lit "' expects 0 argument, but 1 were given." := by decide
  simp only [List.append_assoc, List.length_singleton, hmsg]

/-- The single-option branch on a token that carries an inline value for a
registered flag: the `size_t` difference `0 - 1` wraps to `2 ^ 64 - 1`, the
guard of line 116 holds because the sum wraps as well, `copy_n` copies nothing
for a count that is negative as a difference, and `Option::parse` rejects the
one value. -/
theorem parse_step_flag_inline_value (argv : List Str) (c : Nat) (p : ArgumentParser)
    (idx : Nat) (o : OptionEntry) (v : Str)
    (hc1 : 1 ≤ c) (hcL : c < argv.length) (hL : argv.length < ARGV_MAX)
    (hform : (is_short_option_name (argv.getD c []) || is_long_option (argv.getD c [])) = true)
    (hng : is_short_option_group_name (argv.getD c []) = false)
    (hpos : p.m_positionals = [])
    (hfind : find_option_to_parse p (split_argument_text (argv.getD c [])).1 = .ok idx)
    (hopt : p.m_options[idx]? = some o)
    (har : o.m_number_of_arguments = 0)
    (hval : inline_values (split_argument_text (argv.getD c [])).2 = [v]) :
    parse_step argv c false p =
      .throws (.ParsingException
        (lit "Option '" ++ o.get_name ++ lit "' expects 0 argument, but 1 were given.")) p := by
  rw [parse_step_option_form argv c p hform]
  simp only [hpos, List.isEmpty_nil, Bool.not_true, Bool.false_eq_true, if_false, hng]
  rw [parse_single_option_eq argv c false p _ idx o hc1 hcL hL hfind hopt
    (by rw [har]; decide)]
  simp only [har, hval, List.length_cons, List.length_nil, Nat.zero_add, Nat.zero_lt_one, if_true]
  rw [parse_option_eq p idx o _ hopt, option_parse_flag_value o v har]
  simp only [put_option_self p idx o hopt]

/-- C9: a token that is dispatched as a single option token, names a
registered flag (arity 0) and carries an inline value `v` - `-s=1`,
`--flag=x`, `--flag=` with the empty `v` - makes the iteration, and so the
loop of `parse`, raise the parsing error of `Option::parse` for 1 value where
0 are expected.  The parser is left as it was: the flag is not marked parsed,
and `Option::parse` was handed the inline value alone, so no following token
was taken as a value. -/
theorem C9_flag_inline_value (argv : List Str) (c : Nat) (p : ArgumentParser)
    (arg : Str) (idx : Nat) (o : OptionEntry) (v : Str)
    (harg : argv.getD c [] = arg)
    (hc1 : 1 ≤ c) (hcL : c < argv.length) (hL : argv.length < ARGV_MAX)
    (hform : (is_short_option_name arg || is_long_option arg) = true)
    (hng : is_short_option_group_name arg = false)
    (hpos : p.m_positionals = [])
    (hfind : find_option_to_parse p (split_argument_text arg).1 = .ok idx)
    (hopt : p.m_options[idx]? = some o)
    (har : o.m_number_of_arguments = 0)
    (hval : inline_values (split_argument_text arg).2 = [v]) :
    parse_step argv c false p =
      .throws (.ParsingException
        (lit "Option '" ++ o.get_name ++ lit "' expects 0 argument, but 1 were given.")) p ∧
    (∀ fuel, parse_loop argv (fuel + 1) c false p =
      .throws (.ParsingException
        (lit "Option '" ++ o.get_name ++ lit "' expects 0 argument, but 1 were given.")) p) ∧
    parse_option p idx [v] =
      .throws (.ParsingException
        (lit "Option '" ++ o.get_name ++ lit "' expects 0 argument, but 1 were given.")) p := by
  subst harg
  have hstep := parse_step_flag_inline_value argv c p idx o v hc1 hcL hL hform hng hpos hfind
    hopt har hval
  refine ⟨hstep, ?_, ?_⟩
  · intro fuel
    simp only [parse_loop, hcL, if_true, hstep]
  · rw [parse_option_eq p idx o _ hopt, option_parse_flag_value o v har]
    simp only [put_option_self p idx o hopt]

/-- The examples of C9 for the flag `-s` of the test `AddMultiOption`: the
token `-s=1` raises the parsing error and leaves the parser as it was, whether
or not a token follows, and so does `parse`. -/
theorem C9_flag_inline_value_witness :
    parse_step [lit "app", lit "-s=1"] 1 false parser_multi =
      .throws (.ParsingException (lit "Option 's' expects 0 argument, but 1 were given."))
        parser_multi ∧
    parse_step [lit "app", lit "-s=1", lit "next"] 1 false parser_multi =
      .throws (.ParsingException (lit "Option 's' expects 0 argument, but 1 were given."))
        parser_multi ∧
    parse parser_multi [lit "app", lit "-s=1"] =
      .throws (.ParsingException (lit "Option 's' expects 0 argument, but 1 were given."))
        (parser_multi.set_program_name_from_argv (lit "app")) ∧
    (parser_multi.set_program_name_from_argv (lit "app")).is_parsed (lit "s") = .ok false :=
  ⟨(C9_flag_inline_value [lit "app", lit "-s=1"] 1 parser_multi (lit "-s=1") 0
      (flag_entry [lit "s"]) (lit "1") rfl (by decide) (by decide) (by decide) (by decide)
      (by decide) rfl rfl rfl rfl rfl).1,
    (C9_flag_inline_value [lit "app", lit "-s=1", lit "next"] 1 parser_multi (lit "-s=1") 0
      (flag_entry [lit "s"]) (lit "1") rfl (by decide) (by decide) (by decide) (by decide)
      (by decide) rfl rfl rfl rfl rfl).1,
    by decide, rfl⟩

/-! ## A second occurrence -/

/-- Method `Option::parse` on a non-appending option that holds values: every
list of values is rejected with a parsing error and the option is unchanged. -/
theorem option_parse_second_occurrence (o : OptionEntry) (values : List Str)
    (hna : o.m_is_appending = false) (hst : o.m_storage ≠ []) :
    ∃ msg, o.parse values = .throws (.ParsingException msg) o := by
  unfold OptionEntry.parse
  by_cases h1 : values.length ≠ o.m_number_of_arguments
  · exact ⟨_, by rw [if_pos h1]⟩
  · have h2 : (!o.m_storage.isEmpty && !o.m_is_appending) = true := by
      cases hs : o.m_storage with
      | nil => exact absurd hs hst
      | cons a t => simp [hna]
    exact ⟨_, by rw [if_neg h1, if_pos h2]⟩

/-! ## Choices -/

theorem parse_choices_spec (values : List Str) (cs : List (List Str)) (name : Str) :
    ∀ (k i : Nat) (o : OptionEntry), o.m_choices = cs → o.get_name = name →
      i + k ≤ cs.length → i + k ≤ values.length →
      ((∀ j, i ≤ j → j < i + k → (cs.getD j []).contains (values.getD j []) = true) →
        OptionEntry.parse_choices values k i o =
          .ok { o with m_storage := o.m_storage ++ (values.drop i).take k }) ∧
      (∀ j, i ≤ j → j < i + k →
        (∀ j', i ≤ j' → j' < j → (cs.getD j' []).contains (values.getD j' []) = true) →
        (cs.getD j []).contains (values.getD j []) = false →
        OptionEntry.parse_choices values k i o =
          .throws (.ParsingException (lit "'" ++ values.getD j [] ++
            lit "' does not match possible choices for " ++ name))
            { o with m_storage := o.m_storage ++ (values.drop i).take (j - i) }) ∧
      (∀ o', OptionEntry.parse_choices values k i o = .ok o' →
        ∀ j, i ≤ j → j < i + k → (cs.getD j []).contains (values.getD j []) = true) := by
  intro k
  induction k with
  | zero =>
    intro i o _ _ _ _
    refine ⟨?_, ?_, ?_⟩
    · intro _
      simp [OptionEntry.parse_choices]
    · intro j h1 h2; omega
    · intro o' _ j h1 h2; omega
  | succ k ih =>
    intro i o hcs hname h1 h2
    have hci : o.m_choices[i]? = some (cs.getD i []) := by
      rw [hcs, List.getD_eq_getElem?_getD, List.getElem?_eq_getElem (by omega)]
      rfl
    have hvi : values[i]? = some (values.getD i []) := by
      rw [List.getD_eq_getElem?_getD, List.getElem?_eq_getElem (by omega)]
      rfl
    have hdrop : values.drop i = values.getD i [] :: values.drop (i + 1) := by
      rw [List.drop_eq_getElem_cons (by omega)]
      congr 1
      rw [List.getD_eq_getElem?_getD, List.getElem?_eq_getElem (by omega)]
      rfl
    simp only [OptionEntry.parse_choices, hci, hvi]
    by_cases hgood : (cs.getD i []).contains (values.getD i []) = true
    · simp only [hgood, if_true]
      obtain ⟨ih1, ih2, ih3⟩ := ih (i + 1)
        { o with m_storage := o.m_storage ++ [values.getD i []] } hcs hname (by omega) (by omega)
      refine ⟨?_, ?_, ?_⟩
      · intro hall
        rw [ih1 (fun j hj1 hj2 => hall j (by omega) (by omega))]
        simp [hdrop, List.append_assoc]
      · intro j hj1 hj2 hbefore hbad
        have hne : j ≠ i := by
          intro h; subst h; rw [hgood] at hbad; cases hbad
        rw [ih2 j (by omega) (by omega) (fun j' h1' h2' => hbefore j' (by omega) h2') hbad]
        have : j - i = (j - (i + 1)) + 1 := by omega
        simp [hdrop, this, List.append_assoc]
      · intro o' hok j hj1 hj2
        by_cases hji : j = i
        · subst hji; exact hgood
        · exact ih3 o' hok j (by omega) (by omega)
    · simp only [hgood, Bool.false_eq_true, if_false]
      refine ⟨?_, ?_, ?_⟩
      · intro hall
        exact absurd (hall i (Nat.le_refl _) (by omega)) hgood
      · intro j hj1 hj2 hbefore hbad
        have hji : j = i := by
          by_contra hne
          exact hgood (hbefore i (Nat.le_refl _) (by omega))
        subst hji
        simp [hname]
      · intro o' hok
        cases hok

/-- C12, as the code has it: an occurrence with `n` values of an option with
choices that holds no stored values, or is appending, is accepted exactly when
every value belongs to the choice set of its position, and then all values are
stored in order; otherwise `Option::parse` raises the parsing error whose
message quotes the first value that does not. -/
theorem C12_choices_accept_iff_member (o : OptionEntry) (values : List Str)
    (hch : o.m_choices ≠ [])
    (hchl : o.m_choices.length = o.m_number_of_arguments)
    (hlen : values.length = o.m_number_of_arguments)
    (hst : o.m_storage = [] ∨ o.m_is_appending = true) :
    ((∀ i, i < o.m_number_of_arguments → choice_ok o values i = true) →
      o.parse values = .ok { o with m_storage := o.m_storage ++ values }) ∧
    (∀ j, j < o.m_number_of_arguments → (∀ i, i < j → choice_ok o values i = true) →
      choice_ok o values j = false →
      o.parse values = .throws (.ParsingException (lit "'" ++ values.getD j [] ++
        lit "' does not match possible choices for " ++ o.get_name))
        { o with m_storage := o.m_storage ++ values.take j }) ∧
    ((∃ o', o.parse values = .ok o') ↔
      ∀ i, i < o.m_number_of_arguments → choice_ok o values i = true) := by
  have hn : o.m_number_of_arguments ≠ 0 := by
    intro h
    rw [h] at hchl
    exact hch (List.length_eq_zero.mp hchl)
  have hparse : o.parse values =
      OptionEntry.parse_choices values o.m_number_of_arguments 0 o := by
    unfold OptionEntry.parse
    have h1 : ¬ values.length ≠ o.m_number_of_arguments := by simp [hlen]
    have h2 : (!o.m_storage.isEmpty && !o.m_is_appending) = false := by
      rcases hst with h | h <;> simp [h]
    have h3 : (!o.m_choices.isEmpty) = true := by
      cases hc : o.m_choices with
      | nil => exact absurd hc hch
      | cons a t => rfl
    rw [if_neg h1, h2, if_neg hn, h3]
    simp
  obtain ⟨s1, s2, s3⟩ := parse_choices_spec values o.m_choices o.get_name
    o.m_number_of_arguments 0 o rfl rfl (by omega) (by omega)
  simp only [Nat.zero_add, Nat.zero_le, true_implies, List.drop_zero, Nat.sub_zero] at s1 s2 s3
  have htake : values.take o.m_number_of_arguments = values := by
    rw [← hlen]; exact List.take_length values
  rw [hparse]
  refine ⟨?_, ?_, ?_⟩
  · intro hall
    rw [s1 hall, htake]
  · intro j hj hbefore hbad
    exact s2 j hj hbefore hbad
  · constructor
    · rintro ⟨o', ho'⟩
      exact s3 o' ho'
    · intro hall
      exact ⟨_, s1 hall⟩

/-- The example of C12 from the test `AddChoiceOption`: with the choices `a`,
`b` the value `a` is stored and the value `c` is rejected with a message that
quotes it. -/
theorem C12_choices_accept_iff_member_witness :
    option_choice.parse [lit "a"] = .ok { option_choice with m_storage := [lit "a"] } ∧
    option_choice.parse [lit "c"] =
      .throws (.ParsingException (lit "'c' does not match possible choices for c"))
        option_choice ∧
    ((∃ o', option_choice.parse [lit "b"] = .ok o') ↔
      ∀ i, i < option_choice.m_number_of_arguments →
        choice_ok option_choice [lit "b"] i = true) :=
  ⟨(C12_choices_accept_iff_member option_choice [lit "a"] (by decide) (by decide) (by decide)
      (Or.inl rfl)).1 (by decide),
   (C12_choices_accept_iff_member option_choice [lit "c"] (by decide) (by decide) (by decide)
      (Or.inl rfl)).2.1 0 (by decide) (by decide) (by decide),
   (C12_choices_accept_iff_member option_choice [lit "b"] (by decide) (by decide) (by decide)
      (Or.inl rfl)).2.2⟩

/-- Counterexample to C12 as stated: the option `-c`, `--choice` of the test
`AddChoiceOption` (one value out of `a`, `b`, not appending) that holds the
value `a` rejects the occurrence with the value `b`, which is in its choice
set: `Option::parse` tests for stored values before it looks at the choices.
So `parse` rejects `--choice a --choice b`. -/
theorem C12_already_parsed_counterexample :
    ([lit "a", lit "b"] : List Str).contains (lit "b") = true ∧
    OptionEntry.parse { option_choice with m_storage := [lit "a"] } [lit "b"] =
      .throws (.ParsingException (lit "Option 'c' already parsed"))
        { option_choice with m_storage := [lit "a"] } ∧
    parser_choice.parse [lit "app", lit "--choice", lit "a", lit "--choice", lit "b"] =
      .throws (.ParsingException (lit "Option 'c' already parsed"))
        ((parser_choice.set_program_name_from_argv (lit "app")).put_option 0
          { option_choice with m_storage := [lit "a"] }) := by
  refine ⟨by decide, by decide, by decide⟩

/-! ## The checks after the loop -/

theorem missing_requireds_eq (os : List OptionEntry) :
    missing_requireds os =
      ((os.filter (fun o => o.m_is_required && !o.is_parsed)).map
        (fun o => o.get_name ++ lit ", ")).flatten := by
  induction os with
  | nil => rfl
  | cons o os ih =>
    simp only [missing_requireds, List.filter_cons]
    by_cases h : (o.m_is_required && !o.is_parsed) = true
    · simp only [h, if_true, List.map_cons, List.flatten_cons, ih, List.append_assoc]
    · simp only [h, if_false, ih, Bool.false_eq_true]

theorem missing_requireds_nil_iff (os : List OptionEntry) :
    missing_requireds os = [] ↔
      ∀ o ∈ os, o.m_is_required = true → o.is_parsed = true := by
  induction os with
  | nil => simp [missing_requireds]
  | cons o os ih =>
    simp only [missing_requireds]
    by_cases h : (o.m_is_required && !o.is_parsed) = true
    · simp only [h, if_true]
      constructor
      · intro he
        have : (lit ", " : Str) = [] := by
          have := congrArg List.length he
          simp [lit] at this
        exact absurd this (by decide)
      · intro hall
        simp only [Bool.and_eq_true, Bool.not_eq_true'] at h
        have := hall o (List.mem_cons_self _ _) h.1
        rw [h.2] at this
        cases this
    · simp only [h, if_false, Bool.false_eq_true, ih, List.mem_cons, forall_eq_or_imp]
      constructor
      · intro hall
        refine ⟨?_, hall⟩
        intro hr
        cases hp : o.is_parsed with
        | true => rfl
        | false => simp [hr, hp] at h
      · intro hall
        exact hall.2

theorem parse_of_loop_ok (p : ArgumentParser) (argv : List Str) (p' : ArgumentParser)
    (hne : argv ≠ [])
    (hloop : parse_loop argv argv.length 1 false (initial_state p argv).parser = .ok p') :
    parse p argv = check_after_loop p' := by
  rw [parse_eq_loop p argv hne, hloop]

/-- C13: when the token loop finishes without error and some required option
is not parsed, `parse` raises one parsing error whose message lists the name of
every required option that is not parsed, in registration order; so a parse
that returns normally has every required option parsed. -/
theorem C13_required_options (p : ArgumentParser) (argv : List Str) (p' : ArgumentParser)
    (hne : argv ≠ [])
    (hloop : parse_loop argv argv.length 1 false (initial_state p argv).parser = .ok p') :
    (required_unparsed p' ≠ [] →
      parse p argv =
        .throws (.ParsingException
          (lit "The following arguments are required, but were not set: " ++
            ((required_unparsed p').map (fun o => o.get_name ++ lit ", ")).flatten)) p') ∧
    (∀ pf, parse p argv = .ok pf →
      pf = p' ∧ ∀ o ∈ pf.m_options, o.m_is_required = true → o.is_parsed = true) := by
  have hparse := parse_of_loop_ok p argv p' hne hloop
  constructor
  · intro hmiss
    have hne' : missing_requireds p'.m_options ≠ [] := by
      intro h
      apply hmiss
      have hall := (missing_requireds_nil_iff p'.m_options).mp h
      unfold required_unparsed
      rw [List.filter_eq_nil_iff]
      intro o ho hc
      simp only [Bool.and_eq_true, Bool.not_eq_true'] at hc
      have := hall o ho hc.1
      rw [hc.2] at this
      cases this
    have hemp : (!(missing_requireds p'.m_options).isEmpty) = true := by
      cases hm : missing_requireds p'.m_options with
      | nil => exact absurd hm hne'
      | cons a t => rfl
    rw [hparse]
    simp only [check_after_loop, check_required_arguments, hemp, if_true]
    rw [missing_requireds_eq]
    rfl
  · intro pf hok
    rw [hparse] at hok
    unfold check_after_loop at hok
    cases hreq : check_required_arguments p' with
    | some e => rw [hreq] at hok; cases hok
    | none =>
      rw [hreq] at hok
      simp only at hok
      cases hx : check_xor_arguments p' with
      | some e => rw [hx] at hok; cases hok
      | none =>
        rw [hx] at hok
        cases hok
        refine ⟨rfl, ?_⟩
        apply (missing_requireds_nil_iff p'.m_options).mp
        unfold check_required_arguments at hreq
        by_cases hm : (!(missing_requireds p'.m_options).isEmpty) = true
        · rw [if_pos hm] at hreq; cases hreq
        · cases hmr : missing_requireds p'.m_options with
          | nil => rfl
          | cons a t => rw [hmr] at hm; exact absurd rfl hm

/-- The example of C13: with the flags `-a` and `-b` required and only `-c`
given, the one parsing error names `a` and `b`. -/
theorem C13_required_options_witness :
    parse parser_required [lit "app", lit "-c"] =
      .throws (.ParsingException
        (lit "The following arguments are required, but were not set: a, b, "))
        ((parser_required.set_program_name_from_argv (lit "app")).put_option 2
          (mark_parsed (flag_entry [lit "c"]))) :=
  ((C13_required_options parser_required [lit "app", lit "-c"]
    ((parser_required.set_program_name_from_argv (lit "app")).put_option 2
      (mark_parsed (flag_entry [lit "c"]))) (by decide) (by decide)).1 (by decide)).trans
    (by decide)

theorem is_parsed_of_normalize (p : ArgumentParser) (name n' : Str)
    (hn : normalize_option_name name = .ok n') : ∃ b, p.is_parsed name = .ok b := by
  unfold is_parsed
  rw [hn]
  dsimp only
  split
  · exact ⟨_, rfl⟩
  · split
    · exact ⟨_, rfl⟩
    · exact ⟨_, rfl⟩

theorem normalize_ne_nil (name n' : Str) (hn : normalize_option_name name = .ok n') :
    name ≠ [] := by
  intro h
  subst h
  revert hn
  simp [normalize_option_name, strictly_normalize_option_name, at_]

/-- The inner loop of the XOR check on a group of valid names: it passes when
at most one name is parsed, counting the one found before, and otherwise
throws a parsing error. -/
theorem check_xor_list_spec (p : ArgumentParser) :
    ∀ (l : List Str) (x : Str), (∀ n ∈ l, ∃ n', normalize_option_name n = .ok n') →
      (check_xor_list p l x = none ↔
        (parsed_members p l).length + (if x = [] then 0 else 1) ≤ 1) ∧
      (∀ e, check_xor_list p l x = some e → e.isParsing = true) := by
  intro l
  induction l with
  | nil =>
    intro x _
    constructor
    · simp only [check_xor_list, parsed_members, List.filter_nil, List.length_nil, Nat.zero_add,
        true_iff]
      split <;> omega
    · intro e h
      cases h
  | cons n l ih =>
    intro x hv
    obtain ⟨n', hn'⟩ := hv n (List.mem_cons_self _ _)
    obtain ⟨b, hb⟩ := is_parsed_of_normalize p n n' hn'
    have hnn := normalize_ne_nil n n' hn'
    have hv' : ∀ m ∈ l, ∃ m', normalize_option_name m = .ok m' :=
      fun m hm => hv m (List.mem_cons_of_mem _ hm)
    cases b with
    | false =>
      have hpm : parsed_members p (n :: l) = parsed_members p l := by
        simp only [parsed_members, List.filter_cons, hb]
        rfl
      simp only [check_xor_list, hb, hpm]
      exact ih x hv'
    | true =>
      have hpm : parsed_members p (n :: l) = n :: parsed_members p l := by
        simp only [parsed_members, List.filter_cons, hb]
        rfl
      simp only [check_xor_list, hb, hpm, List.length_cons]
      by_cases hx : x = []
      · subst hx
        simp only [List.isEmpty_nil, if_true]
        obtain ⟨ih1, ih2⟩ := ih n hv'
        refine ⟨?_, ih2⟩
        rw [ih1]
        simp only [hnn, if_false]
      · have hxe : x.isEmpty = false := by
          cases x with
          | nil => exact absurd rfl hx
          | cons a t => rfl
        simp only [hxe, Bool.false_eq_true, if_false, hx]
        constructor
        · constructor
          · intro h; cases h
          · intro h; omega
        · intro e he
          cases he
          rfl

theorem check_xor_lists_spec (p : ArgumentParser) :
    ∀ (ls : List (List Str)), (∀ l ∈ ls, ∀ n ∈ l, ∃ n', normalize_option_name n = .ok n') →
      (check_xor_lists p ls = none ↔ ∀ l ∈ ls, (parsed_members p l).length ≤ 1) ∧
      (∀ e, check_xor_lists p ls = some e → e.isParsing = true) := by
  intro ls
  induction ls with
  | nil =>
    intro _
    simp [check_xor_lists]
  | cons l ls ih =>
    intro hv
    obtain ⟨h1, h2⟩ := check_xor_list_spec p l [] (hv l (List.mem_cons_self _ _))
    obtain ⟨ih1, ih2⟩ := ih (fun m hm => hv m (List.mem_cons_of_mem _ hm))
    simp only [if_true, Nat.add_zero] at h1
    simp only [check_xor_lists]
    cases hc : check_xor_list p l [] with
    | some e =>
      simp only
      constructor
      · constructor
        · intro h; cases h
        · intro hall
          have := h1.mpr (hall l (List.mem_cons_self _ _))
          rw [hc] at this
          cases this
      · intro e' he
        cases he
        exact h2 e hc
    | none =>
      simp only
      constructor
      · rw [ih1]
        constructor
        · intro hall m hm
          rcases List.mem_cons.mp hm with rfl | hm'
          · exact h1.mp hc
          · exact hall m hm'
        · intro hall m hm
          exact hall m (List.mem_cons_of_mem _ hm)
      · exact ih2

/-- C14: when the token loop and the required and positional checks pass,
`parse` returns normally exactly when every XOR group has at most one parsed
member, and raises a parsing error when some group has two; so after a parse
that returns normally every group has at most one parsed member. -/
theorem C14_xor_groups (p : ArgumentParser) (argv : List Str) (p' : ArgumentParser)
    (hne : argv ≠ [])
    (hloop : parse_loop argv argv.length 1 false (initial_state p argv).parser = .ok p')
    (hreq : check_required_arguments p' = none)
    (hx : xor_names_valid p') :
    (parse p argv = .ok p' ↔ ∀ l ∈ p'.m_xor_lists, (parsed_members p' l).length ≤ 1) ∧
    ((∃ l ∈ p'.m_xor_lists, 2 ≤ (parsed_members p' l).length) →
      (parse p argv).isParsingError = true) ∧
    (∀ pf, parse p argv = .ok pf →
      ∀ l ∈ pf.m_xor_lists, (parsed_members pf l).length ≤ 1) := by
  have hparse := parse_of_loop_ok p argv p' hne hloop
  obtain ⟨h1, h2⟩ := check_xor_lists_spec p' p'.m_xor_lists hx
  have hcal : check_after_loop p' =
      match check_xor_arguments p' with
      | some e => .throws e p'
      | none => .ok p' := by
    simp only [check_after_loop, hreq]
  rw [hparse, hcal]
  unfold check_xor_arguments
  cases hc : check_xor_lists p' p'.m_xor_lists with
  | some e =>
    have hpe := h2 e hc
    simp only
    refine ⟨?_, ?_, ?_⟩
    · constructor
      · intro h; cases h
      · intro hall
        have := h1.mpr hall
        rw [hc] at this
        cases this
    · intro _
      simpa [Outcome.isParsingError] using hpe
    · intro pf h; cases h
  | none =>
    simp only
    have hall := h1.mp hc
    refine ⟨?_, ?_, ?_⟩
    · constructor
      · intro _; exact hall
      · intro _; trivial
    · rintro ⟨l, hl, h2l⟩
      have := hall l hl
      omega
    · intro pf h
      cases h
      exact hall

/-- The examples of C14 from the test `addXOR`: with the flags `a`, `b` in one
group, `-a -b` is a parsing error and `-a` alone is accepted. -/
theorem C14_xor_groups_witness :
    (parse parser_xor [lit "app", lit "-a", lit "-b"]).isParsingError = true ∧
    parse parser_xor [lit "app", lit "-a"] =
      .ok ((parser_xor.set_program_name_from_argv (lit "app")).put_option 0
        (mark_parsed (flag_entry [lit "a"]))) :=
  ⟨(C14_xor_groups parser_xor [lit "app", lit "-a", lit "-b"]
      (((parser_xor.set_program_name_from_argv (lit "app")).put_option 0
        (mark_parsed (flag_entry [lit "a"]))).put_option 1 (mark_parsed (flag_entry [lit "b"])))
      (by decide) (by decide) (by decide)
      (by
        intro l hl n hn
        simp only [parser_xor, put_option, ArgumentParser.empty, set_program_name_from_argv,
          List.isEmpty_nil, if_true] at hl
        have hl' : l = [lit "a", lit "-b"] := by
          split at hl <;> simpa using hl
        subst hl'
        simp only [List.mem_cons, List.mem_singleton, List.not_mem_nil, or_false] at hn
        rcases hn with rfl | rfl
        · exact ⟨lit "a", rfl⟩
        · exact ⟨lit "b", rfl⟩)).2.1
      ⟨[lit "a", lit "-b"], by decide, by decide⟩,
   (C14_xor_groups parser_xor [lit "app", lit "-a"]
      ((parser_xor.set_program_name_from_argv (lit "app")).put_option 0
        (mark_parsed (flag_entry [lit "a"])))
      (by decide) (by decide) (by decide)
      (by
        intro l hl n hn
        simp only [parser_xor, put_option, ArgumentParser.empty, set_program_name_from_argv,
          List.isEmpty_nil, if_true] at hl
        have hl' : l = [lit "a", lit "-b"] := by
          split at hl <;> simpa using hl
        subst hl'
        simp only [List.mem_cons, List.mem_singleton, List.not_mem_nil, or_false] at hn
        rcases hn with rfl | rfl
        · exact ⟨lit "a", rfl⟩
        · exact ⟨lit "b", rfl⟩)).1.mpr (by decide)⟩

/-! ## Unrecognised input -/

theorem take_takeWhile_length (f : Char → Bool) (t : List Char) :
    List.take (List.takeWhile f t).length t = List.takeWhile f t := by
  induction t with
  | nil => rfl
  | cons a t ih =>
    by_cases h : f a = true
    · simp [List.takeWhile_cons, h, ih]
    · simp [List.takeWhile_cons, h]

/-- The name `split_argument_text` cuts from a long option token is a long
name, so looking it up never raises a usage error. -/
theorem split_long_name (arg : Str) (hs : is_short_option_name arg = false)
    (hl : is_long_option arg = true) : is_long_name (split_argument_text arg).1 = true := by
  simp only [is_long_option, Bool.and_eq_true, decide_eq_true_eq, beq_iff_eq] at hl
  obtain ⟨⟨⟨⟨hlen, h0⟩, h1⟩, h2⟩, h3⟩ := hl
  match arg, hlen, h0, h1, h2, h3 with
  | c0 :: c1 :: a :: b :: t, _, h0, h1, h2, h3 =>
    simp only [at_, List.getD_cons_zero, List.getD_cons_succ] at h0 h1 h2 h3
    have ha := isalpha_is_name_char a h2
    simp only [split_argument_text, hs, Bool.false_eq_true, if_false, List.drop_succ_cons,
      List.drop_zero, List.takeWhile_cons, ha, h3, if_true, List.length_cons, is_long_name]
    have e : 2 + ((List.takeWhile is_name_char t).length + 1 + 1) - 2 =
        (List.takeWhile is_name_char t).length + 1 + 1 := by omega
    rw [e]
    simp only [List.take_succ_cons, List.length_cons, at_, List.getD_cons_zero, h2,
      List.all_cons, ha, h3, Bool.and_true, Bool.true_and, decide_eq_true_eq]
    simp only [take_takeWhile_length, Bool.and_eq_true, decide_eq_true_eq]
    refine ⟨by omega, ?_⟩
    exact List.all_takeWhile

theorem split_short_name (arg : Str) (hs : is_short_option_name arg = true) :
    (split_argument_text arg).1 = [at_ arg 1] ∧ isalpha (at_ arg 1) = true := by
  simp only [split_argument_text, hs, if_true, true_and]
  simp only [is_short_option_name, Bool.and_eq_true] at hs
  exact hs.2

/-- Looking up the name of an option token never raises a usage error: the
name normalises to itself. -/
theorem normalize_split_name (arg : Str)
    (hform : (is_short_option_name arg || is_long_option arg) = true) :
    normalize_option_name (split_argument_text arg).1 = .ok (split_argument_text arg).1 := by
  by_cases hs : is_short_option_name arg = true
  · obtain ⟨h1, h2⟩ := split_short_name arg hs
    rw [h1]
    exact normalize_short_name _ h2
  · have hs' : is_short_option_name arg = false := by simpa using hs
    rw [hs', Bool.false_or] at hform
    exact normalize_long_name _ (split_long_name arg hs' hform)

theorem option_parse_nil_cases (o : OptionEntry) :
    (∃ o', o.parse [] = .ok o') ∨ ∃ m, o.parse [] = .throws (.ParsingException m) o := by
  unfold OptionEntry.parse
  by_cases h1 : ([] : List Str).length ≠ o.m_number_of_arguments
  · right; exact ⟨_, by rw [if_pos h1]⟩
  · by_cases h2 : (!o.m_storage.isEmpty && !o.m_is_appending) = true
    · right; exact ⟨_, by rw [if_neg h1, if_pos h2]⟩
    · left
      have h3 : o.m_number_of_arguments = 0 := by
        simp only [List.length_nil, ne_eq, Decidable.not_not] at h1
        exact h1.symm
      exact ⟨_, by rw [if_neg h1, if_neg h2, if_pos h3]⟩

/-- A round of the group loop returns normally or throws a parsing error. -/
theorem flag_step_cases (arg : Str) (p : ArgumentParser) (c : Char) :
    (∃ p', flag_step arg p c = .ok p' ∧ find_option_iter p.m_options [c] ≠ none) ∨
    ∃ m q, flag_step arg p c = .throws (.ParsingException m) q := by
  unfold flag_step
  by_cases hc : isalpha c = true
  · simp only [hc, Bool.not_true, Bool.false_eq_true, if_false, find_option_to_parse,
      normalize_short_name c hc]
    cases hf : find_option_iter p.m_options [c] with
    | none => right; exact ⟨_, _, rfl⟩
    | some idx =>
      obtain ⟨o, ho, -⟩ := find_option_iter_lt p.m_options [c] idx hf
      simp only
      rw [parse_option_eq p idx o [] ho]
      rcases option_parse_nil_cases o with ⟨o', h⟩ | ⟨m, h⟩
      · left; rw [h]; exact ⟨_, rfl, by simp⟩
      · right; rw [h]; exact ⟨_, _, rfl⟩
  · right
    simp only [hc, Bool.not_false, if_true]
    exact ⟨_, _, rfl⟩

/-- A group with a letter that names no option ends in a parsing error. -/
theorem parse_group_unregistered (arg : Str) :
    ∀ (cs : List Char) (p : ArgumentParser),
      (∃ ch ∈ cs, find_option_iter p.m_options [ch] = none) →
      ∃ m q, parse_group arg cs p = .throws (.ParsingException m) q := by
  intro cs
  induction cs with
  | nil => intro p h; obtain ⟨ch, hch, -⟩ := h; cases hch
  | cons c cs ih =>
    intro p h
    rw [parse_group_cons]
    rcases flag_step_cases arg p c with ⟨p', hok, hreg⟩ | ⟨m, q, hth⟩
    · rw [hok]
      obtain ⟨ch, hch, hnone⟩ := h
      rcases List.mem_cons.mp hch with rfl | hch'
      · exact absurd hnone hreg
      · apply ih p'
        refine ⟨ch, hch', ?_⟩
        rw [find_option_iter_of_reset p p' _ ((flag_step_frame arg p c).1 p' hok).1]
        exact hnone
    · rw [hth]
      exact ⟨m, q, rfl⟩

/-- C15: before any separator, a token that is empty or starts with a dash and
is neither `--` nor of short or long option form raises the parsing error for
an unrecognised argument; and a token of option form whose name (or, in a
group, one of whose letters) is not registered raises a parsing error. -/
theorem C15_unrecognised_is_parsing_error (argv : List Str) (c : Nat) (p : ArgumentParser) :
    ((argv.getD c [] = [] ∨ at_ (argv.getD c []) 0 = '-') → argv.getD c [] ≠ lit "--" →
      is_short_option_name (argv.getD c []) = false → is_long_option (argv.getD c []) = false →
      parse_step argv c false p =
        .throws (.ParsingException (lit "Unrecognized argument found: " ++ argv.getD c [])) p) ∧
    ((is_short_option_name (argv.getD c []) || is_long_option (argv.getD c [])) = true →
      is_short_option_group_name (argv.getD c []) = false →
      find_option_iter p.m_options (split_argument_text (argv.getD c [])).1 = none →
      (parse_step argv c false p).isParsingError = true ∧
      (p.m_positionals = [] → parse_step argv c false p =
        .throws (.ParsingException (lit "Option '" ++ (split_argument_text (argv.getD c [])).1 ++
          lit "' does not exist.")) p)) ∧
    ((is_short_option_name (argv.getD c []) || is_long_option (argv.getD c [])) = true →
      is_short_option_group_name (argv.getD c []) = true →
      (∃ ch ∈ (argv.getD c []).drop 1, find_option_iter p.m_options [ch] = none) →
      (parse_step argv c false p).isParsingError = true) := by
  refine ⟨?_, ?_, ?_⟩
  · intro hdash hsep hs hl
    have e1 : (!false && argv.getD c [] == lit "--") = false := by
      simp only [Bool.not_false, Bool.true_and, beq_eq_false_iff_ne, ne_eq]
      exact hsep
    have e2 : (false || (!(argv.getD c []).isEmpty && at_ (argv.getD c []) 0 != '-')) = false := by
      rcases hdash with h | h
      · rw [h]; rfl
      · rw [h]; simp
    unfold parse_step
    simp only
    rw [e1, e2, hs, hl]
    simp only [Bool.false_eq_true, if_false, Bool.or_self]
  · intro hform hng hnone
    have hfind : find_option_to_parse p (split_argument_text (argv.getD c [])).1 =
        .error (.ParsingException (lit "Option '" ++ (split_argument_text (argv.getD c [])).1 ++
          lit "' does not exist.")) := by
      simp only [find_option_to_parse, normalize_split_name _ hform, hnone]
    have hstep := parse_step_option_form argv c p hform
    rw [hng] at hstep
    simp only [Bool.false_eq_true, if_false] at hstep
    have hso : parse_single_option argv c false p (argv.getD c []) =
        .throws (.ParsingException (lit "Option '" ++ (split_argument_text (argv.getD c [])).1 ++
          lit "' does not exist.")) p := by
      simp only [parse_single_option, hfind]
    rw [hso] at hstep
    constructor
    · rw [hstep]
      split <;> rfl
    · intro hpos
      rw [hstep, hpos]
      rfl
  · intro hform hg hun
    rw [parse_step_option_form argv c p hform, hg]
    simp only [if_true]
    split
    · rfl
    · obtain ⟨m, q, h⟩ := parse_group_unregistered (argv.getD c []) _ p hun
      rw [h]
      rfl

/-- The examples of C15 from the test `IllegalNameParsing`: the tokens `-`,
`-0`, `-_a` and `---` are unrecognised, and `-u` names no option. -/
theorem C15_unrecognised_is_parsing_error_witness :
    parse_step [lit "app", lit "-"] 1 false parser_multi =
      .throws (.ParsingException (lit "Unrecognized argument found: -")) parser_multi ∧
    parse_step [lit "app", lit "-0"] 1 false parser_multi =
      .throws (.ParsingException (lit "Unrecognized argument found: -0")) parser_multi ∧
    parse_step [lit "app", lit "-_a"] 1 false parser_multi =
      .throws (.ParsingException (lit "Unrecognized argument found: -_a")) parser_multi ∧
    parse_step [lit "app", lit "---"] 1 false parser_multi =
      .throws (.ParsingException (lit "Unrecognized argument found: ---")) parser_multi ∧
    parse_step [lit "app", lit "-u"] 1 false parser_multi =
      .throws (.ParsingException (lit "Option 'u' does not exist.")) parser_multi ∧
    (parse_step [lit "app", lit "-su"] 1 false parser_multi).isParsingError = true :=
  ⟨(C15_unrecognised_is_parsing_error [lit "app", lit "-"] 1 parser_multi).1
      (Or.inr (by decide)) (by decide) (by decide) (by decide),
   (C15_unrecognised_is_parsing_error [lit "app", lit "-0"] 1 parser_multi).1
      (Or.inr (by decide)) (by decide) (by decide) (by decide),
   (C15_unrecognised_is_parsing_error [lit "app", lit "-_a"] 1 parser_multi).1
      (Or.inr (by decide)) (by decide) (by decide) (by decide),
   (C15_unrecognised_is_parsing_error [lit "app", lit "---"] 1 parser_multi).1
      (Or.inr (by decide)) (by decide) (by decide) (by decide),
   ((C15_unrecognised_is_parsing_error [lit "app", lit "-u"] 1 parser_multi).2.1
      (by decide) (by decide) (by decide)).2 (by decide),
   (C15_unrecognised_is_parsing_error [lit "app", lit "-su"] 1 parser_multi).2.2
      (by decide) (by decide) ⟨'u', by decide, by decide⟩⟩

/-! ## A second occurrence in the loop -/

/-- A round of the group loop that throws leaves the parser as it was. -/
theorem flag_step_throws_unchanged (arg : Str) (p q : ArgumentParser) (c : Char) (e : Exception)
    (h : flag_step arg p c = .throws e q) : q = p := by
  unfold flag_step at h
  split at h
  · cases h
    rfl
  · cases hf : p.find_option_to_parse [c] with
    | error e1 =>
      rw [hf] at h
      cases h
      rfl
    | ok j =>
      rw [hf] at h
      simp only at h
      cases hoj : p.m_options[j]? with
      | none =>
        simp only [parse_option, hoj] at h
        cases h
      | some oj =>
        rw [parse_option_eq p j oj [] hoj] at h
        rcases option_parse_nil_cases oj with ⟨o', ho'⟩ | ⟨m, hm⟩
        · rw [ho'] at h
          cases h
        · rw [hm] at h
          cases h
          exact put_option_self p j oj hoj

/-- A group of flags one of whose letters names a non-appending option that
holds values ends in a parsing error, with that option as it was. -/
theorem parse_group_second_occurrence (arg : Str) (idx : Nat) (o : OptionEntry)
    (hna : o.m_is_appending = false) (hst : o.m_storage ≠ []) :
    ∀ (cs : List Char) (p : ArgumentParser), p.m_options[idx]? = some o →
      (∃ X ∈ cs, find_option_iter p.m_options [X] = some idx) →
      ∃ m q, parse_group arg cs p = .throws (.ParsingException m) q ∧
        q.m_options[idx]? = some o := by
  intro cs
  induction cs with
  | nil =>
    intro p _ h
    obtain ⟨X, hX, -⟩ := h
    cases hX
  | cons c cs ih =>
    intro p hopt hex
    rw [parse_group_cons]
    rcases flag_step_cases arg p c with ⟨p', hok, -⟩ | ⟨m, q, hth⟩
    · rw [hok]
      obtain ⟨-, j, oj, hfj, hoj, -, hstj, rfl⟩ := flag_step_ok_inv arg p p' c hok
      have hne : j ≠ idx := by
        intro hji
        subst hji
        rw [hopt] at hoj
        cases hoj
        rcases hstj with h | h
        · exact hst h
        · rw [hna] at h
          cases h
      apply ih
      · rw [put_option_getElem_ne p j idx _ hne]
        exact hopt
      · obtain ⟨X, hX, hfX⟩ := hex
        rcases List.mem_cons.mp hX with rfl | hX'
        · rw [hfj] at hfX
          cases hfX
          exact absurd rfl hne
        · exact ⟨X, hX', by rw [find_option_iter_put p _ j oj hoj]; exact hfX⟩
    · rw [hth]
      have := flag_step_throws_unchanged arg p q c _ hth
      subst this
      exact ⟨m, q, rfl, hopt⟩

/-- C10: a non-appending option that holds stored values rejects every further
occurrence with a parsing error and keeps its stored values.  `Option::parse`
throws for every list of values and leaves the option as it was; a single
option token whose name - any alias, bare in the token or with an inline value
- resolves to the option makes the iteration and the loop of `parse` throw with
the parser unchanged; and a group of flags with a letter that names the option
makes them throw with the option unchanged.  The state is arbitrary, so the
values may come from the same parse or from an earlier one without reset. -/
theorem C10_second_occurrence (argv : List Str) (c : Nat) (p : ArgumentParser)
    (idx : Nat) (o : OptionEntry)
    (hc1 : 1 ≤ c) (hcL : c < argv.length) (hL : argv.length < ARGV_MAX)
    (hform : (is_short_option_name (argv.getD c []) || is_long_option (argv.getD c [])) = true)
    (hpos : p.m_positionals = [])
    (hopt : p.m_options[idx]? = some o)
    (hn : o.m_number_of_arguments < UINT_MOD)
    (hna : o.m_is_appending = false) (hst : o.m_storage ≠ []) :
    (∀ values, ∃ msg, o.parse values = .throws (.ParsingException msg) o) ∧
    (is_short_option_group_name (argv.getD c []) = false →
      find_option_to_parse p (split_argument_text (argv.getD c [])).1 = .ok idx →
      ∃ msg, parse_step argv c false p = .throws (.ParsingException msg) p ∧
        ∀ fuel, parse_loop argv (fuel + 1) c false p = .throws (.ParsingException msg) p) ∧
    (is_short_option_group_name (argv.getD c []) = true →
      (∃ X ∈ (argv.getD c []).drop 1, find_option_iter p.m_options [X] = some idx) →
      ∃ msg q, parse_step argv c false p = .throws (.ParsingException msg) q ∧
        q.m_options[idx]? = some o ∧
        ∀ fuel, parse_loop argv (fuel + 1) c false p = .throws (.ParsingException msg) q) := by
  refine ⟨fun values => option_parse_second_occurrence o values hna hst, ?_, ?_⟩
  · intro hng hfind
    have hpo : ∀ values, ∃ msg, parse_option p idx values = .throws (.ParsingException msg) p := by
      intro values
      obtain ⟨msg, hmsg⟩ := option_parse_second_occurrence o values hna hst
      refine ⟨msg, ?_⟩
      rw [parse_option_eq p idx o values hopt, hmsg]
      simp only [put_option_self p idx o hopt]
    have hstep : ∃ msg, parse_step argv c false p = .throws (.ParsingException msg) p := by
      rw [parse_step_option_form argv c p hform]
      simp only [hpos, List.isEmpty_nil, Bool.not_true, Bool.false_eq_true, if_false, hng]
      rw [parse_single_option_eq argv c false p _ idx o hc1 hcL hL hfind hopt hn]
      split
      · obtain ⟨msg, hmsg⟩ := hpo (inline_values (split_argument_text (argv.getD c [])).2)
        exact ⟨msg, by rw [hmsg]⟩
      · split
        · obtain ⟨msg, hmsg⟩ := hpo (inline_values (split_argument_text (argv.getD c [])).2 ++
            (argv.drop (c + 1)).take (o.m_number_of_arguments -
              (inline_values (split_argument_text (argv.getD c [])).2).length))
          exact ⟨msg, by rw [hmsg]⟩
        · obtain ⟨msg, hmsg⟩ := hpo (inline_values (split_argument_text (argv.getD c [])).2)
          exact ⟨msg, by rw [hmsg]⟩
    obtain ⟨msg, hmsg⟩ := hstep
    refine ⟨msg, hmsg, ?_⟩
    intro fuel
    simp only [parse_loop, hcL, if_true, hmsg]
  · intro hg hex
    obtain ⟨msg, q, hgroup, hq⟩ := parse_group_second_occurrence (argv.getD c []) idx o hna hst
      ((argv.getD c []).drop 1) p hopt hex
    have hstep : parse_step argv c false p = .throws (.ParsingException msg) q := by
      rw [parse_step_option_form argv c p hform]
      simp only [hpos, List.isEmpty_nil, Bool.not_true, Bool.false_eq_true, if_false, hg, if_true,
        hgroup]
    refine ⟨msg, q, hstep, hq, ?_⟩
    intro fuel
    simp only [parse_loop, hcL, if_true, hstep]

/-- The examples of C10 for the flag `-s` of the test `AddMultiOption` after a
first occurrence: `Option::parse` rejects the second occurrence and keeps the
value, and `parse` on `-s -s=1` and on `-s -s` ends in a parsing error with the
value of the first occurrence stored. -/
theorem C10_second_occurrence_witness :
    (∃ msg, (mark_parsed (flag_entry [lit "s"])).parse [] =
      .throws (.ParsingException msg) (mark_parsed (flag_entry [lit "s"]))) ∧
    (∃ msg, parse_step [lit "app", lit "-s", lit "-s=1"] 2 false
        (parser_multi.put_option 0 (mark_parsed (flag_entry [lit "s"]))) =
      .throws (.ParsingException msg)
        (parser_multi.put_option 0 (mark_parsed (flag_entry [lit "s"])))) ∧
    parse parser_multi [lit "app", lit "-s", lit "-s=1"] =
      .throws (.ParsingException (lit "Option 's' expects 0 argument, but 1 were given."))
        ((parser_multi.set_program_name_from_argv (lit "app")).put_option 0
          (mark_parsed (flag_entry [lit "s"]))) ∧
    parse parser_multi [lit "app", lit "-s", lit "-s"] =
      .throws (.ParsingException (lit "Option 's' already parsed"))
        ((parser_multi.set_program_name_from_argv (lit "app")).put_option 0
          (mark_parsed (flag_entry [lit "s"]))) :=
  ⟨(C10_second_occurrence [lit "app", lit "-s", lit "-s=1"] 2
      (parser_multi.put_option 0 (mark_parsed (flag_entry [lit "s"]))) 0
      (mark_parsed (flag_entry [lit "s"])) (by decide) (by decide) (by decide) (by decide) rfl rfl
      (by decide) rfl (by decide)).1 [],
    (((C10_second_occurrence [lit "app", lit "-s", lit "-s=1"] 2
      (parser_multi.put_option 0 (mark_parsed (flag_entry [lit "s"]))) 0
      (mark_parsed (flag_entry [lit "s"])) (by decide) (by decide) (by decide) (by decide) rfl rfl
      (by decide) rfl (by decide)).2.1 (by decide) rfl).imp (fun _ h => h.1)),
    by decide, by decide⟩

/-! ## Names at registration -/

theorem strictly_normalize_long (name : Str) (h : is_long_name name = true) :
    strictly_normalize_option_name (lit "--" ++ name) = .ok name := by
  obtain ⟨a, b, t, rfl, ha, hb, hall⟩ := is_long_name_facts name h
  have hall' : ∀ x ∈ t, is_name_char x = true := fun x hx => hall x (by simp [hx])
  have hd : is_name_char '-' = true := by decide
  simp only [strictly_normalize_option_name, at_, lit_dashes]
  simp [ha, hb, isalpha_is_name_char a ha, hd]
  exact hall'

theorem strictly_normalize_short (X : Char) (h : isalpha X = true) :
    strictly_normalize_option_name ['-', X] = .ok [X] := by
  simp [strictly_normalize_option_name, at_, h]

/-- Every error of `strictly_normalize_option_name` is a usage error. -/
theorem strictly_normalize_error (name : Str) (e : Exception)
    (h : strictly_normalize_option_name name = .error e) : e.isUsage = true := by
  unfold strictly_normalize_option_name at h
  split at h
  · split at h
    · cases h; rfl
    · cases h
  · split at h
    · split at h
      · cases h; rfl
      · split at h
        · cases h
        · cases h; rfl
    · cases h; rfl

/-- The names `strictly_normalize_option_name` accepts and what it returns. -/
theorem strictly_normalize_ok_iff (name n : Str) :
    strictly_normalize_option_name name = .ok n ↔
      ((∃ X, isalpha X = true ∧ name = ['-', X] ∧ n = [X]) ∨
        (is_long_name n = true ∧ name = lit "--" ++ n)) := by
  constructor
  · intro h
    unfold strictly_normalize_option_name at h
    split at h
    · rename_i hc
      split at h
      · cases h
      · rename_i ha
        left
        match name, hc with
        | [c0, c1], hc =>
          simp only [at_, List.getD_cons_zero] at hc
          obtain ⟨-, rfl⟩ := hc
          simp only [at_, List.getD_cons_succ, List.getD_cons_zero, Bool.not_eq_true,
            Bool.not_eq_false] at ha
          simp only [List.drop_succ_cons, List.drop_zero, Except.ok.injEq] at h
          exact ⟨c1, by simpa using ha, rfl, h.symm⟩
    · split at h
      · rename_i hc
        split at h
        · cases h
        · rename_i ha
          split at h
          · rename_i hall
            right
            obtain ⟨hlen, h0, h1⟩ := hc
            match name, hlen, h0, h1, ha, hall, h with
            | c0 :: c1 :: a :: b :: t, _, h0, h1, ha, hall, h =>
              simp only [at_, List.getD_cons_zero, List.getD_cons_succ] at h0 h1 ha
              subst h0 h1
              simp only [List.drop_succ_cons, List.drop_zero, Except.ok.injEq] at h
              subst h
              simp only [List.all_cons, Bool.and_eq_true] at hall
              refine ⟨?_, rfl⟩
              simp only [is_long_name, List.length_cons, at_, List.getD_cons_zero, List.all_cons,
                Bool.and_eq_true, decide_eq_true_eq]
              exact ⟨⟨by omega, by simpa using ha⟩, hall.2.2.1, hall.2.2.2.1, hall.2.2.2.2⟩
          · cases h
      · cases h
  · rintro (⟨X, hX, rfl, rfl⟩ | ⟨hn, rfl⟩)
    · exact strictly_normalize_short X hX
    · exact strictly_normalize_long n hn

theorem normalize_error (name : Str) (e : Exception)
    (h : normalize_option_name name = .error e) : e.isUsage = true := by
  unfold normalize_option_name at h
  split at h
  · exact strictly_normalize_error _ e h
  · split at h
    · exact strictly_normalize_error _ e h
    · exact strictly_normalize_error _ e h

theorem has_option_error (p : ArgumentParser) (name : Str) (e : Exception)
    (h : p.has_option name = .error e) : e.isUsage = true := by
  unfold has_option at h
  split at h
  · rename_i e' he
    cases h
    exact normalize_error name e he
  · cases h

/-- Every error of the name loop of `add_option` is a usage error. -/
theorem collect_names_error (p : ArgumentParser) :
    ∀ (names acc : List Str) (e : Exception), collect_names p names acc = .error e →
      e.isUsage = true := by
  intro names
  induction names with
  | nil => intro acc e h; cases h
  | cons name rest ih =>
    intro acc e h
    simp only [collect_names] at h
    split at h
    · rename_i e' he
      cases h
      exact strictly_normalize_error name e he
    · split at h
      · rename_i e' he
        cases h
        exact has_option_error p _ e he
      · cases h; rfl
      · exact ih _ e h

/-- A name that does not normalise makes the name loop fail. -/
theorem collect_names_invalid (p : ArgumentParser) :
    ∀ (names acc : List Str) (name : Str), name ∈ names →
      (∀ n, strictly_normalize_option_name name ≠ .ok n) →
      ∃ e, collect_names p names acc = .error e := by
  intro names
  induction names with
  | nil => intro acc name h; cases h
  | cons x rest ih =>
    intro acc name hmem hbad
    simp only [collect_names]
    cases hx : strictly_normalize_option_name x with
    | error e => exact ⟨e, rfl⟩
    | ok n =>
      simp only
      cases hh : p.has_option n with
      | error e => exact ⟨e, rfl⟩
      | ok b =>
        cases b with
        | true => exact ⟨_, rfl⟩
        | false =>
          simp only
          rcases List.mem_cons.mp hmem with rfl | hm
          · exact absurd hx (hbad n)
          · exact ih _ name hm hbad

/-- C16: `strictly_normalize_option_name` accepts exactly the names `-X` with
`X` a letter, returning `X`, and `--` followed by a letter and one or more
letters, digits, `-` or `_`, returning the name without `--`; every other name
is a usage error, and `add_option` (so `add_flag`) given such a name raises a
usage error and leaves the registry unchanged. -/
theorem C16_registration_name_forms (name : Str) :
    (∀ n, strictly_normalize_option_name name = .ok n ↔
      ((∃ X, isalpha X = true ∧ name = ['-', X] ∧ n = [X]) ∨
        (is_long_name n = true ∧ name = lit "--" ++ n))) ∧
    ((∀ n, strictly_normalize_option_name name ≠ .ok n) →
      (∃ m, strictly_normalize_option_name name = .error (.UsageException m)) ∧
      ∀ (p : ArgumentParser) (names : List Str) (number_of_arguments : Nat) (help : Str)
        (meta_vars default_values : List Str) (choices : List (List Str)), name ∈ names →
        ∃ m, p.add_option names number_of_arguments help meta_vars default_values choices =
          .throws (.UsageException m) p) := by
  refine ⟨fun n => strictly_normalize_ok_iff name n, ?_⟩
  intro hbad
  constructor
  · cases h : strictly_normalize_option_name name with
    | ok n => exact absurd h (hbad n)
    | error e =>
      have := strictly_normalize_error name e h
      cases e with
      | UsageException m => exact ⟨m, rfl⟩
      | ParsingException m => cases this
  · intro p names number_of_arguments help meta_vars default_values choices hmem
    obtain ⟨e, he⟩ := collect_names_invalid p names [] name hmem hbad
    have hu := collect_names_error p names [] e he
    have hne : names.isEmpty = false := by
      cases names with
      | nil => cases hmem
      | cons a t => rfl
    cases e with
    | UsageException m =>
      refine ⟨m, ?_⟩
      simp only [add_option, hne, Bool.false_eq_true, if_false, he]
    | ParsingException m => cases hu

/-- The examples of C16 from the test `optionNaming`: `-x` and `--a1` are
accepted; the empty name, `a`, `-0`, `-aa`, `--g`, `---a` and `--a#` are usage
errors, also through `add_flag`. -/
theorem C16_registration_name_forms_witness :
    strictly_normalize_option_name (lit "-x") = .ok (lit "x") ∧
    strictly_normalize_option_name (lit "--a1") = .ok (lit "a1") ∧
    (∃ m, strictly_normalize_option_name (lit "") = .error (.UsageException m)) ∧
    (∃ m, strictly_normalize_option_name (lit "a") = .error (.UsageException m)) ∧
    (∃ m, strictly_normalize_option_name (lit "-0") = .error (.UsageException m)) ∧
    (∃ m, strictly_normalize_option_name (lit "-aa") = .error (.UsageException m)) ∧
    (∃ m, strictly_normalize_option_name (lit "--g") = .error (.UsageException m)) ∧
    (∃ m, strictly_normalize_option_name (lit "---a") = .error (.UsageException m)) ∧
    (∃ m, ArgumentParser.empty.add_flag [lit "--a#"] (lit "illegal") =
      .throws (.UsageException m) ArgumentParser.empty) :=
  ⟨((C16_registration_name_forms (lit "-x")).1 (lit "x")).mpr
      (Or.inl ⟨'x', by decide, rfl, rfl⟩),
   ((C16_registration_name_forms (lit "--a1")).1 (lit "a1")).mpr (Or.inr ⟨by decide, rfl⟩),
   ((C16_registration_name_forms (lit "")).2 (by intro n h; cases h)).1,
   ((C16_registration_name_forms (lit "a")).2 (by intro n h; cases h)).1,
   ((C16_registration_name_forms (lit "-0")).2 (by intro n h; cases h)).1,
   ((C16_registration_name_forms (lit "-aa")).2 (by intro n h; cases h)).1,
   ((C16_registration_name_forms (lit "--g")).2 (by intro n h; cases h)).1,
   ((C16_registration_name_forms (lit "---a")).2 (by intro n h; cases h)).1,
   ((C16_registration_name_forms (lit "--a#")).2 (by intro n h; cases h)).2
      ArgumentParser.empty [lit "--a#"] 0 (lit "illegal") [] [] [] (by decide)⟩

/-! ## Registration with `add_option` -/

theorem find_option_iter_isSome (os : List OptionEntry) (name : Str) :
    (find_option_iter os name).isSome = os.any (fun o => o.has_name name) := by
  induction os with
  | nil => rfl
  | cons o os ih =>
    simp only [find_option_iter, List.any_cons]
    by_cases h : o.has_name name = true
    · simp [h]
    · simp only [h, Bool.false_eq_true, if_false, Option.isSome_map', ih, Bool.false_or]

theorem normalize_of_strict (name n : Str) (h : strictly_normalize_option_name name = .ok n) :
    normalize_option_name n = .ok n := by
  rcases (strictly_normalize_ok_iff name n).mp h with ⟨X, hX, -, rfl⟩ | ⟨hl, -⟩
  · exact normalize_short_name X hX
  · exact normalize_long_name n hl

theorem has_option_of_strict (p : ArgumentParser) (name n : Str)
    (h : strictly_normalize_option_name name = .ok n) :
    p.has_option n = .ok (is_registered p n) := by
  simp only [has_option, normalize_of_strict name n h, find_option_iter_isSome, is_registered]

/-- The name loop of `add_option`: it fails with a usage error when a name is
of neither form or already registered, and otherwise collects the normalised
names. -/
theorem collect_names_spec (p : ArgumentParser) :
    ∀ (names acc : List Str),
      ((∃ name ∈ names, (∀ n, strictly_normalize_option_name name ≠ .ok n) ∨
          ∃ n, strictly_normalize_option_name name = .ok n ∧ is_registered p n = true) →
        ∃ m, collect_names p names acc = .error (.UsageException m)) ∧
      ((¬ ∃ name ∈ names, (∀ n, strictly_normalize_option_name name ≠ .ok n) ∨
          ∃ n, strictly_normalize_option_name name = .ok n ∧ is_registered p n = true) →
        ∃ r, collect_names p names acc = .ok r ∧
          ∀ n, n ∈ r ↔ (n ∈ acc ∨ ∃ name ∈ names, strictly_normalize_option_name name = .ok n)) := by
  intro names
  induction names with
  | nil =>
    intro acc
    constructor
    · rintro ⟨name, hmem, -⟩
      cases hmem
    · intro _
      exact ⟨acc, rfl, fun n => by simp⟩
  | cons x rest ih =>
    intro acc
    cases hx : strictly_normalize_option_name x with
    | error e =>
      have hu := strictly_normalize_error x e hx
      constructor
      · intro _
        cases e with
        | UsageException m => exact ⟨m, by simp only [collect_names, hx]⟩
        | ParsingException m => cases hu
      · intro hno
        exfalso
        apply hno
        refine ⟨x, List.mem_cons_self _ _, Or.inl ?_⟩
        intro n hn
        rw [hx] at hn
        cases hn
    | ok nx =>
      have hh := has_option_of_strict p x nx hx
      cases hreg : is_registered p nx with
      | true =>
        rw [hreg] at hh
        constructor
        · intro _
          exact ⟨lit "Option '" ++ nx ++ lit "' already exists",
            by simp only [collect_names, hx, hh]⟩
        · intro hno
          exfalso
          apply hno
          exact ⟨x, List.mem_cons_self _ _, Or.inr ⟨nx, hx, hreg⟩⟩
      | false =>
        rw [hreg] at hh
        have hstep : collect_names p (x :: rest) acc = collect_names p rest
            (if acc.contains nx then acc else acc ++ [nx]) := by
          simp only [collect_names, hx, hh]
        rw [hstep]
        obtain ⟨ih1, ih2⟩ := ih (if acc.contains nx then acc else acc ++ [nx])
        constructor
        · rintro ⟨name, hmem, hbad⟩
          rcases List.mem_cons.mp hmem with rfl | hm
          · exfalso
            rcases hbad with hb | ⟨n, hn, hr⟩
            · exact hb nx hx
            · rw [hx] at hn
              cases hn
              rw [hreg] at hr
              cases hr
          · exact ih1 ⟨name, hm, hbad⟩
        · intro hno
          obtain ⟨r, hr, hmemr⟩ := ih2 (fun ⟨name, hm, hbad⟩ =>
            hno ⟨name, List.mem_cons_of_mem _ hm, hbad⟩)
          refine ⟨r, hr, ?_⟩
          intro n
          rw [hmemr n]
          have hacc : n ∈ (if acc.contains nx then acc else acc ++ [nx]) ↔ (n ∈ acc ∨ n = nx) := by
            by_cases hc : acc.contains nx = true
            · rw [if_pos hc]
              constructor
              · exact Or.inl
              · rintro (h | rfl)
                · exact h
                · simpa using hc
            · rw [if_neg hc]
              simp
          rw [hacc]
          constructor
          · rintro ((h | rfl) | ⟨name, hm, hn⟩)
            · exact Or.inl h
            · exact Or.inr ⟨x, List.mem_cons_self _ _, hx⟩
            · exact Or.inr ⟨name, List.mem_cons_of_mem _ hm, hn⟩
          · rintro (h | ⟨name, hm, hn⟩)
            · exact Or.inl (Or.inl h)
            · rcases List.mem_cons.mp hm with rfl | hm'
              · rw [hx] at hn
                cases hn
                exact Or.inl (Or.inr rfl)
              · exact Or.inr ⟨name, hm', hn⟩

/-- The choice loop of `set_default`: it stores the values when each is in the
choice set of its position and fails with a usage error otherwise. -/
theorem set_default_choices_spec (values : List Str) (cs : List (List Str)) :
    ∀ (k i : Nat) (o : OptionEntry), o.m_choices = cs → i + k ≤ values.length →
      ((∀ j, i ≤ j → j < i + k → (cs.getD j []).contains (values.getD j []) = true) →
        OptionEntry.set_default_choices values k i o =
          .ok { o with m_default_storage := o.m_default_storage ++ (values.drop i).take k }) ∧
      ((∃ j, i ≤ j ∧ j < i + k ∧ (cs.getD j []).contains (values.getD j []) = false) →
        OptionEntry.set_default_choices values k i o =
          .error (.UsageException (lit "Value does not match any possible choice"))) := by
  intro k
  induction k with
  | zero =>
    intro i o _ _
    constructor
    · intro _
      simp [OptionEntry.set_default_choices]
    · rintro ⟨j, h1, h2, -⟩
      omega
  | succ k ih =>
    intro i o hcs hlen
    subst hcs
    have hdrop : values.drop i = values.getD i [] :: values.drop (i + 1) := by
      rw [List.drop_eq_getElem_cons (by omega)]
      congr 1
      rw [List.getD_eq_getElem?_getD, List.getElem?_eq_getElem (by omega)]
      rfl
    simp only [OptionEntry.set_default_choices]
    by_cases hgood : (o.m_choices.getD i []).contains (values.getD i []) = true
    · rw [if_pos hgood]
      obtain ⟨ih1, ih2⟩ := ih (i + 1)
        { o with m_default_storage := o.m_default_storage ++ [values.getD i []] } rfl (by omega)
      constructor
      · intro hall
        rw [ih1 (fun j hj1 hj2 => hall j (by omega) (by omega))]
        simp [hdrop, List.append_assoc]
      · rintro ⟨j, hj1, hj2, hbad⟩
        have hne : j ≠ i := by
          intro h; subst h; rw [hgood] at hbad; cases hbad
        exact ih2 ⟨j, by omega, by omega, hbad⟩
    · rw [if_neg hgood]
      constructor
      · intro hall
        exact absurd (hall i (Nat.le_refl _) (by omega)) hgood
      · intro _
        rfl

/-- The option `add_option` builds from a non-empty set of names: a usage error
when the choices, meta variables or defaults do not fit, the option otherwise. -/
theorem build_option_spec (option_names : List Str) (n : Nat) (help : Str)
    (meta_vars default_values : List Str) (choices : List (List Str))
    (hne : option_names ≠ []) :
    (((choices ≠ [] ∧ choices.length ≠ n) ∨ (meta_vars ≠ [] ∧ meta_vars.length ≠ n) ∨
        (default_values ≠ [] ∧ default_values.length ≠ n) ∨
        (choices ≠ [] ∧ ∃ i, i < default_values.length ∧
          (choices.getD i []).contains (default_values.getD i []) = false)) →
      ∃ m, build_option option_names n help meta_vars default_values choices =
        .error (.UsageException m)) ∧
    (¬ ((choices ≠ [] ∧ choices.length ≠ n) ∨ (meta_vars ≠ [] ∧ meta_vars.length ≠ n) ∨
        (default_values ≠ [] ∧ default_values.length ≠ n) ∨
        (choices ≠ [] ∧ ∃ i, i < default_values.length ∧
          (choices.getD i []).contains (default_values.getD i []) = false)) →
      build_option option_names n help meta_vars default_values choices =
        .ok { m_names := option_names, m_help := help, m_meta_vars := meta_vars,
              m_number_of_arguments := n, m_storage := [],
              m_default_storage := if n = 0 then [lit "false"] else default_values,
              m_choices := choices, m_is_appending := false, m_is_hidden := false,
              m_is_required := false }) := by
  have hnames : option_names.isEmpty = false := by
    cases option_names with
    | nil => exact absurd rfl hne
    | cons a t => rfl
  have hemp : ∀ {α : Type} (l : List α), (!l.isEmpty) = true ↔ l ≠ [] := by
    intro α l
    cases l <;> simp
  by_cases h4 : choices ≠ [] ∧ choices.length ≠ n
  · constructor
    · intro _
      have : (!choices.isEmpty) = true ∧ n ≠ choices.length := ⟨(hemp _).mpr h4.1, Ne.symm h4.2⟩
      exact ⟨_, by simp only [build_option, OptionEntry.create, if_pos this]; rfl⟩
    · intro hno
      exact absurd (Or.inl h4) hno
  have h4' : ¬ ((!choices.isEmpty) = true ∧ n ≠ choices.length) := by
    rintro ⟨a, b⟩
    exact h4 ⟨(hemp _).mp a, Ne.symm b⟩
  by_cases h5 : meta_vars ≠ [] ∧ meta_vars.length ≠ n
  · constructor
    · intro _
      have : (!meta_vars.isEmpty) = true ∧ meta_vars.length ≠ n := ⟨(hemp _).mpr h5.1, h5.2⟩
      exact ⟨_, by simp only [build_option, OptionEntry.create, if_neg h4', OptionEntry.set_names,
        hnames, Bool.false_eq_true, if_false, OptionEntry.set_help, OptionEntry.set_meta_vars,
        if_pos this]; rfl⟩
    · intro hno
      exact absurd (Or.inr (Or.inl h5)) hno
  have h5' : ¬ ((!meta_vars.isEmpty) = true ∧ meta_vars.length ≠ n) := by
    rintro ⟨a, b⟩
    exact h5 ⟨(hemp _).mp a, b⟩
  have hbuild : build_option option_names n help meta_vars default_values choices =
      OptionEntry.set_default
        { m_names := option_names, m_help := help, m_meta_vars := meta_vars,
          m_number_of_arguments := n, m_storage := [],
          m_default_storage := if n = 0 then [lit "false"] else [],
          m_choices := choices, m_is_appending := false, m_is_hidden := false,
          m_is_required := false } default_values := by
    simp only [build_option, OptionEntry.create, if_neg h4', OptionEntry.set_names,
      hnames, Bool.false_eq_true, if_false, OptionEntry.set_help, OptionEntry.set_meta_vars,
      if_neg h5']
  rw [hbuild]
  by_cases h6 : default_values ≠ [] ∧ default_values.length ≠ n
  · constructor
    · intro _
      have : (!default_values.isEmpty) = true ∧ default_values.length ≠ n :=
        ⟨(hemp _).mpr h6.1, h6.2⟩
      exact ⟨_, by simp only [OptionEntry.set_default, if_pos this]; rfl⟩
    · intro hno
      exact absurd (Or.inr (Or.inr (Or.inl h6))) hno
  have h6' : ¬ ((!default_values.isEmpty) = true ∧ default_values.length ≠ n) := by
    rintro ⟨a, b⟩
    exact h6 ⟨(hemp _).mp a, b⟩
  simp only [OptionEntry.set_default, if_neg h6']
  by_cases hn : n = 0
  · subst hn
    have hch : choices = [] := by
      by_contra hc
      exact h4 ⟨hc, fun hl => hc (List.length_eq_zero.mp hl)⟩
    have hdv : default_values = [] := by
      by_contra hc
      exact h6 ⟨hc, fun hl => hc (List.length_eq_zero.mp hl)⟩
    subst hch hdv
    constructor
    · rintro (h | h | h | h)
      · exact absurd h h4
      · exact absurd h h5
      · exact absurd h h6
      · exact absurd rfl h.1
    · intro _
      simp
  · rw [if_pos hn]
    simp only [hn, if_false]
    by_cases hloop : default_values ≠ [] ∧ choices ≠ []
    · have hcond : (!default_values.isEmpty) = true ∧ (!choices.isEmpty) = true :=
        ⟨(hemp _).mpr hloop.1, (hemp _).mpr hloop.2⟩
      rw [if_pos hcond]
      have hdl : default_values.length = n := by
        by_contra hc
        exact h6 ⟨hloop.1, hc⟩
      obtain ⟨s1, s2⟩ := set_default_choices_spec default_values choices n 0
        { m_names := option_names, m_help := help, m_meta_vars := meta_vars,
          m_number_of_arguments := n, m_storage := [], m_default_storage := [],
          m_choices := choices, m_is_appending := false, m_is_hidden := false,
          m_is_required := false } rfl (by omega)
      simp only [Nat.zero_add, Nat.zero_le, true_implies, true_and, List.drop_zero,
        List.nil_append] at s1 s2
      have htake : default_values.take n = default_values := by
        rw [← hdl]; exact List.take_length default_values
      by_cases hall : ∀ j, j < n → (choices.getD j []).contains (default_values.getD j []) = true
      · constructor
        · rintro (h | h | h | ⟨-, i, hi, hbad⟩)
          · exact absurd h h4
          · exact absurd h h5
          · exact absurd h h6
          · rw [hall i (by omega)] at hbad
            cases hbad
        · intro _
          rw [s1 hall, htake]
      · have hex : ∃ j, j < n ∧ (choices.getD j []).contains (default_values.getD j []) = false := by
          by_contra hc
          apply hall
          intro j hj
          by_contra hb
          exact hc ⟨j, hj, by simpa using hb⟩
        constructor
        · intro _
          exact ⟨_, s2 hex⟩
        · intro hno
          obtain ⟨j, hj, hbad⟩ := hex
          exact absurd (Or.inr (Or.inr (Or.inr ⟨hloop.2, j, by omega, hbad⟩))) hno
    · have hcond : ¬ ((!default_values.isEmpty) = true ∧ (!choices.isEmpty) = true) := by
        rintro ⟨a, b⟩
        exact hloop ⟨(hemp _).mp a, (hemp _).mp b⟩
      rw [if_neg hcond]
      constructor
      · rintro (h | h | h | ⟨hc, i, hi, -⟩)
        · exact absurd h h4
        · exact absurd h h5
        · exact absurd h h6
        · exfalso
          apply hloop
          refine ⟨?_, hc⟩
          intro hd
          subst hd
          simp at hi
      · intro _
        rfl

/-- C18: `add_option` raises a usage error, leaving the parser as it was,
exactly under the listed conditions: no name; a name that fails the name
syntax; a name already registered; choices, meta variables or defaults given
but not one per argument; a default outside the choice set of its position.
In every other case it appends one option that carries the normalised names,
the arity, the help, the meta variables, the choices and the defaults (the
single default `false` for arity 0), with nothing stored and no flag set. -/
theorem C18_add_option_usage_error_iff (p : ArgumentParser) (names : List Str)
    (number_of_arguments : Nat) (help : Str) (meta_vars default_values : List Str)
    (choices : List (List Str)) :
    ((∃ m, p.add_option names number_of_arguments help meta_vars default_values choices =
        .throws (.UsageException m) p) ↔
      add_option_rejects p names number_of_arguments meta_vars default_values choices) ∧
    ((∃ e p', p.add_option names number_of_arguments help meta_vars default_values choices =
        .throws e p') ↔
      add_option_rejects p names number_of_arguments meta_vars default_values choices) ∧
    (¬ add_option_rejects p names number_of_arguments meta_vars default_values choices →
      ∃ option, p.add_option names number_of_arguments help meta_vars default_values choices =
          .ok { p with m_options := p.m_options ++ [option] } ∧
        (∀ n, n ∈ option.m_names ↔ ∃ name ∈ names, strictly_normalize_option_name name = .ok n) ∧
        option.m_number_of_arguments = number_of_arguments ∧
        option.m_help = help ∧ option.m_meta_vars = meta_vars ∧ option.m_choices = choices ∧
        option.m_default_storage =
          (if number_of_arguments = 0 then [lit "false"] else default_values) ∧
        option.m_storage = [] ∧ option.m_is_appending = false ∧ option.m_is_hidden = false ∧
        option.m_is_required = false) := by
  have hbad : add_option_rejects p names number_of_arguments meta_vars default_values choices →
      ∃ m, p.add_option names number_of_arguments help meta_vars default_values choices =
        .throws (.UsageException m) p := by
    intro h
    by_cases h1 : names = []
    · subst h1
      exact ⟨_, rfl⟩
    have hne : names.isEmpty = false := by
      cases names with
      | nil => exact absurd rfl h1
      | cons a t => rfl
    obtain ⟨c1, c2⟩ := collect_names_spec p names []
    by_cases h23 : ∃ name ∈ names, (∀ n, strictly_normalize_option_name name ≠ .ok n) ∨
        ∃ n, strictly_normalize_option_name name = .ok n ∧ is_registered p n = true
    · obtain ⟨m, hm⟩ := c1 h23
      exact ⟨m, by simp only [add_option, hne, Bool.false_eq_true, if_false, hm]⟩
    · obtain ⟨r, hr, hmem⟩ := c2 h23
      have hrne : r ≠ [] := by
        obtain ⟨x, hx⟩ := List.exists_mem_of_ne_nil names h1
        have hxok : ∃ n, strictly_normalize_option_name x = .ok n := by
          by_contra hc
          exact h23 ⟨x, hx, Or.inl (fun n hn => hc ⟨n, hn⟩)⟩
        obtain ⟨n, hn⟩ := hxok
        exact List.ne_nil_of_mem ((hmem n).mpr (Or.inr ⟨x, hx, hn⟩))
      obtain ⟨b1, -⟩ := build_option_spec r number_of_arguments help meta_vars default_values
        choices hrne
      have hrest : (choices ≠ [] ∧ choices.length ≠ number_of_arguments) ∨
          (meta_vars ≠ [] ∧ meta_vars.length ≠ number_of_arguments) ∨
          (default_values ≠ [] ∧ default_values.length ≠ number_of_arguments) ∨
          (choices ≠ [] ∧ ∃ i, i < default_values.length ∧
            (choices.getD i []).contains (default_values.getD i []) = false) := by
        rcases h with h | ⟨name, hm, hb⟩ | ⟨name, hm, hb⟩ | h
        · exact absurd h h1
        · exact absurd ⟨name, hm, Or.inl hb⟩ h23
        · exact absurd ⟨name, hm, Or.inr hb⟩ h23
        · exact h
      obtain ⟨m, hm⟩ := b1 hrest
      exact ⟨m, by simp only [add_option, hne, Bool.false_eq_true, if_false, hr, hm]⟩
  have hgood : ¬ add_option_rejects p names number_of_arguments meta_vars default_values
      choices →
      ∃ option, p.add_option names number_of_arguments help meta_vars default_values choices =
          .ok { p with m_options := p.m_options ++ [option] } ∧
        (∀ n, n ∈ option.m_names ↔ ∃ name ∈ names, strictly_normalize_option_name name = .ok n) ∧
        option.m_number_of_arguments = number_of_arguments ∧
        option.m_help = help ∧ option.m_meta_vars = meta_vars ∧ option.m_choices = choices ∧
        option.m_default_storage =
          (if number_of_arguments = 0 then [lit "false"] else default_values) ∧
        option.m_storage = [] ∧ option.m_is_appending = false ∧ option.m_is_hidden = false ∧
        option.m_is_required = false := by
    intro h
    have h1 : names ≠ [] := fun hc => h (Or.inl hc)
    have hne : names.isEmpty = false := by
      cases names with
      | nil => exact absurd rfl h1
      | cons a t => rfl
    have h23 : ¬ ∃ name ∈ names, (∀ n, strictly_normalize_option_name name ≠ .ok n) ∨
        ∃ n, strictly_normalize_option_name name = .ok n ∧ is_registered p n = true := by
      rintro ⟨name, hm, hb | hb⟩
      · exact h (Or.inr (Or.inl ⟨name, hm, hb⟩))
      · exact h (Or.inr (Or.inr (Or.inl ⟨name, hm, hb⟩)))
    obtain ⟨r, hr, hmem⟩ := (collect_names_spec p names []).2 h23
    have hrne : r ≠ [] := by
      obtain ⟨x, hx⟩ := List.exists_mem_of_ne_nil names h1
      have hxok : ∃ n, strictly_normalize_option_name x = .ok n := by
        by_contra hc
        exact h23 ⟨x, hx, Or.inl (fun n hn => hc ⟨n, hn⟩)⟩
      obtain ⟨n, hn⟩ := hxok
      exact List.ne_nil_of_mem ((hmem n).mpr (Or.inr ⟨x, hx, hn⟩))
    have hb := (build_option_spec r number_of_arguments help meta_vars default_values
      choices hrne).2 (fun hc => h (Or.inr (Or.inr (Or.inr hc))))
    refine ⟨OptionEntry.mk r help meta_vars number_of_arguments []
        (if number_of_arguments = 0 then [lit "false"] else default_values) choices false false
        false,
      by simp only [add_option, hne, Bool.false_eq_true, if_false, hr, hb], ?_,
      rfl, rfl, rfl, rfl, rfl, rfl, rfl, rfl, rfl⟩
    intro n
    rw [hmem n]
    simp
  refine ⟨⟨?_, hbad⟩, ⟨?_, fun h => ?_⟩, hgood⟩
  · rintro ⟨m, hm⟩
    by_contra hc
    obtain ⟨o, ho, -⟩ := hgood hc
    rw [ho] at hm
    cases hm
  · rintro ⟨e, p', hm⟩
    by_contra hc
    obtain ⟨o, ho, -⟩ := hgood hc
    rw [ho] at hm
    cases hm
  · obtain ⟨m, hm⟩ := hbad h
    exact ⟨_, _, hm⟩

/-- The examples of C18 from the tests `AddChoiceOption` and `AddMultiOption`:
two choice sets for one argument and a default outside its choice set are
usage errors; `--twos` with one choice set per argument is registered. -/
theorem C18_add_option_usage_error_iff_witness :
    (∃ m, ArgumentParser.empty.add_option [lit "-d", lit "--def"] 1 [] [] []
        [[lit "a", lit "b"], [lit "a", lit "b"]] =
      .throws (.UsageException m) ArgumentParser.empty) ∧
    (∃ m, ArgumentParser.empty.add_option [lit "--jj"] 2 (lit "help") [] [lit "a", lit "c"]
        [[lit "a", lit "b"], [lit "a", lit "b"]] =
      .throws (.UsageException m) ArgumentParser.empty) ∧
    (∃ option, ArgumentParser.empty.add_option [lit "--twos"] 2 [] [] []
        [[lit "a", lit "b"], [lit "a", lit "b"]] =
      .ok { ArgumentParser.empty with m_options := ArgumentParser.empty.m_options ++ [option] }) := by
  refine ⟨?_, ?_, ?_⟩
  · exact (C18_add_option_usage_error_iff ArgumentParser.empty [lit "-d", lit "--def"] 1 [] [] []
      [[lit "a", lit "b"], [lit "a", lit "b"]]).1.mpr
      (Or.inr (Or.inr (Or.inr (Or.inl ⟨by decide, by decide⟩))))
  · exact (C18_add_option_usage_error_iff ArgumentParser.empty [lit "--jj"] 2 (lit "help") []
      [lit "a", lit "c"] [[lit "a", lit "b"], [lit "a", lit "b"]]).1.mpr
      (Or.inr (Or.inr (Or.inr (Or.inr (Or.inr (Or.inr ⟨by decide, 1, by decide, by decide⟩))))))
  · have hno : ¬ add_option_rejects ArgumentParser.empty [lit "--twos"] 2 [] []
        [[lit "a", lit "b"], [lit "a", lit "b"]] := by
      rintro (h | ⟨name, hm, hb⟩ | ⟨name, hm, n, -, hr⟩ | ⟨-, h⟩ | ⟨h, -⟩ | ⟨h, -⟩ | ⟨-, i, hi, -⟩)
      · cases h
      · rw [List.mem_singleton] at hm
        subst hm
        exact hb (lit "twos") rfl
      · cases hr
      · exact h rfl
      · exact h rfl
      · exact h rfl
      · cases hi
    obtain ⟨o, ho, -⟩ := (C18_add_option_usage_error_iff ArgumentParser.empty [lit "--twos"] 2 []
      [] [] [[lit "a", lit "b"], [lit "a", lit "b"]]).2.2 hno
    exact ⟨o, ho⟩

/-! ## `has_option` -/

theorem is_short_name_facts (n : Str) (h : is_short_name n = true) :
    ∃ X, isalpha X = true ∧ n = [X] := by
  match n, h with
  | [X], h =>
    simp only [is_short_name, at_, List.getD_cons_zero, List.length_singleton, beq_self_eq_true,
      Bool.true_and] at h
    exact ⟨X, h, rfl⟩

theorem has_option_registered (p : ArgumentParser) (name n : Str)
    (hn : normalize_option_name name = .ok n) :
    p.has_option name = .ok (is_registered p n) := by
  simp only [has_option, hn, find_option_iter_isSome, is_registered]

theorem is_registered_of_mem (p : ArgumentParser) (o : OptionEntry) (n : Str)
    (ho : o ∈ p.m_options) (hn : n ∈ o.m_names) : is_registered p n = true := by
  simp only [is_registered, List.any_eq_true]
  exact ⟨o, ho, by simpa [OptionEntry.has_name] using hn⟩

theorem normalize_dashed_short (X : Char) (hX : isalpha X = true) :
    normalize_option_name ['-', X] = .ok [X] := by
  simp [normalize_option_name, at_, strictly_normalize_short X hX]

theorem normalize_dashed_long (n : Str) (h : is_long_name n = true) :
    normalize_option_name (lit "--" ++ n) = .ok n := by
  have : lit "--" ++ n = '-' :: '-' :: n := rfl
  simp only [normalize_option_name, this, at_, List.getD_cons_zero, ne_eq, not_true_eq_false,
    and_false, if_false]
  rw [← this]
  exact strictly_normalize_long n h

/-- C17: with every registered name a normalised short or long name,
`has_option` returns true for a registered name in its bare form and in its
dashed form, returns false for every name that normalises to a name no option
has, and raises a usage error for a name of neither form. -/
theorem C17_has_option (p : ArgumentParser) (hv : names_valid p) :
    (∀ o ∈ p.m_options, ∀ n ∈ o.m_names,
      p.has_option n = .ok true ∧
      (is_short_name n = true → p.has_option (lit "-" ++ n) = .ok true) ∧
      (is_long_name n = true → p.has_option (lit "--" ++ n) = .ok true)) ∧
    (∀ name n, normalize_option_name name = .ok n → is_registered p n = false →
      p.has_option name = .ok false) ∧
    (∀ name, (∀ n, normalize_option_name name ≠ .ok n) →
      ∃ m, p.has_option name = .error (.UsageException m)) := by
  refine ⟨?_, ?_, ?_⟩
  · intro o ho n hn
    have hreg := is_registered_of_mem p o n ho hn
    have hbare : normalize_option_name n = .ok n := by
      rcases hv o ho n hn with hs | hl
      · obtain ⟨X, hX, rfl⟩ := is_short_name_facts n hs
        exact normalize_short_name X hX
      · exact normalize_long_name n hl
    refine ⟨?_, ?_, ?_⟩
    · rw [has_option_registered p n n hbare, hreg]
    · intro hs
      obtain ⟨X, hX, rfl⟩ := is_short_name_facts n hs
      show p.has_option ['-', X] = .ok true
      rw [has_option_registered p _ [X] (normalize_dashed_short X hX), hreg]
    · intro hl
      rw [has_option_registered p _ n (normalize_dashed_long n hl), hreg]
  · intro name n hn hreg
    rw [has_option_registered p name n hn, hreg]
  · intro name hbad
    cases h : normalize_option_name name with
    | ok n => exact absurd h (hbad n)
    | error e =>
      have hu := normalize_error name e h
      cases e with
      | UsageException m => exact ⟨m, by simp only [has_option, h]⟩
      | ParsingException m => cases hu

/-- The examples of C17 on the parser with `-s`, `--long` and `--multi`: the
registered names are found in both forms, `x` and `--other` are not found, and
the name `0` is a usage error. -/
theorem C17_has_option_witness :
    names_valid parser_multi ∧
    parser_multi.has_option (lit "s") = .ok true ∧
    parser_multi.has_option (lit "-s") = .ok true ∧
    parser_multi.has_option (lit "long") = .ok true ∧
    parser_multi.has_option (lit "--long") = .ok true ∧
    parser_multi.has_option (lit "x") = .ok false ∧
    parser_multi.has_option (lit "--other") = .ok false ∧
    (∃ m, parser_multi.has_option (lit "0") = .error (.UsageException m)) :=
  ⟨by decide,
   ((C17_has_option parser_multi (by decide)).1 (flag_entry [lit "s"]) (by decide) (lit "s")
      (by decide)).1,
   ((C17_has_option parser_multi (by decide)).1 (flag_entry [lit "s"]) (by decide) (lit "s")
      (by decide)).2.1 (by decide),
   ((C17_has_option parser_multi (by decide)).1 (value_entry [lit "long"] 1) (by decide)
      (lit "long") (by decide)).1,
   ((C17_has_option parser_multi (by decide)).1 (value_entry [lit "long"] 1) (by decide)
      (lit "long") (by decide)).2.2 (by decide),
   (C17_has_option parser_multi (by decide)).2.1 (lit "x") (lit "x") rfl rfl,
   (C17_has_option parser_multi (by decide)).2.1 (lit "--other") (lit "other") rfl rfl,
   (C17_has_option parser_multi (by decide)).2.2 (lit "0") (by intro n h; cases h)⟩

/-- Counterexample to C17 as stated: no option of the parser with `-s`,
`--long` and `--multi` has the name `0`, yet `has_option` does not return false
for it but raises a usage error. -/
theorem C17_unregistered_name_counterexample :
    names_valid parser_multi ∧ is_registered parser_multi (lit "0") = false ∧
    parser_multi.has_option (lit "0") ≠ .ok false ∧
    parser_multi.has_option (lit "0") = .error (.UsageException
      (lit "Illegal name, letter of  '-0' is a non alpha-character")) := by
  refine ⟨by decide, by decide, ?_, rfl⟩
  intro h
  cases h

/-! ## The registry invariants are established by registration -/

/-- What a registration that returns normally has added: one option whose
names are the normalised given names, none of them registered before. -/
theorem add_option_ok_names (p p' : ArgumentParser) (names : List Str) (k : Nat) (help : Str)
    (meta_vars default_values : List Str) (choices : List (List Str))
    (h : p.add_option names k help meta_vars default_values choices = .ok p') :
    ∃ option, p'.m_options = p.m_options ++ [option] ∧
      ∀ n ∈ option.m_names, (∃ name ∈ names, strictly_normalize_option_name name = .ok n) ∧
        is_registered p n = false := by
  unfold add_option at h
  by_cases hne : names.isEmpty = true
  · rw [if_pos hne] at h
    cases h
  · rw [if_neg hne] at h
    have hnames : names ≠ [] := by
      intro he
      subst he
      exact hne rfl
    obtain ⟨c1, c2⟩ := collect_names_spec p names []
    by_cases hbad : ∃ name ∈ names, (∀ n, strictly_normalize_option_name name ≠ .ok n) ∨
        ∃ n, strictly_normalize_option_name name = .ok n ∧ is_registered p n = true
    · obtain ⟨m, hm⟩ := c1 hbad
      rw [hm] at h
      cases h
    · obtain ⟨r, hr, hmem⟩ := c2 hbad
      rw [hr] at h
      simp only at h
      have hrne : r ≠ [] := by
        obtain ⟨x, hx⟩ := List.exists_mem_of_ne_nil names hnames
        have hxok : ∃ n, strictly_normalize_option_name x = .ok n := by
          by_contra hc
          exact hbad ⟨x, hx, Or.inl (fun n hn => hc ⟨n, hn⟩)⟩
        obtain ⟨n, hn⟩ := hxok
        exact List.ne_nil_of_mem ((hmem n).mpr (Or.inr ⟨x, hx, hn⟩))
      obtain ⟨b1, b2⟩ := build_option_spec r k help meta_vars default_values choices hrne
      by_cases hb : (choices ≠ [] ∧ choices.length ≠ k) ∨
          (meta_vars ≠ [] ∧ meta_vars.length ≠ k) ∨
          (default_values ≠ [] ∧ default_values.length ≠ k) ∨
          (choices ≠ [] ∧ ∃ i, i < default_values.length ∧
            (choices.getD i []).contains (default_values.getD i []) = false)
      · obtain ⟨m, hm⟩ := b1 hb
        rw [hm] at h
        cases h
      · rw [b2 hb] at h
        simp only [Outcome.ok.injEq] at h
        subst h
        refine ⟨_, rfl, ?_⟩
        intro n hn
        have hn' : n ∈ r := hn
        rcases (hmem n).mp hn' with hnil | ⟨name, hm, hname⟩
        · cases hnil
        · refine ⟨⟨name, hm, hname⟩, ?_⟩
          cases hreg : is_registered p n with
          | false => rfl
          | true => exact absurd ⟨name, hm, Or.inr ⟨n, hname, hreg⟩⟩ hbad

/-- Registration keeps every registered name a normalised short or long name. -/
theorem add_option_names_valid (p p' : ArgumentParser) (names : List Str) (k : Nat) (help : Str)
    (meta_vars default_values : List Str) (choices : List (List Str))
    (hv : names_valid p)
    (h : p.add_option names k help meta_vars default_values choices = .ok p') :
    names_valid p' := by
  obtain ⟨option, hopts, hnew⟩ := add_option_ok_names p p' names k help meta_vars
    default_values choices h
  intro o ho n hn
  rw [hopts, List.mem_append, List.mem_singleton] at ho
  rcases ho with ho | rfl
  · exact hv o ho n hn
  · obtain ⟨⟨name, -, hname⟩, -⟩ := hnew n hn
    rcases (strictly_normalize_ok_iff name n).mp hname with ⟨X, hX, -, rfl⟩ | ⟨hl, -⟩
    · left
      simp [is_short_name, at_, hX]
    · exact Or.inr hl

/-- Registration keeps the names of different options disjoint. -/
theorem add_option_names_unique (p p' : ArgumentParser) (names : List Str) (k : Nat) (help : Str)
    (meta_vars default_values : List Str) (choices : List (List Str))
    (hu : names_unique p)
    (h : p.add_option names k help meta_vars default_values choices = .ok p') :
    names_unique p' := by
  obtain ⟨option, hopts, hnew⟩ := add_option_ok_names p p' names k help meta_vars
    default_values choices h
  unfold names_unique at hu ⊢
  rw [hopts, List.pairwise_append]
  refine ⟨hu, List.pairwise_singleton _ _, ?_⟩
  intro a ha b hb n hna hnb
  rw [List.mem_singleton] at hb
  subst hb
  have hreg := is_registered_of_mem p a n ha hna
  rw [(hnew n hnb).2] at hreg
  cases hreg

/-- A parser without options satisfies both invariants. -/
theorem empty_names_valid_unique :
    names_valid ArgumentParser.empty ∧ names_unique ArgumentParser.empty :=
  ⟨by decide, by decide⟩

/-! ## The bulk setters -/

theorem is_named_in_congr (names : List Str) (o o' : OptionEntry)
    (h : o'.m_names = o.m_names) : is_named_in names o' = is_named_in names o := by
  simp only [is_named_in, OptionEntry.has_name, h]

theorem is_registered_names (p q : ArgumentParser) (n : Str)
    (h : q.m_options.map OptionEntry.m_names = p.m_options.map OptionEntry.m_names) :
    is_registered q n = is_registered p n := by
  simp only [is_registered, ← find_option_iter_isSome]
  rw [find_option_iter_names _ _ n h]

theorem name_registered_names (p q : ArgumentParser) (name : Str)
    (h : q.m_options.map OptionEntry.m_names = p.m_options.map OptionEntry.m_names) :
    name_registered q name = name_registered p name := by
  unfold name_registered
  cases normalize_option_name name with
  | error e => rfl
  | ok n => exact is_registered_names p q n h

theorem names_unique_names (p q : ArgumentParser)
    (h : q.m_options.map OptionEntry.m_names = p.m_options.map OptionEntry.m_names)
    (hu : names_unique p) : names_unique q := by
  unfold names_unique at hu ⊢
  have hp : (p.m_options.map OptionEntry.m_names).Pairwise (fun a b => ∀ n ∈ a, n ∉ b) :=
    List.pairwise_map.mpr hu
  rw [← h] at hp
  exact List.pairwise_map.mp hp

theorem map_names_set (os : List OptionEntry) (idx : Nat) (o o' : OptionEntry)
    (hopt : os[idx]? = some o) (hn : o'.m_names = o.m_names) :
    (os.set idx o').map OptionEntry.m_names = os.map OptionEntry.m_names := by
  rw [List.map_set, hn]
  apply set_self
  rw [List.getElem?_map, hopt]
  rfl

/-- With unique names, the option `find_option_iter` finds is the only one
that has the name. -/
theorem find_option_iter_unique (os : List OptionEntry)
    (hu : os.Pairwise (fun a b => ∀ n ∈ a.m_names, n ∉ b.m_names)) (n : Str) :
    ∀ (idx : Nat), find_option_iter os n = some idx →
      ∀ (i : Nat) (o' : OptionEntry), os[i]? = some o' → o'.has_name n = true → i = idx := by
  induction os with
  | nil =>
    intro idx h
    simp [find_option_iter] at h
  | cons o os ih =>
    intro idx h i o' hi hn
    rw [List.pairwise_cons] at hu
    simp only [find_option_iter] at h
    by_cases ho : o.has_name n = true
    · simp only [ho, if_true, Option.some.injEq] at h
      subst h
      cases i with
      | zero => rfl
      | succ j =>
        exfalso
        simp only [List.getElem?_cons_succ] at hi
        have hmem : o' ∈ os := List.mem_iff_getElem?.mpr ⟨j, hi⟩
        have h1 : n ∈ o.m_names := by simpa [OptionEntry.has_name] using ho
        have h2 : n ∈ o'.m_names := by simpa [OptionEntry.has_name] using hn
        exact hu.1 o' hmem n h1 h2
    · simp only [ho, Bool.false_eq_true, if_false] at h
      cases hf : find_option_iter os n with
      | none => rw [hf] at h; cases h
      | some idx' =>
        rw [hf] at h
        simp only [Option.map_some', Option.some.injEq] at h
        subst h
        cases i with
        | zero =>
          simp only [List.getElem?_cons_zero, Option.some.injEq] at hi
          subst hi
          exact absurd hn ho
        | succ j =>
          simp only [List.getElem?_cons_succ] at hi
          rw [ih hu.2 idx' hf j o' hi hn]

theorem find_option_mut_registered (p : ArgumentParser) (name : Str)
    (h : name_registered p name = true) :
    ∃ n idx o, normalize_option_name name = .ok n ∧ p.find_option_mut name = .ok idx ∧
      find_option_iter p.m_options n = some idx ∧
      p.m_options[idx]? = some o ∧ o.has_name n = true := by
  unfold name_registered at h
  cases hn : normalize_option_name name with
  | error e => rw [hn] at h; cases h
  | ok n =>
    rw [hn] at h
    simp only at h
    rw [is_registered, ← find_option_iter_isSome] at h
    cases hf : find_option_iter p.m_options n with
    | none => rw [hf] at h; cases h
    | some idx =>
      obtain ⟨o, ho, hname⟩ := find_option_iter_lt p.m_options n idx hf
      exact ⟨n, idx, o, rfl, by simp only [find_option_mut, hn, hf], hf, ho, hname⟩

theorem find_option_mut_unregistered (p : ArgumentParser) (name : Str)
    (h : name_registered p name = false) :
    ∃ m, p.find_option_mut name = .error (.UsageException m) := by
  unfold name_registered at h
  cases hn : normalize_option_name name with
  | error e =>
    have hu := normalize_error name e hn
    cases e with
    | UsageException m => exact ⟨m, by simp only [find_option_mut, hn]⟩
    | ParsingException m => cases hu
  | ok n =>
    rw [hn] at h
    simp only at h
    rw [is_registered, ← find_option_iter_isSome] at h
    cases hf : find_option_iter p.m_options n with
    | some idx => rw [hf] at h; cases h
    | none =>
      exact ⟨lit "Option '" ++ name ++ lit "' does not exist.",
        by simp only [find_option_mut, hn, hf]⟩

/-- The second loop of a bulk setter, all names registered: the setter is
applied to exactly the options that have one of the names. -/
theorem set_named_ok (setter : OptionEntry → OptionEntry)
    (hs : ∀ o, (setter o).m_names = o.m_names) (hid : ∀ o, setter (setter o) = setter o) :
    ∀ (names : List Str) (p : ArgumentParser), names_unique p →
      (∀ name ∈ names, name_registered p name = true) →
      set_named setter names p =
        .ok { p with m_options :=
          p.m_options.map (fun o => if is_named_in names o then setter o else o) } := by
  intro names
  induction names with
  | nil =>
    intro p _ _
    simp [set_named, is_named_in]
  | cons name rest ih =>
    intro p hu hall
    obtain ⟨n, idx, o, hn, hmut, hf, hopt, hname⟩ :=
      find_option_mut_registered p name (hall name (List.mem_cons_self _ _))
    have hmap : (p.put_option idx (setter o)).m_options.map OptionEntry.m_names =
        p.m_options.map OptionEntry.m_names :=
      map_names_set p.m_options idx o (setter o) hopt (hs o)
    have hrec := ih (p.put_option idx (setter o)) (names_unique_names p _ hmap hu)
      (fun name' hm => by
        rw [name_registered_names p _ name' hmap]
        exact hall name' (List.mem_cons_of_mem _ hm))
    simp only [set_named, hmut, hopt]
    rw [hrec]
    have hsel : ∀ o', is_named_in (name :: rest) o' = (o'.has_name n || is_named_in rest o') := by
      intro o'
      simp only [is_named_in, List.any_cons, hn]
    have hlist : (p.m_options.set idx (setter o)).map
          (fun o => if is_named_in rest o then setter o else o) =
        p.m_options.map (fun o => if is_named_in (name :: rest) o then setter o else o) := by
      apply List.ext_getElem?
      intro i
      simp only [List.getElem?_map, List.getElem?_set]
      by_cases hi : idx = i
      · subst hi
        have hlt : idx < p.m_options.length := by
          by_contra hc
          rw [List.getElem?_eq_none (by omega)] at hopt
          cases hopt
        simp only [if_true, hlt, hopt, Option.map_some', hsel, hname, Bool.true_or]
        by_cases hr : is_named_in rest (setter o) = true
        · simp only [hr, if_true, hid]
        · simp only [hr, Bool.false_eq_true, if_false]
      · simp only [hi, if_false]
        cases hoi : p.m_options[i]? with
        | none => rfl
        | some o' =>
          have hno : o'.has_name n = false := by
            by_contra hc
            have := find_option_iter_unique p.m_options hu n idx hf i o' hoi (by simpa using hc)
            exact hi this.symm
          simp only [Option.map_some', hsel, hno, Bool.false_or]
    simp only [put_option, hlist]

/-- The second loop of a bulk setter returns normally when all names are
registered. -/
theorem set_named_total (setter : OptionEntry → OptionEntry)
    (hs : ∀ o, (setter o).m_names = o.m_names) :
    ∀ (names : List Str) (p : ArgumentParser),
      (∀ name ∈ names, name_registered p name = true) →
      ∃ q, set_named setter names p = .ok q := by
  intro names
  induction names with
  | nil =>
    intro p _
    exact ⟨p, rfl⟩
  | cons name rest ih =>
    intro p hall
    obtain ⟨n, idx, o, hn, hmut, hf, hopt, hname⟩ :=
      find_option_mut_registered p name (hall name (List.mem_cons_self _ _))
    have hmap : (p.put_option idx (setter o)).m_options.map OptionEntry.m_names =
        p.m_options.map OptionEntry.m_names :=
      map_names_set p.m_options idx o (setter o) hopt (hs o)
    obtain ⟨q, hq⟩ := ih (p.put_option idx (setter o)) (fun name' hm => by
        rw [name_registered_names p _ name' hmap]
        exact hall name' (List.mem_cons_of_mem _ hm))
    exact ⟨q, by simp only [set_named, hmut, hopt, hq]⟩

/-- The second loop of a bulk setter raises a usage error at the first name
that is not registered. -/
theorem set_named_error (setter : OptionEntry → OptionEntry)
    (hs : ∀ o, (setter o).m_names = o.m_names) :
    ∀ (names : List Str) (p : ArgumentParser),
      (∃ name ∈ names, name_registered p name = false) →
      ∃ m q, set_named setter names p = .throws (.UsageException m) q := by
  intro names
  induction names with
  | nil =>
    rintro p ⟨name, hm, -⟩
    cases hm
  | cons name rest ih =>
    intro p hex
    cases hreg : name_registered p name with
    | false =>
      obtain ⟨m, hm⟩ := find_option_mut_unregistered p name hreg
      exact ⟨m, p, by simp only [set_named, hm]⟩
    | true =>
      obtain ⟨n, idx, o, hn, hmut, hf, hopt, hname⟩ := find_option_mut_registered p name hreg
      have hmap : (p.put_option idx (setter o)).m_options.map OptionEntry.m_names =
          p.m_options.map OptionEntry.m_names :=
        map_names_set p.m_options idx o (setter o) hopt (hs o)
      obtain ⟨bad, hbm, hbad⟩ := hex
      have hrest : bad ∈ rest := by
        rcases List.mem_cons.mp hbm with rfl | h
        · rw [hreg] at hbad; cases hbad
        · exact h
      obtain ⟨m, q, hq⟩ := ih (p.put_option idx (setter o)) ⟨bad, hrest, by
        rw [name_registered_names p _ bad hmap]
        exact hbad⟩
      exact ⟨m, q, by simp only [set_named, hmut, hopt, hq]⟩

/-- The first loop of `set_appending_arguments` passes when every storage is
empty or holds as many values as the arity. -/
theorem clear_appending_ok :
    ∀ (os : List OptionEntry),
      (∀ o ∈ os, o.m_storage = [] ∨ o.m_storage.length = o.m_number_of_arguments) →
      clear_appending os = .ok (os.map (fun o => { o with m_is_appending := false })) := by
  intro os
  induction os with
  | nil => intro _; rfl
  | cons o os ih =>
    intro h
    have ho := h o (List.mem_cons_self _ _)
    have hcond : ¬ ((!false) = true ∧ (!o.m_storage.isEmpty) = true ∧
        o.m_storage.length ≠ o.m_number_of_arguments) := by
      rintro ⟨-, h1, h2⟩
      rcases ho with h0 | h0
      · rw [h0] at h1
        cases h1
      · exact h2 h0
    simp only [clear_appending, OptionEntry.set_appending, if_neg hcond,
      ih (fun o' hm => h o' (List.mem_cons_of_mem _ hm)), List.map_cons]

/-- The first loop of `set_appending_arguments` raises a usage error at the
first option whose storage is not empty and differs in count from the arity. -/
theorem clear_appending_error :
    ∀ (os : List OptionEntry),
      (∃ o ∈ os, o.m_storage ≠ [] ∧ o.m_storage.length ≠ o.m_number_of_arguments) →
      ∃ m os', clear_appending os = .throws (.UsageException m) os' := by
  intro os
  induction os with
  | nil =>
    rintro ⟨o, hm, -⟩
    cases hm
  | cons o os ih =>
    intro hex
    by_cases hcond : (!false) = true ∧ (!o.m_storage.isEmpty) = true ∧
        o.m_storage.length ≠ o.m_number_of_arguments
    · exact ⟨_, _, by simp only [clear_appending, OptionEntry.set_appending, if_pos hcond]; rfl⟩
    · have hrest : ∃ o' ∈ os, o'.m_storage ≠ [] ∧
          o'.m_storage.length ≠ o'.m_number_of_arguments := by
        obtain ⟨b, hbm, hb1, hb2⟩ := hex
        rcases List.mem_cons.mp hbm with rfl | h
        · exfalso
          apply hcond
          refine ⟨rfl, ?_, hb2⟩
          cases hst : b.m_storage with
          | nil => exact absurd hst hb1
          | cons x t => rfl
        · exact ⟨b, h, hb1, hb2⟩
      obtain ⟨m, os', hm⟩ := ih hrest
      exact ⟨m, { o with m_is_appending := false } :: os', by
        simp only [clear_appending, OptionEntry.set_appending, if_neg hcond, hm]⟩

theorem set_named_cleared (p : ArgumentParser) (names : List Str)
    (clear set : OptionEntry → OptionEntry) (result : OptionEntry → OptionEntry)
    (hu : names_unique p)
    (hc : ∀ o, (clear o).m_names = o.m_names) (hs : ∀ o, (set o).m_names = o.m_names)
    (hid : ∀ o, set (set o) = set o)
    (hres : ∀ o, (if is_named_in names o then set (clear o) else clear o) = result o)
    (hall : ∀ name ∈ names, name_registered p name = true) :
    set_named set names { p with m_options := p.m_options.map clear } =
      .ok { p with m_options := p.m_options.map result } := by
  have hmap : ({ p with m_options := p.m_options.map clear } : ArgumentParser).m_options.map
      OptionEntry.m_names = p.m_options.map OptionEntry.m_names := by
    simp only [List.map_map]
    apply List.map_congr_left
    intro o _
    exact hc o
  rw [set_named_ok set hs hid names _ (names_unique_names p _ hmap hu)
    (fun name hm => by rw [name_registered_names p _ name hmap]; exact hall name hm)]
  simp only [List.map_map]
  congr 2
  apply List.map_congr_left
  intro o _
  simp only [Function.comp_apply, is_named_in_congr names o (clear o) (hc o)]
  exact hres o

theorem set_named_cleared_error (p : ArgumentParser) (names : List Str)
    (clear set : OptionEntry → OptionEntry)
    (hc : ∀ o, (clear o).m_names = o.m_names) (hs : ∀ o, (set o).m_names = o.m_names)
    (hex : ∃ name ∈ names, name_registered p name = false) :
    ∃ m q, set_named set names { p with m_options := p.m_options.map clear } =
      .throws (.UsageException m) q := by
  have hmap : ({ p with m_options := p.m_options.map clear } : ArgumentParser).m_options.map
      OptionEntry.m_names = p.m_options.map OptionEntry.m_names := by
    simp only [List.map_map]
    apply List.map_congr_left
    intro o _
    exact hc o
  obtain ⟨name, hm, hbad⟩ := hex
  exact set_named_error set hs names _ ⟨name, hm, by
    rw [name_registered_names p _ name hmap]; exact hbad⟩

theorem set_named_cleared_total (p : ArgumentParser) (names : List Str)
    (clear set : OptionEntry → OptionEntry)
    (hc : ∀ o, (clear o).m_names = o.m_names) (hs : ∀ o, (set o).m_names = o.m_names)
    (hall : ∀ name ∈ names, name_registered p name = true) :
    ∃ q, set_named set names { p with m_options := p.m_options.map clear } = .ok q := by
  have hmap : ({ p with m_options := p.m_options.map clear } : ArgumentParser).m_options.map
      OptionEntry.m_names = p.m_options.map OptionEntry.m_names := by
    simp only [List.map_map]
    apply List.map_congr_left
    intro o _
    exact hc o
  exact set_named_total set hs names _
    (fun name hm => by rw [name_registered_names p _ name hmap]; exact hall name hm)

/-- C19: the bulk setters reset and then set. On a registry with unique names,
when every given name (bare or dashed) is registered, after `set_required` an
option is required exactly when one of its names is among the given ones, and
likewise for `set_hidden` and, when no option holds stored values, for
`set_appending_arguments`; nothing else changes, so an empty set of names
clears the flag everywhere. When some given name is not registered, the call
raises a usage error. -/
theorem C19_bulk_setters_reset_then_set (p : ArgumentParser) (names : List Str)
    (hu : names_unique p) :
    ((∀ name ∈ names, name_registered p name = true) →
      p.set_required names = .ok (with_required names p) ∧
      p.set_hidden names = .ok (with_hidden names p) ∧
      ((∀ o ∈ p.m_options, o.m_storage = []) →
        p.set_appending_arguments names = .ok (with_appending names p))) ∧
    ((∃ name ∈ names, name_registered p name = false) →
      (∃ m q, p.set_required names = .throws (.UsageException m) q) ∧
      (∃ m q, p.set_hidden names = .throws (.UsageException m) q) ∧
      ((∀ o ∈ p.m_options, o.m_storage = []) →
        ∃ m q, p.set_appending_arguments names = .throws (.UsageException m) q)) := by
  constructor
  · intro hall
    refine ⟨?_, ?_, ?_⟩
    · exact set_named_cleared p names (fun o => o.set_required false)
        (fun o => o.set_required true) _ hu (fun _ => rfl) (fun _ => rfl) (fun _ => rfl)
        (fun o => by cases h : is_named_in names o <;> simp [OptionEntry.set_required]) hall
    · exact set_named_cleared p names (fun o => o.set_hidden false)
        (fun o => o.set_hidden true) _ hu (fun _ => rfl) (fun _ => rfl) (fun _ => rfl)
        (fun o => by cases h : is_named_in names o <;> simp [OptionEntry.set_hidden]) hall
    · intro hst
      unfold set_appending_arguments
      rw [clear_appending_ok p.m_options (fun o ho => Or.inl (hst o ho))]
      exact set_named_cleared p names (fun o => { o with m_is_appending := false })
        (fun o => { o with m_is_appending := true }) _ hu (fun _ => rfl) (fun _ => rfl)
        (fun _ => rfl) (fun o => by cases h : is_named_in names o <;> simp) hall
  · intro hex
    refine ⟨?_, ?_, ?_⟩
    · exact set_named_cleared_error p names (fun o => o.set_required false)
        (fun o => o.set_required true) (fun _ => rfl) (fun _ => rfl) hex
    · exact set_named_cleared_error p names (fun o => o.set_hidden false)
        (fun o => o.set_hidden true) (fun _ => rfl) (fun _ => rfl) hex
    · intro hst
      unfold set_appending_arguments
      rw [clear_appending_ok p.m_options (fun o ho => Or.inl (hst o ho))]
      exact set_named_cleared_error p names (fun o => { o with m_is_appending := false })
        (fun o => { o with m_is_appending := true }) (fun _ => rfl) (fun _ => rfl) hex

/-- The examples of C19 on the parser with `-s`, `--long` and `--multi`:
`set_required` with `s` and `--long` makes these two required and not
`--multi`, a following `set_required` with no name clears both again, and on
an empty parser the name `v` is a usage error (test
`SetNonExistingOptionAsRequired`). -/
theorem C19_bulk_setters_reset_then_set_witness :
    names_unique parser_multi ∧
    parser_multi.set_required [lit "s", lit "--long"] =
      .ok (with_required [lit "s", lit "--long"] parser_multi) ∧
    (with_required [lit "s", lit "--long"] parser_multi).m_options.map
      OptionEntry.m_is_required = [true, true, false] ∧
    (with_required [lit "s", lit "--long"] parser_multi).set_required [] = .ok parser_multi ∧
    (∃ m q, ArgumentParser.empty.set_required [lit "v"] = .throws (.UsageException m) q) :=
  ⟨by decide,
   ((C19_bulk_setters_reset_then_set parser_multi [lit "s", lit "--long"] (by decide)).1
      (by decide)).1,
   by decide,
   ((C19_bulk_setters_reset_then_set (with_required [lit "s", lit "--long"] parser_multi) []
      (by decide)).1 (by decide)).1,
   ((C19_bulk_setters_reset_then_set ArgumentParser.empty [lit "v"] (by decide)).2
      ⟨lit "v", by decide, by decide⟩).1⟩

/-- Method `set_appending_arguments` raises a usage error exactly when some
option, named or not, holds a non-empty storage whose count differs from its
arity, or some given name is not registered; in every other case it returns
normally. -/
theorem set_appending_arguments_spec (p : ArgumentParser) (names : List Str) :
    ((∃ m q, p.set_appending_arguments names = .throws (.UsageException m) q) ↔
      ((∃ o ∈ p.m_options, o.m_storage ≠ [] ∧ o.m_storage.length ≠ o.m_number_of_arguments) ∨
        (∃ name ∈ names, name_registered p name = false))) ∧
    (¬ ((∃ o ∈ p.m_options, o.m_storage ≠ [] ∧ o.m_storage.length ≠ o.m_number_of_arguments) ∨
        (∃ name ∈ names, name_registered p name = false)) →
      ∃ q, p.set_appending_arguments names = .ok q) := by
  have hbad : ((∃ o ∈ p.m_options, o.m_storage ≠ [] ∧
        o.m_storage.length ≠ o.m_number_of_arguments) ∨
        (∃ name ∈ names, name_registered p name = false)) →
      ∃ m q, p.set_appending_arguments names = .throws (.UsageException m) q := by
    intro h
    by_cases hst : ∃ o ∈ p.m_options, o.m_storage ≠ [] ∧
        o.m_storage.length ≠ o.m_number_of_arguments
    · obtain ⟨m, os, hm⟩ := clear_appending_error p.m_options hst
      exact ⟨m, { p with m_options := os }, by simp only [set_appending_arguments, hm]⟩
    · have hex : ∃ name ∈ names, name_registered p name = false := by
        rcases h with h | h
        · exact absurd h hst
        · exact h
      have hok : ∀ o ∈ p.m_options,
          o.m_storage = [] ∨ o.m_storage.length = o.m_number_of_arguments := by
        intro o ho
        by_contra hc
        apply hst
        refine ⟨o, ho, fun h0 => hc (Or.inl h0), fun h0 => hc (Or.inr h0)⟩
      unfold set_appending_arguments
      rw [clear_appending_ok p.m_options hok]
      exact set_named_cleared_error p names (fun o => { o with m_is_appending := false })
        (fun o => { o with m_is_appending := true }) (fun _ => rfl) (fun _ => rfl) hex
  have hgood : ¬ ((∃ o ∈ p.m_options, o.m_storage ≠ [] ∧
        o.m_storage.length ≠ o.m_number_of_arguments) ∨
        (∃ name ∈ names, name_registered p name = false)) →
      ∃ q, p.set_appending_arguments names = .ok q := by
    intro h
    have hok : ∀ o ∈ p.m_options,
        o.m_storage = [] ∨ o.m_storage.length = o.m_number_of_arguments := by
      intro o ho
      by_contra hc
      apply h
      exact Or.inl ⟨o, ho, fun h0 => hc (Or.inl h0), fun h0 => hc (Or.inr h0)⟩
    have hall : ∀ name ∈ names, name_registered p name = true := by
      intro name hm
      cases hr : name_registered p name with
      | true => rfl
      | false => exact absurd (Or.inr ⟨name, hm, hr⟩) h
    unfold set_appending_arguments
    rw [clear_appending_ok p.m_options hok]
    exact set_named_cleared_total p names (fun o => { o with m_is_appending := false })
      (fun o => { o with m_is_appending := true }) (fun _ => rfl) (fun _ => rfl) hall
  refine ⟨⟨?_, hbad⟩, hgood⟩
  rintro ⟨m, q, hm⟩
  by_contra hc
  obtain ⟨q', hq⟩ := hgood hc
  rw [hq] at hm
  cases hm

/-- C20, as the code has it: on a parser in which no flag holds stored values,
`set_appending_arguments` raises a usage error exactly when some given name is
not registered or some option of arity at least 1 - named or not, appending
before the call or not - holds stored values whose count differs from its
arity; in every other case it returns normally. -/
theorem C20_set_appending_usage_error_iff (p : ArgumentParser) (names : List Str)
    (hflags : ∀ o ∈ p.m_options, o.m_number_of_arguments = 0 → o.m_storage = []) :
    ((∃ m q, p.set_appending_arguments names = .throws (.UsageException m) q) ↔
      ((∃ o ∈ p.m_options, 0 < o.m_number_of_arguments ∧ o.m_storage ≠ [] ∧
          o.m_storage.length ≠ o.m_number_of_arguments) ∨
        (∃ name ∈ names, name_registered p name = false))) ∧
    (¬ ((∃ o ∈ p.m_options, 0 < o.m_number_of_arguments ∧ o.m_storage ≠ [] ∧
          o.m_storage.length ≠ o.m_number_of_arguments) ∨
        (∃ name ∈ names, name_registered p name = false)) →
      ∃ q, p.set_appending_arguments names = .ok q) := by
  have hiff : (∃ o ∈ p.m_options, o.m_storage ≠ [] ∧
        o.m_storage.length ≠ o.m_number_of_arguments) ↔
      (∃ o ∈ p.m_options, 0 < o.m_number_of_arguments ∧ o.m_storage ≠ [] ∧
        o.m_storage.length ≠ o.m_number_of_arguments) := by
    constructor
    · rintro ⟨o, ho, h1, h2⟩
      refine ⟨o, ho, ?_, h1, h2⟩
      by_contra h0
      exact h1 (hflags o ho (by omega))
    · rintro ⟨o, ho, -, h1, h2⟩
      exact ⟨o, ho, h1, h2⟩
  obtain ⟨s1, s2⟩ := set_appending_arguments_spec p names
  rw [hiff] at s1 s2
  exact ⟨s1, s2⟩

/-- The examples of C20 from the test `SetAppendingAfterParsing`: naming `-a`
before parsing succeeds, and after parsing `app -a=1 -a=2` the call with no
name raises a usage error. -/
theorem C20_set_appending_usage_error_iff_witness :
    (∃ q, parser_a_appending.set_appending_arguments [lit "-a"] = .ok q) ∧
    (∃ m q, parser_a_appended.set_appending_arguments [] = .throws (.UsageException m) q) :=
  ⟨(C20_set_appending_usage_error_iff parser_a_appending [lit "-a"] (by decide)).2 (by decide),
   (C20_set_appending_usage_error_iff parser_a_appended [] (by decide)).1.mpr (by decide)⟩

/-- Counterexample to C20 as stated: after parsing `app -a=1 -a=2` the
appending option `-a` of arity 1 holds two values; `set_appending_arguments`
naming `-a` turns no option non-appending and every name is registered, yet
the call raises a usage error, because the first loop checks every option. -/
theorem C20_named_option_counterexample :
    parser_a_appending.parse [lit "app", lit "-a=1", lit "-a=2"] = .ok parser_a_appended ∧
    name_registered parser_a_appended (lit "-a") = true ∧
    (∀ o ∈ parser_a_appended.m_options, is_named_in [lit "-a"] o = true) ∧
    parser_a_appended.set_appending_arguments [lit "-a"] =
      .throws (.UsageException (lit "'a' expects 1 argument, but got 2"))
        (with_appending [] parser_a_appended) :=
  ⟨rfl, rfl, by decide, rfl⟩

/-- A flag that holds its value `true` makes `set_appending_arguments` throw:
`Option::set_appending` compares the one stored value with the arity 0 of the
flag. -/
theorem set_appending_parsed_flag :
    (∀ o ∈ parser_v_parsed.m_options, o.m_is_appending = false) ∧
    parser_v_parsed.set_appending_arguments [] =
      .throws (.UsageException (lit "'v' expects 0 argument, but got 1")) parser_v_parsed :=
  ⟨by decide, rfl⟩

/-! ## Appending options -/

theorem parse_choices_ok_storage (values : List Str) :
    ∀ (k i : Nat) (o o' : OptionEntry), OptionEntry.parse_choices values k i o = .ok o' →
      o'.m_storage = o.m_storage ++ (values.drop i).take k := by
  intro k
  induction k with
  | zero =>
    intro i o o' h
    simp only [OptionEntry.parse_choices, Outcome.ok.injEq] at h
    subst h
    simp
  | succ k ih =>
    intro i o o' h
    simp only [OptionEntry.parse_choices] at h
    cases hc : o.m_choices[i]? with
    | none => simp [hc] at h
    | some cs =>
      cases hv : values[i]? with
      | none => simp [hc, hv] at h
      | some v =>
        simp only [hc, hv] at h
        by_cases hin : cs.contains v = true
        · rw [if_pos hin] at h
          rw [ih (i + 1) _ o' h]
          have hlt : i < values.length := by
            by_contra hcon
            rw [List.getElem?_eq_none (by omega)] at hv
            cases hv
          have hd : values.drop i = v :: values.drop (i + 1) := by
            rw [List.drop_eq_getElem_cons hlt]
            congr 1
            rw [List.getElem?_eq_getElem hlt] at hv
            exact Option.some.inj hv
          simp [hd, List.append_assoc]
        · rw [if_neg hin] at h
          cases h

/-- An occurrence that `Option::parse` accepts for an option with values
appends its values to the storage. -/
theorem option_parse_ok_storage (o o' : OptionEntry) (values : List Str)
    (hpos : 0 < o.m_number_of_arguments) (h : o.parse values = .ok o') :
    o'.m_storage = o.m_storage ++ values := by
  unfold OptionEntry.parse at h
  by_cases h1 : values.length ≠ o.m_number_of_arguments
  · rw [if_pos h1] at h
    cases h
  · rw [if_neg h1] at h
    by_cases h2 : (!o.m_storage.isEmpty && !o.m_is_appending) = true
    · rw [if_pos h2] at h
      cases h
    · rw [if_neg h2, if_neg (by omega)] at h
      by_cases h3 : (!o.m_choices.isEmpty) = true
      · rw [if_pos h3] at h
        rw [parse_choices_ok_storage values _ 0 o o' h, List.drop_zero]
        have hl : values.length = o.m_number_of_arguments := by simpa using h1
        rw [← hl, List.take_length]
      · rw [if_neg h3] at h
        cases h
        rfl

theorem parse_option_ok_storage (p p' : ArgumentParser) (j idx : Nat) (values : List Str)
    (o : OptionEntry) (hopt : p.m_options[idx]? = some o) (hpos : 0 < o.m_number_of_arguments)
    (h : p.parse_option j values = .ok p') :
    ∃ o', p'.m_options[idx]? = some o' ∧
      o'.m_storage = o.m_storage ++ (if j = idx then values else []) := by
  cases hj : p.m_options[j]? with
  | none => simp [parse_option, hj] at h
  | some oj =>
    rw [parse_option_eq p j oj values hj] at h
    cases hp : oj.parse values with
    | ok oj' =>
      rw [hp] at h
      simp only [Outcome.ok.injEq] at h
      subst h
      by_cases hji : j = idx
      · subst hji
        rw [hopt] at hj
        cases hj
        exact ⟨oj', put_option_getElem p j o oj' hopt, by
          rw [if_pos rfl]; exact option_parse_ok_storage o oj' values hpos hp⟩
      · exact ⟨o, by rw [put_option_getElem_ne p j idx oj' hji]; exact hopt, by simp [hji]⟩
    | throws e q => rw [hp] at h; cases h
    | undefined => rw [hp] at h; cases h

/-- A group of flags that is accepted leaves an option with values alone. -/
theorem parse_group_ok_storage (arg : Str) :
    ∀ (cs : List Char) (p p' : ArgumentParser) (idx : Nat) (o : OptionEntry),
      p.m_options[idx]? = some o → 0 < o.m_number_of_arguments →
      parse_group arg cs p = .ok p' → p'.m_options[idx]? = some o := by
  intro cs
  induction cs with
  | nil =>
    intro p p' idx o hopt _ h
    simp only [parse_group, Outcome.ok.injEq] at h
    subst h
    exact hopt
  | cons c cs ih =>
    intro p p' idx o hopt hpos h
    rw [parse_group_cons] at h
    cases hf : flag_step arg p c with
    | ok p1 =>
      rw [hf] at h
      obtain ⟨-, j, oj, -, hj, har, -, rfl⟩ := flag_step_ok_inv arg p p1 c hf
      have hne : j ≠ idx := by
        intro he
        subst he
        rw [hopt] at hj
        cases hj
        omega
      exact ih _ p' idx o (by rw [put_option_getElem_ne p j idx _ hne]; exact hopt) hpos h
    | throws e q => rw [hf] at h; cases h
    | undefined => rw [hf] at h; cases h

/-- One iteration that returns normally appends to the storage of an option
with values exactly the value list of the occurrence at the token. -/
theorem parse_step_ok_storage (argv : List Str) (c : Nat) (ind : Bool) (p : ArgumentParser)
    (s : LoopState) (idx : Nat) (o : OptionEntry)
    (hc1 : 1 ≤ c) (hcL : c < argv.length) (hL : argv.length < ARGV_MAX) (har : arities_ok p)
    (hopt : p.m_options[idx]? = some o) (hpos : 0 < o.m_number_of_arguments)
    (h : parse_step argv c ind p = .ok s) :
    ∃ o1, s.parser.m_options[idx]? = some o1 ∧
      o1.m_storage = o.m_storage ++ occurrence_values argv c ind p idx := by
  by_cases hsel : ind = false ∧
      (is_short_option_name (argv.getD c []) || is_long_option (argv.getD c [])) = true
  · obtain ⟨hind, hform⟩ := hsel
    subst hind
    rw [parse_step_option_form argv c p hform] at h
    by_cases hposl : (!p.m_positionals.isEmpty) = true
    · rw [if_pos hposl] at h
      cases h
    · rw [if_neg hposl] at h
      by_cases hg : is_short_option_group_name (argv.getD c []) = true
      · rw [if_pos hg] at h
        cases hpg : parse_group (argv.getD c []) ((argv.getD c []).drop 1) p with
        | ok p' =>
          rw [hpg] at h
          simp only [Outcome.ok.injEq] at h
          subst h
          refine ⟨o, parse_group_ok_storage _ _ p p' idx o hopt hpos hpg, ?_⟩
          unfold occurrence_values
          rw [if_neg, List.append_nil]
          rintro ⟨-, -, hng⟩
          rw [hg] at hng
          cases hng
        | throws e q => rw [hpg] at h; cases h
        | undefined => rw [hpg] at h; cases h
      · rw [if_neg hg] at h
        have hg' : is_short_option_group_name (argv.getD c []) = false := by simpa using hg
        cases hfind : find_option_to_parse p (split_argument_text (argv.getD c [])).1 with
        | error e =>
          simp only [parse_single_option, hfind] at h
          cases h
        | ok j =>
          cases hj : p.m_options[j]? with
          | none =>
            simp only [parse_single_option, hfind, hj] at h
            cases h
          | some oj =>
            have hocc : occurrence_values argv c false p idx =
                if j = idx then
                  if (inline_values (split_argument_text (argv.getD c [])).2).length <
                        o.m_number_of_arguments ∧
                      c + (o.m_number_of_arguments -
                        (inline_values (split_argument_text (argv.getD c [])).2).length)
                        < argv.length then
                    inline_values (split_argument_text (argv.getD c [])).2 ++
                      (argv.drop (c + 1)).take (o.m_number_of_arguments -
                        (inline_values (split_argument_text (argv.getD c [])).2).length)
                  else inline_values (split_argument_text (argv.getD c [])).2
                else [] := by
              have hcond : false = false ∧
                  (is_short_option_name (argv.getD c []) ||
                    is_long_option (argv.getD c [])) = true ∧
                  is_short_option_group_name (argv.getD c []) = false := ⟨rfl, hform, hg'⟩
              unfold occurrence_values
              rw [if_pos hcond]
              simp only [hfind, hopt]
            rw [parse_single_option_eq argv c false p _ j oj hc1 hcL hL hfind hj
              (har oj (List.mem_iff_getElem?.mpr ⟨j, hj⟩))] at h
            by_cases hlt : oj.m_number_of_arguments <
                (inline_values (split_argument_text (argv.getD c [])).2).length
            · rw [if_pos hlt] at h
              cases hpo : parse_option p j
                  (inline_values (split_argument_text (argv.getD c [])).2) with
              | ok p1 =>
                have := parse_option_ok_length p p1 j _ oj hj hpo
                omega
              | throws e p1 => rw [hpo] at h; cases h
              | undefined => rw [hpo] at h; cases h
            · rw [if_neg hlt] at h
              by_cases hpull : (inline_values (split_argument_text (argv.getD c [])).2).length <
                    oj.m_number_of_arguments ∧
                  c + (oj.m_number_of_arguments -
                    (inline_values (split_argument_text (argv.getD c [])).2).length)
                    < argv.length
              · rw [if_pos hpull] at h
                cases hpo : parse_option p j
                    (inline_values (split_argument_text (argv.getD c [])).2 ++
                      (argv.drop (c + 1)).take (oj.m_number_of_arguments -
                        (inline_values (split_argument_text (argv.getD c [])).2).length)) with
                | ok p' =>
                  rw [hpo] at h
                  simp only [Outcome.ok.injEq] at h
                  subst h
                  obtain ⟨o', ho', hst⟩ := parse_option_ok_storage p p' j idx _ o hopt hpos hpo
                  refine ⟨o', ho', ?_⟩
                  rw [hst, hocc]
                  by_cases hji : j = idx
                  · subst hji
                    rw [hopt] at hj
                    cases hj
                    rw [if_pos rfl, if_pos rfl, if_pos hpull]
                  · rw [if_neg hji, if_neg hji]
                | throws e q => rw [hpo] at h; cases h
                | undefined => rw [hpo] at h; cases h
              · rw [if_neg hpull] at h
                cases hpo : parse_option p j
                    (inline_values (split_argument_text (argv.getD c [])).2) with
                | ok p' =>
                  rw [hpo] at h
                  simp only [Outcome.ok.injEq] at h
                  subst h
                  obtain ⟨o', ho', hst⟩ := parse_option_ok_storage p p' j idx _ o hopt hpos hpo
                  refine ⟨o', ho', ?_⟩
                  rw [hst, hocc]
                  by_cases hji : j = idx
                  · subst hji
                    rw [hopt] at hj
                    cases hj
                    rw [if_pos rfl, if_pos rfl, if_neg hpull]
                  · rw [if_neg hji, if_neg hji]
                | throws e q => rw [hpo] at h; cases h
                | undefined => rw [hpo] at h; cases h
  · have hocc : occurrence_values argv c ind p idx = [] := by
      unfold occurrence_values
      rw [if_neg]
      rintro ⟨a, b, -⟩
      exact hsel ⟨a, b⟩
    rw [hocc, List.append_nil]
    refine ⟨o, ?_, rfl⟩
    unfold parse_step at h
    simp only at h
    split at h
    · cases h
      exact hopt
    · split at h
      · split at h
        · cases h
        · cases h
          exact hopt
      · rename_i hnp
        split at h
        · rename_i hform
          exfalso
          apply hsel
          refine ⟨?_, hform⟩
          cases ind with
          | false => rfl
          | true => simp at hnp
        · cases h

/-- The loop of `parse`, when it returns normally, has changed nothing but
storages and positionals, and has appended to the storage of an option with
values the value lists of its occurrences in encounter order. -/
theorem parse_loop_ok_storage (argv : List Str) (idx : Nat) (hL : argv.length < ARGV_MAX) :
    ∀ (fuel c : Nat) (ind : Bool) (p p' : ArgumentParser) (o : OptionEntry),
      1 ≤ c → arities_ok p → p.m_options[idx]? = some o → 0 < o.m_number_of_arguments →
      parse_loop argv fuel c ind p = .ok p' →
      p'.reset_storage = p.reset_storage ∧
      ∃ o', p'.m_options[idx]? = some o' ∧
        o'.m_storage = o.m_storage ++ loop_values argv idx fuel c ind p := by
  intro fuel
  induction fuel with
  | zero =>
    intro c ind p p' o _ _ hopt _ h
    simp only [parse_loop, Outcome.ok.injEq] at h
    subst h
    exact ⟨rfl, o, hopt, by simp [loop_values]⟩
  | succ fuel ih =>
    intro c ind p p' o hc1 har hopt hpos h
    simp only [parse_loop] at h
    by_cases hc : c < argv.length
    · rw [if_pos hc] at h
      cases hstep : parse_step argv c ind p with
      | ok s =>
        rw [hstep] at h
        simp only at h
        have hframe := (parse_step_frame argv c ind p).1 s hstep
        have hcur := parse_step_current_lt argv c ind p s hstep
        obtain ⟨o1, ho1, hst1⟩ :=
          parse_step_ok_storage argv c ind p s idx o hc1 hc hL har hopt hpos hstep
        obtain ⟨o1', ho1', hres⟩ := getElem_of_reset p s.parser idx o hframe hopt
        rw [ho1] at ho1'
        cases ho1'
        have har1 : o1.m_number_of_arguments = o.m_number_of_arguments := by
          show o1.reset_storage.m_number_of_arguments = o.reset_storage.m_number_of_arguments
          rw [hres]
        obtain ⟨hf, o', ho', hst'⟩ := ih s.current s.positional_indicator_set s.parser p' o1
          (by omega) (arities_ok_of_reset p s.parser hframe har) ho1 (by omega) h
        refine ⟨hf.trans hframe, o', ho', ?_⟩
        rw [hst', hst1]
        simp only [loop_values, if_pos hc, hstep, List.append_assoc]
      | throws e q => rw [hstep] at h; cases h
      | undefined => rw [hstep] at h; cases h
    · rw [if_neg hc] at h
      simp only [Outcome.ok.injEq] at h
      subst h
      exact ⟨rfl, o, hopt, by simp [loop_values, hc]⟩

theorem check_after_loop_ok (p pf : ArgumentParser) (h : check_after_loop p = .ok pf) :
    pf = p := by
  unfold check_after_loop at h
  split at h
  · cases h
  · split at h
    · cases h
    · cases h
      rfl

/-- C11: for an option of arity `n ≥ 1` with empty storage, appending or not,
after `parse` has returned normally its stored values are the value lists of
all its occurrences (the inline value of the token followed by the tokens
taken after it) concatenated in encounter order, and when there was an
occurrence `get_n` returns exactly these values in that order. -/
theorem C11_appending_concatenation (p : ArgumentParser) (argv : List Str) (pf : ArgumentParser)
    (name n : Str) (idx : Nat) (o : OptionEntry)
    (hL : argv.length < ARGV_MAX) (har : arities_ok p)
    (hname : normalize_option_name name = .ok n)
    (hfind : find_option_iter p.m_options n = some idx)
    (hopt : p.m_options[idx]? = some o)
    (hpos : 0 < o.m_number_of_arguments) (hst : o.m_storage = [])
    (hparse : p.parse argv = .ok pf) :
    ∃ o', pf.m_options[idx]? = some o' ∧
      o'.m_storage = loop_values argv idx argv.length 1 false (initial_state p argv).parser ∧
      (o'.m_storage ≠ [] → pf.get_n name = .ok o'.m_storage) := by
  have hne : argv ≠ [] := by
    intro he
    subst he
    cases hparse
  rw [parse_eq_loop p argv hne] at hparse
  obtain ⟨ho1, -⟩ := set_program_name_options p (argv.headD [])
  cases hloop : parse_loop argv argv.length 1 false (initial_state p argv).parser with
  | ok p' =>
    rw [hloop] at hparse
    simp only at hparse
    have := check_after_loop_ok p' pf hparse
    subst this
    have hopt0 : (initial_state p argv).parser.m_options[idx]? = some o := by
      show (p.set_program_name_from_argv (argv.headD [])).m_options[idx]? = some o
      rw [ho1]
      exact hopt
    have har0 : arities_ok (initial_state p argv).parser := by
      intro o' ho'
      apply har o'
      rw [← ho1]
      exact ho'
    obtain ⟨hframe, o', ho', hst'⟩ := parse_loop_ok_storage argv idx hL argv.length 1 false
      (initial_state p argv).parser pf o (Nat.le_refl 1) har0 hopt0 hpos hloop
    rw [hst, List.nil_append] at hst'
    refine ⟨o', ho', hst', ?_⟩
    intro hnonempty
    have hfind' : find_option_iter pf.m_options n = some idx := by
      rw [find_option_iter_of_reset _ pf n hframe]
      show find_option_iter (p.set_program_name_from_argv (argv.headD [])).m_options n = some idx
      rw [ho1]
      exact hfind
    have hparsed : o'.is_parsed = true := by
      cases hs : o'.m_storage with
      | nil => exact absurd hs hnonempty
      | cons a t => simp [OptionEntry.is_parsed, hs]
    simp only [get_n, find_option, hname, hfind', ho', OptionEntry.get, hparsed, if_true]
  | throws e q => rw [hloop] at hparse; cases hparse
  | undefined => rw [hloop] at hparse; cases hparse

/-- The example of C11 from the test `AddAppendingOption`: parsing
`--int 1 --int=2 ...` leaves the values `1`, `2` of the two occurrences of
`--int` stored in this order, and `get_n` returns them. -/
theorem C11_appending_concatenation_witness :
    parser_appending.parse argv_appending = .ok parser_appending_parsed ∧
    loop_values argv_appending 0 argv_appending.length 1 false
      (initial_state parser_appending argv_appending).parser = [lit "1", lit "2"] ∧
    ∃ o', parser_appending_parsed.m_options[0]? = some o' ∧
      o'.m_storage = loop_values argv_appending 0 argv_appending.length 1 false
        (initial_state parser_appending argv_appending).parser ∧
      (o'.m_storage ≠ [] → parser_appending_parsed.get_n (lit "int") = .ok o'.m_storage) :=
  ⟨rfl, rfl,
   C11_appending_concatenation parser_appending argv_appending parser_appending_parsed
     (lit "int") (lit "int") 0 (option_appending (lit "int") [])
     (by unfold ARGV_MAX; decide) (by decide) rfl rfl rfl (by decide) rfl rfl⟩

/-- Counterexample to C11 as stated, at arity 0: the appending flag `-v` occurs
twice in `app -v -v`; neither occurrence carries a value, so the value lists of
its occurrences concatenate to nothing, yet the stored values, which `get_n`
returns, are `true`, `true`. -/
theorem C11_appending_flag_counterexample :
    parser_v_appending.parse [lit "app", lit "-v", lit "-v"] = .ok parser_v_appended ∧
    loop_values [lit "app", lit "-v", lit "-v"] 0 3 1 false
      (initial_state parser_v_appending [lit "app", lit "-v", lit "-v"]).parser = [] ∧
    parser_v_appended.get_n (lit "v") = .ok [lit "true", lit "true"] :=
  ⟨rfl, rfl, rfl⟩

/-! ## XOR groups at registration -/

theorem has_option_name_registered (p : ArgumentParser) (name : Str) :
    (name_registered p name = true → p.has_option name = .ok true) ∧
    (name_registered p name = false →
      p.has_option name = .ok false ∨ ∃ m, p.has_option name = .error (.UsageException m)) := by
  unfold name_registered
  cases hn : normalize_option_name name with
  | error e =>
    have hu := normalize_error name e hn
    constructor
    · intro h
      cases h
    · intro _
      right
      cases e with
      | UsageException m => exact ⟨m, by simp only [has_option, hn]⟩
      | ParsingException m => cases hu
  | ok n =>
    simp only
    rw [has_option_registered p name n hn]
    constructor
    · intro h
      rw [h]
    · intro h
      left
      rw [h]

theorem ensure_valid_option_list_spec (p : ArgumentParser) :
    ∀ (names : List Str),
      ((∀ name ∈ names, name_registered p name = true) →
        p.ensure_valid_option_list names = none) ∧
      ((∃ name ∈ names, name_registered p name = false) →
        ∃ m, p.ensure_valid_option_list names = some (.UsageException m)) := by
  intro names
  induction names with
  | nil =>
    constructor
    · intro _
      rfl
    · rintro ⟨name, hm, -⟩
      cases hm
  | cons x rest ih =>
    obtain ⟨h1, h2⟩ := has_option_name_registered p x
    cases hx : name_registered p x with
    | true =>
      have hh := h1 hx
      constructor
      · intro hall
        simp only [ensure_valid_option_list, hh]
        exact ih.1 (fun name hm => hall name (List.mem_cons_of_mem _ hm))
      · rintro ⟨name, hm, hbad⟩
        simp only [ensure_valid_option_list, hh]
        rcases List.mem_cons.mp hm with rfl | hm'
        · rw [hx] at hbad
          cases hbad
        · exact ih.2 ⟨name, hm', hbad⟩
    | false =>
      constructor
      · intro hall
        have := hall x (List.mem_cons_self _ _)
        rw [hx] at this
        cases this
      · intro _
        rcases h2 hx with hh | ⟨m, hh⟩
        · exact ⟨lit "Option '" ++ x ++ lit "' does not exist.",
            by simp only [ensure_valid_option_list, hh]⟩
        · exact ⟨m, by simp only [ensure_valid_option_list, hh]⟩

/-- C21: `add_xor` raises a usage error exactly when fewer than two names are
given or some name, bare or dashed, is not registered; whenever it throws, the
exception is a usage error and the parser is unchanged, so no group is added;
in every other case it appends the given names as one new XOR group. -/
theorem C21_add_xor_usage_error_iff (p : ArgumentParser) (names : List Str) :
    ((∃ m q, p.add_xor names = .throws (.UsageException m) q) ↔
      (names.length < 2 ∨ ∃ name ∈ names, name_registered p name = false)) ∧
    (∀ e q, p.add_xor names = .throws e q → e.isUsage = true ∧ q = p) ∧
    (¬ (names.length < 2 ∨ ∃ name ∈ names, name_registered p name = false) →
      p.add_xor names = .ok { p with m_xor_lists := p.m_xor_lists ++ [names] }) := by
  obtain ⟨v1, v2⟩ := ensure_valid_option_list_spec p names
  have hbad : (names.length < 2 ∨ ∃ name ∈ names, name_registered p name = false) →
      ∃ m, p.add_xor names = .throws (.UsageException m) p := by
    intro h
    by_cases hlen : names.length < 2
    · exact ⟨lit "too less arguments for XOR", by simp only [add_xor, if_pos hlen]⟩
    · have hex : ∃ name ∈ names, name_registered p name = false := by
        rcases h with h | h
        · exact absurd h hlen
        · exact h
      obtain ⟨m, hm⟩ := v2 hex
      exact ⟨m, by simp only [add_xor, if_neg hlen, hm]⟩
  have hgood : ¬ (names.length < 2 ∨ ∃ name ∈ names, name_registered p name = false) →
      p.add_xor names = .ok { p with m_xor_lists := p.m_xor_lists ++ [names] } := by
    intro h
    have hlen : ¬ names.length < 2 := fun hc => h (Or.inl hc)
    have hall : ∀ name ∈ names, name_registered p name = true := by
      intro name hm
      cases hr : name_registered p name with
      | true => rfl
      | false => exact absurd (Or.inr ⟨name, hm, hr⟩) h
    simp only [add_xor, if_neg hlen, v1 hall]
  refine ⟨⟨?_, fun h => ?_⟩, ?_, hgood⟩
  · rintro ⟨m, q, hm⟩
    by_contra hc
    rw [hgood hc] at hm
    cases hm
  · obtain ⟨m, hm⟩ := hbad h
    exact ⟨m, p, hm⟩
  · intro e q hthrow
    by_cases hc : names.length < 2 ∨ ∃ name ∈ names, name_registered p name = false
    · obtain ⟨m, hm⟩ := hbad hc
      rw [hm] at hthrow
      cases hthrow
      exact ⟨rfl, rfl⟩
    · rw [hgood hc] at hthrow
      cases hthrow

/-- The examples of C21 from the test `addXOR`, on the parser with the flags
`-a` and `-b`: the names `a`, `-b` become a group; `a`, `b`, `c` with the
unregistered `c`, the single name `a` and no name at all are usage errors. -/
theorem C21_add_xor_usage_error_iff_witness :
    parser_ab.add_xor [lit "a", lit "-b"] =
      .ok { parser_ab with m_xor_lists := parser_ab.m_xor_lists ++ [[lit "a", lit "-b"]] } ∧
    (∃ m q, parser_ab.add_xor [lit "a", lit "b", lit "c"] = .throws (.UsageException m) q) ∧
    (∃ m q, parser_ab.add_xor [lit "a"] = .throws (.UsageException m) q) ∧
    (∃ m q, parser_ab.add_xor [] = .throws (.UsageException m) q) :=
  ⟨(C21_add_xor_usage_error_iff parser_ab [lit "a", lit "-b"]).2.2 (by decide),
   (C21_add_xor_usage_error_iff parser_ab [lit "a", lit "b", lit "c"]).1.mpr (by decide),
   (C21_add_xor_usage_error_iff parser_ab [lit "a"]).1.mpr (by decide),
   (C21_add_xor_usage_error_iff parser_ab []).1.mpr (by decide)⟩

/-! ## Access to the values -/

theorem parse_values_length {α : Type} (parse_value : Str → Except Exception α) :
    ∀ (l : List Str) (vs : List α), parse_values parse_value l = .ok vs →
      vs.length = l.length := by
  intro l
  induction l with
  | nil =>
    intro vs h
    cases h
    rfl
  | cons v rest ih =>
    intro vs h
    simp only [parse_values] at h
    cases hv : parse_value v with
    | error e => rw [hv] at h; cases h
    | ok a =>
      rw [hv] at h
      simp only at h
      cases hr : parse_values parse_value rest with
      | error e => rw [hr] at h; cases h
      | ok as =>
        rw [hr] at h
        cases h
        simp [ih as hr]

theorem parse_values_string (l : List Str) : parse_values parse_value_string l = .ok l := by
  induction l with
  | nil => rfl
  | cons v rest ih => simp only [parse_values, parse_value_string, ih]

theorem get_as_string (o : OptionEntry) : o.get_as parse_value_string = o.get := by
  simp only [OptionEntry.get_as, OptionEntry.get, parse_values_string]

theorem get_n_as_string (p : ArgumentParser) (name : Str) :
    p.get_n_as parse_value_string name = p.get_n name := by
  simp only [get_n_as, get_n, get_as_string]

theorem parser_get_as_string (p : ArgumentParser) (name : Str) :
    p.get_as parse_value_string name = p.get name := by
  cases hf : p.find_option name with
  | error e => simp only [ArgumentParser.get_as, ArgumentParser.get, hf]
  | ok o =>
    simp only [ArgumentParser.get_as, ArgumentParser.get, hf, get_as_string]
    by_cases hc : o.m_number_of_arguments ≠ 0 ∧ o.m_number_of_arguments ≠ 1
    · rw [if_pos hc, if_pos hc]
    · rw [if_neg hc, if_neg hc]
      cases o.get with
      | error e => rfl
      | ok l => cases l <;> rfl

/-- The values `Option::get<T>` returns are as many as the storage it reads,
which is not empty. -/
theorem option_get_as_ne_nil {α : Type} (parse_value : Str → Except Exception α)
    (o : OptionEntry) (vs : List α) (h : o.get_as parse_value = .ok vs) : vs ≠ [] := by
  unfold OptionEntry.get_as at h
  by_cases hp : o.is_parsed = true
  · rw [if_pos hp] at h
    have hl := parse_values_length parse_value _ vs h
    intro hnil
    subst hnil
    cases hs : o.m_storage with
    | nil => simp [OptionEntry.is_parsed, hs] at hp
    | cons a t => rw [hs] at hl; cases hl
  · rw [if_neg hp] at h
    by_cases hd : o.has_default = true
    · rw [if_pos hd] at h
      have hl := parse_values_length parse_value _ vs h
      intro hnil
      subst hnil
      cases hs : o.m_default_storage with
      | nil => simp [OptionEntry.has_default, hs] at hd
      | cons a t => rw [hs] at hl; cases hl
    · rw [if_neg hd] at h
      cases h

/-- C23: for a registered name, `get_n<std::string>` returns the stored values
when the option is parsed, whatever its defaults; the default values when it is
not parsed and has defaults; and raises a parsing error when it has neither. -/
theorem C23_get_n_source_of_truth (p : ArgumentParser) (name : Str) (o : OptionEntry)
    (hfind : p.find_option name = .ok o) :
    (o.is_parsed = true → p.get_n name = .ok o.m_storage) ∧
    (o.is_parsed = false → o.has_default = true → p.get_n name = .ok o.m_default_storage) ∧
    (o.is_parsed = false → o.has_default = false →
      p.get_n name = .error (.ParsingException (lit "Failed to get unparsed error"))) ∧
    p.get_n_as parse_value_string name = p.get_n name := by
  refine ⟨?_, ?_, ?_, get_n_as_string p name⟩
  · intro h
    simp only [get_n, hfind, OptionEntry.get, h, if_true]
  · intro h1 h2
    simp only [get_n, hfind, OptionEntry.get, h1, h2, if_true, Bool.false_eq_true, if_false]
  · intro h1 h2
    simp only [get_n, hfind, OptionEntry.get, h1, h2, Bool.false_eq_true, if_false]

/-- The example of C23 from the test `AddMultiOption`: before parsing `get_n`
gives the defaults `5`, `6` of `--int` and raises a parsing error for
`--multi`; after parsing `--int 1 2` it gives `1`, `2`. -/
theorem C23_get_n_source_of_truth_witness :
    (parser_add_multi [] [] []).get_n (lit "int") = .ok [lit "5", lit "6"] ∧
    (parser_add_multi [] [] []).get_n (lit "multi") =
      .error (.ParsingException (lit "Failed to get unparsed error")) ∧
    (parser_add_multi [] [] []).parse argv_add_multi = .ok parser_add_multi_parsed ∧
    parser_add_multi_parsed.get_n (lit "int") = .ok [lit "1", lit "2"] :=
  ⟨(C23_get_n_source_of_truth (parser_add_multi [] [] []) (lit "int") _ rfl).2.1 rfl rfl,
   (C23_get_n_source_of_truth (parser_add_multi [] [] []) (lit "multi") _ rfl).2.2.1 rfl rfl,
   rfl,
   (C23_get_n_source_of_truth parser_add_multi_parsed (lit "int") _ rfl).1 rfl⟩

/-- C24: for a registered option of arity 2 or more, `get<T>` raises a usage
error whatever the option holds, while `get_n<T>` gives what `Option::get<T>`
gives for all its values; for a registered option of arity 0 or 1, `get<T>`
returns the first of the values `get_n<T>` returns (there is one), and raises
what `get_n<T>` raises.  The conversion `parse_value` for `T` is arbitrary; for
`std::string` these are the methods `get` and `get_n` of the model. -/
theorem C24_get_single_value {α : Type} (parse_value : Str → Except Exception α)
    (p : ArgumentParser) (name : Str) (o : OptionEntry) (hfind : p.find_option name = .ok o) :
    (2 ≤ o.m_number_of_arguments →
      p.get_as parse_value name = .throws (.UsageException
        (lit "Invalid number of arguments used for getting the option")) () ∧
      p.get_n_as parse_value name = o.get_as parse_value) ∧
    (o.m_number_of_arguments ≤ 1 →
      (∀ vs, p.get_n_as parse_value name = .ok vs →
        ∃ v rest, vs = v :: rest ∧ p.get_as parse_value name = .ok v) ∧
      (∀ e, p.get_n_as parse_value name = .error e → p.get_as parse_value name = .throws e ())) ∧
    p.get_as parse_value_string name = p.get name ∧
    p.get_n_as parse_value_string name = p.get_n name := by
  refine ⟨?_, ?_, parser_get_as_string p name, get_n_as_string p name⟩
  · intro h2
    have hc : o.m_number_of_arguments ≠ 0 ∧ o.m_number_of_arguments ≠ 1 := by omega
    exact ⟨by simp only [ArgumentParser.get_as, hfind, if_pos hc],
      by simp only [get_n_as, hfind]⟩
  · intro h1
    have hc : ¬ (o.m_number_of_arguments ≠ 0 ∧ o.m_number_of_arguments ≠ 1) := by omega
    constructor
    · intro vs hvs
      simp only [get_n_as, hfind] at hvs
      have hne := option_get_as_ne_nil parse_value o vs hvs
      cases vs with
      | nil => exact absurd rfl hne
      | cons v rest =>
        exact ⟨v, rest, rfl, by simp only [ArgumentParser.get_as, hfind, if_neg hc, hvs]⟩
    · intro e he
      simp only [get_n_as, hfind] at he
      simp only [ArgumentParser.get_as, hfind, if_neg hc, he]

/-- The examples of C24 from the test `AddMultiOption`: `get` on `--int` (arity
2, with defaults) and on `--multi` (arity 3) is a usage error before and after
parsing, while `get_n` returns the three values of `--multi`; and on the parser
with `-s`, `--long` (arity 1) and `--multi`, `get` on the flag `-s` returns the
first value `false` of `get_n`. -/
theorem C24_get_single_value_witness :
    (parser_add_multi [] [] []).get_as parse_value_string (lit "int") =
      .throws (.UsageException
        (lit "Invalid number of arguments used for getting the option")) () ∧
    parser_add_multi_parsed.get_as parse_value_string (lit "multi") =
      .throws (.UsageException
        (lit "Invalid number of arguments used for getting the option")) () ∧
    parser_add_multi_parsed.get_n_as parse_value_string (lit "multi") =
      .ok [lit "a", lit "b", lit "c"] ∧
    (∃ v rest, [lit "false"] = v :: rest ∧
      parser_multi.get_as parse_value_string (lit "s") = .ok v) :=
  ⟨((C24_get_single_value parse_value_string (parser_add_multi [] [] []) (lit "int") _ rfl).1
      (by decide)).1,
   ((C24_get_single_value parse_value_string parser_add_multi_parsed (lit "multi") _ rfl).1
      (by decide)).1,
   ((C24_get_single_value parse_value_string parser_add_multi_parsed (lit "multi") _ rfl).1
      (by decide)).2,
   ((C24_get_single_value parse_value_string parser_multi (lit "s") _ rfl).2.1 (by decide)).1
      [lit "false"] rfl⟩

/-! ## Boolean values -/

theorem get_as_single {α : Type} (parse_value : Str → Except Exception α) (p : ArgumentParser)
    (name : Str) (o : OptionEntry) (s : Str) (hfind : p.find_option name = .ok o)
    (har : o.m_number_of_arguments ≤ 1) (hst : o.m_storage = [s]) :
    (∀ b, parse_value s = .ok b → p.get_as parse_value name = .ok b) ∧
    (∀ e, parse_value s = .error e → p.get_as parse_value name = .throws e ()) := by
  have hc : ¬ (o.m_number_of_arguments ≠ 0 ∧ o.m_number_of_arguments ≠ 1) := by omega
  have hp : o.is_parsed = true := by simp [OptionEntry.is_parsed, hst]
  constructor
  · intro b hb
    simp only [ArgumentParser.get_as, hfind, if_neg hc, OptionEntry.get_as, hp, if_true, hst,
      parse_values, hb]
  · intro e he
    simp only [ArgumentParser.get_as, hfind, if_neg hc, OptionEntry.get_as, hp, if_true, hst,
      parse_values, he]

theorem parser_b_step (s : Str) :
    parse_step [lit "app", lit "-b", s] 1 false
        ((parser_b []).set_program_name_from_argv (lit "app")) =
      .ok ⟨3, false, { parser_b [s] with m_program_name := lit "app" }⟩ := by
  rw [parse_step_next_value [lit "app", lit "-b", s] 1
    ((parser_b []).set_program_name_from_argv (lit "app")) (lit "b") 0
    (value_entry [lit "b"] 1) (by decide) (by simp) (by unfold ARGV_MAX; simp) rfl rfl rfl rfl
    rfl rfl rfl rfl (Or.inl rfl)]
  rfl

theorem parser_b_loop (s : Str) :
    parse_loop [lit "app", lit "-b", s] 3 1 false
        ((parser_b []).set_program_name_from_argv (lit "app")) =
      .ok { parser_b [s] with m_program_name := lit "app" } := by
  have hlen : ([lit "app", lit "-b", s] : List Str).length = 3 := rfl
  have h1 : (1 : Nat) < 3 := by decide
  have h3 : ¬ (3 : Nat) < 3 := by decide
  rw [parse_loop, hlen, if_pos h1, parser_b_step s]
  simp only
  rw [parse_loop, hlen, if_neg h3]

/-- The parser with the option `-b` stores whatever token follows `-b`. -/
theorem parser_b_parse (s : Str) :
    (parser_b []).parse [lit "app", lit "-b", s] =
      .ok { parser_b [s] with m_program_name := lit "app" } := by
  have hlen : ([lit "app", lit "-b", s] : List Str).length = 3 := rfl
  have hinit : (initial_state (parser_b []) [lit "app", lit "-b", s]).parser =
      (parser_b []).set_program_name_from_argv (lit "app") := rfl
  rw [parse_eq_loop _ _ (by simp), hinit, hlen, parser_b_loop s]
  simp [check_after_loop, check_required_arguments, check_xor_arguments, check_xor_lists,
    missing_requireds, parser_b, value_entry, ArgumentParser.empty]

/-- C26: the conversion to `bool` yields true exactly for the texts whose
lower-casing is `on`, `true`, `1` or `yes`, false exactly for those whose
lower-casing is `off`, `false`, `0` or `no`, and raises a parsing error for
every other text.  `parse` stores any text as the value of `-b`; the error
arises when `get<bool>` converts the stored text. -/
theorem C26_boolean_coercion (s : Str) :
    (parse_value_bool s = .ok true ↔
      s.map tolower ∈ [lit "on", lit "true", lit "1", lit "yes"]) ∧
    (parse_value_bool s = .ok false ↔
      s.map tolower ∈ [lit "off", lit "false", lit "0", lit "no"]) ∧
    (s.map tolower ∉ [lit "on", lit "true", lit "1", lit "yes", lit "off", lit "false", lit "0",
        lit "no"] →
      ∃ m, parse_value_bool s = .error (.ParsingException m)) ∧
    (parser_b []).parse [lit "app", lit "-b", s] =
      .ok { parser_b [s] with m_program_name := lit "app" } ∧
    (∀ b, parse_value_bool s = .ok b →
      ({ parser_b [s] with m_program_name := lit "app" } : ArgumentParser).get_as
        parse_value_bool (lit "b") = .ok b) ∧
    (∀ e, parse_value_bool s = .error e →
      ({ parser_b [s] with m_program_name := lit "app" } : ArgumentParser).get_as
        parse_value_bool (lit "b") = .throws e ()) := by
  have htrue : s.map tolower ∈ [lit "on", lit "true", lit "1", lit "yes"] ↔
      (s.map tolower = lit "on" ∨ s.map tolower = lit "true" ∨ s.map tolower = lit "1" ∨
        s.map tolower = lit "yes") := by
    simp only [List.mem_cons, List.mem_singleton, List.not_mem_nil, or_false]
  have hfalse : s.map tolower ∈ [lit "off", lit "false", lit "0", lit "no"] ↔
      (s.map tolower = lit "off" ∨ s.map tolower = lit "false" ∨ s.map tolower = lit "0" ∨
        s.map tolower = lit "no") := by
    simp only [List.mem_cons, List.mem_singleton, List.not_mem_nil, or_false]
  have hdisj : (s.map tolower = lit "on" ∨ s.map tolower = lit "true" ∨
      s.map tolower = lit "1" ∨ s.map tolower = lit "yes") →
      ¬ (s.map tolower = lit "off" ∨ s.map tolower = lit "false" ∨ s.map tolower = lit "0" ∨
        s.map tolower = lit "no") := by
    rintro (h | h | h | h) (h' | h' | h' | h') <;>
      · rw [h] at h'
        revert h'
        decide
  refine ⟨?_, ?_, ?_, parser_b_parse s, ?_⟩
  · rw [htrue]
    unfold parse_value_bool
    constructor
    · intro h
      by_contra hc
      rw [if_neg hc] at h
      split at h <;> cases h
    · intro h
      rw [if_pos h]
  · rw [hfalse]
    unfold parse_value_bool
    constructor
    · intro h
      by_contra hc
      split at h
      · cases h
      · cases h
    · intro h
      have hnt := fun ht => hdisj ht h
      rw [if_neg hnt, if_pos h]
  · intro hno
    have h1 : ¬ (s.map tolower = lit "on" ∨ s.map tolower = lit "true" ∨
        s.map tolower = lit "1" ∨ s.map tolower = lit "yes") := by
      intro hc
      apply hno
      rcases hc with h | h | h | h <;> simp [h]
    have h2 : ¬ (s.map tolower = lit "off" ∨ s.map tolower = lit "false" ∨
        s.map tolower = lit "0" ∨ s.map tolower = lit "no") := by
      intro hc
      apply hno
      rcases hc with h | h | h | h <;> simp [h]
    exact ⟨_, by unfold parse_value_bool; rw [if_neg h1, if_neg h2]⟩
  · exact get_as_single parse_value_bool { parser_b [s] with m_program_name := lit "app" }
      (lit "b") { value_entry [lit "b"] 1 with m_storage := [s] } s rfl (Nat.le_refl 1) rfl

/-- The examples of C26 from the tests `ParseBoolean...`: `trUe` and `YEs` are
true, `faLSE` and `No` are false, and the empty text, `2`, `onn` and `falsch`
are stored by `parse` and rejected by `get<bool>`. -/
theorem C26_boolean_coercion_witness :
    parse_value_bool (lit "trUe") = .ok true ∧
    parse_value_bool (lit "YEs") = .ok true ∧
    parse_value_bool (lit "faLSE") = .ok false ∧
    parse_value_bool (lit "No") = .ok false ∧
    (∃ m, parse_value_bool (lit "") = .error (.ParsingException m)) ∧
    (∃ m, parse_value_bool (lit "2") = .error (.ParsingException m)) ∧
    (∃ m, parse_value_bool (lit "onn") = .error (.ParsingException m)) ∧
    (∃ m, parse_value_bool (lit "falsch") = .error (.ParsingException m)) ∧
    (parser_b []).parse [lit "app", lit "-b", lit "falsch"] =
      .ok { parser_b [lit "falsch"] with m_program_name := lit "app" } :=
  ⟨(C26_boolean_coercion (lit "trUe")).1.mpr (by decide),
   (C26_boolean_coercion (lit "YEs")).1.mpr (by decide),
   (C26_boolean_coercion (lit "faLSE")).2.1.mpr (by decide),
   (C26_boolean_coercion (lit "No")).2.1.mpr (by decide),
   (C26_boolean_coercion (lit "")).2.2.1 (by decide),
   (C26_boolean_coercion (lit "2")).2.2.1 (by decide),
   (C26_boolean_coercion (lit "onn")).2.2.1 (by decide),
   (C26_boolean_coercion (lit "falsch")).2.2.1 (by decide),
   (C26_boolean_coercion (lit "falsch")).2.2.2.1⟩

/-! ## `reset_storage` -/

theorem is_parsed_ok_cases (p : ArgumentParser) (name : Str) (b : Bool)
    (h : p.is_parsed name = .ok b) (hb : b = true) :
    ∃ o ∈ p.m_options, o.is_parsed = true := by
  subst hb
  unfold ArgumentParser.is_parsed at h
  cases hn : normalize_option_name name with
  | error e => rw [hn] at h; cases h
  | ok n =>
    rw [hn] at h
    simp only at h
    cases hf : find_option_iter p.m_options n with
    | none => rw [hf] at h; cases h
    | some idx =>
      rw [hf] at h
      simp only at h
      cases ho : p.m_options[idx]? with
      | none => rw [ho] at h; cases h
      | some o =>
        rw [ho] at h
        simp only [Except.ok.injEq] at h
        exact ⟨o, List.mem_iff_getElem?.mpr ⟨idx, ho⟩, h⟩

/-- C27: `reset_storage` empties the stored values of every option and the
list of positionals, so that afterwards `has_positionals` is false and
`is_parsed` is false for every name of bare or dashed form and true for no
name at all; it keeps the number and order of the options and, of each option,
the names, help, meta variables, arity, defaults, choices and the three flags,
and it keeps the XOR groups, both bounds on the positionals and the texts of
the program and of the help. -/
theorem C27_reset_storage_frame (p : ArgumentParser) :
    (∀ o ∈ p.reset_storage.m_options, o.m_storage = []) ∧
    p.reset_storage.m_positionals = [] ∧
    p.reset_storage.has_positionals = false ∧
    (∀ name n, normalize_option_name name = .ok n → p.reset_storage.is_parsed name = .ok false) ∧
    (∀ name, p.reset_storage.is_parsed name ≠ .ok true) ∧
    p.reset_storage.m_options.length = p.m_options.length ∧
    (∀ (i : Nat) (o : OptionEntry), p.m_options[i]? = some o →
      ∃ o', p.reset_storage.m_options[i]? = some o' ∧
        o'.m_names = o.m_names ∧ o'.m_help = o.m_help ∧ o'.m_meta_vars = o.m_meta_vars ∧
        o'.m_number_of_arguments = o.m_number_of_arguments ∧
        o'.m_default_storage = o.m_default_storage ∧ o'.m_choices = o.m_choices ∧
        o'.m_is_appending = o.m_is_appending ∧ o'.m_is_hidden = o.m_is_hidden ∧
        o'.m_is_required = o.m_is_required) ∧
    p.reset_storage.m_xor_lists = p.m_xor_lists ∧
    p.reset_storage.m_number_of_minimum_positionals = p.m_number_of_minimum_positionals ∧
    p.reset_storage.m_number_of_maximum_positionals = p.m_number_of_maximum_positionals ∧
    p.reset_storage.m_program_name = p.m_program_name ∧
    p.reset_storage.m_program_version = p.m_program_version ∧
    p.reset_storage.m_help_preamble = p.m_help_preamble ∧
    p.reset_storage.m_help_epilog = p.m_help_epilog ∧
    p.reset_storage.m_positional_help = p.m_positional_help ∧
    p.reset_storage.m_positional_meta_var = p.m_positional_meta_var := by
  have hempty : ∀ o ∈ p.reset_storage.m_options, o.m_storage = [] := by
    intro o ho
    simp only [ArgumentParser.reset_storage, List.mem_map] at ho
    obtain ⟨o0, -, rfl⟩ := ho
    rfl
  have hnever : ∀ name, p.reset_storage.is_parsed name ≠ .ok true := by
    intro name h
    obtain ⟨o, ho, hp⟩ := is_parsed_ok_cases _ name true h rfl
    rw [OptionEntry.is_parsed, hempty o ho] at hp
    cases hp
  refine ⟨hempty, rfl, rfl, ?_, hnever, ?_, ?_, rfl, rfl, rfl, rfl, rfl, rfl, rfl, rfl, rfl⟩
  · intro name n hn
    obtain ⟨b, hb⟩ := is_parsed_of_normalize p.reset_storage name n hn
    cases b with
    | false => exact hb
    | true => exact absurd hb (hnever name)
  · simp [ArgumentParser.reset_storage]
  · intro i o ho
    refine ⟨o.reset_storage, ?_, rfl, rfl, rfl, rfl, rfl, rfl, rfl, rfl, rfl⟩
    simp only [ArgumentParser.reset_storage, List.getElem?_map, ho, Option.map_some']

/-- The example of C27 on the parser of the test `AddMultiOption` after
parsing: the reset gives back the parser as it was before, up to the program
name that `parse` has set, and `is_parsed` is false for `--int`. -/
theorem C27_reset_storage_frame_witness :
    parser_add_multi_parsed.reset_storage =
      { parser_add_multi [] [] [] with m_program_name := lit "app" } ∧
    parser_add_multi_parsed.is_parsed (lit "--int") = .ok true ∧
    parser_add_multi_parsed.reset_storage.is_parsed (lit "--int") = .ok false :=
  ⟨rfl, rfl,
   (C27_reset_storage_frame parser_add_multi_parsed).2.2.2.1 (lit "--int") (lit "int") rfl⟩

/-! ## The program name and repeated parsing -/

theorem findIdx_slash_none (l : List Char) (h : '/' ∉ l) :
    l.findIdx (· == '/') = l.length := by
  induction l with
  | nil => rfl
  | cons a t ih =>
    have ha : (a == '/') = false := by
      simp only [beq_eq_false_iff_ne, ne_eq]
      intro he
      exact h (by simp [he])
    rw [List.findIdx_cons, ha, ih (fun hm => h (List.mem_cons_of_mem _ hm))]
    rfl

theorem findIdx_slash_first (l r : List Char) (h : '/' ∉ l) :
    (l ++ '/' :: r).findIdx (· == '/') = l.length := by
  induction l with
  | nil => simp [List.findIdx_cons]
  | cons a t ih =>
    have ha : (a == '/') = false := by
      simp only [beq_eq_false_iff_ne, ne_eq]
      intro he
      exact h (by simp [he])
    rw [List.cons_append, List.findIdx_cons, ha, ih (fun hm => h (List.mem_cons_of_mem _ hm))]
    rfl

/-- The name `set_program_name_from_argv` derives from `argv[0]`. -/
theorem set_program_name_derived (p : ArgumentParser) (argv0 : Str)
    (hempty : p.m_program_name = []) :
    (∀ pre suf, argv0 = pre ++ '/' :: suf → '/' ∉ suf → suf ≠ [] →
      p.set_program_name_from_argv argv0 = { p with m_program_name := suf }) ∧
    (∀ pre, argv0 = pre ++ ['/'] →
      p.set_program_name_from_argv argv0 = { p with m_program_name := argv0 }) ∧
    ('/' ∉ argv0 → p.set_program_name_from_argv argv0 = { p with m_program_name := argv0 }) := by
  have he : p.m_program_name.isEmpty = true := by rw [hempty]; rfl
  refine ⟨?_, ?_, ?_⟩
  · intro pre suf harg hns hne
    have hrev : argv0.reverse = suf.reverse ++ '/' :: pre.reverse := by
      rw [harg]
      simp
    have hk : argv0.reverse.findIdx (· == '/') = suf.length := by
      rw [hrev, findIdx_slash_first _ _ (by simpa using hns), List.length_reverse]
    have hlen : argv0.length = pre.length + (suf.length + 1) := by
      rw [harg]
      simp
    have hsl : suf.length ≠ 0 := fun h => hne (List.length_eq_zero.mp h)
    have hcond : suf.length ≠ argv0.length ∧ suf.length ≠ 0 := ⟨by omega, hsl⟩
    have hdrop : argv0.drop (argv0.length - suf.length) = suf := by
      have : argv0.length - suf.length = pre.length + 1 := by omega
      rw [this, harg, List.drop_append_eq_append_drop]
      simp
    unfold set_program_name_from_argv
    rw [if_pos he]
    simp only [hk, if_pos hcond, hdrop]
  · intro pre harg
    have hk : argv0.reverse.findIdx (· == '/') = 0 := by
      rw [harg]
      simp [List.findIdx_cons]
    have hcond : ¬ ((0 : Nat) ≠ argv0.length ∧ (0 : Nat) ≠ 0) := fun h => h.2 rfl
    unfold set_program_name_from_argv
    rw [if_pos he]
    simp only [hk, if_neg hcond]
  · intro hno
    have hk : argv0.reverse.findIdx (· == '/') = argv0.length := by
      rw [findIdx_slash_none _ (by simpa using hno), List.length_reverse]
    have hcond : ¬ (argv0.length ≠ argv0.length ∧ argv0.length ≠ 0) := fun h => h.1 rfl
    unfold set_program_name_from_argv
    rw [if_pos he]
    simp only [hk, if_neg hcond]

theorem set_program_name_nonempty (p : ArgumentParser) (argv0 : Str)
    (h : p.m_program_name ≠ []) : p.set_program_name_from_argv argv0 = p := by
  unfold set_program_name_from_argv
  have he : ¬ p.m_program_name.isEmpty = true := by
    cases hn : p.m_program_name with
    | nil => exact absurd hn h
    | cons a t => simp
  rw [if_neg he]

/-- Setting the program name from the same `argv[0]` twice is the same as
setting it once. -/
theorem set_program_name_idem (p : ArgumentParser) (argv0 : Str) :
    (p.set_program_name_from_argv argv0).set_program_name_from_argv argv0 =
      p.set_program_name_from_argv argv0 := by
  by_cases hp : p.m_program_name = []
  · by_cases hq : (p.set_program_name_from_argv argv0).m_program_name = []
    · have he : p.m_program_name.isEmpty = true := by rw [hp]; rfl
      have h1 : p.set_program_name_from_argv argv0 =
          { p with m_program_name := (p.set_program_name_from_argv argv0).m_program_name } := by
        obtain ⟨name, hname⟩ := set_program_name_eq p argv0
        rw [hname]
      have h2 : p.set_program_name_from_argv argv0 = p := by
        rw [h1, hq]
        cases p
        simp only at hp
        subst hp
        rfl
      rw [h2]
      exact h2
    · exact set_program_name_nonempty _ argv0 hq
  · rw [set_program_name_nonempty p argv0 hp, set_program_name_nonempty p argv0 hp]

theorem set_program_name_reset (p : ArgumentParser) (argv0 : Str)
    (h : p.reset_storage = p) :
    (p.set_program_name_from_argv argv0).reset_storage = p.set_program_name_from_argv argv0 := by
  obtain ⟨name, hname⟩ := set_program_name_eq p argv0
  rw [hname]
  have h1 := congrArg ArgumentParser.m_options h
  have h2 := congrArg ArgumentParser.m_positionals h
  simp only [ArgumentParser.reset_storage] at h1 h2 ⊢
  rw [h1, ← h2]

/-- The loop of `parse` changes nothing but storages and positionals, whether
it returns or throws. -/
theorem parse_loop_frame (argv : List Str) :
    ∀ (fuel c : Nat) (ind : Bool) (p : ArgumentParser),
      (∀ q, parse_loop argv fuel c ind p = .ok q → q.reset_storage = p.reset_storage) ∧
      (∀ e q, parse_loop argv fuel c ind p = .throws e q →
        q.reset_storage = p.reset_storage) := by
  intro fuel
  induction fuel with
  | zero =>
    intro c ind p
    constructor
    · intro q h
      cases h
      rfl
    · intro e q h
      cases h
  | succ fuel ih =>
    intro c ind p
    simp only [parse_loop]
    by_cases hc : c < argv.length
    · rw [if_pos hc]
      obtain ⟨f1, f2⟩ := parse_step_frame argv c ind p
      cases hstep : parse_step argv c ind p with
      | ok s =>
        simp only
        obtain ⟨i1, i2⟩ := ih s.current s.positional_indicator_set s.parser
        exact ⟨fun q h => (i1 q h).trans (f1 s hstep),
          fun e q h => (i2 e q h).trans (f1 s hstep)⟩
      | throws e q =>
        simp only
        constructor
        · intro q' h
          cases h
        · intro e' q' h
          cases h
          exact f2 e q hstep
      | undefined =>
        simp only
        constructor
        · intro q' h
          cases h
        · intro e' q' h
          cases h
    · rw [if_neg hc]
      constructor
      · intro q h
        cases h
        rfl
      · intro e q h
        cases h

theorem check_after_loop_final (p q : ArgumentParser)
    (h : (check_after_loop p).finalState = some q) : q = p := by
  unfold check_after_loop at h
  split at h
  · cases h
    rfl
  · split at h
    · cases h
      rfl
    · cases h
      rfl

/-- The state `parse` leaves behind, returning or throwing, differs from the
state in which it entered its loop in nothing but storages and positionals. -/
theorem parse_final_frame (p : ArgumentParser) (argv : List Str) (q : ArgumentParser)
    (h : (p.parse argv).finalState = some q) :
    q.reset_storage = (initial_state p argv).parser.reset_storage := by
  cases argv with
  | nil =>
    simp only [parse, Outcome.finalState, Option.some.injEq] at h
    subst h
    show p.reset_storage = (p.set_program_name_from_argv []).reset_storage
    by_cases hq : p.m_program_name = []
    · rw [(set_program_name_derived p [] hq).2.2 (by simp)]
      cases p
      simp only at hq
      subst hq
      rfl
    · rw [set_program_name_nonempty p [] hq]
  | cons a rest =>
    rw [parse_eq_loop p (a :: rest) (by simp)] at h
    obtain ⟨f1, f2⟩ := parse_loop_frame (a :: rest) (a :: rest).length 1 false
      (initial_state p (a :: rest)).parser
    cases hloop : parse_loop (a :: rest) (a :: rest).length 1 false
        (initial_state p (a :: rest)).parser with
    | ok p' =>
      rw [hloop] at h
      simp only at h
      rw [check_after_loop_final p' q h]
      exact f1 p' hloop
    | throws e p' =>
      rw [hloop] at h
      simp only [Outcome.finalState, Option.some.injEq] at h
      subst h
      exact f2 e p' hloop
    | undefined =>
      rw [hloop] at h
      cases h

/-- The result of `parse` depends on the parser only through the state in which
the loop is entered. -/
theorem parse_of_initial (p : ArgumentParser) (argv : List Str) (hne : argv ≠ []) :
    (initial_state p argv).parser.parse argv = p.parse argv := by
  rw [parse_eq_loop p argv hne, parse_eq_loop _ argv hne]
  have : (initial_state (initial_state p argv).parser argv).parser =
      (initial_state p argv).parser := set_program_name_idem p (argv.headD [])
  rw [this]

/-- C28: on a parser whose storage is empty, whatever state `parse(args)`
leaves behind, returning or throwing, `reset_storage()` followed by
`parse(args)` again has the same outcome as the first `parse(args)`: the same
normal return or the same exception, with the same parser state and so the
same stored values and positionals. -/
theorem C28_reparse_after_reset (p : ArgumentParser) (argv : List Str) (q : ArgumentParser)
    (hp : p.reset_storage = p) (hq : (p.parse argv).finalState = some q) :
    q.reset_storage.parse argv = p.parse argv := by
  have hframe := parse_final_frame p argv q hq
  cases argv with
  | nil =>
    simp only [parse, Outcome.finalState, Option.some.injEq] at hq
    subst hq
    rw [hp]
  | cons a rest =>
    have h0 : (initial_state p (a :: rest)).parser.reset_storage =
        (initial_state p (a :: rest)).parser := set_program_name_reset p a hp
    rw [hframe, h0]
    exact parse_of_initial p (a :: rest) (by simp)

/-- The examples of C28: the command line of the test `AddMultiOption` is
parsed to the same state again after a reset, and on the parser with `-s`,
`--long` and `--multi` the command line `app --long` fails again in the same
way after a reset. -/
theorem C28_reparse_after_reset_witness :
    (parser_add_multi [] [] []).parse argv_add_multi = .ok parser_add_multi_parsed ∧
    parser_add_multi_parsed.reset_storage.parse argv_add_multi =
      (parser_add_multi [] [] []).parse argv_add_multi ∧
    (∃ e, parser_multi.parse [lit "app", lit "--long"] =
      .throws e { parser_multi with m_program_name := lit "app" }) ∧
    ({ parser_multi with m_program_name := lit "app" } : ArgumentParser).reset_storage.parse
        [lit "app", lit "--long"] = parser_multi.parse [lit "app", lit "--long"] :=
  ⟨rfl,
   C28_reparse_after_reset (parser_add_multi [] [] []) argv_add_multi parser_add_multi_parsed
     rfl rfl,
   ⟨_, rfl⟩,
   C28_reparse_after_reset parser_multi [lit "app", lit "--long"]
     { parser_multi with m_program_name := lit "app" } rfl rfl⟩

/-- C29: with no program name set, `set_program_name_from_argv` takes the part
of `argv[0]` after its last `/` when there is a `/` and it is not the last
character, and `argv[0]` itself otherwise; a program name that is set is
left alone; the state `parse` leaves behind, returning or throwing, carries
that name; and `argv[0]` is not a token: the loop, which starts at index 1,
runs the same way whatever `argv[0]` is, so with a program name set the whole
of `parse` does. -/
theorem C29_program_name_from_argv (p : ArgumentParser) (argv0 : Str) (rest : List Str) :
    (p.m_program_name = [] →
      (∀ pre suf, argv0 = pre ++ '/' :: suf → '/' ∉ suf → suf ≠ [] →
        (p.set_program_name_from_argv argv0).m_program_name = suf) ∧
      (∀ pre, argv0 = pre ++ ['/'] →
        (p.set_program_name_from_argv argv0).m_program_name = argv0) ∧
      ('/' ∉ argv0 → (p.set_program_name_from_argv argv0).m_program_name = argv0)) ∧
    (p.m_program_name ≠ [] → p.set_program_name_from_argv argv0 = p) ∧
    (∀ q, (p.parse (argv0 :: rest)).finalState = some q →
      q.m_program_name = (p.set_program_name_from_argv argv0).m_program_name) ∧
    (rest.length + 1 < ARGV_MAX → arities_ok p →
      (∀ other ind, parse_loop (argv0 :: rest) (rest.length + 1) 1 ind p =
        parse_loop (other :: rest) (rest.length + 1) 1 ind p) ∧
      (p.m_program_name ≠ [] → ∀ other, p.parse (argv0 :: rest) = p.parse (other :: rest))) := by
  refine ⟨?_, set_program_name_nonempty p argv0, ?_, ?_⟩
  · intro hempty
    obtain ⟨d1, d2, d3⟩ := set_program_name_derived p argv0 hempty
    refine ⟨?_, ?_, ?_⟩
    · intro pre suf h1 h2 h3
      rw [d1 pre suf h1 h2 h3]
    · intro pre h1
      rw [d2 pre h1]
    · intro h1
      rw [d3 h1]
  · intro q hq
    have hframe := parse_final_frame p (argv0 :: rest) q hq
    show q.reset_storage.m_program_name = _
    rw [hframe]
    rfl
  · intro hL har
    have hloop : ∀ other ind, parse_loop (argv0 :: rest) (rest.length + 1) 1 ind p =
        parse_loop (other :: rest) (rest.length + 1) 1 ind p := by
      intro other ind
      exact parse_loop_shift (argv0 :: rest) (other :: rest) _ _ 1 1 ind p rfl (Nat.le_refl 1)
        (Nat.le_refl 1) (by simpa using hL) (by simpa using hL) har (by simp) (by simp)
    refine ⟨hloop, ?_⟩
    intro hname other
    simp only [parse, set_program_name_nonempty p _ hname, List.length_cons, hloop other false]

/-- The examples of C29 from the tests `SetProgramFromArgv...`:
`/usr/bin/myprogram` gives `myprogram`, `/usr/bin/` and `app` stay what they
are, and the name `app` set before is kept by a `parse` with another
`argv[0]`. -/
theorem C29_program_name_from_argv_witness :
    (ArgumentParser.empty.set_program_name_from_argv (lit "/usr/bin/myprogram")).m_program_name =
      lit "myprogram" ∧
    (ArgumentParser.empty.set_program_name_from_argv (lit "/usr/bin/")).m_program_name =
      lit "/usr/bin/" ∧
    (ArgumentParser.empty.set_program_name_from_argv (lit "app")).m_program_name = lit "app" ∧
    (parser_add_multi_parsed.reset_storage.set_program_name_from_argv (lit "/usr/bin/other") =
      parser_add_multi_parsed.reset_storage) ∧
    (∀ q, (ArgumentParser.empty.parse [lit "/usr/bin/myprogram"]).finalState = some q →
      q.m_program_name =
        (ArgumentParser.empty.set_program_name_from_argv (lit "/usr/bin/myprogram")).m_program_name) :=
  ⟨((C29_program_name_from_argv ArgumentParser.empty (lit "/usr/bin/myprogram") []).1 rfl).1
      (lit "/usr/bin") (lit "myprogram") rfl (by decide) (by decide),
   ((C29_program_name_from_argv ArgumentParser.empty (lit "/usr/bin/") []).1 rfl).2.1
      (lit "/usr/bin") rfl,
   ((C29_program_name_from_argv ArgumentParser.empty (lit "app") []).1 rfl).2.2 (by decide),
   (C29_program_name_from_argv parser_add_multi_parsed.reset_storage (lit "/usr/bin/other")
      []).2.1 (by decide),
   (C29_program_name_from_argv ArgumentParser.empty (lit "/usr/bin/myprogram") []).2.2.1⟩

/-! ## Invariants of the reachable states -/

section option_invariant

variable (I : OptionEntry → Prop)

/-- A property of options that `Option::parse` maintains is maintained by the
call on the option at `idx`. -/
theorem parse_option_inv
    (hI : ∀ o values o', (OptionEntry.parse o values).finalState = some o' → I o → I o')
    (p : ArgumentParser) (idx : Nat) (values : List Str) (q : ArgumentParser)
    (hp : ∀ o ∈ p.m_options, I o) (h : (parse_option p idx values).finalState = some q) :
    ∀ o ∈ q.m_options, I o := by
  unfold parse_option at h
  cases ho : p.m_options[idx]? with
  | none => rw [ho] at h; cases h
  | some o =>
    rw [ho] at h
    simp only at h
    have hmem : o ∈ p.m_options := List.mem_iff_getElem?.mpr ⟨idx, ho⟩
    have hset : ∀ o1, (o.parse values).finalState = some o1 →
        ∀ o' ∈ (p.put_option idx o1).m_options, I o' := by
      intro o1 h1 o' ho'
      rcases List.mem_or_eq_of_mem_set ho' with hm | rfl
      · exact hp o' hm
      · exact hI o values o' h1 (hp o hmem)
    cases hpar : o.parse values with
    | ok o1 =>
      rw [hpar] at h
      simp only [Outcome.finalState, Option.some.injEq] at h
      subst h
      exact hset o1 (by rw [hpar]; rfl)
    | throws e o1 =>
      rw [hpar] at h
      simp only [Outcome.finalState, Option.some.injEq] at h
      subst h
      exact hset o1 (by rw [hpar]; rfl)
    | undefined => rw [hpar] at h; cases h

theorem parse_group_inv
    (hI : ∀ o values o', (OptionEntry.parse o values).finalState = some o' → I o → I o')
    (arg : Str) :
    ∀ (cs : List Char) (p q : ArgumentParser), (∀ o ∈ p.m_options, I o) →
      (parse_group arg cs p).finalState = some q → ∀ o ∈ q.m_options, I o := by
  intro cs
  induction cs with
  | nil =>
    intro p q hp h
    simp only [parse_group, Outcome.finalState, Option.some.injEq] at h
    subst h
    exact hp
  | cons c cs ih =>
    intro p q hp h
    simp only [parse_group] at h
    split at h
    · simp only [Outcome.finalState, Option.some.injEq] at h
      subst h
      exact hp
    · cases hf : find_option_to_parse p [c] with
      | error e =>
        rw [hf] at h
        simp only [Outcome.finalState, Option.some.injEq] at h
        subst h
        exact hp
      | ok idx =>
        rw [hf] at h
        simp only at h
        cases hpo : parse_option p idx [] with
        | ok p1 =>
          rw [hpo] at h
          exact ih p1 q (parse_option_inv I hI p idx [] p1 hp (by rw [hpo]; rfl)) h
        | throws e p1 =>
          rw [hpo] at h
          simp only [Outcome.finalState, Option.some.injEq] at h
          subst h
          exact parse_option_inv I hI p idx [] _ hp (by rw [hpo]; rfl)
        | undefined => rw [hpo] at h; cases h

theorem lift_option_inv
    (hI : ∀ o values o', (OptionEntry.parse o values).finalState = some o' → I o → I o')
    (p : ArgumentParser) (idx : Nat) (values : List Str) (n : Nat) (ind : Bool)
    (q : ArgumentParser) (hp : ∀ o ∈ p.m_options, I o)
    (h : loop_final (match parse_option p idx values with
        | .ok p' => (Outcome.ok ⟨n, ind, p'⟩ : Outcome LoopState ArgumentParser)
        | .throws e p' => .throws e p'
        | .undefined => .undefined) = some q) :
    ∀ o ∈ q.m_options, I o := by
  cases hpo : parse_option p idx values with
  | ok p1 =>
    rw [hpo] at h
    simp only [loop_final, Option.some.injEq] at h
    subst h
    exact parse_option_inv I hI p idx values _ hp (by rw [hpo]; rfl)
  | throws e p1 =>
    rw [hpo] at h
    simp only [loop_final, Option.some.injEq] at h
    subst h
    exact parse_option_inv I hI p idx values _ hp (by rw [hpo]; rfl)
  | undefined => rw [hpo] at h; cases h

theorem parse_single_option_inv
    (hI : ∀ o values o', (OptionEntry.parse o values).finalState = some o' → I o → I o')
    (argv : List Str) (c : Nat) (ind : Bool) (p : ArgumentParser) (arg : Str)
    (q : ArgumentParser) (hp : ∀ o ∈ p.m_options, I o)
    (h : loop_final (parse_single_option argv c ind p arg) = some q) :
    ∀ o ∈ q.m_options, I o := by
  unfold parse_single_option at h
  simp only at h
  cases hfind : find_option_to_parse p (split_argument_text arg).1 with
  | error e =>
    rw [hfind] at h
    simp only [loop_final, Option.some.injEq] at h
    subst h
    exact hp
  | ok idx =>
    rw [hfind] at h
    simp only at h
    cases ho : p.m_options[idx]? with
    | none => rw [ho] at h; cases h
    | some o =>
      rw [ho] at h
      simp only at h
      split at h
      · split at h
        · split at h
          · exact lift_option_inv I hI p idx _ _ _ q hp h
          · cases h
        · exact lift_option_inv I hI p idx _ _ _ q hp h
      · exact lift_option_inv I hI p idx _ _ _ q hp h

theorem parse_step_inv
    (hI : ∀ o values o', (OptionEntry.parse o values).finalState = some o' → I o → I o')
    (argv : List Str) (c : Nat) (ind : Bool) (p q : ArgumentParser)
    (hp : ∀ o ∈ p.m_options, I o) (h : loop_final (parse_step argv c ind p) = some q) :
    ∀ o ∈ q.m_options, I o := by
  unfold parse_step at h
  simp only at h
  split at h
  · simp only [loop_final, Option.some.injEq] at h
    subst h
    exact hp
  · split at h
    · split at h
      · simp only [loop_final, Option.some.injEq] at h
        subst h
        exact hp
      · simp only [loop_final, Option.some.injEq] at h
        subst h
        exact hp
    · split at h
      · split at h
        · simp only [loop_final, Option.some.injEq] at h
          subst h
          exact hp
        · split at h
          · cases hg : parse_group (argv.getD c []) ((argv.getD c []).drop 1) p with
            | ok p1 =>
              rw [hg] at h
              simp only [loop_final, Option.some.injEq] at h
              subst h
              exact parse_group_inv I hI _ _ p _ hp (by rw [hg]; rfl)
            | throws e p1 =>
              rw [hg] at h
              simp only [loop_final, Option.some.injEq] at h
              subst h
              exact parse_group_inv I hI _ _ p _ hp (by rw [hg]; rfl)
            | undefined => rw [hg] at h; cases h
          · exact parse_single_option_inv I hI argv c ind p _ q hp h
      · simp only [loop_final, Option.some.injEq] at h
        subst h
        exact hp

theorem parse_loop_inv
    (hI : ∀ o values o', (OptionEntry.parse o values).finalState = some o' → I o → I o')
    (argv : List Str) :
    ∀ (fuel c : Nat) (ind : Bool) (p q : ArgumentParser), (∀ o ∈ p.m_options, I o) →
      (parse_loop argv fuel c ind p).finalState = some q → ∀ o ∈ q.m_options, I o := by
  intro fuel
  induction fuel with
  | zero =>
    intro c ind p q hp h
    simp only [parse_loop, Outcome.finalState, Option.some.injEq] at h
    subst h
    exact hp
  | succ fuel ih =>
    intro c ind p q hp h
    simp only [parse_loop] at h
    split at h
    · cases hstep : parse_step argv c ind p with
      | ok s =>
        rw [hstep] at h
        exact ih _ _ s.parser q
          (parse_step_inv I hI argv c ind p s.parser hp (by rw [hstep]; rfl)) h
      | throws e p1 =>
        rw [hstep] at h
        simp only [Outcome.finalState, Option.some.injEq] at h
        subst h
        exact parse_step_inv I hI argv c ind p _ hp (by rw [hstep]; rfl)
      | undefined => rw [hstep] at h; cases h
    · simp only [Outcome.finalState, Option.some.injEq] at h
      subst h
      exact hp

/-- A property of options that `Option::parse` maintains holds for every
option in the state `parse` leaves behind, returning or throwing. -/
theorem parse_inv
    (hI : ∀ o values o', (OptionEntry.parse o values).finalState = some o' → I o → I o')
    (p : ArgumentParser) (argv : List Str) (q : ArgumentParser)
    (hp : ∀ o ∈ p.m_options, I o) (h : (p.parse argv).finalState = some q) :
    ∀ o ∈ q.m_options, I o := by
  cases argv with
  | nil =>
    simp only [parse, Outcome.finalState, Option.some.injEq] at h
    subst h
    exact hp
  | cons a rest =>
    rw [parse_eq_loop p (a :: rest) (by simp)] at h
    have hp0 : ∀ o ∈ (initial_state p (a :: rest)).parser.m_options, I o := by
      intro o ho
      apply hp o
      rw [← (set_program_name_options p a).1]
      exact ho
    cases hloop : parse_loop (a :: rest) (a :: rest).length 1 false
        (initial_state p (a :: rest)).parser with
    | ok p1 =>
      rw [hloop] at h
      simp only at h
      rw [check_after_loop_final p1 q h]
      exact parse_loop_inv I hI _ _ _ _ _ p1 hp0 (by rw [hloop]; rfl)
    | throws e p1 =>
      rw [hloop] at h
      simp only [Outcome.finalState, Option.some.injEq] at h
      subst h
      exact parse_loop_inv I hI _ _ _ _ _ _ hp0 (by rw [hloop]; rfl)
    | undefined => rw [hloop] at h; cases h

/-- The second loop of a bulk setter maintains a property of options that the
setter maintains. -/
theorem set_named_inv (setter : OptionEntry → OptionEntry) (hs : ∀ o, I o → I (setter o)) :
    ∀ (names : List Str) (p q : ArgumentParser), (∀ o ∈ p.m_options, I o) →
      (set_named setter names p).finalState = some q → ∀ o ∈ q.m_options, I o := by
  intro names
  induction names with
  | nil =>
    intro p q hp h
    simp only [set_named, Outcome.finalState, Option.some.injEq] at h
    subst h
    exact hp
  | cons name rest ih =>
    intro p q hp h
    simp only [set_named] at h
    cases hf : p.find_option_mut name with
    | error e =>
      rw [hf] at h
      simp only [Outcome.finalState, Option.some.injEq] at h
      subst h
      exact hp
    | ok idx =>
      rw [hf] at h
      simp only at h
      cases ho : p.m_options[idx]? with
      | none => rw [ho] at h; cases h
      | some o =>
        rw [ho] at h
        simp only at h
        refine ih _ q ?_ h
        intro o' ho'
        rcases List.mem_or_eq_of_mem_set ho' with hm | rfl
        · exact hp o' hm
        · exact hs o (hp o (List.mem_iff_getElem?.mpr ⟨idx, ho⟩))

theorem clear_appending_inv
    (hs : ∀ o b, I o → I { o with m_is_appending := b }) :
    ∀ (os os' : List OptionEntry), (∀ o ∈ os, I o) →
      (clear_appending os).finalState = some os' → ∀ o ∈ os', I o := by
  intro os
  induction os with
  | nil =>
    intro os' _ h
    simp only [clear_appending, Outcome.finalState, Option.some.injEq] at h
    subst h
    intro o ho
    cases ho
  | cons a t ih =>
    intro os' hp h
    simp only [clear_appending, OptionEntry.set_appending] at h
    by_cases hcond : (!false) = true ∧ (!a.m_storage.isEmpty) = true ∧
        a.m_storage.length ≠ a.m_number_of_arguments
    · rw [if_pos hcond] at h
      simp only [Outcome.finalState, Option.some.injEq] at h
      subst h
      intro o ho
      rcases List.mem_cons.mp ho with rfl | hm
      · exact hs a false (hp a (List.mem_cons_self _ _))
      · exact hp o (List.mem_cons_of_mem _ hm)
    · rw [if_neg hcond] at h
      simp only at h
      cases hc : clear_appending t with
      | ok t' =>
        rw [hc] at h
        simp only [Outcome.finalState, Option.some.injEq] at h
        subst h
        intro o ho
        rcases List.mem_cons.mp ho with rfl | hm
        · exact hs a false (hp a (List.mem_cons_self _ _))
        · exact ih t' (fun o ho => hp o (List.mem_cons_of_mem _ ho)) (by rw [hc]; rfl) o hm
      | throws e t' =>
        rw [hc] at h
        simp only [Outcome.finalState, Option.some.injEq] at h
        subst h
        intro o ho
        rcases List.mem_cons.mp ho with rfl | hm
        · exact hs a false (hp a (List.mem_cons_self _ _))
        · exact ih t' (fun o ho => hp o (List.mem_cons_of_mem _ ho)) (by rw [hc]; rfl) o hm
      | undefined => rw [hc] at h; cases h

end option_invariant

theorem set_named_options_only (setter : OptionEntry → OptionEntry) :
    ∀ (names : List Str) (p q : ArgumentParser),
      (set_named setter names p).finalState = some q → ∃ os, q = { p with m_options := os } := by
  intro names
  induction names with
  | nil =>
    intro p q h
    simp only [set_named, Outcome.finalState, Option.some.injEq] at h
    exact ⟨p.m_options, h.symm⟩
  | cons name rest ih =>
    intro p q h
    simp only [set_named] at h
    cases hf : p.find_option_mut name with
    | error e =>
      rw [hf] at h
      simp only [Outcome.finalState, Option.some.injEq] at h
      exact ⟨p.m_options, h.symm⟩
    | ok idx =>
      rw [hf] at h
      simp only at h
      cases ho : p.m_options[idx]? with
      | none => rw [ho] at h; cases h
      | some o =>
        rw [ho] at h
        simp only at h
        obtain ⟨os, hos⟩ := ih _ q h
        exact ⟨os, hos⟩

/-- The bulk setters change nothing but the options. -/
theorem bulk_setters_options_only (p q : ArgumentParser) (names : List Str) :
    ((p.set_required names).finalState = some q → ∃ os, q = { p with m_options := os }) ∧
    ((p.set_hidden names).finalState = some q → ∃ os, q = { p with m_options := os }) ∧
    ((p.set_appending_arguments names).finalState = some q →
      ∃ os, q = { p with m_options := os }) := by
  refine ⟨?_, ?_, ?_⟩
  · intro h
    obtain ⟨os, hos⟩ := set_named_options_only _ names _ q h
    exact ⟨os, hos⟩
  · intro h
    obtain ⟨os, hos⟩ := set_named_options_only _ names _ q h
    exact ⟨os, hos⟩
  · intro h
    unfold set_appending_arguments at h
    cases hc : clear_appending p.m_options with
    | ok os =>
      rw [hc] at h
      simp only at h
      obtain ⟨os', hos⟩ := set_named_options_only _ names _ q h
      exact ⟨os', hos⟩
    | throws e os =>
      rw [hc] at h
      simp only [Outcome.finalState, Option.some.injEq] at h
      exact ⟨os, h.symm⟩
    | undefined => rw [hc] at h; cases h

/-- The option `add_option` builds holds no values, and a flag gets the default
`false`. -/
theorem build_option_ok (names : List Str) (k : Nat) (help : Str)
    (meta_vars default_values : List Str) (choices : List (List Str)) (o : OptionEntry)
    (h : build_option names k help meta_vars default_values choices = .ok o) :
    o.m_storage = [] ∧ o.m_number_of_arguments = k ∧
      o.m_default_storage = (if k = 0 then [lit "false"] else default_values) ∧
      (default_values = [] ∨ default_values.length = k) := by
  by_cases hn : names = []
  · subst hn
    simp only [build_option, OptionEntry.create, OptionEntry.set_names] at h
    split at h
    · cases h
    · simp at h
  · obtain ⟨b1, b2⟩ := build_option_spec names k help meta_vars default_values choices hn
    by_cases hb : (choices ≠ [] ∧ choices.length ≠ k) ∨
        (meta_vars ≠ [] ∧ meta_vars.length ≠ k) ∨
        (default_values ≠ [] ∧ default_values.length ≠ k) ∨
        (choices ≠ [] ∧ ∃ i, i < default_values.length ∧
          (choices.getD i []).contains (default_values.getD i []) = false)
    · obtain ⟨m, hm⟩ := b1 hb
      rw [hm] at h
      cases h
    · rw [b2 hb] at h
      cases h
      refine ⟨rfl, rfl, rfl, ?_⟩
      by_contra hc
      apply hb
      right
      right
      left
      exact ⟨fun h0 => hc (Or.inl h0), fun h0 => hc (Or.inr h0)⟩

/-- The state `add_option` leaves behind: the parser as it was, or the parser
with one more option. -/
theorem add_option_final (p q : ArgumentParser) (names : List Str) (k : Nat) (help : Str)
    (meta_vars default_values : List Str) (choices : List (List Str))
    (h : (p.add_option names k help meta_vars default_values choices).finalState = some q) :
    q = p ∨ ∃ o, q = { p with m_options := p.m_options ++ [o] } ∧
      o.m_storage = [] ∧ o.m_number_of_arguments = k ∧
      o.m_default_storage = (if k = 0 then [lit "false"] else default_values) ∧
      (default_values = [] ∨ default_values.length = k) := by
  unfold add_option at h
  split at h
  · simp only [Outcome.finalState, Option.some.injEq] at h
    exact Or.inl h.symm
  · cases hc : collect_names p names [] with
    | error e =>
      rw [hc] at h
      simp only [Outcome.finalState, Option.some.injEq] at h
      exact Or.inl h.symm
    | ok r =>
      rw [hc] at h
      simp only at h
      cases hb : build_option r k help meta_vars default_values choices with
      | error e =>
        rw [hb] at h
        simp only [Outcome.finalState, Option.some.injEq] at h
        exact Or.inl h.symm
      | ok o =>
        rw [hb] at h
        simp only [Outcome.finalState, Option.some.injEq] at h
        exact Or.inr ⟨o, h.symm, build_option_ok r k help meta_vars default_values choices o hb⟩

theorem add_xor_final (p q : ArgumentParser) (names : List Str)
    (h : (p.add_xor names).finalState = some q) :
    ∃ xs, q = { p with m_xor_lists := xs } := by
  unfold add_xor at h
  split at h
  · simp only [Outcome.finalState, Option.some.injEq] at h
    exact ⟨p.m_xor_lists, h.symm⟩
  · split at h
    · simp only [Outcome.finalState, Option.some.injEq] at h
      exact ⟨p.m_xor_lists, h.symm⟩
    · simp only [Outcome.finalState, Option.some.injEq] at h
      exact ⟨_, h.symm⟩

/-- A call other than the two setters of the bounds leaves both bounds as they
are, and each of the two setters leaves the bounds consistent. -/
theorem call_bounds_ok (c : Call) (p q : ArgumentParser) (hp : bounds_ok p)
    (h : (c.run p).finalState = some q) : bounds_ok q := by
  unfold bounds_ok at hp ⊢
  cases c with
  | set_help_info preamble epilog =>
    simp only [Call.run, Outcome.finalState, Option.some.injEq] at h
    subst h
    exact hp
  | set_program_info program_name version =>
    simp only [Call.run, Outcome.finalState, Option.some.injEq] at h
    subst h
    exact hp
  | set_required_positionals n =>
    simp only [Call.run, set_required_positionals] at h
    split at h
    · simp only [Outcome.finalState, Option.some.injEq] at h
      subst h
      exact hp
    · simp only [Outcome.finalState, Option.some.injEq] at h
      subst h
      show n ≤ p.m_number_of_maximum_positionals
      omega
  | set_allowed_positionals n =>
    simp only [Call.run, set_allowed_positionals] at h
    split at h
    · simp only [Outcome.finalState, Option.some.injEq] at h
      subst h
      exact hp
    · simp only [Outcome.finalState, Option.some.injEq] at h
      subst h
      show p.m_number_of_minimum_positionals ≤ n
      omega
  | set_positional_help help meta_var =>
    simp only [Call.run, Outcome.finalState, Option.some.injEq] at h
    subst h
    exact hp
  | add_option names k help meta_vars default_values choices =>
    rcases add_option_final p q names k help meta_vars default_values choices h with
      rfl | ⟨o, rfl, -⟩
    · exact hp
    · exact hp
  | set_required names =>
    obtain ⟨os, rfl⟩ := (bulk_setters_options_only p q names).1 h
    exact hp
  | set_hidden names =>
    obtain ⟨os, rfl⟩ := (bulk_setters_options_only p q names).2.1 h
    exact hp
  | set_appending_arguments names =>
    obtain ⟨os, rfl⟩ := (bulk_setters_options_only p q names).2.2 h
    exact hp
  | add_xor names =>
    obtain ⟨xs, rfl⟩ := add_xor_final p q names h
    exact hp
  | reset_storage =>
    simp only [Call.run, Outcome.finalState, Option.some.injEq] at h
    subst h
    exact hp
  | parse argv =>
    have hframe := parse_final_frame p argv q h
    have h1 : q.m_number_of_minimum_positionals =
        (initial_state p argv).parser.m_number_of_minimum_positionals := by
      show q.reset_storage.m_number_of_minimum_positionals = _
      rw [hframe]
      rfl
    have h2 : q.m_number_of_maximum_positionals =
        (initial_state p argv).parser.m_number_of_maximum_positionals := by
      show q.reset_storage.m_number_of_maximum_positionals = _
      rw [hframe]
      rfl
    obtain ⟨-, -, h3, h4, -⟩ := set_program_name_options p (argv.headD [])
    rw [h1, h2]
    show (p.set_program_name_from_argv (argv.headD [])).m_number_of_minimum_positionals ≤
      (p.set_program_name_from_argv (argv.headD [])).m_number_of_maximum_positionals
    rw [h3, h4]
    exact hp

/-- C22: in every reachable parser state the minimum number of positionals is
at most the maximum; `set_required_positionals(m)` raises a usage error and
changes nothing exactly when `m` exceeds the current maximum, and otherwise
changes the minimum alone; `set_allowed_positionals(M)` raises a usage error
and changes nothing exactly when the current minimum exceeds `M`, and otherwise
changes the maximum alone. -/
theorem C22_positional_bounds (p : ArgumentParser) (n : Nat) :
    (Reachable p → p.m_number_of_minimum_positionals ≤ p.m_number_of_maximum_positionals) ∧
    bounds_ok ArgumentParser.empty ∧
    (n > p.m_number_of_maximum_positionals →
      ∃ m, p.set_required_positionals n = .throws (.UsageException m) p) ∧
    (n ≤ p.m_number_of_maximum_positionals →
      p.set_required_positionals n = .ok { p with m_number_of_minimum_positionals := n }) ∧
    (p.m_number_of_minimum_positionals > n →
      ∃ m, p.set_allowed_positionals n = .throws (.UsageException m) p) ∧
    (p.m_number_of_minimum_positionals ≤ n →
      p.set_allowed_positionals n = .ok { p with m_number_of_maximum_positionals := n }) := by
  refine ⟨?_, by decide, ?_, ?_, ?_, ?_⟩
  · intro hr
    induction hr with
    | start => decide
    | step p q c _ hq ih => exact call_bounds_ok c p q ih hq
  · intro h
    exact ⟨_, by simp only [set_required_positionals, if_pos h]; rfl⟩
  · intro h
    have : ¬ n > p.m_number_of_maximum_positionals := by omega
    simp only [set_required_positionals, if_neg this]
  · intro h
    exact ⟨_, by simp only [set_allowed_positionals, if_pos h]; rfl⟩
  · intro h
    have : ¬ p.m_number_of_minimum_positionals > n := by omega
    simp only [set_allowed_positionals, if_neg this]

/-- The examples of C22 from the tests `SetPositionalsRequiredHigherThanAllowed`
and `SetPositionalsAllowedLowerThanRequired`: on a new parser a minimum of 1 is
a usage error; after the maximum 2 and the minimum 2, a state that is reachable
and has consistent bounds, the maximum 1 is a usage error. -/
theorem C22_positional_bounds_witness :
    (∃ m, ArgumentParser.empty.set_required_positionals 1 =
      .throws (.UsageException m) ArgumentParser.empty) ∧
    Reachable { ArgumentParser.empty with
      m_number_of_minimum_positionals := 2, m_number_of_maximum_positionals := 2 } ∧
    (2 : Nat) ≤ 2 ∧
    (∃ m, ({ ArgumentParser.empty with
        m_number_of_minimum_positionals := 2,
        m_number_of_maximum_positionals := 2 } : ArgumentParser).set_allowed_positionals 1 =
      .throws (.UsageException m) { ArgumentParser.empty with
        m_number_of_minimum_positionals := 2, m_number_of_maximum_positionals := 2 }) :=
  have hr : Reachable { ArgumentParser.empty with
      m_number_of_minimum_positionals := 2, m_number_of_maximum_positionals := 2 } :=
    Reachable.step _ _ (Call.set_required_positionals 2)
      (Reachable.step _ _ (Call.set_allowed_positionals 2) Reachable.start rfl) rfl
  ⟨(C22_positional_bounds ArgumentParser.empty 1).2.2.1 (by decide),
   hr,
   (C22_positional_bounds { ArgumentParser.empty with
      m_number_of_minimum_positionals := 2, m_number_of_maximum_positionals := 2 } 1).1 hr,
   (C22_positional_bounds { ArgumentParser.empty with
      m_number_of_minimum_positionals := 2, m_number_of_maximum_positionals := 2 } 1).2.2.2.2.1
      (by decide)⟩

/-- `Option::parse` keeps a flag's default and stores nothing but `true` for a
flag, whether it returns or throws. -/
theorem option_parse_flag_values (o : OptionEntry) (values : List Str) (o' : OptionEntry)
    (h : (o.parse values).finalState = some o') (ho : flag_values_ok o) :
    flag_values_ok o' := by
  obtain ⟨f1, f2⟩ := option_parse_frame o values
  have hres : o'.reset_storage = o.reset_storage := by
    cases hp : o.parse values with
    | ok o1 =>
      rw [hp] at h
      simp only [Outcome.finalState, Option.some.injEq] at h
      subst h
      exact f1 o1 hp
    | throws e o1 =>
      rw [hp] at h
      simp only [Outcome.finalState, Option.some.injEq] at h
      subst h
      exact f2 e o1 hp
    | undefined => rw [hp] at h; cases h
  have har : o'.m_number_of_arguments = o.m_number_of_arguments := by
    show o'.reset_storage.m_number_of_arguments = o.reset_storage.m_number_of_arguments
    rw [hres]
  have hdef : o'.m_default_storage = o.m_default_storage := by
    show o'.reset_storage.m_default_storage = o.reset_storage.m_default_storage
    rw [hres]
  intro h0
  rw [har] at h0
  obtain ⟨hd, hst⟩ := ho h0
  refine ⟨by rw [hdef, hd], ?_⟩
  unfold OptionEntry.parse at h
  by_cases h1 : values.length ≠ o.m_number_of_arguments
  · rw [if_pos h1] at h
    simp only [Outcome.finalState, Option.some.injEq] at h
    subst h
    exact hst
  · rw [if_neg h1] at h
    by_cases h2 : (!o.m_storage.isEmpty && !o.m_is_appending) = true
    · rw [if_pos h2] at h
      simp only [Outcome.finalState, Option.some.injEq] at h
      subst h
      exact hst
    · rw [if_neg h2, if_pos h0] at h
      simp only [Outcome.finalState, Option.some.injEq] at h
      subst h
      intro v hv
      rcases List.mem_append.mp hv with hm | hm
      · exact hst v hm
      · exact List.mem_singleton.mp hm

/-- Every call of the public interface maintains what flags hold. -/
theorem call_flag_values_ok (c : Call) (p q : ArgumentParser)
    (hp : ∀ o ∈ p.m_options, flag_values_ok o)
    (h : (c.run p).finalState = some q) : ∀ o ∈ q.m_options, flag_values_ok o := by
  cases c with
  | set_help_info preamble epilog =>
    simp only [Call.run, Outcome.finalState, Option.some.injEq] at h
    subst h
    exact hp
  | set_program_info program_name version =>
    simp only [Call.run, Outcome.finalState, Option.some.injEq] at h
    subst h
    exact hp
  | set_required_positionals n =>
    simp only [Call.run, set_required_positionals] at h
    split at h <;>
      · simp only [Outcome.finalState, Option.some.injEq] at h
        subst h
        exact hp
  | set_allowed_positionals n =>
    simp only [Call.run, set_allowed_positionals] at h
    split at h <;>
      · simp only [Outcome.finalState, Option.some.injEq] at h
        subst h
        exact hp
  | set_positional_help help meta_var =>
    simp only [Call.run, Outcome.finalState, Option.some.injEq] at h
    subst h
    exact hp
  | add_option names k help meta_vars default_values choices =>
    rcases add_option_final p q names k help meta_vars default_values choices h with
      rfl | ⟨o, rfl, hst, har, hdef, -⟩
    · exact hp
    · intro o' ho'
      rcases List.mem_append.mp ho' with hm | hm
      · exact hp o' hm
      · rw [List.mem_singleton] at hm
        subst hm
        intro h0
        rw [har] at h0
        rw [hdef, if_pos h0, hst]
        exact ⟨rfl, fun v hv => absurd hv (List.not_mem_nil v)⟩
  | set_required names =>
    simp only [Call.run, ArgumentParser.set_required] at h
    refine set_named_inv flag_values_ok (fun o => o.set_required true) (fun o ho => ho) names
      _ q ?_ h
    intro o ho
    simp only [List.mem_map] at ho
    obtain ⟨o0, ho0, rfl⟩ := ho
    exact hp o0 ho0
  | set_hidden names =>
    simp only [Call.run, ArgumentParser.set_hidden] at h
    refine set_named_inv flag_values_ok (fun o => o.set_hidden true) (fun o ho => ho) names
      _ q ?_ h
    intro o ho
    simp only [List.mem_map] at ho
    obtain ⟨o0, ho0, rfl⟩ := ho
    exact hp o0 ho0
  | set_appending_arguments names =>
    simp only [Call.run, set_appending_arguments] at h
    cases hc : clear_appending p.m_options with
    | ok os =>
      rw [hc] at h
      simp only at h
      refine set_named_inv flag_values_ok (fun o => { o with m_is_appending := true })
        (fun o ho => ho) names _ q ?_ h
      exact clear_appending_inv flag_values_ok (fun o b ho => ho) p.m_options os hp
        (by rw [hc]; rfl)
    | throws e os =>
      rw [hc] at h
      simp only [Outcome.finalState, Option.some.injEq] at h
      subst h
      exact clear_appending_inv flag_values_ok (fun o b ho => ho) p.m_options os hp
        (by rw [hc]; rfl)
    | undefined => rw [hc] at h; cases h
  | add_xor names =>
    obtain ⟨xs, rfl⟩ := add_xor_final p q names h
    exact hp
  | reset_storage =>
    simp only [Call.run, Outcome.finalState, Option.some.injEq] at h
    subst h
    intro o ho
    simp only [ArgumentParser.reset_storage, List.mem_map] at ho
    obtain ⟨o0, ho0, rfl⟩ := ho
    intro h0
    exact ⟨(hp o0 ho0 h0).1, fun v hv => absurd hv (List.not_mem_nil v)⟩
  | parse argv =>
    exact parse_inv flag_values_ok option_parse_flag_values p argv q hp h

/-- In every reachable state a flag has the default `false` and holds nothing
but the text `true`. -/
theorem reachable_flag_values_ok (p : ArgumentParser) (hr : Reachable p) :
    ∀ o ∈ p.m_options, flag_values_ok o := by
  induction hr with
  | start =>
    intro o ho
    cases ho
  | step p q c _ hq ih => exact call_flag_values_ok c p q ih hq

theorem parse_values_true (l : List Str) (h : ∀ v ∈ l, v = lit "true") :
    parse_values parse_value_bool l = .ok (l.map (fun _ => true)) := by
  induction l with
  | nil => rfl
  | cons v rest ih =>
    have hv : v = lit "true" := h v (List.mem_cons_self _ _)
    subst hv
    have hb : parse_value_bool (lit "true") = .ok true := rfl
    simp only [parse_values, hb, ih (fun v hv => h v (List.mem_cons_of_mem _ hv)), List.map_cons]

theorem find_option_mem (p : ArgumentParser) (name : Str) (o : OptionEntry)
    (h : p.find_option name = .ok o) :
    o ∈ p.m_options ∧ p.is_parsed name = .ok o.is_parsed := by
  unfold ArgumentParser.find_option at h
  unfold ArgumentParser.is_parsed
  cases hn : normalize_option_name name with
  | error e => rw [hn] at h; cases h
  | ok n =>
    rw [hn] at h
    simp only at h ⊢
    cases hf : find_option_iter p.m_options n with
    | none => rw [hf] at h; cases h
    | some idx =>
      rw [hf] at h
      simp only at h ⊢
      cases ho : p.m_options[idx]? with
      | none => rw [ho] at h; cases h
      | some o1 =>
        rw [ho] at h
        simp only [Except.ok.injEq] at h
        subst h
        exact ⟨List.mem_iff_getElem?.mpr ⟨idx, ho⟩, rfl⟩

/-- C25: in every reachable state, for every registered name of a flag,
`get<bool>` returns normally and returns what `is_parsed` returns: true when
the flag holds a value (each stored value is the text `true`) and false when it
holds none (its default is the text `false`, whatever was registered). -/
theorem C25_flag_value (p : ArgumentParser) (f : Str) (o : OptionEntry)
    (hr : Reachable p) (hfind : p.find_option f = .ok o)
    (hflag : o.m_number_of_arguments = 0) :
    p.get_as parse_value_bool f = .ok o.is_parsed ∧
    p.is_parsed f = .ok o.is_parsed ∧
    o.m_default_storage = [lit "false"] ∧
    (∀ v ∈ o.m_storage, v = lit "true") := by
  obtain ⟨hmem, hparsed⟩ := find_option_mem p f o hfind
  obtain ⟨hdef, hst⟩ := reachable_flag_values_ok p hr o hmem hflag
  refine ⟨?_, hparsed, hdef, hst⟩
  have hc : ¬ (o.m_number_of_arguments ≠ 0 ∧ o.m_number_of_arguments ≠ 1) := by omega
  simp only [ArgumentParser.get_as, hfind, if_neg hc, OptionEntry.get_as]
  cases hs : o.m_storage with
  | nil =>
    have h1 : o.is_parsed = false := by simp [OptionEntry.is_parsed, hs]
    have h2 : o.has_default = true := by simp [OptionEntry.has_default, hdef]
    have hb : parse_value_bool (lit "false") = .ok false := rfl
    simp only [h1, h2, hdef, parse_values, hb, Bool.false_eq_true, if_false, if_true]
  | cons v rest =>
    have h1 : o.is_parsed = true := by simp [OptionEntry.is_parsed, hs]
    rw [hs] at hst
    simp only [h1, if_true, parse_values_true (v :: rest) hst, List.map_cons]

/-- The example of C25 from the test `ParseSimpleFlag`: after the registration
of `--true` and `--false` and the parse of `app --true`, a reachable state,
`get<bool>` is true for `true` and false for `false`, as `is_parsed` is. -/
theorem C25_flag_value_witness :
    Reachable parser_simple_flag_parsed ∧
    parser_simple_flag_parsed.get_as parse_value_bool (lit "true") = .ok true ∧
    parser_simple_flag_parsed.is_parsed (lit "true") = .ok true ∧
    parser_simple_flag_parsed.get_as parse_value_bool (lit "false") = .ok false ∧
    parser_simple_flag_parsed.is_parsed (lit "false") = .ok false :=
  have hr : Reachable parser_simple_flag_parsed :=
    Reachable.step parser_simple_flag _ (Call.parse [lit "app", lit "--true"])
      (Reachable.step parser_simple_flag_first _
        (Call.add_option [lit "--false"] 0 (lit "desc") [] [] [])
        (Reachable.step ArgumentParser.empty _
          (Call.add_option [lit "--true"] 0 (lit "desc") [] [] []) Reachable.start rfl) rfl) rfl
  ⟨hr,
   (C25_flag_value parser_simple_flag_parsed (lit "true") (flag_desc (lit "true") [lit "true"])
      hr rfl rfl).1,
   (C25_flag_value parser_simple_flag_parsed (lit "true") (flag_desc (lit "true") [lit "true"])
      hr rfl rfl).2.1,
   (C25_flag_value parser_simple_flag_parsed (lit "false") (flag_desc (lit "false") [])
      hr rfl rfl).1,
   (C25_flag_value parser_simple_flag_parsed (lit "false") (flag_desc (lit "false") [])
      hr rfl rfl).2.1⟩

/-! ## The help text -/

theorem digitChar_ne_newline (n : Nat) : Nat.digitChar (n % 10) ≠ '\n' := by
  have h : ∀ k, k < 10 → Nat.digitChar k ≠ '\n' := by decide
  exact h _ (Nat.mod_lt _ (by decide))

theorem toDigitsCore_no_newline :
    ∀ (fuel n : Nat) (ds : List Char), '\n' ∉ ds → '\n' ∉ Nat.toDigitsCore 10 fuel n ds := by
  intro fuel
  induction fuel with
  | zero =>
    intro n ds h
    simpa [Nat.toDigitsCore] using h
  | succ fuel ih =>
    intro n ds h
    have hd : '\n' ∉ Nat.digitChar (n % 10) :: ds := by
      intro hm
      rcases List.mem_cons.mp hm with he | hm'
      · exact digitChar_ne_newline n he.symm
      · exact h hm'
    simp only [Nat.toDigitsCore]
    split
    · exact hd
    · exact ih _ _ hd

theorem to_string_no_newline (n : Nat) : '\n' ∉ to_string n :=
  toDigitsCore_no_newline (n + 1) n [] (List.not_mem_nil _)

theorem first_line_append (a b : Str) (h : '\n' ∉ a) : first_line (a ++ '\n' :: b) = a := by
  unfold first_line
  induction a with
  | nil => simp
  | cons x t ih =>
    have hx : (x != '\n') = true := by
      simp only [bne_iff_ne, ne_eq]
      intro he
      exact h (by simp [he])
    rw [List.cons_append, List.takeWhile_cons, hx]
    simp only [if_true]
    rw [ih (fun hm => h (List.mem_cons_of_mem _ hm))]

theorem after_first_line_append (a b : Str) (h : '\n' ∉ a) :
    after_first_line (a ++ '\n' :: b) = b := by
  unfold after_first_line
  induction a with
  | nil => simp
  | cons x t ih =>
    have hx : (x != '\n') = true := by
      simp only [bne_iff_ne, ne_eq]
      intro he
      exact h (by simp [he])
    rw [List.cons_append, List.dropWhile_cons, hx]
    simp only [if_true]
    exact ih (fun hm => h (List.mem_cons_of_mem _ hm))

/-- The value of `longest` bounds the name columns seen so far and is the
initial value or one of the lengths. -/
theorem longest_foldl (l : List (Str × Str)) :
    ∀ init : Nat,
      init ≤ l.foldl (fun longest pair => max longest pair.1.length) init ∧
      (∀ pair ∈ l, pair.1.length ≤ l.foldl (fun longest pair => max longest pair.1.length) init) ∧
      (l.foldl (fun longest pair => max longest pair.1.length) init = init ∨
        ∃ pair ∈ l, l.foldl (fun longest pair => max longest pair.1.length) init =
          pair.1.length) := by
  induction l with
  | nil =>
    intro init
    exact ⟨Nat.le_refl _, fun pair h => absurd h (List.not_mem_nil _), Or.inl rfl⟩
  | cons a t ih =>
    intro init
    obtain ⟨h1, h2, h3⟩ := ih (max init a.1.length)
    simp only [List.foldl_cons]
    refine ⟨by omega, ?_, ?_⟩
    · intro pair hm
      rcases List.mem_cons.mp hm with rfl | hm'
      · omega
      · exact h2 pair hm'
    · rcases h3 with h | ⟨pair, hm, h⟩
      · rcases Nat.le_total init a.1.length with hle | hle
        · right
          exact ⟨a, List.mem_cons_self _ _, by rw [h, Nat.max_eq_right hle]⟩
        · left
          rw [h, Nat.max_eq_left hle]
      · right
        exact ⟨pair, List.mem_cons_of_mem _ hm, h⟩

/-- The padding of a line whose name column is at most `longest`, with room
for two blanks, is built. -/
theorem help_padding_some (longest length : Nat) (h1 : length ≤ longest)
    (h2 : longest + 2 ≤ STRING_MAX_SIZE) :
    help_padding longest length = some (List.replicate (longest + 2 - length) ' ') := by
  have hmod : (longest + 2 + SIZE_MOD - length) % SIZE_MOD = longest + 2 - length := by
    unfold SIZE_MOD STRING_MAX_SIZE at *
    norm_num at *
    omega
  unfold help_padding
  rw [hmod, if_pos (by omega)]

theorem help_lines_some (longest : Nat) (h2 : longest + 2 ≤ STRING_MAX_SIZE) :
    ∀ l : List (Str × Str), (∀ pair ∈ l, pair.1.length ≤ longest) →
      ∃ lines, help_lines longest l = some lines := by
  intro l
  induction l with
  | nil =>
    intro _
    exact ⟨[], rfl⟩
  | cons a t ih =>
    intro h
    obtain ⟨rest, hrest⟩ := ih (fun pair hm => h pair (List.mem_cons_of_mem _ hm))
    refine ⟨a.1 ++ List.replicate (longest + 2 - a.1.length) ' ' ++ a.2 ++ lit "\n" ++ rest, ?_⟩
    simp only [help_lines, help_padding_some longest a.1.length
      (h a (List.mem_cons_self _ _)) h2, hrest]

/-- Without a meta variable for the positionals, `help` returns a text when the
name columns fit. -/
theorem help_lines_shown (p : ArgumentParser) (hfit : columns_fit p) :
    ∃ lines, help_lines p.longest_name p.shown_options = some lines := by
  obtain ⟨-, hle, hmax⟩ := longest_foldl p.shown_options 0
  apply help_lines_some
  · rcases hmax with h | ⟨pair, hm, h⟩
    · have : p.longest_name = 0 := h
      rw [this]
      unfold STRING_MAX_SIZE
      norm_num
    · have : p.longest_name = pair.1.length := h
      rw [this]
      exact hfit pair hm
  · exact hle

/-- C30: with no meta variable for the positionals, a program name and version
without line feed, and name columns that fit in a string, `help` returns a
text whose second line is two blanks, the program name and ` [OPTION...]`,
followed by nothing when the maximum number of positionals is 0, by
` <POSITIONAL>` when it is 1, by ` <min-max POSITIONALS>` with both bounds in
decimal when it is more than 1 and less than `unlimited_positionals`, and by
` <POSITIONALS>` when it is `unlimited_positionals`. -/
theorem C30_usage_line (p : ArgumentParser)
    (hmeta : p.m_positional_meta_var = []) (hfit : columns_fit p)
    (hname : '\n' ∉ p.m_program_name) (hver : '\n' ∉ p.m_program_version) :
    ∃ text, p.help = some text ∧
      (p.m_number_of_maximum_positionals = 0 →
        second_line text = lit "  " ++ p.m_program_name ++ lit " [OPTION...]") ∧
      (p.m_number_of_maximum_positionals = 1 →
        second_line text =
          lit "  " ++ p.m_program_name ++ lit " [OPTION...]" ++ lit " <POSITIONAL>") ∧
      (1 < p.m_number_of_maximum_positionals →
        p.m_number_of_maximum_positionals < unlimited_positionals →
        second_line text =
          lit "  " ++ p.m_program_name ++ lit " [OPTION...]" ++ lit " <" ++
            to_string p.m_number_of_minimum_positionals ++ lit "-" ++
            to_string p.m_number_of_maximum_positionals ++ lit " POSITIONALS>") ∧
      (p.m_number_of_maximum_positionals = unlimited_positionals →
        second_line text =
          lit "  " ++ p.m_program_name ++ lit " [OPTION...]" ++ lit " <POSITIONALS>") := by
  obtain ⟨lines, hlines⟩ := help_lines_shown p hfit
  have hcond : ¬ ((!p.m_positional_help.isEmpty) = true ∧
      (!p.m_positional_meta_var.isEmpty) = true) := by
    rw [hmeta]
    rintro ⟨-, h⟩
    cases h
  have hhelp : p.help = some
      ((lit "Usage of " ++ p.m_program_name ++
          (if !p.m_program_version.isEmpty then lit " " ++ p.m_program_version else []) ++
          lit ":") ++ '\n' ::
        ((lit "  " ++ p.m_program_name ++ lit " [OPTION...]" ++ p.positional_hint) ++ '\n' ::
          (lit "\n" ++
            (if !p.m_help_preamble.isEmpty then p.m_help_preamble ++ lit "\n\n" else []) ++
            lit "Options:\n" ++ lines ++
            (if !p.m_help_epilog.isEmpty then lit "\n" ++ p.m_help_epilog else [])))) := by
    unfold ArgumentParser.help
    rw [if_neg hcond, List.append_nil, hlines]
    simp only [lit, List.append_assoc, Option.some.injEq]
    rfl
  have hhead : '\n' ∉ lit "Usage of " ++ p.m_program_name ++
      (if !p.m_program_version.isEmpty then lit " " ++ p.m_program_version else []) ++
      lit ":" := by
    intro hm
    simp only [List.mem_append] at hm
    rcases hm with ((hm | hm) | hm) | hm
    · revert hm
      decide
    · exact hname hm
    · split at hm
      · rcases List.mem_append.mp hm with h | h
        · revert h
          decide
        · exact hver h
      · cases hm
    · revert hm
      decide
  have hhint : '\n' ∉ p.positional_hint := by
    unfold positional_hint
    rw [hmeta]
    simp only [List.isEmpty_nil, if_true]
    split
    · split
      · decide
      · split
        · intro hm
          simp only [List.mem_append] at hm
          rcases hm with (((hm | hm) | hm) | hm) | hm
          · revert hm
            decide
          · exact to_string_no_newline _ hm
          · revert hm
            decide
          · exact to_string_no_newline _ hm
          · revert hm
            decide
        · decide
    · exact List.not_mem_nil _
  have husage : '\n' ∉ lit "  " ++ p.m_program_name ++ lit " [OPTION...]" ++
      p.positional_hint := by
    intro hm
    simp only [List.mem_append] at hm
    rcases hm with ((hm | hm) | hm) | hm
    · revert hm
      decide
    · exact hname hm
    · revert hm
      decide
    · exact hhint hm
  have hsecond : ∀ text, p.help = some text →
      second_line text =
        lit "  " ++ p.m_program_name ++ lit " [OPTION...]" ++ p.positional_hint := by
    intro text ht
    rw [hhelp] at ht
    cases ht
    unfold second_line
    rw [after_first_line_append _ _ hhead, first_line_append _ _ husage]
  refine ⟨_, hhelp, ?_, ?_, ?_, ?_⟩
  · intro h0
    rw [hsecond _ hhelp]
    simp [positional_hint, h0]
  · intro h1
    rw [hsecond _ hhelp]
    simp [positional_hint, h1, hmeta]
  · intro h1 h2
    rw [hsecond _ hhelp]
    have hpos : p.m_number_of_maximum_positionals > 0 := by omega
    have hne : ¬ p.m_number_of_maximum_positionals = 1 := by omega
    simp only [positional_hint, if_pos hpos, hmeta, List.isEmpty_nil, if_true, if_neg hne,
      if_pos h2, List.append_assoc]
  · intro hu
    rw [hsecond _ hhelp]
    have hpos : p.m_number_of_maximum_positionals > 0 := by
      rw [hu]
      decide
    have hne : ¬ p.m_number_of_maximum_positionals = 1 := by
      rw [hu]
      decide
    have hnl : ¬ p.m_number_of_maximum_positionals < unlimited_positionals := by
      rw [hu]
      exact Nat.lt_irrefl _
    simp only [positional_hint, if_pos hpos, hmeta, List.isEmpty_nil, if_true, if_neg hne,
      if_neg hnl]

/-- The example of C30 from the test `GenerateHelp`: with at most 2
positionals the second line of the help text is
`  app [OPTION...] <0-2 POSITIONALS>`. -/
theorem C30_usage_line_witness :
    ∃ text, parser_generate_help.help = some text ∧
      second_line text = lit "  app [OPTION...] <0-2 POSITIONALS>" := by
  obtain ⟨text, ht, -, -, h, -⟩ := C30_usage_line parser_generate_help rfl (by decide)
    (by decide) (by decide)
  exact ⟨text, ht, h (by decide) (by decide)⟩

/-! ## Canonical names -/

/-- A name lenient normalisation returns is a letter or a long name, and it is
one letter exactly for an input of short form. -/
theorem normalize_ok_cases (x y : Str) (h : normalize_option_name x = .ok y) :
    ((∃ X, isalpha X = true ∧ y = [X]) ∧ is_short_form x) ∨
      (is_long_name y = true ∧ ¬ is_short_form x) := by
  unfold normalize_option_name at h
  split at h
  · rename_i hc
    rcases (strictly_normalize_ok_iff _ _).mp h with ⟨X, hX, -, rfl⟩ | ⟨hl, hname⟩
    · exact Or.inl ⟨⟨X, hX, rfl⟩, Or.inl hc.1⟩
    · exfalso
      obtain ⟨a, b, t, rfl, -⟩ := is_long_name_facts y hl
      have := congrArg List.length hname
      simp [lit, hc.1] at this
  · split at h
    · rename_i hc1 hc
      rcases (strictly_normalize_ok_iff _ _).mp h with ⟨X, hX, hname, rfl⟩ | ⟨hl, hname⟩
      · exfalso
        have h2 : (lit "--" ++ x).length = 2 := by rw [hname]; rfl
        have h3 : (lit "--" ++ x).length = x.length + 2 := by simp [lit]
        have := hc.1
        omega
      · refine Or.inr ⟨hl, ?_⟩
        rintro (h1 | ⟨h2, h0⟩)
        · omega
        · exact hc.2 h0
    · rename_i hc1 hc2
      rcases (strictly_normalize_ok_iff _ _).mp h with ⟨X, hX, rfl, rfl⟩ | ⟨hl, rfl⟩
      · exact Or.inl ⟨⟨X, hX, rfl⟩, Or.inr ⟨rfl, rfl⟩⟩
      · refine Or.inr ⟨hl, ?_⟩
        obtain ⟨a, b, t, rfl, -⟩ := is_long_name_facts y hl
        rintro (h1 | ⟨h2, -⟩)
        · simp [lit] at h1
        · simp [lit] at h2

/-- C38: a name `y` that lenient normalisation returns for `x` is canonical:
normalising `y` again returns `y`; `y` has length 1 exactly when `x` is of
short form (one character, or a dash and one character), so the results for a
name of short form and for a name that is not never coincide; and strictly
normalising `y` with the dashes the help text puts before it (`-` for length 1,
`--` otherwise) returns `y`. -/
theorem C38_normalised_names_canonical (x y : Str) (h : normalize_option_name x = .ok y) :
    normalize_option_name y = .ok y ∧
    (y.length = 1 ↔ is_short_form x) ∧
    (∀ x' y', normalize_option_name x' = .ok y' → is_short_form x → ¬ is_short_form x' →
      y ≠ y') ∧
    strictly_normalize_option_name (help_name y) = .ok y := by
  have hlen : ∀ x y, normalize_option_name x = .ok y → (y.length = 1 ↔ is_short_form x) := by
    intro x y h
    rcases normalize_ok_cases x y h with ⟨⟨X, -, rfl⟩, hs⟩ | ⟨hl, hs⟩
    · simp [hs]
    · obtain ⟨a, b, t, rfl, -⟩ := is_long_name_facts y hl
      simp [hs]
  refine ⟨?_, hlen x y h, ?_, ?_⟩
  · rcases normalize_ok_cases x y h with ⟨⟨X, hX, rfl⟩, -⟩ | ⟨hl, -⟩
    · exact normalize_short_name X hX
    · exact normalize_long_name y hl
  · intro x' y' h' hs hs' heq
    subst heq
    exact hs' ((hlen x' y h').mp ((hlen x y h).mpr hs))
  · rcases normalize_ok_cases x y h with ⟨⟨X, hX, rfl⟩, -⟩ | ⟨hl, -⟩
    · exact strictly_normalize_short X hX
    · obtain ⟨a, b, t, rfl, -⟩ := is_long_name_facts y hl
      have : help_name (a :: b :: t) = lit "--" ++ (a :: b :: t) := by
        simp [help_name]
      rw [this]
      exact strictly_normalize_long _ hl

/-- The examples of C38: the names `-f` and `other-name` of the test
`GenerateHelp`. -/
theorem C38_normalised_names_canonical_witness :
    (normalize_option_name (lit "f") = .ok (lit "f") ∧
      strictly_normalize_option_name (help_name (lit "f")) = .ok (lit "f")) ∧
    (normalize_option_name (lit "other-name") = .ok (lit "other-name") ∧
      strictly_normalize_option_name (help_name (lit "other-name")) = .ok (lit "other-name")) :=
  ⟨⟨(C38_normalised_names_canonical (lit "-f") (lit "f") rfl).1,
    (C38_normalised_names_canonical (lit "-f") (lit "f") rfl).2.2.2⟩,
   ⟨(C38_normalised_names_canonical (lit "--other-name") (lit "other-name") rfl).1,
    (C38_normalised_names_canonical (lit "--other-name") (lit "other-name") rfl).2.2.2⟩⟩

/-! ## Failed registrations -/

/-- A call of `add_option` that throws leaves the parser as it was. -/
theorem add_option_throws_unchanged (p q : ArgumentParser) (names : List Str) (k : Nat)
    (help : Str) (meta_vars default_values : List Str) (choices : List (List Str))
    (e : Exception) (h : p.add_option names k help meta_vars default_values choices = .throws e q) :
    q = p := by
  unfold add_option at h
  split at h
  · cases h; rfl
  · cases hc : collect_names p names [] with
    | error e1 =>
      rw [hc] at h
      cases h
      rfl
    | ok r =>
      rw [hc] at h
      simp only at h
      cases hb : build_option r k help meta_vars default_values choices with
      | error e1 =>
        rw [hb] at h
        cases h
        rfl
      | ok o =>
        rw [hb] at h
        cases h

/-- With arguments none of which `add_option` rejects, the call returns and
appends one option. -/
theorem add_option_accepts (p : ArgumentParser) (names : List Str) (k : Nat) (help : Str)
    (meta_vars default_values : List Str) (choices : List (List Str))
    (h : ¬ add_option_rejects p names k meta_vars default_values choices) :
    ∃ option, p.add_option names k help meta_vars default_values choices =
      .ok { p with m_options := p.m_options ++ [option] } := by
  have h1 : names ≠ [] := fun hc => h (Or.inl hc)
  have hne : names.isEmpty = false := by
    cases names with
    | nil => exact absurd rfl h1
    | cons a t => rfl
  have h23 : ¬ ∃ name ∈ names, (∀ n, strictly_normalize_option_name name ≠ .ok n) ∨
      ∃ n, strictly_normalize_option_name name = .ok n ∧ is_registered p n = true := by
    rintro ⟨name, hm, hb | hb⟩
    · exact h (Or.inr (Or.inl ⟨name, hm, hb⟩))
    · exact h (Or.inr (Or.inr (Or.inl ⟨name, hm, hb⟩)))
  obtain ⟨r, hr, hmem⟩ := (collect_names_spec p names []).2 h23
  have hrne : r ≠ [] := by
    obtain ⟨x, hx⟩ := List.exists_mem_of_ne_nil names h1
    have hxok : ∃ n, strictly_normalize_option_name x = .ok n := by
      by_contra hc
      exact h23 ⟨x, hx, Or.inl (fun n hn => hc ⟨n, hn⟩)⟩
    obtain ⟨n, hn⟩ := hxok
    exact List.ne_nil_of_mem ((hmem n).mpr (Or.inr ⟨x, hx, hn⟩))
  have hb := (build_option_spec r k help meta_vars default_values choices hrne).2
    (fun hc => h (Or.inr (Or.inr (Or.inr hc))))
  exact ⟨OptionEntry.mk r help meta_vars k [] (if k = 0 then [lit "false"] else default_values)
    choices false false false,
    by simp only [add_option, hne, Bool.false_eq_true, if_false, hr, hb]⟩

/-- C35: registration is atomic.  When `add_option` (and so `add_flag`, the
call with arity 0) raises an exception, the parser is left as it was: the
options are the same, `has_option` answers as before for every name, and a
later registration of the same names with arguments that are valid for the
parser as it was succeeds and appends one option. -/
theorem C35_registration_atomic (p q : ArgumentParser) (names : List Str) (k : Nat)
    (help : Str) (meta_vars default_values : List Str) (choices : List (List Str))
    (e : Exception) (h : p.add_option names k help meta_vars default_values choices = .throws e q) :
    q = p ∧ q.m_options = p.m_options ∧ (∀ name, q.has_option name = p.has_option name) ∧
    (∀ help', p.add_flag names help' = .throws e q → q = p) ∧
    (∀ (k' : Nat) (help' : Str) (meta_vars' default_values' : List Str)
        (choices' : List (List Str)),
      ¬ add_option_rejects p names k' meta_vars' default_values' choices' →
      ∃ option, q.add_option names k' help' meta_vars' default_values' choices' =
        .ok { p with m_options := p.m_options ++ [option] }) := by
  have hq := add_option_throws_unchanged p q names k help meta_vars default_values choices e h
  subst hq
  refine ⟨rfl, rfl, fun _ => rfl, fun _ _ => rfl, ?_⟩
  intro k' help' meta_vars' default_values' choices' hok
  exact add_option_accepts q names k' help' meta_vars' default_values' choices' hok

/-- The example of C35 from the test `AddMultiOption`: registering `--jj` with
a default outside its choices fails and changes nothing, and registering it
with the default `a`, `b` afterwards succeeds. -/
theorem C35_registration_atomic_witness :
    ArgumentParser.empty.add_option [lit "--jj"] 2 (lit "help") [] [lit "a", lit "c"]
        [[lit "a", lit "b"], [lit "a", lit "b"]] =
      .throws (.UsageException (lit "Value does not match any possible choice"))
        ArgumentParser.empty ∧
    ∃ option, ArgumentParser.empty.add_option [lit "--jj"] 2 (lit "help") [] [lit "a", lit "b"]
        [[lit "a", lit "b"], [lit "a", lit "b"]] =
      .ok { ArgumentParser.empty with m_options := ArgumentParser.empty.m_options ++ [option] } :=
  ⟨rfl, (C35_registration_atomic ArgumentParser.empty ArgumentParser.empty [lit "--jj"] 2
    (lit "help") [] [lit "a", lit "c"] [[lit "a", lit "b"], [lit "a", lit "b"]]
    (.UsageException (lit "Value does not match any possible choice")) rfl).2.2.2.2 2 (lit "help")
    [] [lit "a", lit "b"] [[lit "a", lit "b"], [lit "a", lit "b"]] (by
      rintro (h | ⟨name, hm, hb⟩ | ⟨name, hm, n, -, hr⟩ | ⟨-, h⟩ | ⟨h, -⟩ | ⟨-, h⟩ |
        ⟨-, i, hi, hc⟩)
      · cases h
      · rw [List.mem_singleton] at hm
        subst hm
        exact hb (lit "jj") rfl
      · cases hr
      · exact h rfl
      · exact h rfl
      · exact h rfl
      · have hi2 : i < 2 := hi
        interval_cases i
        · cases hc
        · cases hc)⟩

/-! ## Hidden options and the help text -/

theorem shown_options_without_hidden (p : ArgumentParser) :
    (without_hidden p).shown_options = p.shown_options := by
  simp only [shown_options, without_hidden, List.filter_filter, Bool.and_self]

theorem help_lines_append (longest : Nat) :
    ∀ (a b : List (Str × Str)) (text : Str), help_lines longest (a ++ b) = some text →
      ∃ t1 t2, help_lines longest a = some t1 ∧ help_lines longest b = some t2 ∧
        text = t1 ++ t2 := by
  intro a
  induction a with
  | nil =>
    intro b text h
    exact ⟨[], text, rfl, h, rfl⟩
  | cons x a ih =>
    intro b text h
    simp only [List.cons_append, help_lines] at h ⊢
    simp only [List.append_eq] at h
    cases hp : help_padding longest x.1.length with
    | none => rw [hp] at h; cases h
    | some padding =>
      rw [hp] at h
      simp only at h ⊢
      cases hl : help_lines longest (a ++ b) with
      | none => rw [hl] at h; cases h
      | some rest =>
        rw [hl] at h
        simp only [Option.some.injEq] at h
        obtain ⟨t1, t2, h1, h2, rfl⟩ := ih b rest hl
        rw [h1]
        refine ⟨_, t2, rfl, h2, ?_⟩
        rw [← h]
        simp only [List.append_assoc]

/-- The text the loop of `help` builds: the lines of the pairs, one after the
other in the order of the list, each the name column, the padding, the help
column and a line feed. -/
theorem help_lines_text (longest : Nat) :
    ∀ (l : List (Str × Str)) (t : Str), help_lines longest l = some t →
      t = (l.map (fun pair => pair.1 ++
        List.replicate ((longest + 2 + SIZE_MOD - pair.1.length) % SIZE_MOD) ' ' ++
        pair.2 ++ lit "\n")).flatten := by
  intro l
  induction l with
  | nil =>
    intro t h
    simp only [help_lines, Option.some.injEq] at h
    subst h
    rfl
  | cons x l ih =>
    intro t h
    simp only [help_lines] at h
    cases hp : help_padding longest x.1.length with
    | none => rw [hp] at h; cases h
    | some padding =>
      rw [hp] at h
      simp only at h
      have hpadding : padding =
          List.replicate ((longest + 2 + SIZE_MOD - x.1.length) % SIZE_MOD) ' ' := by
        unfold help_padding at hp
        split at hp
        · simp only [Option.some.injEq] at hp
          exact hp.symm
        · cases hp
      cases hl : help_lines longest l with
      | none => rw [hl] at h; cases h
      | some rest =>
        rw [hl] at h
        simp only [Option.some.injEq] at h
        subst h
        rw [ih rest hl, hpadding]
        simp only [List.map_cons, List.flatten_cons, List.append_assoc]

/-- C31: hidden options contribute nothing to `help()`.  The call on a parser
behaves as the call on the same parser with the hidden options removed from the
registry - the same text, or the same failure - and both use the same padding
width `longest`, which is the length of the longest name column of an option
that is not hidden (0 when there is none).  When the name columns fit in a
string, the text `help()` returns is the usage lines, the preamble and
`Options:`, then one line for each option that is not hidden, in registration
order and nothing between them - the name column, blanks up to the column
`longest + 2`, the help column and a line feed - then the line for the
positionals when there is one, and the epilog. -/
theorem C31_hidden_options_not_in_help (p : ArgumentParser) :
    p.help = (without_hidden p).help ∧
    (without_hidden p).longest_name = p.longest_name ∧
    (∀ o ∈ p.m_options, o.m_is_hidden = false →
      o.generate_help_text.1.length ≤ p.longest_name) ∧
    (p.longest_name = 0 ∨ ∃ o ∈ p.m_options, o.m_is_hidden = false ∧
      p.longest_name = o.generate_help_text.1.length) ∧
    (columns_fit p → ∀ text, p.help = some text →
      text =
        lit "Usage of " ++ p.m_program_name ++
          (if !p.m_program_version.isEmpty then lit " " ++ p.m_program_version else []) ++
          lit ":\n" ++ lit "  " ++ p.m_program_name ++ lit " [OPTION...]" ++ p.positional_hint ++
          lit "\n\n" ++
          (if !p.m_help_preamble.isEmpty then p.m_help_preamble ++ lit "\n\n" else []) ++
          lit "Options:\n" ++
          ((p.m_options.filter (fun o => !o.m_is_hidden)).map (fun o =>
            o.generate_help_text.1 ++
              List.replicate (p.longest_name + 2 - o.generate_help_text.1.length) ' ' ++
              o.generate_help_text.2 ++ lit "\n")).flatten ++
          (if !p.m_positional_help.isEmpty ∧ !p.m_positional_meta_var.isEmpty then
            lit " " ++ p.m_positional_meta_var ++
              List.replicate ((p.longest_name + 2 + SIZE_MOD -
                (lit " " ++ p.m_positional_meta_var).length) % SIZE_MOD) ' ' ++
              p.m_positional_help ++ lit "\n"
            else []) ++
          (if !p.m_help_epilog.isEmpty then lit "\n" ++ p.m_help_epilog else [])) := by
  have hs := shown_options_without_hidden p
  have hl : (without_hidden p).longest_name = p.longest_name := by
    simp only [longest_name, hs]
  obtain ⟨-, hle, hmax⟩ := longest_foldl p.shown_options 0
  have hmem : ∀ o ∈ p.m_options, o.m_is_hidden = false →
      o.generate_help_text ∈ p.shown_options := by
    intro o ho hh
    unfold shown_options
    exact List.mem_map_of_mem _ (List.mem_filter.mpr ⟨ho, by simp [hh]⟩)
  refine ⟨?_, hl, ?_, ?_, ?_⟩
  · unfold help
    rw [hs, hl]
    rfl
  · intro o ho hh
    exact hle _ (hmem o ho hh)
  · rcases hmax with h | ⟨pair, hm, h⟩
    · exact Or.inl h
    · right
      unfold shown_options at hm
      obtain ⟨o, ho, rfl⟩ := List.mem_map.mp hm
      obtain ⟨ho1, ho2⟩ := List.mem_filter.mp ho
      exact ⟨o, ho1, by simpa using ho2, h⟩
  · intro hfit text h
    have hlong : p.longest_name + 2 ≤ STRING_MAX_SIZE := by
      rcases hmax with h0 | ⟨pair, hm, h0⟩
      · have : p.longest_name = 0 := h0
        rw [this]
        unfold STRING_MAX_SIZE
        norm_num
      · have : p.longest_name = pair.1.length := h0
        rw [this]
        exact hfit pair hm
    have hpad : ∀ o ∈ p.m_options.filter (fun o => !o.m_is_hidden),
        (p.longest_name + 2 + SIZE_MOD - o.generate_help_text.1.length) % SIZE_MOD =
          p.longest_name + 2 - o.generate_help_text.1.length := by
      intro o ho
      obtain ⟨ho1, ho2⟩ := List.mem_filter.mp ho
      have h1 : o.generate_help_text.1.length ≤ p.longest_name :=
        hle _ (hmem o ho1 (by simpa using ho2))
      unfold SIZE_MOD STRING_MAX_SIZE at *
      norm_num at *
      omega
    unfold help at h
    split at h
    · cases h
    · rename_i lines hlines
      simp only [Option.some.injEq] at h
      have htext := help_lines_text _ _ _ hlines
      have hshown : (p.shown_options.map (fun pair => pair.1 ++
          List.replicate ((p.longest_name + 2 + SIZE_MOD - pair.1.length) % SIZE_MOD) ' ' ++
          pair.2 ++ lit "\n")) =
          (p.m_options.filter (fun o => !o.m_is_hidden)).map (fun o =>
            o.generate_help_text.1 ++
              List.replicate (p.longest_name + 2 - o.generate_help_text.1.length) ' ' ++
              o.generate_help_text.2 ++ lit "\n") := by
        unfold shown_options
        rw [List.map_map]
        apply List.map_congr_left
        intro o ho
        simp only [Function.comp, hpad o ho]
      rw [← h, htext, List.map_append, List.flatten_append, hshown]
      by_cases hc : (!p.m_positional_help.isEmpty) = true ∧ (!p.m_positional_meta_var.isEmpty) = true
      · simp only [if_pos hc, List.map_cons, List.map_nil, List.flatten_cons, List.flatten_nil,
          List.append_nil, List.append_assoc]
      · simp only [if_neg hc, List.map_nil, List.flatten_nil, List.append_nil, List.append_assoc]

set_option maxRecDepth 100000 in
/-- The example of C31 from the test `GenerateHelp`: the text is the one of the
parser without the option `--hidden`, and it is the text the test expects, with
no line for `--hidden` between the lines of `--long` and `--default`. -/
theorem C31_hidden_options_not_in_help_witness :
    parser_generate_help.help = (without_hidden parser_generate_help).help ∧
    parser_generate_help.help = some (
      lit "Usage of app 1.0:\n" ++
      lit "  app [OPTION...] <0-2 POSITIONALS>\n" ++
      lit "\n" ++
      lit "pretext\n" ++
      lit "\n" ++
      lit "Options:\n" ++
      lit " -s                      short option as flag\n" ++
      lit " -f --other-name --flag  arbitrary number of names\n" ++
      lit " --long <ARG>            long option with argument\n" ++
      lit " --default <META>        option with default (default: DEFAULT)\n" ++
      lit " --appending <ARG>       option that appends values, like -I file1 -I file2 (appending)\n" ++
      lit " --required <ARG>        required option (required)\n" ++
      lit " -c --choice <ARG>       choice desc (choices: [b|a])\n" ++
      lit " --all <ARG1> <ARG2>     multiple arguments (required, appending, choices: [b|a] [d|c], default: a d)\n" ++
      lit "\n" ++
      lit "some epilog") :=
  ⟨(C31_hidden_options_not_in_help parser_generate_help).1, by decide⟩

/-! ## The padding of the line for the positionals -/

theorem help_lines_last_none (longest : Nat) (x : Str × Str)
    (hx : help_padding longest x.1.length = none) :
    ∀ a : List (Str × Str), help_lines longest (a ++ [x]) = none := by
  intro a
  induction a with
  | nil => simp only [List.nil_append, help_lines, hx]
  | cons y a ih =>
    simp only [List.cons_append, help_lines]
    simp only [List.append_eq]
    rw [ih]
    cases help_padding longest y.1.length <;> rfl

/-- C37, the code at the failing inputs: `help()` is not total.  The line for the positionals, which
`set_positional_help` adds, is not counted in `longest`: when its name column
(a blank and the meta variable) is longer than `longest + 2`, the padding
length `longest + 2 - length` wraps around to a value of at least `2 ^ 63`, the
padding cannot be built and `help()` ends in `std::length_error` instead of
returning a text.  The lines of the options themselves are padded to the same
column whenever their name columns fit in a string. -/
theorem C37_help_padding_underflow (p : ArgumentParser)
    (h1 : p.m_positional_help ≠ []) (h2 : p.m_positional_meta_var ≠ [])
    (h3 : p.longest_name + 1 < p.m_positional_meta_var.length)
    (h4 : p.m_positional_meta_var.length < STRING_MAX_SIZE) :
    (p.longest_name + 2 + SIZE_MOD - (lit " " ++ p.m_positional_meta_var).length) % SIZE_MOD =
      SIZE_MOD - (p.m_positional_meta_var.length - (p.longest_name + 1)) ∧
    help_padding p.longest_name (lit " " ++ p.m_positional_meta_var).length = none ∧
    p.help = none ∧
    (columns_fit p → ∀ pair ∈ p.shown_options,
      help_padding p.longest_name pair.1.length =
        some (List.replicate (p.longest_name + 2 - pair.1.length) ' ')) := by
  have hlen : (lit " " ++ p.m_positional_meta_var).length = p.m_positional_meta_var.length + 1 := by
    simp [lit]
  have hmod : (p.longest_name + 2 + SIZE_MOD - (lit " " ++ p.m_positional_meta_var).length) %
      SIZE_MOD = SIZE_MOD - (p.m_positional_meta_var.length - (p.longest_name + 1)) := by
    rw [hlen]
    unfold SIZE_MOD STRING_MAX_SIZE at *
    norm_num at *
    omega
  have hpad : help_padding p.longest_name (lit " " ++ p.m_positional_meta_var).length = none := by
    unfold help_padding
    rw [hmod, if_neg]
    unfold SIZE_MOD STRING_MAX_SIZE at *
    norm_num at *
    omega
  refine ⟨hmod, hpad, ?_, ?_⟩
  · have hc : (!p.m_positional_help.isEmpty) = true ∧ (!p.m_positional_meta_var.isEmpty) = true := by
      constructor
      · cases hh : p.m_positional_help with
        | nil => exact absurd hh h1
        | cons a t => rfl
      · cases hh : p.m_positional_meta_var with
        | nil => exact absurd hh h2
        | cons a t => rfl
    unfold help
    rw [if_pos hc, help_lines_last_none p.longest_name _ hpad]
  · intro hfit pair hm
    obtain ⟨-, hle, hmax⟩ := longest_foldl p.shown_options 0
    apply help_padding_some
    · exact hle pair hm
    · rcases hmax with h | ⟨pair', hm', h⟩
      · have : p.longest_name = 0 := h
        rw [this]
        unfold STRING_MAX_SIZE
        norm_num
      · have : p.longest_name = pair'.1.length := h
        rw [this]
        exact hfit pair' hm'

/-- The example of C37 from the test `SetPositionalHelp`: after
`set_positional_help("abc", "def")` on a parser without options the padding
length is `2 - 4`, that is `2 ^ 64 - 2`, and `help()` throws. -/
theorem C37_help_padding_underflow_witness :
    (parser_positional_help.longest_name + 2 + SIZE_MOD -
        (lit " " ++ parser_positional_help.m_positional_meta_var).length) % SIZE_MOD =
      SIZE_MOD - 2 ∧
    parser_positional_help.help = none :=
  ⟨(C37_help_padding_underflow parser_positional_help (by decide) (by decide) (by decide)
      (by decide)).1,
    (C37_help_padding_underflow parser_positional_help (by decide) (by decide) (by decide)
      (by decide)).2.2.1⟩

/-! ## Calls that return -/

section option_invariant_ok

variable (I : OptionEntry → Prop)

/-- A property of options that a returning `Option::parse` maintains is
maintained by the returning call on the option at `idx`. -/
theorem parse_option_ok_inv
    (hI : ∀ o values o', OptionEntry.parse o values = .ok o' → I o → I o')
    (p : ArgumentParser) (idx : Nat) (values : List Str) (q : ArgumentParser)
    (hp : ∀ o ∈ p.m_options, I o) (h : parse_option p idx values = .ok q) :
    ∀ o ∈ q.m_options, I o := by
  unfold parse_option at h
  cases ho : p.m_options[idx]? with
  | none => rw [ho] at h; cases h
  | some o =>
    rw [ho] at h
    simp only at h
    have hmem : o ∈ p.m_options := List.mem_iff_getElem?.mpr ⟨idx, ho⟩
    cases hpar : o.parse values with
    | ok o1 =>
      rw [hpar] at h
      simp only [Outcome.ok.injEq] at h
      subst h
      intro o' ho'
      rcases List.mem_or_eq_of_mem_set ho' with hm | rfl
      · exact hp o' hm
      · exact hI o values o' hpar (hp o hmem)
    | throws e o1 => rw [hpar] at h; cases h
    | undefined => rw [hpar] at h; cases h

theorem parse_group_ok_inv
    (hI : ∀ o values o', OptionEntry.parse o values = .ok o' → I o → I o')
    (arg : Str) :
    ∀ (cs : List Char) (p q : ArgumentParser), (∀ o ∈ p.m_options, I o) →
      parse_group arg cs p = .ok q → ∀ o ∈ q.m_options, I o := by
  intro cs
  induction cs with
  | nil =>
    intro p q hp h
    simp only [parse_group, Outcome.ok.injEq] at h
    subst h
    exact hp
  | cons c cs ih =>
    intro p q hp h
    simp only [parse_group] at h
    split at h
    · cases h
    · cases hf : find_option_to_parse p [c] with
      | error e => rw [hf] at h; cases h
      | ok idx =>
        rw [hf] at h
        simp only at h
        cases hpo : parse_option p idx [] with
        | ok p1 =>
          rw [hpo] at h
          exact ih p1 q (parse_option_ok_inv I hI p idx [] p1 hp hpo) h
        | throws e p1 => rw [hpo] at h; cases h
        | undefined => rw [hpo] at h; cases h

theorem lift_option_ok_inv
    (hI : ∀ o values o', OptionEntry.parse o values = .ok o' → I o → I o')
    (p : ArgumentParser) (idx : Nat) (values : List Str) (n : Nat) (ind : Bool)
    (s : LoopState) (hp : ∀ o ∈ p.m_options, I o)
    (h : (match parse_option p idx values with
        | .ok p' => (Outcome.ok ⟨n, ind, p'⟩ : Outcome LoopState ArgumentParser)
        | .throws e p' => .throws e p'
        | .undefined => .undefined) = .ok s) :
    ∀ o ∈ s.parser.m_options, I o := by
  cases hpo : parse_option p idx values with
  | ok p1 =>
    rw [hpo] at h
    simp only [Outcome.ok.injEq] at h
    subst h
    exact parse_option_ok_inv I hI p idx values _ hp hpo
  | throws e p1 => rw [hpo] at h; cases h
  | undefined => rw [hpo] at h; cases h

theorem parse_single_option_ok_inv
    (hI : ∀ o values o', OptionEntry.parse o values = .ok o' → I o → I o')
    (argv : List Str) (c : Nat) (ind : Bool) (p : ArgumentParser) (arg : Str)
    (s : LoopState) (hp : ∀ o ∈ p.m_options, I o)
    (h : parse_single_option argv c ind p arg = .ok s) :
    ∀ o ∈ s.parser.m_options, I o := by
  unfold parse_single_option at h
  simp only at h
  cases hfind : find_option_to_parse p (split_argument_text arg).1 with
  | error e => rw [hfind] at h; cases h
  | ok idx =>
    rw [hfind] at h
    simp only at h
    cases ho : p.m_options[idx]? with
    | none => rw [ho] at h; cases h
    | some o =>
      rw [ho] at h
      simp only at h
      split at h
      · split at h
        · split at h
          · exact lift_option_ok_inv I hI p idx _ _ _ s hp h
          · cases h
        · exact lift_option_ok_inv I hI p idx _ _ _ s hp h
      · exact lift_option_ok_inv I hI p idx _ _ _ s hp h

theorem parse_step_ok_inv
    (hI : ∀ o values o', OptionEntry.parse o values = .ok o' → I o → I o')
    (argv : List Str) (c : Nat) (ind : Bool) (p : ArgumentParser) (s : LoopState)
    (hp : ∀ o ∈ p.m_options, I o) (h : parse_step argv c ind p = .ok s) :
    ∀ o ∈ s.parser.m_options, I o := by
  unfold parse_step at h
  simp only at h
  split at h
  · simp only [Outcome.ok.injEq] at h
    subst h
    exact hp
  · split at h
    · split at h
      · cases h
      · simp only [Outcome.ok.injEq] at h
        subst h
        exact hp
    · split at h
      · split at h
        · cases h
        · split at h
          · cases hg : parse_group (argv.getD c []) ((argv.getD c []).drop 1) p with
            | ok p1 =>
              rw [hg] at h
              simp only [Outcome.ok.injEq] at h
              subst h
              exact parse_group_ok_inv I hI _ _ p _ hp hg
            | throws e p1 => rw [hg] at h; cases h
            | undefined => rw [hg] at h; cases h
          · exact parse_single_option_ok_inv I hI argv c ind p _ s hp h
      · cases h

theorem parse_loop_ok_inv
    (hI : ∀ o values o', OptionEntry.parse o values = .ok o' → I o → I o')
    (argv : List Str) :
    ∀ (fuel c : Nat) (ind : Bool) (p q : ArgumentParser), (∀ o ∈ p.m_options, I o) →
      parse_loop argv fuel c ind p = .ok q → ∀ o ∈ q.m_options, I o := by
  intro fuel
  induction fuel with
  | zero =>
    intro c ind p q hp h
    simp only [parse_loop, Outcome.ok.injEq] at h
    subst h
    exact hp
  | succ fuel ih =>
    intro c ind p q hp h
    simp only [parse_loop] at h
    split at h
    · cases hstep : parse_step argv c ind p with
      | ok s =>
        rw [hstep] at h
        exact ih _ _ s.parser q (parse_step_ok_inv I hI argv c ind p s hp hstep) h
      | throws e p1 => rw [hstep] at h; cases h
      | undefined => rw [hstep] at h; cases h
    · simp only [Outcome.ok.injEq] at h
      subst h
      exact hp

/-- A property of options that a returning `Option::parse` maintains holds for
every option after a `parse` that returns. -/
theorem parse_ok_inv
    (hI : ∀ o values o', OptionEntry.parse o values = .ok o' → I o → I o')
    (p : ArgumentParser) (argv : List Str) (q : ArgumentParser)
    (hp : ∀ o ∈ p.m_options, I o) (h : p.parse argv = .ok q) :
    ∀ o ∈ q.m_options, I o := by
  cases argv with
  | nil => cases h
  | cons a rest =>
    rw [parse_eq_loop p (a :: rest) (by simp)] at h
    have hp0 : ∀ o ∈ (initial_state p (a :: rest)).parser.m_options, I o := by
      intro o ho
      apply hp o
      rw [← (set_program_name_options p a).1]
      exact ho
    cases hloop : parse_loop (a :: rest) (a :: rest).length 1 false
        (initial_state p (a :: rest)).parser with
    | ok p1 =>
      rw [hloop] at h
      simp only at h
      rw [check_after_loop_ok p1 q h]
      exact parse_loop_ok_inv I hI _ _ _ _ _ p1 hp0 hloop
    | throws e p1 => rw [hloop] at h; cases h
    | undefined => rw [hloop] at h; cases h

end option_invariant_ok

/-! ## The lengths of the stored values -/

theorem reset_storage_fields (o o' : OptionEntry) (h : o'.reset_storage = o.reset_storage) :
    o'.m_number_of_arguments = o.m_number_of_arguments ∧
    o'.m_default_storage = o.m_default_storage ∧ o'.m_is_appending = o.m_is_appending := by
  refine ⟨?_, ?_, ?_⟩
  · show o'.reset_storage.m_number_of_arguments = _
    rw [h]
    rfl
  · show o'.reset_storage.m_default_storage = _
    rw [h]
    rfl
  · show o'.reset_storage.m_is_appending = _
    rw [h]
    rfl

/-- An occurrence that `Option::parse` accepts leaves the stored-length
invariant in place. -/
theorem option_parse_lengths_ok (o : OptionEntry) (values : List Str) (o' : OptionEntry)
    (h : o.parse values = .ok o') (ho : lengths_ok o) : lengths_ok o' := by
  obtain ⟨hk, hd, hap⟩ := reset_storage_fields o o' ((option_parse_frame o values).1 o' h)
  unfold OptionEntry.parse at h
  by_cases h1 : values.length ≠ o.m_number_of_arguments
  · rw [if_pos h1] at h
    cases h
  · rw [if_neg h1] at h
    by_cases h2 : (!o.m_storage.isEmpty && !o.m_is_appending) = true
    · rw [if_pos h2] at h
      cases h
    · rw [if_neg h2] at h
      have hst : o.m_is_appending = false → o.m_storage = [] := by
        intro ha
        cases hs : o.m_storage with
        | nil => rfl
        | cons a t => simp [hs, ha] at h2
      have hsto : o'.m_storage =
          o.m_storage ++ (if o.m_number_of_arguments = 0 then [lit "true"] else values) := by
        by_cases h0 : o.m_number_of_arguments = 0
        · rw [if_pos h0] at h
          cases h
          rw [if_pos h0]
        · rw [if_neg h0] at h
          rw [if_neg h0]
          by_cases h3 : (!o.m_choices.isEmpty) = true
          · rw [if_pos h3] at h
            rw [parse_choices_ok_storage values _ 0 o o' h, List.drop_zero]
            congr 1
            rw [← (not_not.mp h1)]
            exact List.take_length values
          · rw [if_neg h3] at h
            cases h
            rfl
      unfold lengths_ok at ho ⊢
      rw [hk, hd, hap, hsto]
      refine ⟨ho.1, ?_⟩
      intro ha
      right
      rw [hst ha]
      by_cases h0 : o.m_number_of_arguments = 0
      · simp only [h0, if_true, List.nil_append]
      · simp only [h0, if_false, List.nil_append]
        exact not_not.mp h1

/-- The first loop of `set_appending_arguments`, when it returns, leaves the
stored-length invariant in place. -/
theorem clear_appending_lengths_ok :
    ∀ (os os' : List OptionEntry), (∀ o ∈ os, lengths_ok o) →
      clear_appending os = .ok os' → ∀ o ∈ os', lengths_ok o := by
  intro os
  induction os with
  | nil =>
    intro os' _ h
    simp only [clear_appending, Outcome.ok.injEq] at h
    subst h
    intro o ho
    cases ho
  | cons a t ih =>
    intro os' hp h
    simp only [clear_appending, OptionEntry.set_appending] at h
    by_cases hcond : (!false) = true ∧ (!a.m_storage.isEmpty) = true ∧
        a.m_storage.length ≠ a.m_number_of_arguments
    · rw [if_pos hcond] at h
      cases h
    · rw [if_neg hcond] at h
      simp only at h
      cases hc : clear_appending t with
      | ok t' =>
        rw [hc] at h
        simp only [Outcome.ok.injEq] at h
        subst h
        intro o ho
        rcases List.mem_cons.mp ho with rfl | hm
        · have ha := hp a (List.mem_cons_self _ _)
          unfold lengths_ok at ha ⊢
          refine ⟨ha.1, ?_⟩
          intro _
          show a.m_storage = [] ∨ _
          cases hs : a.m_storage with
          | nil => exact Or.inl rfl
          | cons x xs =>
            right
            have hlen : a.m_storage.length = a.m_number_of_arguments := by
              by_contra hne
              exact hcond ⟨rfl, by simp [hs], hne⟩
            have h0 : a.m_number_of_arguments ≠ 0 := by
              rw [← hlen, hs]
              simp
            show (if a.m_number_of_arguments = 0 then _ else _)
            rw [if_neg h0, ← hs]
            exact hlen
        · exact ih t' (fun o ho => hp o (List.mem_cons_of_mem _ ho)) hc o hm
      | throws e t' => rw [hc] at h; cases h
      | undefined => rw [hc] at h; cases h

/-- A call that returns leaves the stored-length invariant in place. -/
theorem call_lengths_ok (c : Call) (p q : ArgumentParser) (hp : ∀ o ∈ p.m_options, lengths_ok o)
    (h : c.run p = .ok q) : ∀ o ∈ q.m_options, lengths_ok o := by
  have hfin : (c.run p).finalState = some q := by rw [h]; rfl
  cases c with
  | set_help_info preamble epilog =>
    simp only [Call.run, Outcome.ok.injEq] at h
    subst h
    exact hp
  | set_program_info program_name version =>
    simp only [Call.run, Outcome.ok.injEq] at h
    subst h
    exact hp
  | set_required_positionals n =>
    simp only [Call.run, set_required_positionals] at h
    split at h
    · cases h
    · cases h
      exact hp
  | set_allowed_positionals n =>
    simp only [Call.run, set_allowed_positionals] at h
    split at h
    · cases h
    · cases h
      exact hp
  | set_positional_help help meta_var =>
    simp only [Call.run, Outcome.ok.injEq] at h
    subst h
    exact hp
  | add_option names k help meta_vars default_values choices =>
    rcases add_option_final p q names k help meta_vars default_values choices hfin with
      rfl | ⟨o, rfl, hs, hk, hd, hdl⟩
    · exact hp
    · intro o' ho'
      rcases List.mem_append.mp ho' with hm | hm
      · exact hp o' hm
      · rw [List.mem_singleton] at hm
        subst hm
        unfold lengths_ok
        rw [hs, hk, hd]
        refine ⟨?_, fun _ => Or.inl rfl⟩
        by_cases h0 : k = 0
        · simp only [h0, if_true]
        · simp only [h0, if_false]
          exact hdl
  | set_required names =>
    simp only [Call.run, ArgumentParser.set_required] at hfin
    refine set_named_inv lengths_ok (fun o => o.set_required true) (fun o ho => ho) names _ q ?_
      hfin
    intro o ho
    obtain ⟨o1, hm, rfl⟩ := List.mem_map.mp ho
    exact hp o1 hm
  | set_hidden names =>
    simp only [Call.run, ArgumentParser.set_hidden] at hfin
    refine set_named_inv lengths_ok (fun o => o.set_hidden true) (fun o ho => ho) names _ q ?_
      hfin
    intro o ho
    obtain ⟨o1, hm, rfl⟩ := List.mem_map.mp ho
    exact hp o1 hm
  | set_appending_arguments names =>
    simp only [Call.run, ArgumentParser.set_appending_arguments] at h
    cases hc : clear_appending p.m_options with
    | ok os =>
      rw [hc] at h
      simp only at h
      refine set_named_inv lengths_ok (fun o => { o with m_is_appending := true })
        (fun o ho => ⟨ho.1, fun hf => by cases hf⟩) names _ q ?_ (by rw [h]; rfl)
      exact clear_appending_lengths_ok p.m_options os hp hc
    | throws e os => rw [hc] at h; cases h
    | undefined => rw [hc] at h; cases h
  | add_xor names =>
    obtain ⟨xs, rfl⟩ := add_xor_final p q names hfin
    exact hp
  | reset_storage =>
    simp only [Call.run, Outcome.ok.injEq] at h
    subst h
    intro o ho
    obtain ⟨o1, hm, rfl⟩ := List.mem_map.mp ho
    exact ⟨(hp o1 hm).1, fun _ => Or.inl rfl⟩
  | parse argv =>
    exact parse_ok_inv lengths_ok option_parse_lengths_ok p argv q hp h

/-- C33: in every state reached from the state after construction by
registrations and by calls that return normally - among them `reset_storage`
and every `parse` that succeeds - each option's default values are empty or
one per argument (for a flag: exactly the text `false`), and the stored values
of each option that is not appending are empty or one per argument (for a
flag: exactly the text `true`). -/
theorem C33_stored_length_invariant (p : ArgumentParser) (h : ReachedByReturns p) :
    ∀ o ∈ p.m_options,
      (if o.m_number_of_arguments = 0 then o.m_default_storage = [lit "false"]
        else o.m_default_storage = [] ∨
          o.m_default_storage.length = o.m_number_of_arguments) ∧
      (o.m_is_appending = false →
        o.m_storage = [] ∨
          (if o.m_number_of_arguments = 0 then o.m_storage = [lit "true"]
            else o.m_storage.length = o.m_number_of_arguments)) := by
  have hall : ∀ o ∈ p.m_options, lengths_ok o := by
    induction h with
    | start =>
      intro o ho
      cases ho
    | returns p q c _ hq ih => exact call_lengths_ok c p q ih hq
    | registration p q names k help meta_vars default_values choices _ hq ih =>
      cases hrun : p.add_option names k help meta_vars default_values choices with
      | ok q1 =>
        rw [hrun] at hq
        simp only [Outcome.finalState, Option.some.injEq] at hq
        subst hq
        exact call_lengths_ok (.add_option names k help meta_vars default_values choices) p _ ih
          hrun
      | throws e q1 =>
        rw [hrun] at hq
        simp only [Outcome.finalState, Option.some.injEq] at hq
        subst hq
        rw [add_option_throws_unchanged p _ names k help meta_vars default_values choices e hrun]
        exact ih
      | undefined => rw [hrun] at hq; cases hq
  exact hall

/-- The example of C33 from the test `AddMultiOption`: the parser with the
options `--multi`, `--int` (defaults `5`, `6`) and `--float` after the command
line of the test has been parsed. -/
theorem C33_stored_length_invariant_witness :
    ReachedByReturns parser_add_multi_parsed ∧
    ∀ o ∈ parser_add_multi_parsed.m_options,
      (if o.m_number_of_arguments = 0 then o.m_default_storage = [lit "false"]
        else o.m_default_storage = [] ∨
          o.m_default_storage.length = o.m_number_of_arguments) ∧
      (o.m_is_appending = false →
        o.m_storage = [] ∨
          (if o.m_number_of_arguments = 0 then o.m_storage = [lit "true"]
            else o.m_storage.length = o.m_number_of_arguments)) :=
  have hr : ReachedByReturns parser_add_multi_parsed :=
    ReachedByReturns.returns _ _ (.parse argv_add_multi)
      (ReachedByReturns.returns _ _ (.add_option [lit "--float"] 2 [] [] [] [])
        (ReachedByReturns.returns _ _
          (.add_option [lit "--int"] 2 (lit "help") [] [lit "5", lit "6"] [])
          (ReachedByReturns.returns _ _ (.add_option [lit "--multi"] 3 [] [] [] [])
            ReachedByReturns.start rfl) rfl) rfl)
      (by decide)
  ⟨hr, C33_stored_length_invariant parser_add_multi_parsed hr⟩

/-! ## Rejected occurrences -/

/-- C34, the code at the failing input: a rejected occurrence can store
values.  An occurrence rejected for a
wrong value count or because the option is already parsed leaves the option as
it was, but the choice loop stores each value before it checks the next: for
the option `--twos` of the test `AddChoiceOption` (two values, each out of `a`,
`b`) the occurrence `--twos a c` is rejected at `c` with `a` already stored, so
that after the parsing error the option is parsed and holds one value. -/
theorem C34_rejected_choice_keeps_values :
    (∀ (o : OptionEntry) (values : List Str) (e : Exception) (o' : OptionEntry),
      o.parse values = .throws e o' →
      (values.length ≠ o.m_number_of_arguments ∨
        (o.m_storage ≠ [] ∧ o.m_is_appending = false)) → o' = o) ∧
    option_twos.parse [lit "a", lit "c"] =
      .throws (.ParsingException (lit "'c' does not match possible choices for twos"))
        { option_twos with m_storage := [lit "a"] } ∧
    option_twos.is_parsed = false ∧
    OptionEntry.is_parsed { option_twos with m_storage := [lit "a"] } = true ∧
    parser_choice.parse [lit "app", lit "--twos", lit "a", lit "c"] =
      .throws (.ParsingException (lit "'c' does not match possible choices for twos"))
        parser_choice_rejected ∧
    parser_choice.is_parsed (lit "twos") = .ok false ∧
    parser_choice_rejected.is_parsed (lit "twos") = .ok true ∧
    parser_choice_rejected.get_n (lit "twos") = .ok [lit "a"] := by
  refine ⟨?_, by decide, by decide, by decide, by decide, rfl, rfl, rfl⟩
  intro o values e o' h hc
  unfold OptionEntry.parse at h
  by_cases h1 : values.length ≠ o.m_number_of_arguments
  · rw [if_pos h1] at h
    cases h
    rfl
  · rw [if_neg h1] at h
    rcases hc with hc | ⟨hs, ha⟩
    · exact absurd hc h1
    · have h2 : (!o.m_storage.isEmpty && !o.m_is_appending) = true := by
        cases hst : o.m_storage with
        | nil => exact absurd hst hs
        | cons a t => simp [ha]
      rw [if_pos h2] at h
      cases h
      rfl

/-! ## An option and its own names in an XOR group -/

theorem is_parsed_true_index (p : ArgumentParser) (name : Str) (idx : Nat)
    (hone : ∀ j o, p.m_options[j]? = some o → o.is_parsed = true → j = idx)
    (h : p.is_parsed name = .ok true) : option_index p name = some idx := by
  unfold is_parsed at h
  unfold option_index
  cases hn : normalize_option_name name with
  | error e => rw [hn] at h; cases h
  | ok n =>
    rw [hn] at h
    simp only at h ⊢
    cases hf : find_option_iter p.m_options n with
    | none => rw [hf] at h; cases h
    | some j =>
      rw [hf] at h
      simp only at h
      cases ho : p.m_options[j]? with
      | none => rw [ho] at h; cases h
      | some o =>
        rw [ho] at h
        simp only [Except.ok.injEq] at h
        rw [hone j o ho h]

theorem parsed_members_le_one (p : ArgumentParser) (idx : Nat)
    (hone : ∀ j o, p.m_options[j]? = some o → o.is_parsed = true → j = idx) :
    ∀ l : List Str, group_distinct p l → (parsed_members p l).length ≤ 1 := by
  intro l hd
  have hsub : (parsed_members p l).Pairwise (fun a b => option_index p a ≠ option_index p b) :=
    List.Pairwise.sublist (List.filter_sublist l) hd
  have hall : ∀ a ∈ parsed_members p l, option_index p a = some idx := by
    intro a ha
    have := (List.mem_filter.mp ha).2
    apply is_parsed_true_index p a idx hone
    cases hp : p.is_parsed a with
    | error e => rw [hp] at this; cases this
    | ok b =>
      cases b with
      | false => rw [hp] at this; cases this
      | true => rfl
  match hm : parsed_members p l, hsub, hall with
  | [], _, _ => simp
  | [a], _, _ => simp
  | a :: b :: t, hsub, hall =>
    exfalso
    have h1 := hall a (by simp)
    have h2 := hall b (by simp)
    exact (List.pairwise_cons.mp hsub).1 b (by simp) (h1.trans h2.symm)

/-- C36, as the code has it: when every name of every XOR group normalises (as `add_xor`
has checked) and no two names of a group denote the same option, a parser
state in which exactly one option holds stored values passes the XOR check; so
a parse whose loop ends in such a state and whose required options and
positionals are complete returns normally. -/
theorem C36_single_option_no_conflict (p' : ArgumentParser) (idx : Nat)
    (hx : xor_names_valid p')
    (hd : ∀ l ∈ p'.m_xor_lists, group_distinct p' l)
    (hone : ∀ j o, p'.m_options[j]? = some o → o.is_parsed = true → j = idx) :
    check_xor_arguments p' = none ∧
    (∀ (p : ArgumentParser) (argv : List Str), argv ≠ [] →
      parse_loop argv argv.length 1 false (initial_state p argv).parser = .ok p' →
      check_required_arguments p' = none → parse p argv = .ok p') := by
  have hnone : check_xor_arguments p' = none := by
    unfold check_xor_arguments
    rw [(check_xor_lists_spec p' p'.m_xor_lists hx).1]
    intro l hl
    exact parsed_members_le_one p' idx hone l (hd l hl)
  refine ⟨hnone, ?_⟩
  intro p argv hne hloop hreq
  rw [parse_of_loop_ok p argv p' hne hloop]
  simp only [check_after_loop, hreq, hnone]

/-- The example of C36 from the test `addXOR`: with the flags `a`, `b` in one
group and `a` alone parsed, the XOR check passes. -/
theorem C36_single_option_no_conflict_witness :
    check_xor_arguments ((parser_xor.set_program_name_from_argv (lit "app")).put_option 0
      (mark_parsed (flag_entry [lit "a"]))) = none :=
  (C36_single_option_no_conflict ((parser_xor.set_program_name_from_argv (lit "app")).put_option 0
      (mark_parsed (flag_entry [lit "a"]))) 0
    (by
      intro l hl n hn
      have hl' : l = [lit "a", lit "-b"] := by
        have : l ∈ [[lit "a", lit "-b"]] := hl
        simpa using this
      subst hl'
      simp only [List.mem_cons, List.mem_singleton, List.not_mem_nil, or_false] at hn
      rcases hn with rfl | rfl
      · exact ⟨lit "a", rfl⟩
      · exact ⟨lit "b", rfl⟩)
    (by
      intro l hl
      have hl' : l = [lit "a", lit "-b"] := by
        have : l ∈ [[lit "a", lit "-b"]] := hl
        simpa using this
      subst hl'
      decide)
    (by
      intro j o hj hp
      match j, hj with
      | 0, _ => rfl
      | 1, hj =>
        have : o = flag_entry [lit "b"] := by
          have h1 : some (flag_entry [lit "b"]) = some o := hj
          exact (Option.some.inj h1).symm
        subst this
        cases hp
      | j + 2, hj => cases hj)).1

/-- Counterexample to C36 as stated: `add_xor` accepts the group of the two names `a`
and `-a` of the one flag `-a`, in either order, and then every parse that
supplies the flag is rejected by the XOR check. -/
theorem C36_alias_group_counterexample :
    parser_alias.add_xor [lit "a", lit "-a"] = .ok (parser_alias_xor [lit "a", lit "-a"]) ∧
    parser_alias.add_xor [lit "-a", lit "a"] = .ok (parser_alias_xor [lit "-a", lit "a"]) ∧
    (parser_alias_xor [lit "a", lit "-a"]).parse [lit "app", lit "-a"] =
      .throws (.ParsingException (lit "Option 'a' and '-a' must not be used together."))
        (((parser_alias_xor [lit "a", lit "-a"]).set_program_name_from_argv (lit "app")).put_option
          0 (mark_parsed (flag_entry [lit "a"]))) ∧
    (parser_alias_xor [lit "-a", lit "a"]).parse [lit "app", lit "-a"] =
      .throws (.ParsingException (lit "Option '-a' and 'a' must not be used together."))
        (((parser_alias_xor [lit "-a", lit "a"]).set_program_name_from_argv (lit "app")).put_option
          0 (mark_parsed (flag_entry [lit "a"]))) := by
  refine ⟨rfl, rfl, by decide, by decide⟩

end utils

namespace utils

namespace string

/-! ## The loop of `replace_all` -/

theorem find_in_spec (from_ : Str) (hne : from_ ≠ []) :
    ∀ (s : Str) (i pos : Nat), find_in from_ s i = some pos →
      i ≤ pos ∧ pos < i + s.length ∧ (s.drop (pos - i)).take from_.length = from_ := by
  intro s
  induction s with
  | nil =>
    intro i pos h
    have : from_.isEmpty = false := by
      cases from_ with
      | nil => exact absurd rfl hne
      | cons a t => rfl
    simp [find_in, this] at h
  | cons c rest ih =>
    intro i pos h
    simp only [find_in] at h
    split at h
    · rename_i hp
      simp only [Option.some.injEq] at h
      subst h
      simp only [Nat.le_refl, Nat.sub_self, List.drop_zero, List.length_cons, true_and]
      exact ⟨by omega, hp⟩
    · obtain ⟨h1, h2, h3⟩ := ih (i + 1) pos h
      refine ⟨by omega, by simp only [List.length_cons]; omega, ?_⟩
      have : pos - i = (pos - (i + 1)) + 1 := by omega
      rw [this, List.drop_succ_cons]
      exact h3

/-- An index `find` returns is found again when the search starts there. -/
theorem find_again (str from_ : Str) (hne : from_ ≠ []) (start pos : Nat)
    (h : find str from_ start = some pos) :
    pos < str.length ∧ find str from_ pos = some pos := by
  unfold find at h
  split at h
  · rename_i hle
    obtain ⟨h1, h2, h3⟩ := find_in_spec from_ hne _ _ _ h
    have hlen : pos < str.length := by
      simp only [List.length_drop] at h2
      omega
    refine ⟨hlen, ?_⟩
    have hd : str.drop pos = (str.drop start).drop (pos - start) := by
      rw [List.drop_drop]
      congr 1
      omega
    unfold find
    rw [if_pos (by omega)]
    rw [← hd] at h3
    cases hs : str.drop pos with
    | nil =>
      have := congrArg List.length hs
      simp only [List.length_drop, List.length_nil] at this
      omega
    | cons c rest =>
      rw [hs] at h3
      simp only [find_in, h3, if_true]
  · cases h

/-- Where `from_` does not occur, the text of the specification is the text
itself. -/
theorem replaced_from_none (from_ to_ : Str) :
    ∀ (s : Str) (i : Nat), find_in from_ s i = none → replaced_from from_ to_ 0 s = s := by
  intro s
  induction s with
  | nil =>
    intro i _
    rfl
  | cons c rest ih =>
    intro i h
    simp only [find_in] at h
    split at h
    · cases h
    · rename_i hp
      simp only [replaced_from, hp, if_false, ih (i + 1) h]

/-- With an empty `to_` the loop never leaves an index at which `from_` occurs. -/
theorem replace_all_loop_stuck (str from_ : Str) (pos : Nat) (hpos : pos < SIZE_MOD)
    (hfind : find str from_ pos = some pos) :
    ∀ (fuel : Nat) (ret : Str), pos ≤ ret.length →
      replace_all_loop str from_ [] fuel pos ret = none := by
  intro fuel
  induction fuel with
  | zero =>
    intro ret _
    rfl
  | succ fuel ih =>
    intro ret hle
    simp only [replace_all_loop, hfind, replace_at, if_pos hle, List.length_nil, Nat.add_zero,
      Nat.mod_eq_of_lt hpos]
    apply ih
    simp only [List.append_nil, List.length_append, List.length_take, List.length_drop]
    omega

/-- C40, the code at the failing inputs: `replace_all` does not do what the
specification says.  The loop
searches in `str` but replaces in `ret` at the index found, and moves on by
the length of `to_`.  With an empty `to_` and a non-empty `from_` that occurs in
`str` the index never moves and the loop does not end, whatever the bound on
its iterations; with a `to_` of another length than `from_` later replacements
hit the wrong place, as `replace_all("aXbX", "X", "YY")`, which returns
`aYYYYX`, and occurrences are passed over, as in `replace_all("XX", "X",
"YY")`, which returns `YYX`.  When `from_` does not occur the result is `str`. -/
theorem C40_replace_all_diverges (str from_ : Str) (pos : Nat) (hne : from_ ≠ [])
    (hlen : str.length < SIZE_MOD) (hocc : find str from_ 0 = some pos) :
    (∀ fuel, replace_all fuel str from_ [] = none) ∧
    (replace_all 3 (lit "aXbX") (lit "X") (lit "YY") = some (.returns (lit "aYYYYX")) ∧
      replace_all_spec (lit "aXbX") (lit "X") (lit "YY") = lit "aYYbYY") ∧
    (replace_all 2 (lit "XX") (lit "X") (lit "YY") = some (.returns (lit "YYX")) ∧
      replace_all_spec (lit "XX") (lit "X") (lit "YY") = lit "YYYY") ∧
    (∀ (str' to_ : Str) (fuel : Nat), find str' from_ 0 = none →
      replace_all (fuel + 1) str' from_ to_ = some (.returns str') ∧
      replace_all_spec str' from_ to_ = str') := by
  have hemp : from_.isEmpty = false := by
    cases from_ with
    | nil => exact absurd rfl hne
    | cons a t => rfl
  refine ⟨?_, ⟨by decide, by decide⟩, ⟨by decide, by decide⟩, ?_⟩
  · intro fuel
    obtain ⟨hp, hagain⟩ := find_again str from_ hne 0 pos hocc
    simp only [replace_all, hemp, Bool.false_eq_true, if_false]
    cases fuel with
    | zero => rfl
    | succ fuel =>
      simp only [replace_all_loop, hocc, replace_at, if_pos (Nat.le_of_lt hp), List.length_nil,
        Nat.add_zero, Nat.mod_eq_of_lt (Nat.lt_trans hp hlen)]
      apply replace_all_loop_stuck str from_ pos (Nat.lt_trans hp hlen) hagain
      simp only [List.append_nil, List.length_append, List.length_take, List.length_drop]
      omega
  · intro str' to_ fuel hnone
    constructor
    · simp only [replace_all, hemp, Bool.false_eq_true, if_false, replace_all_loop, hnone]
    · unfold find at hnone
      rw [if_pos (Nat.zero_le _), List.drop_zero] at hnone
      exact replaced_from_none from_ to_ str' 0 hnone

/-- The example of C40: `a` occurs in `a` at index 0, and
`replace_all("a", "a", "")` does not end. -/
theorem C40_replace_all_diverges_witness :
    find (lit "a") (lit "a") 0 = some 0 ∧
    ∀ fuel, replace_all fuel (lit "a") (lit "a") [] = none :=
  ⟨rfl, (C40_replace_all_diverges (lit "a") (lit "a") 0 (by decide) (by decide) rfl).1⟩

end string

end utils

namespace ConfigParser

open utils (Str lit tolower to_string SIZE_MOD)

/-! ## The store of the INI parser -/

theorem map_find_assign_same {β : Type} (m : List (Str × β)) (k : Str) (v : β) :
    map_find (map_assign m k v) k = some v := by
  induction m with
  | nil => simp [map_assign, map_find]
  | cons a t ih =>
    obtain ⟨k', v'⟩ := a
    by_cases h : k' = k
    · simp [map_assign, map_find, h]
    · simp [map_assign, map_find, h, ih]

theorem map_find_assign_other {β : Type} (m : List (Str × β)) (k k' : Str) (v : β)
    (hne : k' ≠ k) : map_find (map_assign m k v) k' = map_find m k' := by
  induction m with
  | nil =>
    have : ¬ k = k' := fun h => hne h.symm
    simp [map_assign, map_find, this]
  | cons a t ih =>
    obtain ⟨k0, v0⟩ := a
    by_cases h : k0 = k
    · subst h
      have : ¬ k0 = k' := fun h => hne h.symm
      simp [map_assign, map_find, this]
    · by_cases h' : k0 = k'
      · subst h'
        simp [map_assign, map_find, h]
      · simp [map_assign, map_find, h, h', ih]

theorem map_find_set_section (p : IniParser) (section_ option value : Str) :
    map_find (p.set section_ option value).m_map (normalize_key section_) =
      some (map_assign ((map_find p.m_map (normalize_key section_)).getD [])
        (normalize_key option) value) := by
  simp only [IniParser.set, assign, map_find_assign_same]

theorem map_find_set_other (p : IniParser) (section_ option value k : Str)
    (hne : k ≠ normalize_key section_) :
    map_find (p.set section_ option value).m_map k = map_find p.m_map k := by
  simp only [IniParser.set, assign, map_find_assign_other _ _ _ _ hne]

/-- What `has(section, option)` answers after a `set`. -/
theorem has_option_set (p : IniParser) (section_ option value s o : Str) :
    (p.set section_ option value).has_option s o =
      (decide (normalize_key s = normalize_key section_ ∧
        normalize_key o = normalize_key option) || p.has_option s o) := by
  by_cases hs : normalize_key s = normalize_key section_
  · simp only [IniParser.has_option, hs, map_find_set_section, true_and]
    by_cases ho : normalize_key o = normalize_key option
    · simp [ho, map_find_assign_same]
    · rw [map_find_assign_other _ _ _ _ ho]
      cases map_find p.m_map (normalize_key section_) <;> simp [ho, map_find]
  · simp only [IniParser.has_option, map_find_set_other _ _ _ _ _ hs]
    simp [hs]

/-- What `has(section)` answers after a `set`. -/
theorem has_set (p : IniParser) (section_ option value s : Str) :
    (p.set section_ option value).has s =
      (decide (normalize_key s = normalize_key section_) || p.has s) := by
  by_cases hs : normalize_key s = normalize_key section_
  · simp [IniParser.has, hs, map_find_set_section]
  · simp [IniParser.has, map_find_set_other _ _ _ _ _ hs, hs]

theorem has_option_set_all :
    ∀ (l : List (Str × Str × Str)) (p : IniParser) (s o : Str),
      (set_all p l).has_option s o =
        (p.has_option s o || l.any (fun e => decide (normalize_key s = normalize_key e.1 ∧
          normalize_key o = normalize_key e.2.1))) := by
  intro l
  induction l with
  | nil =>
    intro p s o
    simp [set_all]
  | cons e rest ih =>
    intro p s o
    simp only [set_all, ih, has_option_set, List.any_cons]
    cases p.has_option s o <;> simp

theorem has_set_all :
    ∀ (l : List (Str × Str × Str)) (p : IniParser) (s : Str),
      (set_all p l).has s =
        (p.has s || l.any (fun e => decide (normalize_key s = normalize_key e.1))) := by
  intro l
  induction l with
  | nil =>
    intro p s
    simp [set_all]
  | cons e rest ih =>
    intro p s
    simp only [set_all, ih, has_set, List.any_cons]
    cases p.has s <;> simp

/-- C32: the store of the INI parser.  After `set(section, option, value)` with
a text value, `has(s)`, `has(s, o)` are true and `get<string>(s, o)` is the
value for every spelling `s`, `o` of the two names that differs in letter case
only; `has(s)` for another section, and `has(s, o)` and the value `get`
returns for another pair of names, are as before; on a parser filled by calls
of `set` alone, `has` is true for exactly the sections and options that were
set; and `get` raises `ConfigParserException` when the section or the option
is missing. -/
theorem C32_ini_store_round_trip (p : IniParser) (section_ option value : Str) :
    (∀ s o, normalize_key s = normalize_key section_ → normalize_key o = normalize_key option →
      (p.set section_ option value).has s = true ∧
      (p.set section_ option value).has_option s o = true ∧
      (p.set section_ option value).get s o = .ok value) ∧
    (∀ s, normalize_key s ≠ normalize_key section_ →
      (p.set section_ option value).has s = p.has s) ∧
    (∀ s o, (normalize_key s ≠ normalize_key section_ ∨ normalize_key o ≠ normalize_key option) →
      (p.set section_ option value).has_option s o = p.has_option s o ∧
      ∀ v, (p.set section_ option value).get s o = .ok v ↔ p.get s o = .ok v) ∧
    (∀ (l : List (Str × Str × Str)) (s o : Str),
      ((set_all IniParser.empty l).has s = true ↔
        ∃ e ∈ l, normalize_key s = normalize_key e.1) ∧
      ((set_all IniParser.empty l).has_option s o = true ↔
        ∃ e ∈ l, normalize_key s = normalize_key e.1 ∧ normalize_key o = normalize_key e.2.1)) ∧
    (∀ s o, p.has s = false → ∃ m, p.get s o = .error (.mk m)) ∧
    (∀ s o, p.has_option s o = false → ∃ m, p.get s o = .error (.mk m)) := by
  refine ⟨?_, ?_, ?_, ?_, ?_, ?_⟩
  · intro s o hs ho
    refine ⟨?_, ?_, ?_⟩
    · simp [has_set, hs]
    · simp [has_option_set, hs, ho]
    · simp only [IniParser.get, hs, ho, map_find_set_section, map_find_assign_same]
  · intro s hs
    simp [has_set, hs]
  · intro s o hne
    constructor
    · rw [has_option_set]
      have : ¬ (normalize_key s = normalize_key section_ ∧
          normalize_key o = normalize_key option) := by
        rintro ⟨h1, h2⟩
        rcases hne with h | h
        · exact h h1
        · exact h h2
      simp [this]
    · intro v
      by_cases hs : normalize_key s = normalize_key section_
      · have ho : normalize_key o ≠ normalize_key option := by
          rcases hne with h | h
          · exact absurd hs h
          · exact h
        simp only [IniParser.get, hs, map_find_set_section, map_find_assign_other _ _ _ _ ho]
        cases map_find p.m_map (normalize_key section_) with
        | none => simp [map_find]
        | some options => simp
      · simp only [IniParser.get, map_find_set_other _ _ _ _ _ hs]
  · intro l s o
    constructor
    · rw [has_set_all]
      simp [IniParser.has, IniParser.empty, map_find]
    · rw [has_option_set_all]
      simp [IniParser.has_option, IniParser.empty, map_find]
  · intro s o h
    unfold IniParser.has at h
    unfold IniParser.get
    cases hf : map_find p.m_map (normalize_key s) with
    | none => exact ⟨_, rfl⟩
    | some options => rw [hf] at h; cases h
  · intro s o h
    unfold IniParser.has_option at h
    unfold IniParser.get
    cases hf : map_find p.m_map (normalize_key s) with
    | none => exact ⟨_, rfl⟩
    | some options =>
      rw [hf] at h
      simp only at h ⊢
      cases hg : map_find options (normalize_key o) with
      | none => exact ⟨_, rfl⟩
      | some v => rw [hg] at h; cases h

/-- The examples of C32 from the tests `Has`, `Set` and `Get`, and the same
names in capitals. -/
theorem C32_ini_store_round_trip_witness :
    (parser_foo_bar.has (lit "foo") = true ∧
      parser_foo_bar.has_option (lit "foo") (lit "bar") = true ∧
      parser_foo_bar.get (lit "foo") (lit "bar") = .ok (lit "value")) ∧
    (parser_foo_bar.has (lit "FOO") = true ∧
      parser_foo_bar.has_option (lit "FOO") (lit "Bar") = true ∧
      parser_foo_bar.get (lit "FOO") (lit "Bar") = .ok (lit "value")) ∧
    parser_foo_bar.has (lit "bar") = false ∧
    parser_foo_bar.has_option (lit "foo") (lit "foo") = false ∧
    (∃ m, parser_foo_bar.get (lit "foo") (lit "notfound") = .error (.mk m)) ∧
    (∃ m, parser_foo_bar.get (lit "notfound") (lit "bar") = .error (.mk m)) :=
  ⟨(C32_ini_store_round_trip IniParser.empty (lit "foo") (lit "bar") (lit "value")).1
      (lit "foo") (lit "bar") rfl rfl,
    (C32_ini_store_round_trip IniParser.empty (lit "foo") (lit "bar") (lit "value")).1
      (lit "FOO") (lit "Bar") (by decide) (by decide),
    by decide, by decide,
    (C32_ini_store_round_trip parser_foo_bar (lit "foo") (lit "bar") (lit "value")).2.2.2.2.2
      (lit "foo") (lit "notfound") (by decide),
    (C32_ini_store_round_trip parser_foo_bar (lit "foo") (lit "bar") (lit "value")).2.2.2.2.1
      (lit "notfound") (lit "bar") (by decide)⟩

/-! ## Names read from INI text -/

/-- C39, the code at the failing input: names read by `IniParser::parse` are
not retrievable whatever their letter case.  `parse` stores the section and option names as they are written,
while `has` and `get` look up the names in lower case: after parsing the lines
`[Foo]` and `Bar=1` the map holds the value `1` under `Foo`, `Bar`, but
`has("Foo")` and `has("Foo", "Bar")` are false and `get<string>("Foo", "Bar")`
raises `ConfigParserException` - as for every entry stored under a name that
is not its own lower-case form.  Names written in lower case, as in the test
`Items`, are found. -/
theorem C39_parse_keeps_letter_case :
    IniParser.empty.parse (lit "[Foo]\nBar=1") =
      (⟨[(lit "Foo", [(lit "Bar", lit "1")])]⟩, none) ∧
    (IniParser.empty.parse (lit "[Foo]\nBar=1")).1.has (lit "Foo") = false ∧
    (IniParser.empty.parse (lit "[Foo]\nBar=1")).1.has_option (lit "Foo") (lit "Bar") = false ∧
    (IniParser.empty.parse (lit "[Foo]\nBar=1")).1.get (lit "Foo") (lit "Bar") =
      .error (.mk (lit "Section \xe2\x80\x98Foo\xe2\x80\x99 not present")) ∧
    (∀ (s o v : Str), normalize_key s ≠ s →
      IniParser.has ⟨assign [] s o v⟩ s = false ∧
      IniParser.has_option ⟨assign [] s o v⟩ s o = false ∧
      ∃ m, IniParser.get ⟨assign [] s o v⟩ s o = .error (.mk m)) ∧
    (∀ (s o v : Str), normalize_key s = s → normalize_key o ≠ o →
      IniParser.has_option ⟨assign [] s o v⟩ s o = false ∧
      ∃ m, IniParser.get ⟨assign [] s o v⟩ s o = .error (.mk m)) ∧
    (IniParser.empty.parse (lit "[foo]\nbar=value\nbar2=value\n[bar]\nfoo=value")).1.has_option
      (lit "foo") (lit "bar") = true ∧
    (IniParser.empty.parse (lit "[foo]\nbar=value\nbar2=value\n[bar]\nfoo=value")).1.get
      (lit "foo") (lit "bar") = .ok (lit "value") := by
  refine ⟨by decide, by decide, by decide, rfl, ?_, ?_, by decide, rfl⟩
  · intro s o v hs
    have hf : map_find (assign [] s o v) (normalize_key s) = none := by
      have : ¬ s = normalize_key s := fun h => hs h.symm
      simp [assign, map_assign, map_find, this]
    refine ⟨?_, ?_, ?_⟩
    · simp only [IniParser.has, hf, Option.isSome_none]
    · simp only [IniParser.has_option, hf]
    · exact ⟨_, by simp only [IniParser.get, hf]; rfl⟩
  · intro s o v hs ho
    have hf : map_find (assign [] s o v) (normalize_key s) = some [(o, v)] := by
      simp [assign, map_assign, map_find, hs]
    have hg : map_find [(o, v)] (normalize_key o) = none := by
      have : ¬ o = normalize_key o := fun h => ho h.symm
      simp [map_find, this]
    refine ⟨?_, ?_⟩
    · simp only [IniParser.has_option, hf, hg, Option.isSome_none]
    · exact ⟨_, by simp only [IniParser.get, hf, hg]; rfl⟩

end ConfigParser
